import Mathlib

set_option linter.unusedVariables false

/-!
# The ctrfs B-tree: deletion, copy-on-write and tree release

A shallow embedding of `btree/btree.go` and `btree/delete.go`.

* A block is a byte buffer (`List UInt8`); the page codec reads and writes it
  at the offsets the Go code computes.
* Go `int` and `int64` values are `Int`; conversions to `uint32` and `uint64`
  are written as explicit remainders.
* A run-time panic of the Go code (index or slice out of range, the explicit
  `panic` calls of the codec) is the value `none` of a codec function and the
  outcome `Outcome.panic` of an operation.
* The block allocator is not part of the B-tree package; it is modelled as an
  explicit state that also records the calls it received.
* Recursion over the tree takes a fuel argument; running out of fuel is the
  outcome `Outcome.outOfFuel`.
-/

namespace Btree

/-! ## Basic types -/

abbrev Bytes := List UInt8
abbrev KeyType := List UInt8
abbrev ValueType := List UInt8
abbrev IndexType := Int
abbrev TreeIndex := Int

/-- The configuration fields of the Go struct `BTree` (the allocator is passed
separately as the state). -/
structure BTree where
  MaxKeySize : Int
  EntrySize : Int
  FanOut : Int
  nodeSize : Int
deriving DecidableEq, Repr

/-- The distinguished errors of the package and of the allocator. -/
inductive Error where
  | keyNotFound
  | rootImmutable
  | emptyKey
  | keyTooLong
  | saveEmptyBlock
  | freeReadOnly
  | ioError
deriving DecidableEq, Repr

/-- How a call ends: it returns, it panics, or the model ran out of fuel. -/
inductive Outcome (α : Type) where
  | ret (a : α)
  | panic
  | outOfFuel
deriving DecidableEq, Repr

/-! ## Little-endian integers and byte ranges -/

/-- The `w` little-endian bytes of `v`. -/
def leBytes : Nat → Nat → Bytes
  | 0, _ => []
  | w + 1, v => UInt8.ofNat (v % 256) :: leBytes w (v / 256)

/-- The number a little-endian byte string stands for. -/
def leValue : Bytes → Nat
  | [] => 0
  | b :: rest => b.toNat + 256 * leValue rest

/-- The bytes `b[off : off+len]`; `none` when the range leaves the buffer. -/
def readBytes (b : Bytes) (off len : Nat) : Option Bytes :=
  if off + len ≤ b.length then some ((b.drop off).take len) else none

/-- The buffer with `data` stored from offset `off` on; `none` when the range
leaves the buffer. -/
def writeBytes (b : Bytes) (off : Nat) (data : Bytes) : Option Bytes :=
  if off + data.length ≤ b.length then
    some (b.take off ++ data ++ b.drop (off + data.length))
  else none

/-- Go `bo.Uint32(b)`. -/
def uint32 (b : Bytes) : Option Nat :=
  (readBytes b 0 4).map leValue

/-- Go `bo.PutUint32(b, uint32(v))`. -/
def putUint32 (b : Bytes) (v : Int) : Option Bytes :=
  writeBytes b 0 (leBytes 4 (v % 4294967296).toNat)

/-- Go `int64(u)` for a `uint64` value `u`. -/
def toInt64 (u : Nat) : Int :=
  if u < 9223372036854775808 then (u : Int) else (u : Int) - 18446744073709551616

/-! ## Page codec (`btree.go`) -/

/-- Go `dupBytes`. -/
def dupBytes (arr : Bytes) : Bytes := arr

/-- Go `validateKey`; `none` is the nil error. -/
def validateKey (tr : BTree) (key : KeyType) : Option Error :=
  if key.length = 0 then some Error.emptyKey
  else if (key.length : Int) > tr.MaxKeySize then some Error.keyTooLong
  else none

/-- Go `validateValue`. -/
def validateValue (tr : BTree) (value : ValueType) : Bool :=
  (value.length : Int) = tr.EntrySize

/-- Go `getBlockSize`. -/
def getBlockSize (block : Bytes) : Option Int :=
  (uint32 block).map (fun n => (n : Int))

/-- Go `setBlockSize`. -/
def setBlockSize (block : Bytes) (size : Int) : Option Bytes :=
  putUint32 block size

/-- Go `getBlockChild`: the explicit range check, then `bo.Uint64(block[4+8*childInd:])`. -/
def getBlockChild (tr : BTree) (block : Bytes) (childInd : Int) : Option TreeIndex :=
  if childInd < 0 ∨ childInd > tr.FanOut then none
  else (readBytes block (4 + 8 * childInd).toNat 8).map (fun bs => toInt64 (leValue bs))

/-- Go `setBlockChild`. -/
def setBlockChild (tr : BTree) (block : Bytes) (childInd : Int) (childTr : TreeIndex) :
    Option Bytes :=
  if childInd < 0 ∨ childInd > tr.FanOut then none
  else writeBytes block (4 + 8 * childInd).toNat (leBytes 8 (childTr % 18446744073709551616).toNat)

/-- The offset `posStart` computed by Go `getNodeSlice`. -/
def nodeStart (tr : BTree) (i : Int) : Int :=
  4 + 8 * (tr.FanOut + 1) + i * tr.nodeSize

/-- Go `getNodeSlice`, read as a value: the bytes `block[posStart : posStart+nodeSize]`.
The slice expression panics unless `0 ≤ posStart ≤ posStart+nodeSize ≤ len(block)`. -/
def getNodeSlice (tr : BTree) (block : Bytes) (i : Int) : Option Bytes :=
  if nodeStart tr i < 0 ∨ tr.nodeSize < 0 then none
  else readBytes block (nodeStart tr i).toNat tr.nodeSize.toNat

/-- Go `copy(tr.getNodeSlice(block, i), src)`: the slot is a view of the block, so
the copy stores `min(nodeSize, len(src))` bytes of `src` in the block. -/
def copyNodeSlice (tr : BTree) (block : Bytes) (i : Int) (src : Bytes) : Option Bytes :=
  match getNodeSlice tr block i with
  | none => none
  | some _ => writeBytes block (nodeStart tr i).toNat (src.take tr.nodeSize.toNat)

/-- Go `getNodeKey`. The nil result for an oversized length is the empty key.
The slot's capacity is taken to be its length. -/
def getNodeKey (tr : BTree) (node : Bytes) : Option KeyType :=
  match uint32 node with
  | none => none
  | some keylen =>
    if (keylen : Int) > tr.MaxKeySize then some []
    else readBytes node 4 keylen

/-- Go `getNodeValue`: `node[4+MaxKeySize : nodeSize]`. -/
def getNodeValue (tr : BTree) (node : Bytes) : Option ValueType :=
  if 4 + tr.MaxKeySize < 0 ∨ 4 + tr.MaxKeySize > tr.nodeSize
      ∨ tr.nodeSize > (node.length : Int) then none
  else readBytes node (4 + tr.MaxKeySize).toNat (tr.nodeSize - (4 + tr.MaxKeySize)).toNat

/-- Go `setNode` on the bytes of one slot: the key length, then
`copy(node[4:], key)` and `copy(node[4+MaxKeySize:], value)`. -/
def setNode (tr : BTree) (node : Bytes) (key : KeyType) (value : ValueType) : Option Bytes :=
  match putUint32 node (key.length : Int) with
  | none => none
  | some node1 =>
    match writeBytes node1 4 (key.take (node1.length - 4)) with
    | none => none
    | some node2 =>
      if 4 + tr.MaxKeySize < 0 ∨ 4 + tr.MaxKeySize > (node2.length : Int) then none
      else writeBytes node2 (4 + tr.MaxKeySize).toNat
        (value.take (node2.length - (4 + tr.MaxKeySize).toNat))

/-- Go `tr.setNode(tr.getNodeSlice(block, i), key, value)`: the slot is a view of
the block, so the block receives the new slot bytes. -/
def setNodeAt (tr : BTree) (block : Bytes) (i : Int) (key : KeyType) (value : ValueType) :
    Option Bytes :=
  match getNodeSlice tr block i with
  | none => none
  | some node =>
    match setNode tr node key value with
    | none => none
    | some node1 => copyNodeSlice tr block i node1

/-! ## The block allocator -/

/-- One stored block: its read-only mark and its bytes. -/
structure BlockEntry where
  readOnly : Bool
  data : Bytes
deriving DecidableEq, Repr

/-- A call received by the allocator. `write` and `free` record the read-only
mark the target had when the call was made. -/
inductive Op where
  | read (index : TreeIndex)
  | write (index : TreeIndex) (readOnly : Bool)
  | allocate (index : TreeIndex)
  | free (index : TreeIndex) (readOnly : Bool)
  | poolGet
  | poolPut
deriving DecidableEq, Repr

/-- The entry bound to index `i` in a block map, if any. -/
def lookup : List (TreeIndex × BlockEntry) → TreeIndex → Option BlockEntry
  | [], _ => none
  | (j, e) :: rest, i => if j = i then some e else lookup rest i

/-- The block map without index `i`. -/
def removeEntry (blocks : List (TreeIndex × BlockEntry)) (i : TreeIndex) :
    List (TreeIndex × BlockEntry) :=
  blocks.filter (fun p => decide (p.1 ≠ i))

/-- The block map with index `i` bound to `e`. -/
def setEntry (blocks : List (TreeIndex × BlockEntry)) (i : TreeIndex) (e : BlockEntry) :
    List (TreeIndex × BlockEntry) :=
  (i, e) :: removeEntry blocks i

/-- Modelled from the spec: the state of the external block allocator
(`blockfile.BlockAllocator`, section 6.1). `blocks` maps the indices in use to
their blocks, `pool` is the page-buffer pool, `faults` schedules the results of
the coming fallible calls (`true` makes the next read, write, allocate or free
fail with an I/O error), and `log` lists the calls received, oldest first. -/
structure Allocator where
  blockSize : Nat
  blocks : List (TreeIndex × BlockEntry)
  pool : List Bytes
  faults : List Bool
  log : List Op
deriving DecidableEq, Repr

namespace Allocator

/-- The entry stored at an index, if any. -/
def get (s : Allocator) (i : TreeIndex) : Option BlockEntry :=
  lookup s.blocks i

/-- An index above every index in use; never 0. -/
def fresh (s : Allocator) : TreeIndex :=
  1 + (s.blocks.map (fun p => p.1)).foldr max 0

/-- Takes the next scheduled fault. -/
def nextFault (s : Allocator) : Bool × List Bool :=
  match s.faults with
  | [] => (false, [])
  | f :: rest => (f, rest)

/-- Modelled from the spec: `is_block_read_only(index)`. An index that holds no
block is not read-only. -/
def isBlockReadOnly (s : Allocator) (i : TreeIndex) : Bool :=
  match s.get i with
  | some e => e.readOnly
  | none => false

/-- Modelled from the spec: `pool_get()`, a buffer of the pool, or a new zeroed
buffer of the block size when the pool is empty. -/
def poolGet (s : Allocator) : Bytes × Allocator :=
  match s.pool with
  | [] => (List.replicate s.blockSize 0, { s with log := s.log ++ [Op.poolGet] })
  | b :: rest => (b, { s with pool := rest, log := s.log ++ [Op.poolGet] })

/-- Modelled from the spec: `pool_put(buf)`. -/
def poolPut (s : Allocator) (buf : Bytes) : Allocator :=
  { s with pool := buf :: s.pool, log := s.log ++ [Op.poolPut] }

/-- Modelled from the spec: `read(index, buf)` fills the buffer with the block's
current contents; it fails when the index holds no block or on a fault. -/
def read (s : Allocator) (i : TreeIndex) : Except Error Bytes × Allocator :=
  let s1 := { s with faults := s.nextFault.2, log := s.log ++ [Op.read i] }
  if s.nextFault.1 then (Except.error Error.ioError, s1)
  else
    match s.get i with
    | none => (Except.error Error.ioError, s1)
    | some e => (Except.ok e.data, s1)

/-- Modelled from the spec: `write(tag, index, buf)` replaces the block's
contents (keeping its read-only mark; a new index starts mutable). -/
def write (s : Allocator) (_tag : Nat) (i : TreeIndex) (buf : Bytes) :
    Option Error × Allocator :=
  let s1 := { s with faults := s.nextFault.2,
                     log := s.log ++ [Op.write i (s.isBlockReadOnly i)] }
  if s.nextFault.1 then (some Error.ioError, s1)
  else (none, { s1 with blocks := setEntry s.blocks i ⟨s.isBlockReadOnly i, buf⟩ })

/-- Modelled from the spec: `allocate(tag)` returns a fresh, writable, zeroed
block index; it fails on a fault or when the indices of `int64` are used up. -/
def allocate (s : Allocator) (_tag : Nat) : Except Error TreeIndex × Allocator :=
  let s1 := { s with faults := s.nextFault.2, log := s.log ++ [Op.allocate s.fresh] }
  if s.nextFault.1 then (Except.error Error.ioError, s1)
  else if s.fresh ≥ 9223372036854775808 then (Except.error Error.ioError, s1)
  else (Except.ok s.fresh,
    { s1 with blocks := setEntry s.blocks s.fresh ⟨false, List.replicate s.blockSize 0⟩ })

/-- Modelled from the spec: `free(index)` releases the index; it fails when the
index holds no block or on a fault. -/
def free (s : Allocator) (i : TreeIndex) : Option Error × Allocator :=
  let s1 := { s with faults := s.nextFault.2,
                     log := s.log ++ [Op.free i (s.isBlockReadOnly i)] }
  if s.nextFault.1 then (some Error.ioError, s1)
  else
    match s.get i with
    | none => (some Error.ioError, s1)
    | some _ => (none, { s1 with blocks := removeEntry s.blocks i })

end Allocator

/-- Go `copyUpBlock`. The outer `none` is a panic of `getBlockSize`. -/
def copyUpBlock (tr : BTree) (tag : Nat) (index : TreeIndex) (block : Bytes) (s : Allocator) :
    Option (Except Error TreeIndex) × Allocator :=
  match getBlockSize block with
  | none => (none, s)
  | some sz =>
    if sz = 0 then (some (Except.error Error.saveEmptyBlock), s)
    else if s.isBlockReadOnly index then
      match s.allocate tag with
      | (Except.error e, s1) => (some (Except.error e), s1)
      | (Except.ok index1, s1) =>
        match s1.write tag index1 block with
        | (some e, s2) => (some (Except.error e), s2)
        | (none, s2) => (some (Except.ok index1), s2)
    else
      match s.write tag index block with
      | (some e, s1) => (some (Except.error e), s1)
      | (none, s1) => (some (Except.ok index), s1)

/-- Go `CreateEmpty`. -/
def CreateEmpty (tag : Nat) (s : Allocator) : Except Error TreeIndex × Allocator :=
  s.allocate tag

/-! ## Search inside a block -/

/-- Go `bytes.Compare`: byte-lexicographic order. -/
def compareBytes : Bytes → Bytes → Ordering
  | [], [] => Ordering.eq
  | [], _ :: _ => Ordering.lt
  | _ :: _, [] => Ordering.gt
  | a :: as, b :: bs =>
    if a < b then Ordering.lt
    else if b < a then Ordering.gt
    else compareBytes as bs

/-- The scan behind `searchBlock`: slots `i, i+1, ...` (`n` of them remain) are
compared with the key until one is not below it. -/
def searchFrom (tr : BTree) (block : Bytes) (key : KeyType) : Nat → Int → Option (Int × Bool)
  | 0, i => some (i, false)
  | n + 1, i =>
    match getNodeSlice tr block i with
    | none => none
    | some node =>
      match getNodeKey tr node with
      | none => none
      | some k =>
        match compareBytes key k with
        | Ordering.lt => some (i, false)
        | Ordering.eq => some (i, true)
        | Ordering.gt => searchFrom tr block key n (i + 1)

/-- Modelled from the spec: `search_block(b, key)` (section 4.2; the Go function
`searchBlock` is in a file that is not part of the sources at hand). It returns
the smallest index among the populated slots whose key is not below `key`, with
the match flag, and `(size, false)` when there is none. It reports no error; a
codec panic is `none`. -/
def searchBlock (tr : BTree) (block : Bytes) (key : KeyType) : Option (Int × Bool) :=
  match getBlockSize block with
  | none => none
  | some size => searchFrom tr block key size.toNat 0

/-! ## Delete (`delete.go`) -/

/-- The four results of Go `deleteHelper`. -/
structure HelperRet where
  block : Bytes
  deletedKey : Option KeyType
  deletedValue : Option ValueType
  err : Option Error
deriving DecidableEq, Repr

/-- Lines 61-75 of `deleteHelper`: the slot index and the match flag, for a key
or for the delete-max request (`key == nil`). -/
def locate (tr : BTree) (block : Bytes) (key : Option KeyType) : Option (Int × Bool) :=
  match key with
  | none =>
    match getBlockSize block with
    | none => none
    | some insertInd =>
      match getBlockChild tr block insertInd with
      | none => none
      | some c => if c = 0 then some (insertInd - 1, true) else some (insertInd, false)
  | some k => searchBlock tr block k

/-- The loop `for i := start; i+1 < blockSize; i++ { copy(slot i, slot i+1) }`
with `n` iterations left. -/
def shiftNodes (tr : BTree) : Nat → Int → Bytes → Option Bytes
  | 0, _, block => some block
  | n + 1, i, block =>
    match getNodeSlice tr block (i + 1) with
    | none => none
    | some src =>
      match copyNodeSlice tr block i src with
      | none => none
      | some block1 => shiftNodes tr n (i + 1) block1

/-- Lines 85-98 of `deleteHelper`: removal of slot `insertInd` from a leaf. -/
def removeFromLeaf (tr : BTree) (block : Bytes) (insertInd blockSize : Int)
    (key : Option KeyType) : Option (Bytes × Option KeyType × Option ValueType) :=
  let deleted : Option (Option KeyType × Option ValueType) :=
    match key with
    | some _ => some (none, none)
    | none =>
      match getNodeSlice tr block insertInd with
      | none => none
      | some node =>
        match getNodeKey tr node, getNodeValue tr node with
        | some k, some v => some (some (dupBytes k), some (dupBytes v))
        | _, _ => none
  match deleted with
  | none => none
  | some (deletedKey, deletedValue) =>
    match shiftNodes tr (blockSize - 1 - insertInd).toNat insertInd block with
    | none => none
    | some block1 =>
      match setBlockSize block1 (blockSize - 1) with
      | none => none
      | some block2 => some (block2, deletedKey, deletedValue)

/-- The three slices built by the rebalance step. -/
structure Gathered where
  childTrees : List TreeIndex
  nodeKeys : List KeyType
  nodeValues : List ValueType
deriving DecidableEq, Repr

/-- The loop `for i := 0; i <= size; i++` of lines 157-163 (and 166-172): the
children and entries of `blk` are appended, `n` iterations left. -/
def gatherFrom (tr : BTree) (blk : Bytes) (size : Int) : Nat → Int → Gathered → Option Gathered
  | 0, _, g => some g
  | n + 1, i, g =>
    match getBlockChild tr blk i with
    | none => none
    | some c =>
      if i < size then
        match getNodeSlice tr blk i with
        | none => none
        | some node =>
          match getNodeKey tr node, getNodeValue tr node with
          | some k, some v =>
            gatherFrom tr blk size n (i + 1)
              ⟨g.childTrees ++ [c], g.nodeKeys ++ [k], g.nodeValues ++ [v]⟩
          | _, _ => none
      else gatherFrom tr blk size n (i + 1) ⟨g.childTrees ++ [c], g.nodeKeys, g.nodeValues⟩

/-- Lines 154-172: the children and entries of the left block, the separator of
the parent, the children and entries of the right block. -/
def gatherAll (tr : BTree) (block : Bytes) (sibIndex : Int) (sibBlock : Bytes)
    (sibBlockSize : Int) (childBlock : Bytes) (childBlockSize : Int) : Option Gathered :=
  match gatherFrom tr sibBlock sibBlockSize (sibBlockSize + 1).toNat 0 ⟨[], [], []⟩ with
  | none => none
  | some g1 =>
    match getNodeSlice tr block sibIndex with
    | none => none
    | some node =>
      match getNodeKey tr node, getNodeValue tr node with
      | some k, some v =>
        gatherFrom tr childBlock childBlockSize (childBlockSize + 1).toNat 0
          ⟨g1.childTrees, g1.nodeKeys ++ [k], g1.nodeValues ++ [v]⟩
      | _, _ => none

/-- Go indexing `xs[i]` of a slice with an `int`. -/
def sliceAt {α : Type} (xs : List α) (i : Int) : Option α :=
  if i < 0 then none else xs.get? i.toNat

/-- The loop `for i := 0; i <= size; i++` of lines 183-188 (and 194-199): child
`base+i` and entry `base+i` of the gathered slices go to position `i` of `buf`. -/
def scatterFrom (tr : BTree) (g : Gathered) (base size : Int) : Nat → Int → Bytes → Option Bytes
  | 0, _, buf => some buf
  | n + 1, i, buf =>
    match sliceAt g.childTrees (base + i) with
    | none => none
    | some c =>
      match setBlockChild tr buf i c with
      | none => none
      | some buf1 =>
        if i < size then
          match sliceAt g.nodeKeys (base + i), sliceAt g.nodeValues (base + i) with
          | some k, some v =>
            match setNodeAt tr buf1 i k v with
            | none => none
            | some buf2 => scatterFrom tr g base size n (i + 1) buf2
          | _, _ => none
        else scatterFrom tr g base size n (i + 1) buf1

/-- Lines 182-188 (and 193-199): a pooled buffer receives a size and its part of
the gathered slices. -/
def fillBlock (tr : BTree) (g : Gathered) (base size : Int) (buf : Bytes) : Option Bytes :=
  match setBlockSize buf size with
  | none => none
  | some buf1 => scatterFrom tr g base size (size + 1).toNat 0 buf1

/-- The loop of lines 220-225: the children and entries of the right block are
appended to the left block, `n` iterations left. -/
def mergeFrom (tr : BTree) (childBlock : Bytes) (sibBlockSize childBlockSize : Int) :
    Nat → Int → Bytes → Option Bytes
  | 0, _, sibBlock => some sibBlock
  | n + 1, i, sibBlock =>
    match getBlockChild tr childBlock i with
    | none => none
    | some c =>
      match setBlockChild tr sibBlock (sibBlockSize + 1 + i) c with
      | none => none
      | some sib1 =>
        if i < childBlockSize then
          match getNodeSlice tr sib1 (sibBlockSize + 1 + i), getNodeSlice tr childBlock i with
          | some _, some src =>
            match copyNodeSlice tr sib1 (sibBlockSize + 1 + i) src with
            | none => none
            | some sib2 => mergeFrom tr childBlock sibBlockSize childBlockSize n (i + 1) sib2
          | _, _ => none
        else mergeFrom tr childBlock sibBlockSize childBlockSize n (i + 1) sib1

/-- Lines 219-226: the separator and the right block are appended to the left
block. -/
def mergeBlocks (tr : BTree) (block : Bytes) (sibIndex : Int) (sibBlock : Bytes)
    (sibBlockSize : Int) (childBlock : Bytes) (childBlockSize : Int) : Option Bytes :=
  match getNodeSlice tr sibBlock sibBlockSize, getNodeSlice tr block sibIndex with
  | some _, some sep =>
    match copyNodeSlice tr sibBlock sibBlockSize sep with
    | none => none
    | some sib1 =>
      match mergeFrom tr childBlock sibBlockSize childBlockSize (childBlockSize + 1).toNat 0
          sib1 with
      | none => none
      | some sib2 => setBlockSize sib2 (sibBlockSize + childBlockSize + 1)
  | _, _ => none

/-- The loop of lines 233-236: the children and entries above the merged pair
move one place down, `n` iterations left. -/
def closeGap (tr : BTree) : Nat → Int → Bytes → Option Bytes
  | 0, _, block => some block
  | n + 1, i, block =>
    match getBlockChild tr block (i + 2) with
    | none => none
    | some c =>
      match setBlockChild tr block (i + 1) c with
      | none => none
      | some block1 =>
        match getNodeSlice tr block1 i, getNodeSlice tr block1 (i + 1) with
        | some _, some src =>
          match copyNodeSlice tr block1 i src with
          | none => none
          | some block2 => closeGap tr n (i + 1) block2
        | _, _ => none

/-- Lines 153-215 of `deleteHelper` (`Rebalance nodes with sibling block`): the
entries of the left block `sib`, the separator and the entries of the right
block `child` are shared out again between two pooled buffers. `swapped` tells
that the left block is the buffer returned by the recursive call; the deferred
`Pool.Put` calls run when the function returns. -/
def rotateBlocks (tr : BTree) (tag : Nat) (block : Bytes) (sibIndex : Int)
    (sibTree : TreeIndex) (sibBlock : Bytes) (sibBlockSize : Int)
    (childTree : TreeIndex) (childBlock : Bytes) (childBlockSize : Int)
    (deletedKey : Option KeyType) (deletedValue : Option ValueType) (swapped : Bool)
    (s : Allocator) : Outcome HelperRet × Allocator :=
  match gatherAll tr block sibIndex sibBlock sibBlockSize childBlock childBlockSize with
  | none => (Outcome.panic, s)
  | some g =>
    -- Calculate new block sizes
    let newSibSize : Int := ((g.nodeKeys.length : Int) - 1) / 2
    let newChildSize : Int := (g.nodeKeys.length : Int) - 1 - newSibSize
    match s.poolGet with
    | (bufC, s1) =>
      match fillBlock tr g 0 newSibSize bufC with
      | none => (Outcome.panic, s1)
      | some sibNew =>
        match s1.poolGet with
        | (bufD, s2) =>
          match fillBlock tr g (newSibSize + 1) newChildSize bufD with
          | none => (Outcome.panic, s2)
          | some childNew =>
            let puts : Allocator → Allocator := fun st =>
              if swapped then
                (((st.poolPut childNew).poolPut sibNew).poolPut childBlock).poolPut sibBlock
              else
                (((st.poolPut childNew).poolPut sibNew).poolPut sibBlock).poolPut childBlock
            match copyUpBlock tr tag sibTree sibNew s2 with
            | (none, s3) => (Outcome.panic, s3)
            | (some (Except.error e), s3) => (Outcome.ret ⟨block, none, none, some e⟩, puts s3)
            | (some (Except.ok sibTree1), s3) =>
              match copyUpBlock tr tag childTree childNew s3 with
              | (none, s4) => (Outcome.panic, s4)
              | (some (Except.error e), s4) =>
                (Outcome.ret ⟨block, none, none, some e⟩, puts s4)
              | (some (Except.ok childTree1), s4) =>
                match sliceAt g.nodeKeys newSibSize, sliceAt g.nodeValues newSibSize with
                | some k, some v =>
                  match setNodeAt tr block sibIndex k v with
                  | none => (Outcome.panic, s4)
                  | some block1 =>
                    match setBlockChild tr block1 sibIndex sibTree1 with
                    | none => (Outcome.panic, s4)
                    | some block2 =>
                      match setBlockChild tr block2 (sibIndex + 1) childTree1 with
                      | none => (Outcome.panic, s4)
                      | some block3 =>
                        (Outcome.ret ⟨block3, deletedKey, deletedValue, none⟩, puts s4)
                | _, _ => (Outcome.panic, s4)

/-- Lines 218-239 of `deleteHelper` (`Merge with sibling block`): the separator
and the right block `child` are appended to the left block `sib`, which is
copied up; the parent loses the separator and the pointer to the right block. -/
def mergeSiblings (tr : BTree) (tag : Nat) (block : Bytes) (blockSize sibIndex : Int)
    (sibTree : TreeIndex) (sibBlock : Bytes) (sibBlockSize : Int)
    (childBlock : Bytes) (childBlockSize : Int)
    (deletedKey : Option KeyType) (deletedValue : Option ValueType) (swapped : Bool)
    (s : Allocator) : Outcome HelperRet × Allocator :=
  match mergeBlocks tr block sibIndex sibBlock sibBlockSize childBlock childBlockSize with
  | none => (Outcome.panic, s)
  | some sibMerged =>
    let puts : Allocator → Allocator := fun st =>
      if swapped then (st.poolPut childBlock).poolPut sibMerged
      else (st.poolPut sibMerged).poolPut childBlock
    match copyUpBlock tr tag sibTree sibMerged s with
    | (none, s1) => (Outcome.panic, s1)
    | (some (Except.error e), s1) => (Outcome.ret ⟨block, none, none, some e⟩, puts s1)
    | (some (Except.ok _), s1) =>
      match closeGap tr (blockSize - 1 - sibIndex).toNat sibIndex block with
      | none => (Outcome.panic, s1)
      | some block1 =>
        match setBlockSize block1 (blockSize - 1) with
        | none => (Outcome.panic, s1)
        | some block2 => (Outcome.ret ⟨block2, deletedKey, deletedValue, none⟩, puts s1)

/-- Lines 152-239 of `deleteHelper`, after the two blocks were put in order:
`sib` is the left block (child `sibIndex` of `block`), `child` the right one. -/
def rotateOrMerge (tr : BTree) (tag : Nat) (block : Bytes) (blockSize sibIndex : Int)
    (sibTree : TreeIndex) (sibBlock : Bytes) (sibBlockSize : Int)
    (childTree : TreeIndex) (childBlock : Bytes) (childBlockSize : Int)
    (deletedKey : Option KeyType) (deletedValue : Option ValueType) (swapped : Bool)
    (s : Allocator) : Outcome HelperRet × Allocator :=
  if childBlockSize + sibBlockSize ≥ tr.FanOut then
    rotateBlocks tr tag block sibIndex sibTree sibBlock sibBlockSize
      childTree childBlock childBlockSize deletedKey deletedValue swapped s
  else
    mergeSiblings tr tag block blockSize sibIndex sibTree sibBlock sibBlockSize
      childBlock childBlockSize deletedKey deletedValue swapped s

/-- Lines 116-239 of `deleteHelper`: what happens to `block` once the recursive
call on child `insertInd` returned `childBlock`. -/
def rebalance (tr : BTree) (tag : Nat) (block : Bytes) (insertInd : Int)
    (childTree : TreeIndex) (childBlock : Bytes)
    (deletedKey : Option KeyType) (deletedValue : Option ValueType) (blockSize : Int)
    (s : Allocator) : Outcome HelperRet × Allocator :=
  match getBlockSize childBlock with
  | none => (Outcome.panic, s)
  | some childBlockSize =>
    if childBlockSize * 2 ≥ tr.FanOut then
      -- Child size is fine
      match copyUpBlock tr tag childTree childBlock s with
      | (none, s1) => (Outcome.panic, s1)
      | (some (Except.error e), s1) =>
        (Outcome.ret ⟨block, none, none, some e⟩, s1.poolPut childBlock)
      | (some (Except.ok childTree1), s1) =>
        match setBlockChild tr block insertInd childTree1 with
        | none => (Outcome.panic, s1)
        | some block1 =>
          (Outcome.ret ⟨block1, deletedKey, deletedValue, none⟩, s1.poolPut childBlock)
    else
      -- Child is too small, match up with sibling
      let sibIndex : Int := if insertInd - 1 < 0 then insertInd + 1 else insertInd - 1
      match getBlockChild tr block sibIndex with
      | none => (Outcome.panic, s)
      | some sibTree =>
        match s.poolGet with
        | (sibBuf, s1) =>
          match s1.read sibTree with
          | (Except.error e, s2) =>
            (Outcome.ret ⟨block, none, none, some e⟩, (s2.poolPut sibBuf).poolPut childBlock)
          | (Except.ok sibBlock, s2) =>
            match getBlockSize sibBlock with
            | none => (Outcome.panic, s2)
            | some sibBlockSize =>
              -- Normalize so that childX refers to the larger sibling
              if insertInd < sibIndex then
                rotateOrMerge tr tag block blockSize insertInd childTree childBlock
                  childBlockSize sibTree sibBlock sibBlockSize deletedKey deletedValue true s2
              else
                rotateOrMerge tr tag block blockSize sibIndex sibTree sibBlock sibBlockSize
                  childTree childBlock childBlockSize deletedKey deletedValue false s2

/-- Go `deleteHelper`. `key = none` is the nil key (delete the maximum). -/
def deleteHelper (tr : BTree) (tag : Nat) :
    Nat → TreeIndex → Option KeyType → Allocator → Outcome HelperRet × Allocator
  | 0, _, _, s => (Outcome.outOfFuel, s)
  | fuel + 1, treeIndex, key, s =>
    match s.poolGet with
    | (buf, s1) =>
      if treeIndex = 0 then (Outcome.ret ⟨buf, none, none, some Error.keyNotFound⟩, s1)
      else
        match s1.read treeIndex with
        | (Except.error e, s2) => (Outcome.ret ⟨buf, none, none, some e⟩, s2)
        | (Except.ok block, s2) =>
          match locate tr block key with
          | none => (Outcome.panic, s2)
          | some (insertInd, isMatch) =>
            match getBlockChild tr block insertInd, getBlockSize block with
            | some childTree, some blockSize =>
              if isMatch then
                if childTree = 0 then
                  match removeFromLeaf tr block insertInd blockSize key with
                  | none => (Outcome.panic, s2)
                  | some (block1, deletedKey, deletedValue) =>
                    (Outcome.ret ⟨block1, deletedKey, deletedValue, none⟩, s2)
                else
                  match deleteHelper tr tag fuel childTree none s2 with
                  | (Outcome.panic, s3) => (Outcome.panic, s3)
                  | (Outcome.outOfFuel, s3) => (Outcome.outOfFuel, s3)
                  | (Outcome.ret r, s3) =>
                    match r.err with
                    | some e => (Outcome.ret ⟨block, none, none, some e⟩, s3.poolPut r.block)
                    | none =>
                      match setNodeAt tr block insertInd (r.deletedKey.getD [])
                          (r.deletedValue.getD []) with
                      | none => (Outcome.panic, s3)
                      | some block1 =>
                        rebalance tr tag block1 insertInd childTree r.block
                          r.deletedKey r.deletedValue blockSize s3
              else
                match deleteHelper tr tag fuel childTree key s2 with
                | (Outcome.panic, s3) => (Outcome.panic, s3)
                | (Outcome.outOfFuel, s3) => (Outcome.outOfFuel, s3)
                | (Outcome.ret r, s3) =>
                  match r.err with
                  | some e => (Outcome.ret ⟨block, none, none, some e⟩, s3.poolPut r.block)
                  | none =>
                    rebalance tr tag block insertInd childTree r.block
                      r.deletedKey r.deletedValue blockSize s3
            | _, _ => (Outcome.panic, s2)

/-- Go `Delete`. The result is the returned error (`none` for nil). -/
def Delete (tr : BTree) (tag : Nat) (fuel : Nat) (treeIndex : TreeIndex) (key : KeyType)
    (s : Allocator) : Outcome (Option Error) × Allocator :=
  if s.isBlockReadOnly treeIndex then (Outcome.ret (some Error.rootImmutable), s)
  else
    match validateKey tr key with
    | some e => (Outcome.ret (some e), s)
    | none =>
      match deleteHelper tr tag fuel treeIndex (some key) s with
      | (Outcome.panic, s1) => (Outcome.panic, s1)
      | (Outcome.outOfFuel, s1) => (Outcome.outOfFuel, s1)
      | (Outcome.ret r, s1) =>
        match r.err with
        | some e => (Outcome.ret (some e), s1.poolPut r.block)
        | none =>
          match getBlockSize r.block with
          | none => (Outcome.panic, s1)
          | some size =>
            if size = 0 then
              -- Root has emptied out, copy child into root node and delete child.
              match getBlockChild tr r.block 0 with
              | none => (Outcome.panic, s1)
              | some childIndex =>
                match s1.read childIndex with
                | (Except.error e, s2) => (Outcome.ret (some e), s2.poolPut r.block)
                | (Except.ok block, s2) =>
                  match s2.write tag treeIndex block with
                  | (some e, s3) => (Outcome.ret (some e), s3.poolPut block)
                  | (none, s3) =>
                    if s3.isBlockReadOnly childIndex then (Outcome.ret none, s3.poolPut block)
                    else
                      match s3.free childIndex with
                      | (e, s4) => (Outcome.ret e, s4.poolPut block)
            else
              match s1.write tag treeIndex r.block with
              | (e, s2) => (Outcome.ret e, s2.poolPut r.block)

/-- One step of the loop of Go `FreeTree`, given the recursive call. -/
def freeStep (tr : BTree) (recurse : TreeIndex → Allocator → Outcome (Option Error) × Allocator)
    (block : Bytes) (acc : Outcome (Option Error) × Allocator) (i : Nat) :
    Outcome (Option Error) × Allocator :=
  match acc with
  | (Outcome.ret none, s) =>
    match getBlockChild tr block (i : Int) with
    | none => (Outcome.panic, s)
    | some childIndex =>
      if childIndex ≠ 0 then recurse childIndex s else (Outcome.ret none, s)
  | other => other

/-- Go `FreeTree`. -/
def FreeTree (tr : BTree) :
    Nat → TreeIndex → Bool → Allocator → Outcome (Option Error) × Allocator
  | 0, _, _, s => (Outcome.outOfFuel, s)
  | fuel + 1, treeIndex, ignoreReadOnly, s =>
    if s.isBlockReadOnly treeIndex then
      if ignoreReadOnly then (Outcome.ret none, s)
      else (Outcome.ret (some Error.freeReadOnly), s)
    else
      match s.poolGet with
      | (buf, s1) =>
        match s1.read treeIndex with
        | (Except.error e, s2) => (Outcome.ret (some e), s2.poolPut buf)
        | (Except.ok block, s2) =>
          match getBlockSize block with
          | none => (Outcome.panic, s2)
          | some numBlocks =>
            match (List.range (numBlocks + 1).toNat).foldl
                (freeStep tr (fun c st => FreeTree tr fuel c ignoreReadOnly st) block)
                (Outcome.ret none, s2) with
            | (Outcome.ret e, s3) => (Outcome.ret e, s3.poolPut block)
            | other => other

/-- Modelled from the spec: the in-order traversal of `Scan` (section 4.5) from
the leftmost key, collecting the entries: for each position `j` of a block the
subtree `child[j]`, then entry `j`. The Go function `Scan` is in a file that is
not part of the sources at hand. Index 0 and an unreadable block are empty. -/
def inorder (tr : BTree) (s : Allocator) : Nat → TreeIndex → List (KeyType × ValueType)
  | 0, _ => []
  | fuel + 1, treeIndex =>
    if treeIndex = 0 then []
    else
      match s.get treeIndex with
      | none => []
      | some e =>
        match getBlockSize e.data with
        | none => []
        | some size =>
          (List.range (size + 1).toNat).flatMap (fun j =>
            (match getBlockChild tr e.data (j : Int) with
              | some c => inorder tr s fuel c
              | none => [])
            ++
            (if (j : Int) < size then
              match getNodeSlice tr e.data (j : Int) with
              | none => []
              | some node =>
                match getNodeKey tr node, getNodeValue tr node with
                | some k, some v => [(k, v)]
                | _, _ => []
            else []))

/-! ## Small concrete trees

Configuration: keys of at most one byte, values of one byte, fan-out 2. A slot
has 6 bytes and a block 40 bytes: the size at offset 0, three child pointers
from offset 4 on, two slots from offset 28 on. -/

/-- The configuration of the examples. -/
def smallTree : BTree := ⟨1, 1, 2, 6⟩

/-- A leaf block holding the single entry `k ↦ v`. -/
def leafOne (k v : UInt8) : Bytes :=
  [1, 0, 0, 0] ++ List.replicate 24 0 ++ [1, 0, 0, 0, k, v] ++ List.replicate 6 0

/-- A block holding the single entry `k ↦ v` between the children `c0` and `c1`. -/
def innerOne (c0 c1 k v : UInt8) : Bytes :=
  [1, 0, 0, 0] ++ [c0, 0, 0, 0, 0, 0, 0, 0] ++ [c1, 0, 0, 0, 0, 0, 0, 0] ++ List.replicate 8 0
    ++ [1, 0, 0, 0, k, v] ++ List.replicate 6 0

/-- An allocator holding the given blocks, with an empty pool, no scheduled
fault and an empty log. -/
def storeOf (blocks : List (TreeIndex × BlockEntry)) : Allocator :=
  ⟨40, blocks, [], [], []⟩

/-- A tree whose mutable root 1 is a leaf holding the single key 7. -/
def oneKeyStore : Allocator :=
  storeOf [(1, ⟨false, leafOne 7 70⟩)]

/-- The tree of `oneKeyStore` in an allocator that also stores a block (a leaf
holding key 9) at index 0. -/
def oneKeyStoreZero : Allocator :=
  storeOf [(0, ⟨false, leafOne 9 90⟩), (1, ⟨false, leafOne 7 70⟩)]

/-- A tree of three mutable blocks: root 1 holds key 5, its leaves 2 and 3 hold
keys 3 and 8. -/
def threeBlockStore : Allocator :=
  storeOf [(1, ⟨false, innerOne 2 3 5 50⟩), (2, ⟨false, leafOne 3 30⟩), (3, ⟨false, leafOne 8 80⟩)]

/-- The tree of `threeBlockStore` with a mutable root over two read-only leaves. -/
def sharedLeavesStore : Allocator :=
  storeOf [(1, ⟨false, innerOne 2 3 5 50⟩), (2, ⟨true, leafOne 3 30⟩), (3, ⟨true, leafOne 8 80⟩)]

/-- The tree of `threeBlockStore` under a read-only root. -/
def frozenRootStore : Allocator :=
  storeOf [(1, ⟨true, innerOne 2 3 5 50⟩), (2, ⟨true, leafOne 3 30⟩), (3, ⟨true, leafOne 8 80⟩)]

/-- The values of Go `int64`. -/
def InRange (c : Int) : Prop := -9223372036854775808 ≤ c ∧ c < 9223372036854775808

/-- A call that stores to or releases an index marked read-only. -/
def Op.touchesReadOnly : Op → Bool
  | Op.write _ true => true
  | Op.free _ true => true
  | _ => false

/-- The state `s1` is reached from `s` by calls none of which stores to or
releases a read-only index, every block that is read-only in `s` is the same in
`s1`, and no further index is read-only in `s1`. -/
def Safe (s s1 : Allocator) : Prop :=
  (∃ ops, s1.log = s.log ++ ops ∧ ∀ op ∈ ops, Op.touchesReadOnly op = false)
  ∧ (∀ i, s.isBlockReadOnly i = true → s1.get i = s.get i)
  ∧ ∀ i, s1.isBlockReadOnly i = true → s.isBlockReadOnly i = true

/-! ## Shape of a tree in the block map -/

/-- Index `i` is the root of a balanced subtree of height `h`: its block holds
between `FanOut/2` and `FanOut` entries; at height 0 its child pointers
`0..size` are all 0, and at height `h+1` they are all non-null and each is the
root of a balanced subtree of height `h`. So all leaves below `i` have the same
depth. -/
def Balanced (tr : BTree) (blocks : List (TreeIndex × BlockEntry)) : Nat → TreeIndex → Prop
  | 0, i => ∃ e size, lookup blocks i = some e ∧ getBlockSize e.data = some size
      ∧ tr.FanOut / 2 ≤ size ∧ size ≤ tr.FanOut
      ∧ ∀ j : Int, 0 ≤ j → j ≤ size → getBlockChild tr e.data j = some 0
  | h + 1, i => ∃ e size, lookup blocks i = some e ∧ getBlockSize e.data = some size
      ∧ tr.FanOut / 2 ≤ size ∧ size ≤ tr.FanOut
      ∧ ∀ j : Int, 0 ≤ j → j ≤ size →
          ∃ c, getBlockChild tr e.data j = some c ∧ c ≠ 0 ∧ Balanced tr blocks h c

/-- What a child pointer of a block of height `h` must be: null in a leaf, the
root of a balanced subtree of height `h-1` otherwise. -/
def GoodChild (tr : BTree) (blocks : List (TreeIndex × BlockEntry)) : Nat → TreeIndex → Prop
  | 0, c => c = 0
  | h + 1, c => c ≠ 0 ∧ Balanced tr blocks h c

/-- The child pointers `0..n` of `b` are readable and all satisfy `P`. -/
def ChildrenAll (tr : BTree) (P : TreeIndex → Prop) (b : Bytes) (n : Int) : Prop :=
  ∀ j : Int, 0 ≤ j → j ≤ n → ∃ c, getBlockChild tr b j = some c ∧ P c

/-- The block `b` has `size ≤ FanOut` entries and its child pointers `0..size`
are as a block of height `h` needs them. No lower bound on the size. -/
def BlockShape (tr : BTree) (blocks : List (TreeIndex × BlockEntry)) (h : Nat) (b : Bytes)
    (size : Int) : Prop :=
  getBlockSize b = some size ∧ size ≤ tr.FanOut
  ∧ ChildrenAll tr (GoodChild tr blocks h) b size

/-- The tree at `root` is well formed in shape, with height `h`: the root block
may hold fewer than `FanOut/2` entries, but it is empty only as a leaf; every
other block is balanced. -/
def WellFormed (tr : BTree) (blocks : List (TreeIndex × BlockEntry)) (h : Nat)
    (root : TreeIndex) : Prop :=
  ∃ e size, lookup blocks root = some e ∧ BlockShape tr blocks h e.data size
    ∧ (h = 0 ∨ 1 ≤ size)

/-- The block map `B1` comes from `B` by storing balanced blocks below height
`h`: balanced subtrees stay balanced, the blocks of height `h` and more are
unchanged, and the reserved index 0 stays empty. -/
def Ext (tr : BTree) (h : Nat) (B B1 : List (TreeIndex × BlockEntry)) : Prop :=
  (∀ h1 i, Balanced tr B h1 i → Balanced tr B1 h1 i)
  ∧ (∀ H i e size, h ≤ H → lookup B i = some e → BlockShape tr B H e.data size →
      lookup B1 i = some e)
  ∧ (lookup B 0 = none → lookup B1 0 = none)

/-- The block size derived by `Open`: `12 + (8 + nodeSize) * FanOut`. -/
def blockBytes (tr : BTree) : Int :=
  12 + (8 + tr.nodeSize) * tr.FanOut

/-- A configuration as `Open` leaves it for a tree that can hold keys: the slot
size is derived from the key and value sizes, keys may have at least one byte,
and the fan-out is even and at least 2. -/
def Configured (tr : BTree) : Prop :=
  tr.nodeSize = 4 + tr.MaxKeySize + tr.EntrySize ∧ 1 ≤ tr.MaxKeySize ∧ 0 ≤ tr.EntrySize
  ∧ 2 ≤ tr.FanOut ∧ tr.FanOut % 2 = 0

/-- The state `s1` is reached from `s` by reads and pool calls only: the block
map is the same and no fault is scheduled. -/
def Quiet (s s1 : Allocator) : Prop :=
  s1.blocks = s.blocks ∧ s1.faults = []
  ∧ ∃ ops, s1.log = s.log ++ ops
      ∧ ∀ op ∈ ops, op = Op.poolGet ∨ op = Op.poolPut ∨ ∃ i, op = Op.read i

/-- The root block of `threeBlockStore` as the descent for key 3 leaves it in
memory: size 0, child 0 still 2, the rest stale. -/
def emptiedRoot : Bytes :=
  [0, 0, 0, 0] ++ [2, 0, 0, 0, 0, 0, 0, 0] ++ [3, 0, 0, 0, 0, 0, 0, 0] ++ List.replicate 8 0
    ++ [1, 0, 0, 0, 5, 50] ++ List.replicate 6 0

/-- The state `s1` is reached from `s` by reads and pool calls only (failed
reads included): the block map is the same. -/
def ReadsOnly (s s1 : Allocator) : Prop :=
  s1.blocks = s.blocks
  ∧ ∃ ops, s1.log = s.log ++ ops
      ∧ ∀ op ∈ ops, op = Op.poolGet ∨ op = Op.poolPut ∨ ∃ i, op = Op.read i

/-! ## Opening a tree (`btree.go`) -/

/-- Go `int` arithmetic: the result of an operation, wrapped to 64 bits (two's
complement). -/
def wrapInt64 (x : Int) : Int :=
  (x + 9223372036854775808) % 18446744073709551616 - 9223372036854775808

/-- Go `x &^ 1` on an `int`: bit 0 is cleared. -/
def clearBit0 (x : Int) : Int :=
  x - x % 2

/-- The two errors created by Go `Open`. -/
inductive OpenError where
  | oddFanOut
  | smallBlocks
deriving DecidableEq, Repr

/-- Modelled from the spec: `block_size()` of the allocator (section 6.1), Go
`bf.GetBlockSize()`. -/
def Allocator.GetBlockSize (bf : Allocator) : Int :=
  (bf.blockSize : Int)

/-- Go `Open`. On success the result is the tree with `FanOut` and `nodeSize`
set (the allocator stays the separate state). `%` and `/` of Go truncate
towards zero; a division by zero is a panic. -/
def Open (tr : BTree) (bf : Allocator) : Outcome (Except OpenError BTree) :=
  if Int.tmod tr.FanOut 2 = 1 then Outcome.ret (Except.error OpenError.oddFanOut)
  else
    let nodeSize : Int := wrapInt64 (4 + tr.MaxKeySize + tr.EntrySize)
    let finish : Int → Outcome (Except OpenError BTree) := fun fanOut =>
      let blockSize : Int := wrapInt64 (12 + (8 + nodeSize) * fanOut)
      if bf.GetBlockSize < blockSize then Outcome.ret (Except.error OpenError.smallBlocks)
      else Outcome.ret (Except.ok { tr with FanOut := fanOut, nodeSize := nodeSize })
    if tr.FanOut = 0 then
      if wrapInt64 (8 + nodeSize) = 0 then Outcome.panic
      else
        let fanOut : Int :=
          clearBit0 (wrapInt64 (Int.tdiv (wrapInt64 (bf.GetBlockSize - 12)) (wrapInt64 (8 + nodeSize))))
        if fanOut ≤ 0 then Outcome.ret (Except.error OpenError.smallBlocks)
        else finish fanOut
    else finish tr.FanOut

/-! ## Byte offsets in a block -/

/-- The byte of `b` at offset `off`, as a number (0 beyond the end). -/
def byteAt (b : Bytes) (off : Nat) : Nat :=
  (b.getD off 0).toNat

/-- The little-endian `u32` held by the four bytes of `b` from offset `off` on. -/
def u32At (b : Bytes) (off : Nat) : Nat :=
  byteAt b off + 256 * byteAt b (off + 1) + 65536 * byteAt b (off + 2)
    + 16777216 * byteAt b (off + 3)

/-- The little-endian `u64` held by the eight bytes of `b` from offset `off` on. -/
def u64At (b : Bytes) (off : Nat) : Nat :=
  u32At b off + 4294967296 * u32At b (off + 4)

/-- The `len` bytes of `b` from offset `off` on. -/
def bytesAt (b : Bytes) (off len : Nat) : Bytes :=
  (b.drop off).take len

/-! ## The calls made by a run of `FreeTree` -/

/-- The run of `FreeTree(root, flag)` that starts in state `s` with fuel `fuel`
calls `FreeTree(t, flag)` in state `st` with fuel `f`: either it is that call
itself, or `root` is not read-only, its block is read, the loop goes through the
children before child `j` with every recursive call returning nil, child `j` is
an index `c ≠ 0`, and the recursive call on `c` (made in the state the loop has
reached) calls `FreeTree(t, flag)`. -/
inductive Reaches (tr : BTree) (flag : Bool) :
    Nat → TreeIndex → Allocator → Nat → TreeIndex → Allocator → Prop where
  | here (fuel : Nat) (root : TreeIndex) (s : Allocator) : Reaches tr flag fuel root s fuel root s
  | child (fuel : Nat) (root : TreeIndex) (s : Allocator) (buf block : Bytes)
      (s1 s2 s3 : Allocator) (numBlocks : Int) (j : Nat) (c : TreeIndex)
      (f : Nat) (t : TreeIndex) (st : Allocator) :
      s.isBlockReadOnly root = false →
      s.poolGet = (buf, s1) →
      s1.read root = (Except.ok block, s2) →
      getBlockSize block = some numBlocks →
      (j : Int) ≤ numBlocks →
      (List.range j).foldl (freeStep tr (fun c st => FreeTree tr fuel c flag st) block)
        (Outcome.ret none, s2) = (Outcome.ret none, s3) →
      getBlockChild tr block (j : Int) = some c →
      c ≠ 0 →
      Reaches tr flag fuel c s3 f t st →
      Reaches tr flag (fuel + 1) root s f t st

/-! ## Page buffers taken from and returned to the pool -/

/-- Between the states `s` and `s1` the allocator received the calls `ops`, and
among them `Pool.Get` occurs `k` times more often than `Pool.Put`. -/
def Leased (k : Int) (s s1 : Allocator) : Prop :=
  ∃ ops, s1.log = s.log ++ ops
    ∧ ((ops.count Op.poolGet : Nat) : Int) = ((ops.count Op.poolPut : Nat) : Int) + k

/-- The statement `Leased k` for a call that returns; nothing is said of a run
that panics or is cut short by the fuel. -/
def LeasedOut {α : Type} (k : Int) (s : Allocator) (x : Outcome α × Allocator) : Prop :=
  match x.1 with
  | Outcome.ret _ => Leased k s x.2
  | _ => True

/-- A leaf block holding the two entries `k1 ↦ v1` and `k2 ↦ v2`. -/
def leafPair (k1 v1 k2 v2 : UInt8) : Bytes :=
  [2, 0, 0, 0] ++ List.replicate 24 0 ++ [1, 0, 0, 0, k1, v1] ++ [1, 0, 0, 0, k2, v2]

/-- A tree of three mutable blocks: root 1 holds key 5, its leaf 2 holds key 3
and its leaf 3 holds the keys 8 and 9. -/
def rotationStore : Allocator :=
  storeOf [(1, ⟨false, innerOne 2 3 5 50⟩), (2, ⟨false, leafOne 3 30⟩),
    (3, ⟨false, leafPair 8 80 9 90⟩)]

/-- The leaf 2 of `rotationStore` as the removal of key 3 leaves it in memory:
size 0, the slot bytes stale. -/
def emptiedLeaf : Bytes :=
  [0, 0, 0, 0] ++ List.replicate 24 0 ++ [1, 0, 0, 0, 3, 30] ++ List.replicate 6 0

/-- A tree of height 2 with seven blocks: the mutable root 1 holds key 9 over
the mutable blocks 2 (key 5) and 3 (key 15); block 2 stands over the read-only
leaves 4 (key 3) and 5 (key 8), block 3 over the mutable leaves 6 (key 12) and
7 (key 20). -/
def twoLevelStore : Allocator :=
  storeOf [(1, ⟨false, innerOne 2 3 9 90⟩), (2, ⟨false, innerOne 4 5 5 50⟩),
    (3, ⟨false, innerOne 6 7 15 150⟩), (4, ⟨true, leafOne 3 30⟩), (5, ⟨true, leafOne 8 80⟩),
    (6, ⟨false, leafOne 12 120⟩), (7, ⟨false, leafOne 20 200⟩)]

/-- The tree of `twoLevelStore` with every block mutable. -/
def twoLevelMutable : Allocator :=
  storeOf [(1, ⟨false, innerOne 2 3 9 90⟩), (2, ⟨false, innerOne 4 5 5 50⟩),
    (3, ⟨false, innerOne 6 7 15 150⟩), (4, ⟨false, leafOne 3 30⟩), (5, ⟨false, leafOne 8 80⟩),
    (6, ⟨false, leafOne 12 120⟩), (7, ⟨false, leafOne 20 200⟩)]

/-- The tree of `threeBlockStore` with the read-only leaf 2 and the mutable
leaf 3. -/
def mixedLeavesStore : Allocator :=
  storeOf [(1, ⟨false, innerOne 2 3 5 50⟩), (2, ⟨true, leafOne 3 30⟩), (3, ⟨false, leafOne 8 80⟩)]

/-- Block 2 of `twoLevelStore` as the delete-max request leaves it in memory:
size 0, child 0 still 4, the rest stale. -/
def emptiedInner : Bytes :=
  [0, 0, 0, 0] ++ [4, 0, 0, 0, 0, 0, 0, 0] ++ [5, 0, 0, 0, 0, 0, 0, 0] ++ List.replicate 8 0
    ++ [1, 0, 0, 0, 5, 50] ++ List.replicate 6 0

/-- A tree of three mutable blocks: root 1 holds key 5, its leaf 2 holds the keys
3 and 4 and its leaf 3 holds key 8. -/
def leftHeavyStore : Allocator :=
  storeOf [(1, ⟨false, innerOne 2 3 5 50⟩), (2, ⟨false, leafPair 3 30 4 40⟩),
    (3, ⟨false, leafOne 8 80⟩)]

/-! ## The byte ranges of the fields of a block -/

/-- A byte range: its first offset and its length. -/
structure ByteRange where
  start : Int
  len : Int
deriving DecidableEq, Repr

/-- The range of the size field: the four bytes read by `getBlockSize`. -/
def sizeRange : ByteRange := ⟨0, 4⟩

/-- The range of child pointer `i`: the eight bytes from `4 + 8*i` on that
`getBlockChild` reads. -/
def childRange (i : Int) : ByteRange := ⟨4 + 8 * i, 8⟩

/-- The range of slot `i`: the `nodeSize` bytes from `posStart` on that
`getNodeSlice` returns. -/
def slotRange (tr : BTree) (i : Int) : ByteRange := ⟨nodeStart tr i, tr.nodeSize⟩

/-- Two byte ranges have no byte in common. -/
def ByteRange.Apart (a b : ByteRange) : Prop :=
  a.start + a.len ≤ b.start ∨ b.start + b.len ≤ a.start

/-- A byte range lies in the first `n` bytes. -/
def ByteRange.Within (a : ByteRange) (n : Int) : Prop :=
  0 ≤ a.start ∧ 0 ≤ a.len ∧ a.start + a.len ≤ n

/-- The byte at offset `k` belongs to the range. -/
def ByteRange.Has (a : ByteRange) (k : Nat) : Prop :=
  a.start ≤ (k : Int) ∧ (k : Int) < a.start + a.len

/-! ## Leaves of a tree and a pool of used buffers -/

/-- Index `t` is reached from index `i` by `d` steps along child pointers
`child[j]`, `0 ≤ j ≤ size`, of stored blocks. -/
inductive Below (tr : BTree) (blocks : List (TreeIndex × BlockEntry)) :
    Nat → TreeIndex → TreeIndex → Prop where
  | self (i : TreeIndex) : Below tr blocks 0 i i
  | step (d : Nat) (i c t : TreeIndex) (e : BlockEntry) (size j : Int) :
      lookup blocks i = some e → getBlockSize e.data = some size →
      0 ≤ j → j ≤ size → getBlockChild tr e.data j = some c →
      Below tr blocks d c t → Below tr blocks (d + 1) i t

/-- The block is not a leaf, or its child pointers `0..size` are all null. A
leaf is a block whose first child pointer is null. -/
def LeafNull (tr : BTree) (b : Bytes) : Prop :=
  getBlockChild tr b 0 = some 0 →
    ∃ size, getBlockSize b = some size
      ∧ ∀ j : Int, 0 ≤ j → j ≤ size → getBlockChild tr b j = some 0

/-- Every block that `s1` stores is the block that `s` stores at the same index,
or it satisfies `LeafNull`: what was stored between `s` and `s1` are inner blocks
and leaves whose child pointers `0..size` are null. -/
def Written (tr : BTree) (s s1 : Allocator) : Prop :=
  ∀ i e1, lookup s1.blocks i = some e1 → lookup s.blocks i = some e1 ∨ LeafNull tr e1.data

/-- The tree of `rotationStore` in an allocator whose pool holds five used
buffers, every byte 255. -/
def dirtyRotationStore : Allocator :=
  ⟨40, rotationStore.blocks, List.replicate 5 (List.replicate 40 255), [], []⟩

/-- A leaf holding the single entry `k ↦ v` as the rotation builds it in a
buffer whose bytes were all 255: the size and the child pointers 0 and 1 are
written, child pointer 2 and the second slot keep the bytes of the buffer. -/
def rotatedDirtyLeaf (k v : UInt8) : Bytes :=
  [1, 0, 0, 0] ++ List.replicate 16 0 ++ List.replicate 8 255 ++ [1, 0, 0, 0, k, v]
    ++ List.replicate 6 255

/-! ## Buffers with room for a block -/

/-- The buffer has room for a block of the tree: the size field, `FanOut + 1`
child pointers and `FanOut` slots. -/
def Long (tr : BTree) (b : Bytes) : Prop :=
  blockBytes tr ≤ (b.length : Int)

/-- Every buffer the allocator hands out has room for a block of the tree: the
stored blocks, the pooled buffers and the new zeroed ones. -/
def Sized (tr : BTree) (s : Allocator) : Prop :=
  blockBytes tr ≤ (s.blockSize : Int)
  ∧ (∀ i e, lookup s.blocks i = some e → Long tr e.data)
  ∧ ∀ b ∈ s.pool, Long tr b

/-- The call returned (no panic, and the fuel sufficed), the error it reports
is not the one `copyUpBlock` gives for a block of size 0, the block it hands
back has room for a block, and so has every buffer of the allocator. -/
def Returns (tr : BTree) (x : Outcome HelperRet × Allocator) : Prop :=
  ∃ r, x.1 = Outcome.ret r ∧ Long tr r.block ∧ r.err ≠ some Error.saveEmptyBlock
    ∧ Sized tr x.2

/-! ## Theorems -/

/-! ### Little-endian integers and byte ranges -/

theorem leBytes_length (w v : Nat) : (leBytes w v).length = w := by
  induction w generalizing v with
  | zero => rfl
  | succ n ih => simp [leBytes, ih]

theorem uint8_toNat_ofNat (n : Nat) : (UInt8.ofNat n).toNat = n % 256 := by
  rfl

theorem leValue_leBytes (w v : Nat) : leValue (leBytes w v) = v % 256 ^ w := by
  induction w generalizing v with
  | zero => simp [leBytes, leValue, Nat.mod_one]
  | succ n ih =>
    simp only [leBytes, leValue, ih, uint8_toNat_ofNat]
    rw [Nat.mod_mod, pow_succ, Nat.mul_comm (256 ^ n) 256, Nat.mod_mul]

theorem leValue_lt (bs : Bytes) : leValue bs < 256 ^ bs.length := by
  induction bs with
  | nil => simp [leValue]
  | cons b rest ih =>
    simp only [leValue, List.length_cons, pow_succ]
    have hb : b.toNat < 256 := b.val.isLt
    omega

theorem writeBytes_length {b b1 : Bytes} {off : Nat} {d : Bytes}
    (h : writeBytes b off d = some b1) : b1.length = b.length := by
  unfold writeBytes at h
  split at h
  · cases h
    simp
    omega
  · cases h

theorem writeBytes_getElem? {b b1 : Bytes} {off : Nat} {d : Bytes}
    (h : writeBytes b off d = some b1) (j : Nat) :
    b1[j]? = if j < off then b[j]? else if j < off + d.length then d[j - off]? else b[j]? := by
  unfold writeBytes at h
  split at h
  · rename_i hle
    cases h
    by_cases h1 : j < off
    · simp [h1, List.getElem?_append_left, List.getElem?_take, show j < off ⊓ b.length by omega]
    · by_cases h2 : j < off + d.length
      · have h3 : (List.take off b).length = off := by simp; omega
        rw [List.append_assoc, List.getElem?_append_right (by omega), h3]
        simp [h1, h2]
        rw [List.getElem?_append_left (by omega)]
      · have h3 : (List.take off b).length = off := by simp; omega
        rw [List.getElem?_append_right (by simp; omega)]
        simp [h1, h2, h3]
        congr 1
        omega
  · cases h

theorem readBytes_getElem? {b r : Bytes} {off len : Nat}
    (h : readBytes b off len = some r) (k : Nat) :
    r[k]? = if k < len then b[off + k]? else none := by
  unfold readBytes at h
  split at h
  · cases h
    by_cases hk : k < len
    · simp [hk, List.getElem?_take, List.getElem?_drop]
    · simp [hk, List.getElem?_take]
  · cases h

theorem readBytes_length {b r : Bytes} {off len : Nat}
    (h : readBytes b off len = some r) : r.length = len := by
  unfold readBytes at h
  split at h
  · cases h
    simp
    omega
  · cases h

theorem readBytes_isSome {b : Bytes} {off len : Nat} :
    (readBytes b off len).isSome = decide (off + len ≤ b.length) := by
  unfold readBytes
  split <;> simp [*]

/-- Reading a range depends only on the bytes of the range. -/
theorem readBytes_congr {b b1 : Bytes} {off len : Nat} (hlen : b1.length = b.length)
    (h : ∀ j, off ≤ j → j < off + len → b1[j]? = b[j]?) :
    readBytes b1 off len = readBytes b off len := by
  unfold readBytes
  rw [hlen]
  split
  · congr 1
    apply List.ext_getElem?
    intro k
    by_cases hk : k < len
    · simp [List.getElem?_take, List.getElem?_drop, hk]
      exact h (off + k) (by omega) (by omega)
    · simp [List.getElem?_take, hk]
  · rfl

theorem readBytes_writeBytes_disjoint {b b1 : Bytes} {off : Nat} {d : Bytes}
    (h : writeBytes b off d = some b1) (off2 len2 : Nat)
    (hd : off2 + len2 ≤ off ∨ off + d.length ≤ off2) :
    readBytes b1 off2 len2 = readBytes b off2 len2 := by
  apply readBytes_congr (writeBytes_length h)
  intro j h1 h2
  rw [writeBytes_getElem? h]
  by_cases h3 : j < off
  · simp [h3]
  · have : ¬ j < off + d.length := by omega
    simp [h3, this]

theorem readBytes_writeBytes_same {b b1 : Bytes} {off : Nat} {d : Bytes}
    (h : writeBytes b off d = some b1) :
    readBytes b1 off d.length = some d := by
  have hl := writeBytes_length h
  have hle : off + d.length ≤ b.length := by
    unfold writeBytes at h
    split at h
    · assumption
    · cases h
  unfold readBytes
  rw [hl, if_pos hle]
  congr 1
  apply List.ext_getElem?
  intro k
  by_cases hk : k < d.length
  · simp [List.getElem?_take, List.getElem?_drop, hk]
    rw [writeBytes_getElem? h]
    simp [hk]
  · have hk2 : d.length ≤ k := by omega
    simp [List.getElem?_take, hk, List.getElem?_eq_none hk2]

theorem writeBytes_isSome {b : Bytes} {off : Nat} {d : Bytes} :
    (writeBytes b off d).isSome = decide (off + d.length ≤ b.length) := by
  unfold writeBytes
  split <;> simp [*]

theorem getBlockSize_nonneg {b : Bytes} {n : Int} (h : getBlockSize b = some n) : 0 ≤ n := by
  unfold getBlockSize at h
  cases hu : uint32 b with
  | none => simp [hu] at h
  | some u =>
    simp [hu] at h
    omega

theorem getBlockSize_lt {b : Bytes} {n : Int} (h : getBlockSize b = some n) : n < 4294967296 := by
  unfold getBlockSize uint32 at h
  cases hr : readBytes b 0 4 with
  | none => simp [hr] at h
  | some r =>
    simp [hr] at h
    have h1 := leValue_lt r
    rw [readBytes_length hr] at h1
    norm_num at h1
    omega

theorem getBlockSize_setBlockSize {b b1 : Bytes} {n : Int} (h : setBlockSize b n = some b1) :
    getBlockSize b1 = some (n % 4294967296) := by
  unfold setBlockSize putUint32 at h
  have h1 := readBytes_writeBytes_same h
  rw [leBytes_length] at h1
  unfold getBlockSize uint32
  rw [h1]
  simp only [Option.map_some', leValue_leBytes]
  norm_num
  omega

theorem getBlockChild_setBlockSize (tr : BTree) {b b1 : Bytes} {n : Int}
    (h : setBlockSize b n = some b1) (j : Int) :
    getBlockChild tr b1 j = getBlockChild tr b j := by
  unfold setBlockSize putUint32 at h
  unfold getBlockChild
  split
  · rfl
  · rw [readBytes_writeBytes_disjoint h]
    rw [leBytes_length]
    right
    omega

theorem getBlockSize_setBlockChild {tr : BTree} {b b1 : Bytes} {j c : Int}
    (h : setBlockChild tr b j c = some b1) : getBlockSize b1 = getBlockSize b := by
  unfold setBlockChild at h
  split at h
  · cases h
  · unfold getBlockSize uint32
    rw [readBytes_writeBytes_disjoint h]
    left
    omega

theorem toInt64_wrap {c : Int} (hc : InRange c) :
    toInt64 ((c % 18446744073709551616).toNat % 256 ^ 8) = c := by
  unfold InRange at hc
  unfold toInt64
  norm_num
  split <;> omega

theorem getBlockChild_setBlockChild_same {tr : BTree} {b b1 : Bytes} {j c : Int}
    (h : setBlockChild tr b j c = some b1) (hc : InRange c) :
    getBlockChild tr b1 j = some c := by
  unfold setBlockChild at h
  unfold getBlockChild
  split at h
  · cases h
  · rename_i hj
    rw [if_neg hj]
    have h1 := readBytes_writeBytes_same h
    rw [leBytes_length] at h1
    rw [h1]
    simp only [Option.map_some', leValue_leBytes]
    rw [toInt64_wrap hc]

theorem getBlockChild_setBlockChild_ne {tr : BTree} {b b1 : Bytes} {j c : Int}
    (h : setBlockChild tr b j c = some b1) {k : Int} (hk : k ≠ j) :
    getBlockChild tr b1 k = getBlockChild tr b k := by
  unfold setBlockChild at h
  unfold getBlockChild
  split at h
  · cases h
  · split
    · rfl
    · rw [readBytes_writeBytes_disjoint h]
      rw [leBytes_length]
      omega

theorem getBlockChild_inRange {tr : BTree} {b : Bytes} {j c : Int}
    (h : getBlockChild tr b j = some c) : InRange c := by
  unfold getBlockChild at h
  split at h
  · cases h
  · cases hr : readBytes b (4 + 8 * j).toNat 8 with
    | none => simp [hr] at h
    | some r =>
      simp [hr] at h
      have h1 := leValue_lt r
      rw [readBytes_length hr] at h1
      norm_num at h1
      subst h
      unfold InRange toInt64
      split <;> omega

theorem getBlockChild_index {tr : BTree} {b : Bytes} {j c : Int}
    (h : getBlockChild tr b j = some c) : 0 ≤ j ∧ j ≤ tr.FanOut := by
  unfold getBlockChild at h
  split at h
  · cases h
  · omega

theorem nodeStart_ge {tr : BTree} {i : Int} (hF : 0 ≤ tr.FanOut) (hi : 0 ≤ i)
    (hn : 0 ≤ tr.nodeSize) : 4 + 8 * (tr.FanOut + 1) ≤ nodeStart tr i := by
  unfold nodeStart
  have := Int.mul_nonneg hi hn
  omega

theorem copyNodeSlice_writeBytes {tr : BTree} {b b1 : Bytes} {i : Int} {src : Bytes}
    (h : copyNodeSlice tr b i src = some b1) :
    0 ≤ nodeStart tr i ∧ 0 ≤ tr.nodeSize ∧
    writeBytes b (nodeStart tr i).toNat (src.take tr.nodeSize.toNat) = some b1 := by
  unfold copyNodeSlice at h
  split at h
  · cases h
  · rename_i x hx
    unfold getNodeSlice at hx
    split at hx
    · cases hx
    · exact ⟨by omega, by omega, h⟩

theorem getBlockSize_copyNodeSlice {tr : BTree} {b b1 : Bytes} {i : Int} {src : Bytes}
    (hF : 0 ≤ tr.FanOut) (hi : 0 ≤ i) (h : copyNodeSlice tr b i src = some b1) :
    getBlockSize b1 = getBlockSize b := by
  obtain ⟨h0, hn, hw⟩ := copyNodeSlice_writeBytes h
  have hs := nodeStart_ge hF hi hn
  unfold getBlockSize uint32
  rw [readBytes_writeBytes_disjoint hw]
  left
  omega

theorem getBlockChild_copyNodeSlice {tr : BTree} {b b1 : Bytes} {i : Int} {src : Bytes}
    (hi : 0 ≤ i) (h : copyNodeSlice tr b i src = some b1) (j : Int) :
    getBlockChild tr b1 j = getBlockChild tr b j := by
  obtain ⟨h0, hn, hw⟩ := copyNodeSlice_writeBytes h
  unfold getBlockChild
  split
  · rfl
  · have hs := @nodeStart_ge tr i (by omega) hi hn
    rw [readBytes_writeBytes_disjoint hw]
    left
    omega

theorem getBlockSize_setNodeAt {tr : BTree} {b b1 : Bytes} {i : Int} {k v : Bytes}
    (hF : 0 ≤ tr.FanOut) (hi : 0 ≤ i) (h : setNodeAt tr b i k v = some b1) :
    getBlockSize b1 = getBlockSize b := by
  unfold setNodeAt at h
  split at h
  · cases h
  · split at h
    · cases h
    · exact getBlockSize_copyNodeSlice hF hi h

theorem getBlockChild_setNodeAt {tr : BTree} {b b1 : Bytes} {i : Int} {k v : Bytes}
    (hi : 0 ≤ i) (h : setNodeAt tr b i k v = some b1) (j : Int) :
    getBlockChild tr b1 j = getBlockChild tr b j := by
  unfold setNodeAt at h
  split at h
  · cases h
  · split at h
    · cases h
    · exact getBlockChild_copyNodeSlice hi h j

/-! ### The block map -/

theorem lookup_removeEntry (bl : List (TreeIndex × BlockEntry)) (i j : TreeIndex) :
    lookup (removeEntry bl i) j = if i = j then none else lookup bl j := by
  induction bl with
  | nil => simp [removeEntry, lookup]
  | cons p rest ih =>
    obtain ⟨k, e⟩ := p
    unfold removeEntry at ih ⊢
    by_cases hk : k = i
    · subst hk
      simp only [List.filter, ne_eq, not_true_eq_false, decide_False]
      rw [ih]
      by_cases hj : k = j
      · simp [hj]
      · simp [hj, lookup]
    · have hd : decide ((k, e).1 ≠ i) = true := by simp [hk]
      simp only [List.filter, hd, lookup]
      rw [ih]
      by_cases hj : i = j
      · subst hj
        simp [hk]
      · simp [hj]

theorem lookup_setEntry (bl : List (TreeIndex × BlockEntry)) (i j : TreeIndex) (e : BlockEntry) :
    lookup (setEntry bl i e) j = if i = j then some e else lookup bl j := by
  unfold setEntry
  simp only [lookup]
  by_cases hj : i = j
  · simp [hj]
  · simp [hj, lookup_removeEntry]

theorem lookup_le_foldr (bl : List (TreeIndex × BlockEntry)) (i : TreeIndex) (e : BlockEntry)
    (h : lookup bl i = some e) : i ≤ (bl.map (fun p => p.1)).foldr max 0 := by
  induction bl with
  | nil => simp [lookup] at h
  | cons p rest ih =>
    obtain ⟨k, e1⟩ := p
    simp only [lookup] at h
    simp only [List.map_cons, List.foldr_cons]
    by_cases hk : k = i
    · subst hk
      exact le_max_left _ _
    · rw [if_neg hk] at h
      exact le_trans (ih h) (le_max_right _ _)

theorem foldr_max_nonneg (l : List Int) : 0 ≤ l.foldr max 0 := by
  induction l with
  | nil => simp
  | cons a rest ih =>
    simp only [List.foldr_cons]
    exact le_trans ih (le_max_right _ _)

theorem Allocator.fresh_pos (s : Allocator) : (1 : Int) ≤ s.fresh := by
  unfold Allocator.fresh
  have := foldr_max_nonneg (s.blocks.map (fun p => p.1))
  linarith

theorem Allocator.get_fresh (s : Allocator) : s.get s.fresh = none := by
  unfold Allocator.get
  cases h : lookup s.blocks s.fresh with
  | none => rfl
  | some e =>
    have := lookup_le_foldr _ _ _ h
    unfold Allocator.fresh at this
    linarith

/-! ### Calls that leave read-only blocks alone -/

theorem safe_refl (s : Allocator) : Safe s s :=
  ⟨⟨[], by simp, by simp⟩, fun _ _ => rfl, fun _ h => h⟩

theorem safe_trans {s s1 s2 : Allocator} (h1 : Safe s s1) (h2 : Safe s1 s2) : Safe s s2 := by
  obtain ⟨⟨ops1, hl1, ho1⟩, hg1, hr1⟩ := h1
  obtain ⟨⟨ops2, hl2, ho2⟩, hg2, hr2⟩ := h2
  refine ⟨⟨ops1 ++ ops2, by rw [hl2, hl1, List.append_assoc], ?_⟩, ?_, ?_⟩
  · intro op hop
    rcases List.mem_append.mp hop with h | h
    · exact ho1 op h
    · exact ho2 op h
  · intro i hi
    have h3 := hg1 i hi
    have h4 : s1.isBlockReadOnly i = true := by
      unfold Allocator.isBlockReadOnly at hi ⊢
      rw [h3]
      exact hi
    rw [hg2 i h4, h3]
  · intro i hi
    exact hr1 i (hr2 i hi)

/-- A step that only extends the log by harmless calls and keeps the blocks. -/
theorem safe_of_blocks_eq {s s1 : Allocator} (op : Op) (hop : Op.touchesReadOnly op = false)
    (hl : s1.log = s.log ++ [op]) (hb : s1.blocks = s.blocks) : Safe s s1 := by
  refine ⟨⟨[op], hl, by simpa using hop⟩, ?_, ?_⟩
  · intro i _
    simp [Allocator.get, hb]
  · intro i hi
    simpa [Allocator.isBlockReadOnly, Allocator.get, hb] using hi

theorem safe_poolGet (s : Allocator) : Safe s s.poolGet.2 := by
  unfold Allocator.poolGet
  split <;> exact safe_of_blocks_eq Op.poolGet rfl rfl rfl

theorem safe_poolPut (s : Allocator) (b : Bytes) : Safe s (s.poolPut b) :=
  safe_of_blocks_eq Op.poolPut rfl rfl rfl

theorem safe_read (s : Allocator) (i : TreeIndex) : Safe s (s.read i).2 := by
  unfold Allocator.read
  simp only
  split
  · exact safe_of_blocks_eq (Op.read i) rfl rfl rfl
  · split <;> exact safe_of_blocks_eq (Op.read i) rfl rfl rfl

theorem safe_write (s : Allocator) (tag : Nat) (i : TreeIndex) (buf : Bytes)
    (h : s.isBlockReadOnly i = false) : Safe s (s.write tag i buf).2 := by
  unfold Allocator.write
  simp only
  split
  · exact safe_of_blocks_eq (Op.write i (s.isBlockReadOnly i)) (by simp [Op.touchesReadOnly, h])
      rfl rfl
  · refine ⟨⟨[Op.write i (s.isBlockReadOnly i)], rfl, by simp [Op.touchesReadOnly, h]⟩, ?_, ?_⟩
    · intro j hj
      have hne : i ≠ j := by
        intro heq
        subst heq
        rw [h] at hj
        cases hj
      simp [Allocator.get, lookup_setEntry, hne]
    · intro j hj
      by_cases hne : i = j
      · subst hne
        simp only [Allocator.isBlockReadOnly, Allocator.get, lookup_setEntry, if_true] at hj
        exact hj
      · simpa [Allocator.isBlockReadOnly, Allocator.get, lookup_setEntry, hne] using hj

theorem safe_allocate (s : Allocator) (tag : Nat) : Safe s (s.allocate tag).2 := by
  unfold Allocator.allocate
  simp only
  split
  · exact safe_of_blocks_eq (Op.allocate s.fresh) rfl rfl rfl
  · split
    · exact safe_of_blocks_eq (Op.allocate s.fresh) rfl rfl rfl
    · refine ⟨⟨[Op.allocate s.fresh], rfl, by simp [Op.touchesReadOnly]⟩, ?_, ?_⟩
      · intro j hj
        have hne : s.fresh ≠ j := by
          intro heq
          subst heq
          unfold Allocator.isBlockReadOnly at hj
          rw [Allocator.get_fresh] at hj
          cases hj
        simp [Allocator.get, lookup_setEntry, hne]
      · intro j hj
        by_cases hne : s.fresh = j
        · subst hne
          simp [Allocator.isBlockReadOnly, Allocator.get, lookup_setEntry] at hj
        · simpa [Allocator.isBlockReadOnly, Allocator.get, lookup_setEntry, hne] using hj

theorem safe_free (s : Allocator) (i : TreeIndex) (h : s.isBlockReadOnly i = false) :
    Safe s (s.free i).2 := by
  unfold Allocator.free
  simp only
  split
  · exact safe_of_blocks_eq (Op.free i (s.isBlockReadOnly i)) (by simp [Op.touchesReadOnly, h])
      rfl rfl
  · split
    · exact safe_of_blocks_eq (Op.free i (s.isBlockReadOnly i))
        (by simp [Op.touchesReadOnly, h]) rfl rfl
    · refine ⟨⟨[Op.free i (s.isBlockReadOnly i)], rfl, by simp [Op.touchesReadOnly, h]⟩, ?_, ?_⟩
      · intro j hj
        have hne : i ≠ j := by
          intro heq
          subst heq
          rw [h] at hj
          cases hj
        simp [Allocator.get, lookup_removeEntry, hne]
      · intro j hj
        by_cases hne : i = j
        · subst hne
          simp [Allocator.isBlockReadOnly, Allocator.get, lookup_removeEntry] at hj
        · simpa [Allocator.isBlockReadOnly, Allocator.get, lookup_removeEntry, hne] using hj

theorem allocate_writable {s s1 : Allocator} {tag : Nat} {i : TreeIndex}
    (h : s.allocate tag = (Except.ok i, s1)) : s1.isBlockReadOnly i = false := by
  unfold Allocator.allocate at h
  simp only at h
  split at h
  · cases h
  · split at h
    · cases h
    · cases h
      simp [Allocator.isBlockReadOnly, Allocator.get, lookup_setEntry]

/-- Extending a safe run by one more step. -/
theorem Safe.step {α : Type} {x : α × Allocator} {a : α} {s s1 s2 : Allocator}
    (heq : x = (a, s2)) (hx : Safe s1 x.2) (h : Safe s s1) : Safe s s2 := by
  subst heq
  exact safe_trans h hx

theorem Safe.poolPut {s s1 : Allocator} (b : Bytes) (h : Safe s s1) : Safe s (s1.poolPut b) :=
  safe_trans h (safe_poolPut s1 b)

theorem safe_copyUpBlock (tr : BTree) (tag : Nat) (index : TreeIndex) (block : Bytes)
    (s : Allocator) : Safe s (copyUpBlock tr tag index block s).2 := by
  unfold copyUpBlock
  split
  · exact safe_refl s
  · split
    · exact safe_refl s
    · split
      · rename_i hro
        split
        · rename_i e s1 heq
          exact Safe.step heq (safe_allocate s tag) (safe_refl s)
        · rename_i index1 s1 heq
          have hs1 : Safe s s1 := Safe.step heq (safe_allocate s tag) (safe_refl s)
          have hw := safe_write s1 tag index1 block (allocate_writable heq)
          split
          · rename_i e s2 heq2
            exact Safe.step heq2 hw hs1
          · rename_i s2 heq2
            exact Safe.step heq2 hw hs1
      · rename_i hro
        have hw := safe_write s tag index block (by simpa using hro)
        split
        · rename_i e s1 heq
          exact Safe.step heq hw (safe_refl s)
        · rename_i s1 heq
          exact Safe.step heq hw (safe_refl s)

theorem Safe.of_copyUp {tr : BTree} {tag : Nat} {i : TreeIndex} {b : Bytes}
    {r : Option (Except Error TreeIndex)} {s s1 s2 : Allocator}
    (heq : copyUpBlock tr tag i b s1 = (r, s2)) (h : Safe s s1) : Safe s s2 :=
  Safe.step heq (safe_copyUpBlock tr tag i b s1) h

theorem Safe.of_poolGet {b : Bytes} {s s1 s2 : Allocator}
    (heq : s1.poolGet = (b, s2)) (h : Safe s s1) : Safe s s2 :=
  Safe.step heq (safe_poolGet s1) h

theorem Safe.of_read {i : TreeIndex} {r : Except Error Bytes} {s s1 s2 : Allocator}
    (heq : s1.read i = (r, s2)) (h : Safe s s1) : Safe s s2 :=
  Safe.step heq (safe_read s1 i) h

theorem Safe.of_write {tag : Nat} {i : TreeIndex} {buf : Bytes} {r : Option Error}
    {s s1 s2 : Allocator} (heq : s1.write tag i buf = (r, s2))
    (hro : s1.isBlockReadOnly i = false) (h : Safe s s1) : Safe s s2 :=
  Safe.step heq (safe_write s1 tag i buf hro) h

theorem Safe.of_free {i : TreeIndex} {r : Option Error}
    {s s1 s2 : Allocator} (heq : s1.free i = (r, s2))
    (hro : s1.isBlockReadOnly i = false) (h : Safe s s1) : Safe s s2 :=
  Safe.step heq (safe_free s1 i hro) h

theorem Safe.poolGet2 {s s1 : Allocator} (h : Safe s s1) : Safe s s1.poolGet.2 :=
  safe_trans h (safe_poolGet s1)

theorem Safe.read2 {s s1 : Allocator} {i : TreeIndex} (h : Safe s s1) : Safe s (s1.read i).2 :=
  safe_trans h (safe_read s1 i)

theorem safe_rotateOrMerge (tr : BTree) (tag : Nat) (block : Bytes) (blockSize sibIndex : Int)
    (sibTree : TreeIndex) (sibBlock : Bytes) (sibBlockSize : Int)
    (childTree : TreeIndex) (childBlock : Bytes) (childBlockSize : Int)
    (dk : Option KeyType) (dv : Option ValueType) (swapped : Bool) (s : Allocator) :
    Safe s (rotateOrMerge tr tag block blockSize sibIndex sibTree sibBlock sibBlockSize
      childTree childBlock childBlockSize dk dv swapped s).2 := by
  unfold rotateOrMerge rotateBlocks mergeSiblings
  dsimp only
  repeat' split
  all_goals
    try dsimp only
    repeat (first
      | exact safe_refl _
      | apply Safe.poolPut
      | apply Safe.poolGet2
      | apply Safe.read2
      | refine Safe.of_copyUp (by assumption) ?_)

theorem safe_rebalance (tr : BTree) (tag : Nat) (block : Bytes) (insertInd : Int)
    (childTree : TreeIndex) (childBlock : Bytes)
    (dk : Option KeyType) (dv : Option ValueType) (blockSize : Int) (s : Allocator) :
    Safe s (rebalance tr tag block insertInd childTree childBlock dk dv blockSize s).2 := by
  unfold rebalance
  dsimp only
  repeat' split
  all_goals
    try dsimp only
    repeat (first
      | exact safe_refl _
      | apply Safe.poolPut
      | apply Safe.poolGet2
      | apply Safe.read2
      | refine safe_trans ?_ (safe_rotateOrMerge _ _ _ _ _ _ _ _ _ _ _ _ _ _ _)
      | refine Safe.of_copyUp (by assumption) ?_
      | refine Safe.of_poolGet (by assumption) ?_
      | refine Safe.of_read (by assumption) ?_)

theorem safe_deleteHelper (tr : BTree) (tag : Nat) (fuel : Nat) :
    ∀ (treeIndex : TreeIndex) (key : Option KeyType) (s : Allocator),
      Safe s (deleteHelper tr tag fuel treeIndex key s).2 := by
  induction fuel with
  | zero =>
    intro treeIndex key s
    exact safe_refl s
  | succ n ih =>
    intro treeIndex key s
    unfold deleteHelper
    dsimp only
    repeat' split
    all_goals
      try dsimp only
      repeat (first
        | exact safe_refl _
        | apply Safe.poolPut
        | apply Safe.poolGet2
        | apply Safe.read2
        | refine safe_trans ?_ (safe_rebalance _ _ _ _ _ _ _ _ _ _)
        | refine Safe.step (by assumption) (ih _ _ _) ?_
        | refine Safe.of_poolGet (by assumption) ?_
        | refine Safe.of_read (by assumption) ?_)

theorem Safe.still_writable {s s1 : Allocator} (h : Safe s s1) {i : TreeIndex}
    (hro : s.isBlockReadOnly i = false) : s1.isBlockReadOnly i = false := by
  cases h1 : s1.isBlockReadOnly i with
  | false => rfl
  | true =>
    rw [h.2.2 i h1] at hro
    cases hro

theorem safe_Delete (tr : BTree) (tag fuel : Nat) (treeIndex : TreeIndex) (key : KeyType)
    (s : Allocator) : Safe s (Delete tr tag fuel treeIndex key s).2 := by
  unfold Delete
  split
  · exact safe_refl s
  · rename_i hro
    have hro : s.isBlockReadOnly treeIndex = false := by simpa using hro
    split
    · exact safe_refl s
    · have hh := safe_deleteHelper tr tag fuel treeIndex (some key) s
      split
      · rename_i s1 heq
        rw [heq] at hh
        exact hh
      · rename_i s1 heq
        rw [heq] at hh
        exact hh
      · rename_i r s1 heq
        rw [heq] at hh
        simp only at hh
        split
        · exact Safe.poolPut _ hh
        · split
          · exact hh
          · split
            · split
              · exact hh
              · split
                · rename_i e s2 heq2
                  exact Safe.poolPut _ (Safe.of_read heq2 hh)
                · rename_i block s2 heq2
                  have h2 : Safe s s2 := Safe.of_read heq2 hh
                  split
                  · rename_i e s3 heq3
                    exact Safe.poolPut _ (Safe.of_write heq3 (h2.still_writable hro) h2)
                  · rename_i s3 heq3
                    have h3 : Safe s s3 := Safe.of_write heq3 (h2.still_writable hro) h2
                    split
                    · exact Safe.poolPut _ h3
                    · rename_i hc
                      exact Safe.poolPut _
                        (safe_trans h3 (safe_free s3 _ (by simpa using hc)))
            · exact Safe.poolPut _
                (safe_trans hh (safe_write s1 tag treeIndex r.block (hh.still_writable hro)))

/-- C4: during any `Delete` (returning nil or an error, panicking, or cut short
by the fuel) the calls added to the allocator's log contain no `Write` and no
`Free` whose target was read-only when the call was made, and every block that
was read-only before the call is stored unchanged after it. -/
theorem delete_leaves_read_only_blocks (tr : BTree) (tag fuel : Nat) (treeIndex : TreeIndex)
    (key : KeyType) (s : Allocator) :
    (∃ ops, (Delete tr tag fuel treeIndex key s).2.log = s.log ++ ops
        ∧ ∀ i, Op.write i true ∉ ops ∧ Op.free i true ∉ ops)
    ∧ ∀ i, s.isBlockReadOnly i = true →
        (Delete tr tag fuel treeIndex key s).2.get i = s.get i := by
  obtain ⟨⟨ops, hl, ho⟩, hg, _⟩ := safe_Delete tr tag fuel treeIndex key s
  refine ⟨⟨ops, hl, ?_⟩, hg⟩
  intro i
  constructor
  · intro hmem
    have := ho _ hmem
    simp [Op.touchesReadOnly] at this
  · intro hmem
    have := ho _ hmem
    simp [Op.touchesReadOnly] at this

/-! ### Balanced subtrees -/

theorem balanced_iff (tr : BTree) (B : List (TreeIndex × BlockEntry)) (h : Nat) (i : TreeIndex) :
    Balanced tr B h i ↔
      ∃ e size, lookup B i = some e ∧ BlockShape tr B h e.data size ∧ tr.FanOut / 2 ≤ size := by
  cases h with
  | zero =>
    simp only [Balanced, BlockShape, GoodChild]
    constructor
    · rintro ⟨e, size, h1, h2, h3, h4, h5⟩
      exact ⟨e, size, h1, ⟨h2, h4, fun j hj hj2 => ⟨0, h5 j hj hj2, rfl⟩⟩, h3⟩
    · rintro ⟨e, size, h1, ⟨h2, h4, h5⟩, h3⟩
      refine ⟨e, size, h1, h2, h3, h4, fun j hj hj2 => ?_⟩
      obtain ⟨c, hc, hc0⟩ := h5 j hj hj2
      rw [hc, hc0]
  | succ k =>
    simp only [Balanced, BlockShape, GoodChild]
    constructor
    · rintro ⟨e, size, h1, h2, h3, h4, h5⟩
      exact ⟨e, size, h1, ⟨h2, h4, h5⟩, h3⟩
    · rintro ⟨e, size, h1, ⟨h2, h4, h5⟩, h3⟩
      exact ⟨e, size, h1, h2, h3, h4, h5⟩

theorem shape_height_unique (tr : BTree) (B : List (TreeIndex × BlockEntry)) :
    ∀ (H H1 : Nat) (b : Bytes) (size size1 : Int),
      BlockShape tr B H b size → BlockShape tr B H1 b size1 → H = H1 := by
  intro H
  induction H with
  | zero =>
    intro H1 b size size1 h1 h2
    obtain ⟨hs, _, hc⟩ := h1
    obtain ⟨hs1, _, hc1⟩ := h2
    have h0 := getBlockSize_nonneg hs
    have h01 := getBlockSize_nonneg hs1
    obtain ⟨c, hc, hg⟩ := hc 0 (le_refl 0) h0
    obtain ⟨c1, hc1, hg1⟩ := hc1 0 (le_refl 0) h01
    rw [hc] at hc1
    cases hc1
    cases H1 with
    | zero => rfl
    | succ k =>
      simp only [GoodChild] at hg hg1
      exact absurd hg hg1.1
  | succ k ih =>
    intro H1 b size size1 h1 h2
    obtain ⟨hs, _, hc⟩ := h1
    obtain ⟨hs1, _, hc1⟩ := h2
    have h0 := getBlockSize_nonneg hs
    have h01 := getBlockSize_nonneg hs1
    obtain ⟨c, hc, hg⟩ := hc 0 (le_refl 0) h0
    obtain ⟨c1, hc1, hg1⟩ := hc1 0 (le_refl 0) h01
    rw [hc] at hc1
    cases hc1
    cases H1 with
    | zero =>
      simp only [GoodChild] at hg hg1
      exact absurd hg1 hg.1
    | succ k1 =>
      simp only [GoodChild] at hg hg1
      obtain ⟨e, sz, hl, hsh, _⟩ := (balanced_iff tr B k c).mp hg.2
      obtain ⟨e1, sz1, hl1, hsh1, _⟩ := (balanced_iff tr B k1 c).mp hg1.2
      rw [hl] at hl1
      cases hl1
      rw [ih k1 e.data sz sz1 hsh hsh1]

theorem balanced_height_unique {tr : BTree} {B : List (TreeIndex × BlockEntry)} {h h1 : Nat}
    {i : TreeIndex} (hb : Balanced tr B h i) (hb1 : Balanced tr B h1 i) : h = h1 := by
  obtain ⟨e, sz, hl, hsh, _⟩ := (balanced_iff tr B h i).mp hb
  obtain ⟨e1, sz1, hl1, hsh1, _⟩ := (balanced_iff tr B h1 i).mp hb1
  rw [hl] at hl1
  cases hl1
  exact shape_height_unique tr B h h1 e.data sz sz1 hsh hsh1

theorem goodChild_mono {tr : BTree} {B B1 : List (TreeIndex × BlockEntry)}
    (hB : ∀ h1 i, Balanced tr B h1 i → Balanced tr B1 h1 i) {h : Nat} {c : TreeIndex}
    (hg : GoodChild tr B h c) : GoodChild tr B1 h c := by
  cases h with
  | zero => exact hg
  | succ k => exact ⟨hg.1, hB k c hg.2⟩

theorem blockShape_mono {tr : BTree} {B B1 : List (TreeIndex × BlockEntry)}
    (hB : ∀ h1 i, Balanced tr B h1 i → Balanced tr B1 h1 i) {h : Nat} {b : Bytes} {size : Int}
    (hs : BlockShape tr B h b size) : BlockShape tr B1 h b size := by
  obtain ⟨h1, h2, h3⟩ := hs
  refine ⟨h1, h2, fun j hj hj2 => ?_⟩
  obtain ⟨c, hc, hg⟩ := h3 j hj hj2
  exact ⟨c, hc, goodChild_mono hB hg⟩

theorem blockShape_mono_succ {tr : BTree} {B B1 : List (TreeIndex × BlockEntry)} {k : Nat}
    (hB : ∀ i, Balanced tr B k i → Balanced tr B1 k i) {b : Bytes} {size : Int}
    (hs : BlockShape tr B (k + 1) b size) : BlockShape tr B1 (k + 1) b size := by
  obtain ⟨h1, h2, h3⟩ := hs
  refine ⟨h1, h2, fun j hj hj2 => ?_⟩
  obtain ⟨c, hc, hg⟩ := h3 j hj hj2
  exact ⟨c, hc, hg.1, hB c hg.2⟩

/-- Storing a balanced block of height `hw` at an index that, if it was the root
of a balanced subtree at all, was one of height `hw`. -/
theorem balanced_update {tr : BTree} {B B1 : List (TreeIndex × BlockEntry)} {w : TreeIndex}
    {x : BlockEntry} {hw : Nat} {sz : Int}
    (hother : ∀ j, j ≠ w → lookup B1 j = lookup B j) (hat : lookup B1 w = some x)
    (hshape : BlockShape tr B hw x.data sz) (hmin : tr.FanOut / 2 ≤ sz)
    (huniq : ∀ h1, Balanced tr B h1 w → h1 = hw) :
    ∀ h1 i, Balanced tr B h1 i → Balanced tr B1 h1 i := by
  intro h1
  induction h1 with
  | zero =>
    intro i hb
    by_cases hiw : i = w
    · subst hiw
      have := huniq 0 hb
      subst this
      rw [balanced_iff]
      refine ⟨x, sz, hat, ?_, hmin⟩
      obtain ⟨h1, h2, h3⟩ := hshape
      exact ⟨h1, h2, h3⟩
    · rw [balanced_iff] at hb ⊢
      obtain ⟨e, size, hl, hsh, hm⟩ := hb
      refine ⟨e, size, by rw [hother i hiw]; exact hl, ?_, hm⟩
      obtain ⟨h1, h2, h3⟩ := hsh
      exact ⟨h1, h2, h3⟩
  | succ k ih =>
    intro i hb
    by_cases hiw : i = w
    · subst hiw
      have := huniq (k + 1) hb
      subst this
      rw [balanced_iff]
      exact ⟨x, sz, hat, blockShape_mono_succ ih hshape, hmin⟩
    · rw [balanced_iff] at hb ⊢
      obtain ⟨e, size, hl, hsh, hm⟩ := hb
      exact ⟨e, size, by rw [hother i hiw]; exact hl, blockShape_mono_succ ih hsh, hm⟩

theorem balanced_update_at {tr : BTree} {B B1 : List (TreeIndex × BlockEntry)} {w : TreeIndex}
    {x : BlockEntry} {hw : Nat} {sz : Int}
    (hother : ∀ j, j ≠ w → lookup B1 j = lookup B j) (hat : lookup B1 w = some x)
    (hshape : BlockShape tr B hw x.data sz) (hmin : tr.FanOut / 2 ≤ sz)
    (huniq : ∀ h1, Balanced tr B h1 w → h1 = hw) : Balanced tr B1 hw w := by
  rw [balanced_iff]
  exact ⟨x, sz, hat, blockShape_mono (balanced_update hother hat hshape hmin huniq) hshape, hmin⟩

/-! ### Extensions of the block map -/

theorem ext_refl (tr : BTree) (h : Nat) (B : List (TreeIndex × BlockEntry)) : Ext tr h B B :=
  ⟨fun _ _ hb => hb, fun _ _ _ _ _ hl _ => hl, fun h0 => h0⟩

theorem ext_trans {tr : BTree} {h : Nat} {B B1 B2 : List (TreeIndex × BlockEntry)}
    (h1 : Ext tr h B B1) (h2 : Ext tr h B1 B2) : Ext tr h B B2 := by
  obtain ⟨a1, b1, c1⟩ := h1
  obtain ⟨a2, b2, c2⟩ := h2
  refine ⟨fun h1 i hb => a2 h1 i (a1 h1 i hb), ?_, fun h0 => c2 (c1 h0)⟩
  intro H i e size hH hl hsh
  exact b2 H i e size hH (b1 H i e size hH hl hsh) (blockShape_mono a1 hsh)

theorem Ext.mono {tr : BTree} {h h2 : Nat} {B B1 : List (TreeIndex × BlockEntry)}
    (hle : h ≤ h2) (h1 : Ext tr h B B1) : Ext tr h2 B B1 :=
  ⟨h1.1, fun H i e size hH hl hsh => h1.2.1 H i e size (le_trans hle hH) hl hsh, h1.2.2⟩

theorem Ext.of_eq {tr : BTree} {h : Nat} {B B1 : List (TreeIndex × BlockEntry)} (heq : B1 = B) :
    Ext tr h B B1 := by
  subst heq
  exact ext_refl tr h B1

/-! ### The copy-up helper and the block map -/

theorem copyUpBlock_lookup {tr : BTree} {tag : Nat} {w w1 : Int} {nb : Bytes}
    {s s1 : Allocator} (heq : copyUpBlock tr tag w nb s = (some (Except.ok w1), s1)) :
    (∃ sz, getBlockSize nb = some sz ∧ sz ≠ 0)
    ∧ (∃ ro, lookup s1.blocks w1 = some ⟨ro, nb⟩)
    ∧ (∀ j, j ≠ w1 → lookup s1.blocks j = lookup s.blocks j)
    ∧ (w1 = w ∨ (lookup s.blocks w1 = none ∧ (1 : Int) ≤ w1
        ∧ w1 < (9223372036854775808 : Int))) := by
  unfold copyUpBlock at heq
  split at heq
  · cases heq
  · rename_i sz hsz
    split at heq
    · cases heq
    · rename_i hsz0
      refine ⟨⟨sz, hsz, hsz0⟩, ?_⟩
      split at heq
      · split at heq
        · cases heq
        · rename_i index1 sa ha
          split at heq
          · cases heq
          · rename_i s2 hw
            cases heq
            unfold Allocator.allocate at ha
            simp only at ha
            split at ha
            · cases ha
            · split at ha
              · cases ha
              · rename_i hf hlt
                cases ha
                unfold Allocator.write at hw
                simp only at hw
                split at hw
                · cases hw
                · cases hw
                  refine ⟨⟨_, by rw [lookup_setEntry, if_pos rfl]⟩, ?_,
                    Or.inr ⟨s.get_fresh, s.fresh_pos, ?_⟩⟩
                  · intro j hj
                    have hj2 : ¬ s.fresh = j := fun h => hj h.symm
                    simp [lookup_setEntry, hj2]
                  · exact not_le.mp hlt
      · split at heq
        · cases heq
        · rename_i s2 hw
          cases heq
          unfold Allocator.write at hw
          simp only at hw
          split at hw
          · cases hw
          · cases hw
            refine ⟨⟨_, by rw [lookup_setEntry, if_pos rfl]⟩, ?_, Or.inl rfl⟩
            intro j hj
            have hj2 : ¬ w = j := fun h => hj h.symm
            simp [lookup_setEntry, hj2]

/-- The copy-up of a balanced block of height `hw` to the index of a balanced
subtree of that height. -/
theorem ext_copyUpBlock {tr : BTree} {tag : Nat} {w w1 : Int} {nb : Bytes}
    {s s1 : Allocator} {hw : Nat} {sz : Int}
    (heq : copyUpBlock tr tag w nb s = (some (Except.ok w1), s1))
    (hshape : BlockShape tr s.blocks hw nb sz) (hmin : tr.FanOut / 2 ≤ sz)
    (hbal : Balanced tr s.blocks hw w) (hw0 : w ≠ 0) (hr : InRange w) :
    Ext tr (hw + 1) s.blocks s1.blocks ∧ Balanced tr s1.blocks hw w1 ∧ w1 ≠ 0 ∧ InRange w1 := by
  obtain ⟨_, ⟨ro, hat⟩, hother, hcase⟩ := copyUpBlock_lookup heq
  have huniq : ∀ h1, Balanced tr s.blocks h1 w1 → h1 = hw := by
    intro h1 hb1
    rcases hcase with h | ⟨h, _, _⟩
    · subst h
      exact balanced_height_unique hb1 hbal
    · obtain ⟨e, _, hl, _⟩ := (balanced_iff tr s.blocks h1 w1).mp hb1
      rw [h] at hl
      cases hl
  have hne : w1 ≠ 0 := by
    rcases hcase with h | ⟨_, h, _⟩
    · rw [h]
      exact hw0
    · omega
  have hF1 := balanced_update (x := ⟨ro, nb⟩) hother hat hshape hmin huniq
  refine ⟨⟨hF1, ?_, ?_⟩, balanced_update_at (x := ⟨ro, nb⟩) hother hat hshape hmin huniq,
    hne, ?_⟩
  · intro H i e size hH hl hsh
    have hi : i ≠ w1 := by
      intro hi
      subst hi
      rcases hcase with h | ⟨h, _, _⟩
      · subst h
        obtain ⟨e1, sz1, hl1, hsh1, _⟩ := (balanced_iff tr s.blocks hw i).mp hbal
        rw [hl] at hl1
        cases hl1
        have := shape_height_unique tr s.blocks H hw e.data size sz1 hsh hsh1
        omega
      · rw [h] at hl
        cases hl
    rw [hother i hi]
    exact hl
  · intro h0
    rw [hother 0 (fun h => hne h.symm)]
    exact h0
  · rcases hcase with h | ⟨_, h1, h2⟩
    · rw [h]
      exact hr
    · unfold InRange
      omega

/-! ### The loops of `deleteHelper` and the header of a block -/

theorem ChildrenAll.congr {tr : BTree} {P : TreeIndex → Prop} {b b1 : Bytes} {n : Int}
    (h : ChildrenAll tr P b n) (hc : ∀ j, getBlockChild tr b1 j = getBlockChild tr b j) :
    ChildrenAll tr P b1 n := by
  intro j hj hj2
  rw [hc j]
  exact h j hj hj2

theorem ChildrenAll.le {tr : BTree} {P : TreeIndex → Prop} {b : Bytes} {n m : Int}
    (h : ChildrenAll tr P b n) (hm : m ≤ n) : ChildrenAll tr P b m :=
  fun j hj hj2 => h j hj (le_trans hj2 hm)

theorem childrenAll_set_key {tr : BTree} {P : TreeIndex → Prop} {b b1 : Bytes} {n k c : Int}
    (h : ChildrenAll tr P b n) (hs : setBlockChild tr b k c = some b1) (hP : P c)
    (hr : InRange c) :
    ∀ j, 0 ≤ j → (j ≤ n ∨ j = k) → ∃ c, getBlockChild tr b1 j = some c ∧ P c := by
  intro j hj hj2
  by_cases hjk : j = k
  · subst hjk
    exact ⟨c, getBlockChild_setBlockChild_same hs hr, hP⟩
  · rw [getBlockChild_setBlockChild_ne hs hjk]
    rcases hj2 with h1 | h1
    · exact h j hj h1
    · exact absurd h1 hjk

/-- Setting one child pointer to a value that satisfies `P`. -/
theorem ChildrenAll.set_keep {tr : BTree} {P : TreeIndex → Prop} {b b1 : Bytes} {n k c : Int}
    (h : ChildrenAll tr P b n) (hs : setBlockChild tr b k c = some b1) (hP : P c)
    (hr : InRange c) : ChildrenAll tr P b1 n :=
  fun j hj hj2 => childrenAll_set_key h hs hP hr j hj (Or.inl hj2)

/-- Setting the next child pointer to a value that satisfies `P`. -/
theorem ChildrenAll.set_extend {tr : BTree} {P : TreeIndex → Prop} {b b1 : Bytes} {n c : Int}
    (h : ChildrenAll tr P b n) (hs : setBlockChild tr b (n + 1) c = some b1) (hP : P c)
    (hr : InRange c) : ChildrenAll tr P b1 (n + 1) := by
  intro j hj hj2
  apply childrenAll_set_key h hs hP hr j hj
  omega

theorem shiftNodes_header {tr : BTree} (hF : 0 ≤ tr.FanOut) :
    ∀ (n : Nat) (i : Int) (b b1 : Bytes), 0 ≤ i → shiftNodes tr n i b = some b1 →
      getBlockSize b1 = getBlockSize b ∧ ∀ j, getBlockChild tr b1 j = getBlockChild tr b j := by
  intro n
  induction n with
  | zero =>
    intro i b b1 _ h
    simp only [shiftNodes] at h
    cases h
    exact ⟨rfl, fun _ => rfl⟩
  | succ k ih =>
    intro i b b1 hi h
    simp only [shiftNodes] at h
    split at h
    · cases h
    · split at h
      · cases h
      · rename_i block1 hcopy
        obtain ⟨h1, h2⟩ := ih (i + 1) block1 b1 (by omega) h
        refine ⟨?_, fun j => ?_⟩
        · rw [h1, getBlockSize_copyNodeSlice hF hi hcopy]
        · rw [h2 j, getBlockChild_copyNodeSlice hi hcopy j]


theorem closeGap_children {tr : BTree} {P : TreeIndex → Prop} (hF : 0 ≤ tr.FanOut) (m : Int) :
    ∀ (n : Nat) (i : Int) (b b1 : Bytes), 0 ≤ i → i + n + 1 ≤ m ∨ n = 0 →
      closeGap tr n i b = some b1 → ChildrenAll tr P b m →
      ChildrenAll tr P b1 m ∧ getBlockSize b1 = getBlockSize b := by
  intro n
  induction n with
  | zero =>
    intro i b b1 _ _ h hc
    simp only [closeGap] at h
    cases h
    exact ⟨hc, rfl⟩
  | succ k ih =>
    intro i b b1 hi hm h hc
    simp only [closeGap] at h
    split at h
    · cases h
    · rename_i c hget
      split at h
      · cases h
      · rename_i block1 hset
        split at h
        · rename_i x src hx hsrc
          split at h
          · cases h
          · rename_i block2 hcopy
            have hm2 : i + 2 ≤ m := by
              rcases hm with hm | hm
              · push_cast at hm
                omega
              · omega
            obtain ⟨c2, hc2, hP⟩ := hc (i + 2) (by omega) hm2
            rw [hget] at hc2
            cases hc2
            have h1 : ChildrenAll tr P block1 m :=
              hc.set_keep hset hP (getBlockChild_inRange hget)
            have h2 : ChildrenAll tr P block2 m :=
              h1.congr (getBlockChild_copyNodeSlice hi hcopy)
            obtain ⟨h3, h4⟩ := ih (i + 1) block2 b1 (by omega)
              (by rcases hm with hm | hm
                  · left
                    push_cast at hm
                    omega
                  · omega) h h2
            refine ⟨h3, ?_⟩
            rw [h4, getBlockSize_copyNodeSlice hF hi hcopy, getBlockSize_setBlockChild hset]
        · cases h

theorem mergeFrom_children {tr : BTree} {P : TreeIndex → Prop} (childBlock : Bytes)
    (ss cs : Int) (hss : 0 ≤ ss) :
    ∀ (n : Nat) (i : Int) (sib sib1 : Bytes), 0 ≤ i →
      mergeFrom tr childBlock ss cs n i sib = some sib1 →
      ChildrenAll tr P sib (ss + i) → ChildrenAll tr P childBlock (i + n - 1) →
      ChildrenAll tr P sib1 (ss + i + n) := by
  intro n
  induction n with
  | zero =>
    intro i sib sib1 _ h hc _
    simp only [mergeFrom] at h
    cases h
    simpa using hc
  | succ k ih =>
    intro i sib sib1 hi h hc hr
    simp only [mergeFrom] at h
    split at h
    · cases h
    · rename_i c hget
      split at h
      · cases h
      · rename_i s1 hset
        obtain ⟨c2, hc2, hP⟩ := hr i hi (by push_cast; omega)
        rw [hget] at hc2
        cases hc2
        have h1 : ChildrenAll tr P s1 (ss + i + 1) := by
          have := @ChildrenAll.set_extend tr P sib s1 (ss + i) c hc (by
            rw [show ss + i + 1 = ss + 1 + i by ring]
            exact hset) hP (getBlockChild_inRange hget)
          exact this
        have hr2 : ChildrenAll tr P childBlock (i + 1 + (k : Int) - 1) := by
          apply hr.le
          push_cast
          omega
        split at h
        · split at h
          · rename_i x src hx hsrc
            split at h
            · cases h
            · rename_i s2 hcopy
              have h2 : ChildrenAll tr P s2 (ss + (i + 1)) := by
                rw [show ss + (i + 1) = ss + i + 1 by ring]
                exact h1.congr (getBlockChild_copyNodeSlice (by omega) hcopy)
              have := ih (i + 1) s2 sib1 (by omega) h h2 hr2
              rw [show ss + i + ((k + 1 : Nat) : Int) = ss + (i + 1) + (k : Int) by
                push_cast; ring]
              exact this
          · cases h
        · have h2 : ChildrenAll tr P s1 (ss + (i + 1)) := by
            rw [show ss + (i + 1) = ss + i + 1 by ring]
            exact h1
          have := ih (i + 1) s1 sib1 (by omega) h h2 hr2
          rw [show ss + i + ((k + 1 : Nat) : Int) = ss + (i + 1) + (k : Int) by
            push_cast; ring]
          exact this

theorem mergeBlocks_shape {tr : BTree} {P : TreeIndex → Prop} (hF : 0 ≤ tr.FanOut)
    {block sibBlock childBlock m : Bytes} {sibIndex ss cs : Int}
    (hss : 0 ≤ ss) (hcs : 0 ≤ cs) (hlt : ss + cs + 1 < 4294967296)
    (h : mergeBlocks tr block sibIndex sibBlock ss childBlock cs = some m)
    (hL : ChildrenAll tr P sibBlock ss) (hR : ChildrenAll tr P childBlock cs) :
    getBlockSize m = some (ss + cs + 1) ∧ ChildrenAll tr P m (ss + cs + 1) := by
  unfold mergeBlocks at h
  split at h
  · rename_i x sep hx hsep
    split at h
    · cases h
    · rename_i sib1 hcopy
      split at h
      · cases h
      · rename_i sib2 hmerge
        have h1 : ChildrenAll tr P sib1 (ss + 0) := by
          rw [add_zero]
          exact hL.congr (getBlockChild_copyNodeSlice hss hcopy)
        have h2 : ChildrenAll tr P childBlock (0 + ((cs + 1).toNat : Int) - 1) := by
          apply hR.le
          omega
        have h3 := mergeFrom_children childBlock ss cs hss (cs + 1).toNat 0 sib1 sib2
          (le_refl 0) hmerge h1 h2
        constructor
        · rw [getBlockSize_setBlockSize h]
          congr 1
          omega
        · apply ChildrenAll.congr _ (getBlockChild_setBlockSize tr h)
          apply h3.le
          omega
  · cases h

theorem sliceAt_mem {α : Type} {xs : List α} {i : Int} {a : α} (h : sliceAt xs i = some a) :
    a ∈ xs := by
  unfold sliceAt at h
  split at h
  · cases h
  · exact List.get?_mem h

theorem gatherFrom_spec {tr : BTree} {P : TreeIndex → Prop} (blk : Bytes) (size : Int)
    (hc : ChildrenAll tr P blk size) :
    ∀ (n : Nat) (i : Int) (g g1 : Gathered), 0 ≤ i → i + n = size + 1 →
      gatherFrom tr blk size n i g = some g1 →
      (∀ c ∈ g.childTrees, P c ∧ InRange c) →
      (∀ c ∈ g1.childTrees, P c ∧ InRange c)
      ∧ (n = 0 → g1.nodeKeys.length = g.nodeKeys.length)
      ∧ (1 ≤ n → g1.nodeKeys.length + 1 = g.nodeKeys.length + n) := by
  intro n
  induction n with
  | zero =>
    intro i g g1 _ _ h hg
    simp only [gatherFrom] at h
    cases h
    exact ⟨hg, fun _ => rfl, fun h => absurd h (by omega)⟩
  | succ k ih =>
    intro i g g1 hi hn h hg
    simp only [gatherFrom] at h
    split at h
    · cases h
    · rename_i c hget
      obtain ⟨c2, hc2, hP⟩ := hc i hi (by push_cast at hn; omega)
      rw [hget] at hc2
      cases hc2
      have hg2 : ∀ x ∈ g.childTrees ++ [c], P x ∧ InRange x := by
        intro x hx
        rcases List.mem_append.mp hx with h1 | h1
        · exact hg x h1
        · simp only [List.mem_singleton] at h1
          subst h1
          exact ⟨hP, getBlockChild_inRange hget⟩
      split at h
      · rename_i hlt
        split at h
        · cases h
        · split at h
          · rename_i node x1 x2 kk vv hk hv
            obtain ⟨r1, r2, r3⟩ := ih (i + 1) _ g1 (by omega) (by push_cast at hn ⊢; omega) h hg2
            refine ⟨r1, fun h0 => absurd h0 (by omega), fun _ => ?_⟩
            have hk1 : 1 ≤ k := by
              push_cast at hn
              omega
            have := r3 hk1
            simp only [List.length_append, List.length_singleton] at this
            omega
          · cases h
      · rename_i hlt
        have hk0 : k = 0 := by
          push_cast at hn
          omega
        obtain ⟨r1, r2, r3⟩ := ih (i + 1) _ g1 (by omega) (by push_cast at hn ⊢; omega) h hg2
        refine ⟨r1, fun h0 => absurd h0 (by omega), fun _ => ?_⟩
        have := r2 hk0
        simp only at this
        omega

theorem gatherAll_spec {tr : BTree} {P : TreeIndex → Prop} {block sibBlock childBlock : Bytes}
    {sibIndex ss cs : Int} {g : Gathered} (hss : 0 ≤ ss) (hcs : 0 ≤ cs)
    (h : gatherAll tr block sibIndex sibBlock ss childBlock cs = some g)
    (hL : ChildrenAll tr P sibBlock ss) (hR : ChildrenAll tr P childBlock cs) :
    (∀ c ∈ g.childTrees, P c ∧ InRange c) ∧ (g.nodeKeys.length : Int) = ss + cs + 1 := by
  unfold gatherAll at h
  split at h
  · cases h
  · rename_i g1 hg1
    obtain ⟨a1, _, a3⟩ := gatherFrom_spec sibBlock ss hL (ss + 1).toNat 0 _ g1 (le_refl 0)
      (by omega) hg1 (by simp)
    split at h
    · cases h
    · split at h
      · rename_i node x1 x2 kk vv hk hv
        obtain ⟨b1, _, b3⟩ := gatherFrom_spec childBlock cs hR (cs + 1).toNat 0 _ g (le_refl 0)
          (by omega) h a1
        refine ⟨b1, ?_⟩
        have e1 := a3 (by omega)
        have e2 := b3 (by omega)
        simp only [List.length_nil, List.length_append, List.length_singleton] at e1 e2
        omega
      · cases h

theorem scatterFrom_spec {tr : BTree} {P : TreeIndex → Prop} (hF : 0 ≤ tr.FanOut)
    (g : Gathered) (base size : Int) (hg : ∀ c ∈ g.childTrees, P c ∧ InRange c) :
    ∀ (n : Nat) (i : Int) (buf b1 : Bytes), 0 ≤ i →
      scatterFrom tr g base size n i buf = some b1 →
      ChildrenAll tr P buf (i - 1) →
      ChildrenAll tr P b1 (i + n - 1) ∧ getBlockSize b1 = getBlockSize buf := by
  intro n
  induction n with
  | zero =>
    intro i buf b1 _ h hc
    simp only [scatterFrom] at h
    cases h
    exact ⟨by simpa using hc, rfl⟩
  | succ k ih =>
    intro i buf b1 hi h hc
    simp only [scatterFrom] at h
    split at h
    · cases h
    · rename_i c hsl
      obtain ⟨hP, hr⟩ := hg c (sliceAt_mem hsl)
      split at h
      · cases h
      · rename_i buf1 hset
        have h1 : ChildrenAll tr P buf1 (i - 1 + 1) :=
          hc.set_extend (by rw [show i - 1 + 1 = i by ring]; exact hset) hP hr
        have hsz1 := getBlockSize_setBlockChild hset
        split at h
        · split at h
          · rename_i x1 x2 kk vv hk hv
            split at h
            · cases h
            · rename_i buf2 hnode
              have h2 : ChildrenAll tr P buf2 (i + 1 - 1) := by
                rw [show i + 1 - 1 = i - 1 + 1 by ring]
                exact h1.congr (getBlockChild_setNodeAt hi hnode)
              obtain ⟨r1, r2⟩ := ih (i + 1) buf2 b1 (by omega) h h2
              refine ⟨?_, ?_⟩
              · rw [show i + ((k + 1 : Nat) : Int) - 1 = i + 1 + (k : Int) - 1 by push_cast; ring]
                exact r1
              · rw [r2, getBlockSize_setNodeAt hF hi hnode, hsz1]
          · cases h
        · have h2 : ChildrenAll tr P buf1 (i + 1 - 1) := by
            rw [show i + 1 - 1 = i - 1 + 1 by ring]
            exact h1
          obtain ⟨r1, r2⟩ := ih (i + 1) buf1 b1 (by omega) h h2
          refine ⟨?_, ?_⟩
          · rw [show i + ((k + 1 : Nat) : Int) - 1 = i + 1 + (k : Int) - 1 by push_cast; ring]
            exact r1
          · rw [r2, hsz1]

theorem fillBlock_shape {tr : BTree} {P : TreeIndex → Prop} (hF : 0 ≤ tr.FanOut)
    {g : Gathered} {base size : Int} {buf b1 : Bytes}
    (hg : ∀ c ∈ g.childTrees, P c ∧ InRange c) (h0 : 0 ≤ size) (hlt : size < 4294967296)
    (h : fillBlock tr g base size buf = some b1) :
    getBlockSize b1 = some size ∧ ChildrenAll tr P b1 size := by
  unfold fillBlock at h
  split at h
  · cases h
  · rename_i buf1 hset
    have hvac : ChildrenAll tr P buf1 (0 - 1) := by
      intro j hj hj2
      omega
    obtain ⟨r1, r2⟩ := scatterFrom_spec hF g base size hg (size + 1).toNat 0 buf1 b1
      (le_refl 0) h hvac
    constructor
    · rw [r2, getBlockSize_setBlockSize hset]
      congr 1
      omega
    · apply r1.le
      omega

/-! ### Merge and rotation keep the shape -/

theorem poolGet_blocks (s : Allocator) : s.poolGet.2.blocks = s.blocks := by
  unfold Allocator.poolGet
  split <;> rfl

theorem poolPut_blocks (s : Allocator) (b : Bytes) : (s.poolPut b).blocks = s.blocks := rfl

theorem read_blocks (s : Allocator) (i : Int) : (s.read i).2.blocks = s.blocks := by
  unfold Allocator.read
  simp only
  split
  · rfl
  · split <;> rfl

theorem goodChild_succ_of_shape {tr : BTree} {B : List (TreeIndex × BlockEntry)} {k : Nat}
    {block : Bytes} {size j c : Int} (hb : BlockShape tr B (k + 1) block size)
    (hj : 0 ≤ j) (hj2 : j ≤ size) (hc : getBlockChild tr block j = some c) :
    c ≠ 0 ∧ Balanced tr B k c ∧ InRange c := by
  obtain ⟨c1, hc1, hg⟩ := hb.2.2 j hj hj2
  rw [hc] at hc1
  cases hc1
  exact ⟨hg.1, hg.2, getBlockChild_inRange hc⟩

theorem mergeSiblings_shape {tr : BTree} {tag : Nat} {block sibBlock childBlock : Bytes}
    {blockSize sibIndex sibTree ss cs : Int} {dk : Option KeyType} {dv : Option ValueType}
    {swapped : Bool} {s s1 : Allocator} {r : HelperRet} {k : Nat}
    (hF : 2 ≤ tr.FanOut) (hev : tr.FanOut % 2 = 0) (hF32 : tr.FanOut < 4294967296)
    (hblock : BlockShape tr s.blocks (k + 1) block blockSize)
    (hidx : 0 ≤ sibIndex) (hidx2 : sibIndex + 1 ≤ blockSize)
    (hsibTree : getBlockChild tr block sibIndex = some sibTree)
    (hL : BlockShape tr s.blocks k sibBlock ss) (hR : BlockShape tr s.blocks k childBlock cs)
    (hbig : tr.FanOut / 2 ≤ ss ∨ tr.FanOut / 2 ≤ cs) (hsum : ¬ cs + ss ≥ tr.FanOut)
    (heq : mergeSiblings tr tag block blockSize sibIndex sibTree sibBlock ss childBlock cs
      dk dv swapped s = (Outcome.ret r, s1))
    (herr : r.err = none) :
    BlockShape tr s1.blocks (k + 1) r.block (blockSize - 1) ∧ Ext tr (k + 1) s.blocks s1.blocks := by
  have hss := getBlockSize_nonneg hL.1
  have hcs := getBlockSize_nonneg hR.1
  obtain ⟨hs0, hsB, hsR⟩ := goodChild_succ_of_shape hblock hidx (by omega) hsibTree
  unfold mergeSiblings at heq
  dsimp only at heq
  split at heq
  · cases heq
  · rename_i sibMerged hm
    obtain ⟨m1, m2⟩ := mergeBlocks_shape (P := GoodChild tr s.blocks k) (by omega) hss hcs
      (by omega) hm hL.2.2 hR.2.2
    have hshape : BlockShape tr s.blocks k sibMerged (ss + cs + 1) := ⟨m1, by omega, m2⟩
    split at heq
    · cases heq
    · cases heq
      cases herr
    · rename_i w1 s2 hcu
      obtain ⟨e1, e2, e3, e4⟩ := ext_copyUpBlock hcu hshape (by omega) hsB hs0 hsR
      split at heq
      · cases heq
      · rename_i block1 hgap
        split at heq
        · cases heq
        · rename_i block2 hset
          have hst : s1.blocks = s2.blocks := by
            cases heq
            split <;> rfl
          have hr : r.block = block2 := by
            cases heq
            rfl
          rw [hst, hr]
          refine ⟨?_, e1⟩
          have hP : ChildrenAll tr (GoodChild tr s2.blocks (k + 1)) block blockSize :=
            (blockShape_mono e1.1 hblock).2.2
          obtain ⟨g1, g2⟩ := closeGap_children (by omega) blockSize
            (blockSize - 1 - sibIndex).toNat sibIndex block block1 hidx (by left; omega) hgap hP
          have hlt := getBlockSize_lt hblock.1
          refine ⟨?_, by have := hblock.2.1; omega, ?_⟩
          · rw [getBlockSize_setBlockSize hset]
            congr 1
            omega
          · apply ChildrenAll.congr _ (getBlockChild_setBlockSize tr hset)
            apply g1.le
            omega

theorem rotateBlocks_shape {tr : BTree} {tag : Nat} {block sibBlock childBlock : Bytes}
    {blockSize sibIndex sibTree childTree ss cs : Int} {dk : Option KeyType}
    {dv : Option ValueType} {swapped : Bool} {s s1 : Allocator} {r : HelperRet} {k : Nat}
    (hF : 2 ≤ tr.FanOut) (hev : tr.FanOut % 2 = 0) (hF32 : tr.FanOut < 4294967296)
    (hblock : BlockShape tr s.blocks (k + 1) block blockSize)
    (hidx : 0 ≤ sibIndex) (hidx2 : sibIndex + 1 ≤ blockSize)
    (hsibTree : getBlockChild tr block sibIndex = some sibTree)
    (hchildTree : getBlockChild tr block (sibIndex + 1) = some childTree)
    (hL : BlockShape tr s.blocks k sibBlock ss) (hR : BlockShape tr s.blocks k childBlock cs)
    (hsmall : ss * 2 < tr.FanOut ∨ cs * 2 < tr.FanOut) (hsum : cs + ss ≥ tr.FanOut)
    (heq : rotateBlocks tr tag block sibIndex sibTree sibBlock ss childTree childBlock cs
      dk dv swapped s = (Outcome.ret r, s1))
    (herr : r.err = none) :
    BlockShape tr s1.blocks (k + 1) r.block blockSize ∧ Ext tr (k + 1) s.blocks s1.blocks := by
  have hss := getBlockSize_nonneg hL.1
  have hcs := getBlockSize_nonneg hR.1
  have hssF := hL.2.1
  have hcsF := hR.2.1
  obtain ⟨hs0, hsB, hsR⟩ := goodChild_succ_of_shape hblock hidx (by omega) hsibTree
  obtain ⟨hc0, hcB, hcR⟩ := goodChild_succ_of_shape hblock (by omega) hidx2 hchildTree
  unfold rotateBlocks at heq
  dsimp only at heq
  split at heq
  · cases heq
  · rename_i g hg
    obtain ⟨g1, g2⟩ := gatherAll_spec (P := GoodChild tr s.blocks k) hss hcs hg hL.2.2 hR.2.2
    rw [g2] at heq
    split at heq
    · cases heq
    · rename_i sibNew hfill1
      split at heq
      · cases heq
      · rename_i childNew hfill2
        obtain ⟨a1, a2⟩ := fillBlock_shape (P := GoodChild tr s.blocks k) (by omega) g1
          (by omega) (by omega) hfill1
        obtain ⟨b1, b2⟩ := fillBlock_shape (P := GoodChild tr s.blocks k) (by omega) g1
          (by omega) (by omega) hfill2
        have hB2 : s.poolGet.2.poolGet.2.blocks = s.blocks := by
          rw [poolGet_blocks, poolGet_blocks]
        have hshL : BlockShape tr s.poolGet.2.poolGet.2.blocks k sibNew
            ((ss + cs + 1 - 1) / 2) := by
          rw [hB2]
          exact ⟨a1, by omega, a2⟩
        split at heq
        · cases heq
        · cases heq
          cases herr
        · rename_i sibTree1 s3 hcu1
          obtain ⟨e1, e2, e3, e4⟩ := ext_copyUpBlock hcu1 hshL (by omega)
            (by rw [hB2]; exact hsB) hs0 hsR
          rw [hB2] at e1
          have hshR : BlockShape tr s3.blocks k childNew
              (ss + cs + 1 - 1 - (ss + cs + 1 - 1) / 2) :=
            blockShape_mono e1.1 ⟨b1, by omega, b2⟩
          split at heq
          · cases heq
          · cases heq
            cases herr
          · rename_i childTree1 s4 hcu2
            obtain ⟨f1, f2, f3, f4⟩ := ext_copyUpBlock hcu2 hshR (by omega)
              (e1.1 k childTree hcB) hc0 hcR
            have hext : Ext tr (k + 1) s.blocks s4.blocks := ext_trans e1 f1
            split at heq
            · rename_i x1 x2 kk vv hk hv
              split at heq
              · cases heq
              · rename_i block1 hnode
                split at heq
                · cases heq
                · rename_i block2 hset1
                  split at heq
                  · cases heq
                  · rename_i block3 hset2
                    have hst : s1.blocks = s4.blocks := by
                      cases heq
                      split <;> rfl
                    have hr : r.block = block3 := by
                      cases heq
                      rfl
                    rw [hst, hr]
                    refine ⟨⟨?_, hblock.2.1, ?_⟩, hext⟩
                    · rw [getBlockSize_setBlockChild hset2, getBlockSize_setBlockChild hset1,
                        getBlockSize_setNodeAt (by omega) hidx hnode]
                      exact hblock.1
                    · have h0 : ChildrenAll tr (GoodChild tr s4.blocks (k + 1)) block1 blockSize :=
                        ((blockShape_mono hext.1 hblock).2.2).congr
                          (getBlockChild_setNodeAt hidx hnode)
                      have h1 := h0.set_keep hset1 ⟨e3, f1.1 k sibTree1 e2⟩ e4
                      exact h1.set_keep hset2 ⟨f3, f2⟩ f4
            · cases heq

theorem read_ok {s s2 : Allocator} {i : Int} {b : Bytes}
    (h : s.read i = (Except.ok b, s2)) :
    (∃ e, lookup s.blocks i = some e ∧ b = e.data) ∧ s2.blocks = s.blocks := by
  unfold Allocator.read at h
  simp only at h
  split at h
  · cases h
  · split at h
    · cases h
    · rename_i e he
      cases h
      exact ⟨⟨e, he, rfl⟩, rfl⟩

theorem rotateOrMerge_shape {tr : BTree} {tag : Nat} {block sibBlock childBlock : Bytes}
    {blockSize sibIndex sibTree childTree ss cs : Int} {dk : Option KeyType}
    {dv : Option ValueType} {swapped : Bool} {s s1 : Allocator} {r : HelperRet} {k : Nat}
    (hF : 2 ≤ tr.FanOut) (hev : tr.FanOut % 2 = 0) (hF32 : tr.FanOut < 4294967296)
    (hblock : BlockShape tr s.blocks (k + 1) block blockSize)
    (hidx : 0 ≤ sibIndex) (hidx2 : sibIndex + 1 ≤ blockSize)
    (hsibTree : getBlockChild tr block sibIndex = some sibTree)
    (hchildTree : getBlockChild tr block (sibIndex + 1) = some childTree)
    (hL : BlockShape tr s.blocks k sibBlock ss) (hR : BlockShape tr s.blocks k childBlock cs)
    (hbig : tr.FanOut / 2 ≤ ss ∨ tr.FanOut / 2 ≤ cs)
    (hsmall : ss * 2 < tr.FanOut ∨ cs * 2 < tr.FanOut)
    (heq : rotateOrMerge tr tag block blockSize sibIndex sibTree sibBlock ss childTree
      childBlock cs dk dv swapped s = (Outcome.ret r, s1))
    (herr : r.err = none) :
    (∃ size1, BlockShape tr s1.blocks (k + 1) r.block size1)
    ∧ Ext tr (k + 1) s.blocks s1.blocks := by
  unfold rotateOrMerge at heq
  split at heq
  · rename_i hsum
    obtain ⟨a, b⟩ := rotateBlocks_shape hF hev hF32 hblock hidx hidx2 hsibTree hchildTree
      hL hR hsmall hsum heq herr
    exact ⟨⟨_, a⟩, b⟩
  · rename_i hsum
    obtain ⟨a, b⟩ := mergeSiblings_shape hF hev hF32 hblock hidx hidx2 hsibTree
      hL hR hbig hsum heq herr
    exact ⟨⟨_, a⟩, b⟩

theorem rebalance_shape {tr : BTree} {tag : Nat} {block childBlock : Bytes}
    {insertInd childTree blockSize csz : Int} {dk : Option KeyType} {dv : Option ValueType}
    {s s1 : Allocator} {r : HelperRet} {k : Nat}
    (hF : 2 ≤ tr.FanOut) (hev : tr.FanOut % 2 = 0) (hF32 : tr.FanOut < 4294967296)
    (hblock : BlockShape tr s.blocks (k + 1) block blockSize) (h1 : 1 ≤ blockSize)
    (hins : 0 ≤ insertInd) (hins2 : insertInd ≤ blockSize)
    (hchild : getBlockChild tr block insertInd = some childTree)
    (hcb : BlockShape tr s.blocks k childBlock csz)
    (heq : rebalance tr tag block insertInd childTree childBlock dk dv blockSize s
      = (Outcome.ret r, s1))
    (herr : r.err = none) :
    (∃ size1, BlockShape tr s1.blocks (k + 1) r.block size1)
    ∧ Ext tr (k + 1) s.blocks s1.blocks := by
  obtain ⟨hc0, hcB, hcR⟩ := goodChild_succ_of_shape hblock hins hins2 hchild
  have hcsz := getBlockSize_nonneg hcb.1
  unfold rebalance at heq
  rw [hcb.1] at heq
  dsimp only at heq
  split at heq
  · rename_i hfine
    split at heq
    · cases heq
    · cases heq
      cases herr
    · rename_i childTree1 s2 hcu
      obtain ⟨e1, e2, e3, e4⟩ := ext_copyUpBlock hcu hcb (by omega) hcB hc0 hcR
      split at heq
      · cases heq
      · rename_i block1 hset
        cases heq
        refine ⟨⟨blockSize, ?_, hblock.2.1, ?_⟩, e1⟩
        · rw [getBlockSize_setBlockChild hset]
          exact hblock.1
        · exact ((blockShape_mono e1.1 hblock).2.2).set_keep hset ⟨e3, e2⟩ e4
  · rename_i hsmall
    have hB1 : s.poolGet.2.blocks = s.blocks := poolGet_blocks s
    by_cases hlt : insertInd - 1 < 0
    · simp only [if_pos hlt] at heq
      have hcond : insertInd < insertInd + 1 := by omega
      simp only [hcond, if_true] at heq
      split at heq
      · cases heq
      · rename_i sibTree hsib
        split at heq
        · cases heq
          cases herr
        · rename_i sibBlock s2 hread
          obtain ⟨⟨e, he, hdata⟩, hB2⟩ := read_ok hread
          rw [hB1] at he hB2
          subst hdata
          split at heq
          · cases heq
          · rename_i ss hss
            obtain ⟨hs0, hsB, hsR⟩ := goodChild_succ_of_shape hblock (by omega) (by omega) hsib
            obtain ⟨e1, ss1, he1, hsh1, hmin1⟩ := (balanced_iff tr s.blocks k sibTree).mp hsB
            rw [he] at he1
            cases he1
            have : ss1 = ss := by
              have := hsh1.1
              rw [hss] at this
              cases this
              rfl
            subst this
            rw [← hB2] at hblock hcb hsh1
            obtain ⟨a, b⟩ := rotateOrMerge_shape hF hev hF32 hblock hins (by omega) hchild hsib
              hcb hsh1 (Or.inr hmin1) (Or.inl (by omega)) heq herr
            rw [hB2] at b
            exact ⟨a, b⟩
    · simp only [if_neg hlt] at heq
      have hcond : ¬ insertInd < insertInd - 1 := by omega
      simp only [hcond, if_false] at heq
      split at heq
      · cases heq
      · rename_i sibTree hsib
        split at heq
        · cases heq
          cases herr
        · rename_i sibBlock s2 hread
          obtain ⟨⟨e, he, hdata⟩, hB2⟩ := read_ok hread
          rw [hB1] at he hB2
          subst hdata
          split at heq
          · cases heq
          · rename_i ss hss
            obtain ⟨hs0, hsB, hsR⟩ := goodChild_succ_of_shape hblock (by omega) (by omega) hsib
            obtain ⟨e1, ss1, he1, hsh1, hmin1⟩ := (balanced_iff tr s.blocks k sibTree).mp hsB
            rw [he] at he1
            cases he1
            have : ss1 = ss := by
              have := hsh1.1
              rw [hss] at this
              cases this
              rfl
            subst this
            rw [← hB2] at hblock hcb hsh1
            obtain ⟨a, b⟩ := rotateOrMerge_shape hF hev hF32 hblock (by omega) (by omega) hsib
              (by rw [show insertInd - 1 + 1 = insertInd by ring]; exact hchild)
              hsh1 hcb (Or.inl hmin1) (Or.inr (by omega)) heq herr
            rw [hB2] at b
            exact ⟨a, b⟩

/-! ### The descent keeps the shape -/

theorem searchFrom_bounds (tr : BTree) (block : Bytes) (key : KeyType) :
    ∀ (n : Nat) (i ins : Int) (m : Bool), searchFrom tr block key n i = some (ins, m) →
      i ≤ ins ∧ ins ≤ i + n ∧ (m = true → ins < i + n) := by
  intro n
  induction n with
  | zero =>
    intro i ins m h
    simp only [searchFrom] at h
    cases h
    simp
  | succ k ih =>
    intro i ins m h
    simp only [searchFrom] at h
    split at h
    · cases h
    · split at h
      · cases h
      · split at h
        · cases h
          refine ⟨le_refl _, ?_, ?_⟩
          · push_cast
            omega
          · intro hm
            cases hm
        · cases h
          refine ⟨le_refl _, ?_, ?_⟩
          · push_cast
            omega
          · intro _
            push_cast
            omega
        · obtain ⟨h1, h2, h3⟩ := ih (i + 1) ins m h
          refine ⟨by omega, ?_, ?_⟩
          · push_cast
            omega
          · intro hm
            have := h3 hm
            push_cast
            omega

theorem locate_bounds {tr : BTree} {block : Bytes} {key : Option KeyType} {ins size : Int}
    {m : Bool} (h : locate tr block key = some (ins, m)) (hs : getBlockSize block = some size) :
    ins ≤ size ∧ (m = true → ins < size) := by
  have h0 := getBlockSize_nonneg hs
  unfold locate at h
  split at h
  · rw [hs] at h
    dsimp only at h
    split at h
    · cases h
    · split at h
      · cases h
        exact ⟨by omega, fun _ => by omega⟩
      · cases h
        refine ⟨le_refl _, ?_⟩
        intro hm
        cases hm
  · unfold searchBlock at h
    rw [hs] at h
    dsimp only at h
    obtain ⟨_, h2, h3⟩ := searchFrom_bounds tr block _ _ _ _ _ h
    refine ⟨by omega, ?_⟩
    intro hm
    have := h3 hm
    omega

theorem removeFromLeaf_header {tr : BTree} {block b1 : Bytes} {ins size : Int}
    {key dk : Option KeyType} {dv : Option ValueType} (hF : 0 ≤ tr.FanOut)
    (h : removeFromLeaf tr block ins size key = some (b1, dk, dv))
    (hi : 0 ≤ ins) (hlt : ins < size) (hs : getBlockSize block = some size) :
    getBlockSize b1 = some (size - 1) ∧ ∀ j, getBlockChild tr b1 j = getBlockChild tr block j := by
  have hlt2 := getBlockSize_lt hs
  unfold removeFromLeaf at h
  dsimp only at h
  split at h
  · cases h
  · split at h
    · cases h
    · rename_i block1 hshift
      split at h
      · cases h
      · rename_i block2 hset
        cases h
        obtain ⟨a1, a2⟩ := shiftNodes_header hF _ _ _ _ hi hshift
        constructor
        · rw [getBlockSize_setBlockSize hset]
          congr 1
          omega
        · intro j
          rw [getBlockChild_setBlockSize tr hset, a2 j]

theorem deleteHelper_zero {tr : BTree} {tag : Nat} {fuel : Nat} {key : Option KeyType}
    {s s1 : Allocator} {r : HelperRet}
    (h : deleteHelper tr tag fuel 0 key s = (Outcome.ret r, s1)) :
    r.err = some Error.keyNotFound ∧ s1 = s.poolGet.2 := by
  cases fuel with
  | zero =>
    simp only [deleteHelper] at h
    cases h
  | succ n =>
    unfold deleteHelper at h
    dsimp only at h
    rw [if_pos rfl] at h
    cases h
    exact ⟨rfl, rfl⟩

theorem blockShape_congr {tr : BTree} {B : List (TreeIndex × BlockEntry)} {h : Nat}
    {b b1 : Bytes} {size : Int} (hs : BlockShape tr B h b size)
    (h1 : getBlockSize b1 = getBlockSize b)
    (h2 : ∀ j, getBlockChild tr b1 j = getBlockChild tr b j) : BlockShape tr B h b1 size :=
  ⟨by rw [h1]; exact hs.1, hs.2.1, hs.2.2.congr h2⟩

theorem deleteHelper_shape {tr : BTree} {tag : Nat}
    (hF : 2 ≤ tr.FanOut) (hev : tr.FanOut % 2 = 0) (hF32 : tr.FanOut < 4294967296) :
    ∀ (fuel h : Nat) (idx : Int) (key : Option KeyType) (s s1 : Allocator) (r : HelperRet)
      (e : BlockEntry) (size : Int),
      lookup s.blocks idx = some e → BlockShape tr s.blocks h e.data size → (h = 0 ∨ 1 ≤ size) →
      deleteHelper tr tag fuel idx key s = (Outcome.ret r, s1) → r.err = none →
      (∃ size1, BlockShape tr s1.blocks h r.block size1) ∧ Ext tr h s.blocks s1.blocks := by
  intro fuel
  induction fuel with
  | zero =>
    intro h idx key s s1 r e size _ _ _ heq _
    simp only [deleteHelper] at heq
    cases heq
  | succ n ih =>
    intro h idx key s s1 r e size hl hsh hne heq herr
    have hB1 : s.poolGet.2.blocks = s.blocks := poolGet_blocks s
    unfold deleteHelper at heq
    dsimp only at heq
    split at heq
    · cases heq
      cases herr
    · split at heq
      · cases heq
        cases herr
      · rename_i block s2 hread
        obtain ⟨⟨e1, he1, hdata⟩, hB2⟩ := read_ok hread
        rw [hB1] at he1 hB2
        rw [hl] at he1
        cases he1
        subst hdata
        split at heq
        · cases heq
        · rename_i ins m hloc
          split at heq
          · rename_i x1 x2 childTree blockSize hchild hsize
            have hsz : size = blockSize := by
              have := hsh.1
              rw [hsize] at this
              cases this
              rfl
            subst hsz
            obtain ⟨hins2, hm⟩ := locate_bounds hloc hsize
            have hins := (getBlockChild_index hchild).1
            obtain ⟨c1, hc1, hg⟩ := hsh.2.2 ins hins hins2
            rw [hchild] at hc1
            cases hc1
            cases h with
            | zero =>
              have hc0 : childTree = 0 := hg
              subst hc0
              split at heq
              · rename_i hmt
                try rw [if_pos rfl] at heq
                split at heq
                · cases heq
                · rename_i block1 dk dv hrem
                  cases heq
                  obtain ⟨a1, a2⟩ := removeFromLeaf_header (by omega) hrem hins (hm hmt) hsize
                  rw [hB2]
                  refine ⟨⟨size - 1, a1, by have := hsh.2.1; omega, ?_⟩, ext_refl _ _ _⟩
                  apply ChildrenAll.congr _ a2
                  apply hsh.2.2.le
                  omega
              · split at heq
                · cases heq
                · cases heq
                · rename_i r1 s3 hrec
                  have := (deleteHelper_zero hrec).1
                  rw [this] at heq
                  dsimp only at heq
                  cases heq
                  cases herr
            | succ k =>
              obtain ⟨hc0, hcB⟩ : childTree ≠ 0 ∧ Balanced tr s.blocks k childTree := hg
              have h1 : 1 ≤ size := by
                rcases hne with h | h
                · cases h
                · exact h
              have hrec : ∀ (key1 : Option KeyType) (r1 : HelperRet) (s3 : Allocator),
                  deleteHelper tr tag n childTree key1 s2 = (Outcome.ret r1, s3) →
                  r1.err = none →
                  (∃ csz, BlockShape tr s3.blocks k r1.block csz)
                  ∧ Ext tr (k + 1) s.blocks s3.blocks := by
                intro key1 r1 s3 hrun herr1
                obtain ⟨ec, sc, hlc, hshc, hminc⟩ := (balanced_iff tr s.blocks k childTree).mp hcB
                rw [← hB2] at hlc hshc
                obtain ⟨a, b⟩ := ih k childTree key1 s2 s3 r1 ec sc hlc hshc
                  (Or.inr (by omega)) hrun herr1
                rw [hB2] at b
                exact ⟨a, Ext.mono (Nat.le_succ k) b⟩
              have hreb : ∀ (block1 : Bytes) (r1 : HelperRet) (s3 : Allocator)
                  (dk : Option KeyType) (dv : Option ValueType),
                  getBlockSize block1 = getBlockSize e.data →
                  (∀ j, getBlockChild tr block1 j = getBlockChild tr e.data j) →
                  (∃ csz, BlockShape tr s3.blocks k r1.block csz) →
                  Ext tr (k + 1) s.blocks s3.blocks →
                  rebalance tr tag block1 ins childTree r1.block dk dv size s3
                    = (Outcome.ret r, s1) →
                  (∃ size1, BlockShape tr s1.blocks (k + 1) r.block size1)
                  ∧ Ext tr (k + 1) s.blocks s1.blocks := by
                intro block1 r1 s3 dk dv hz1 hz2 ⟨csz, hcsz⟩ hext hrun
                have hb1 : BlockShape tr s3.blocks (k + 1) block1 size :=
                  blockShape_congr (blockShape_mono hext.1 hsh) hz1 hz2
                obtain ⟨a, b⟩ := rebalance_shape hF hev hF32 hb1 h1 hins hins2
                  (by rw [hz2]; exact hchild) hcsz hrun herr
                exact ⟨a, ext_trans hext b⟩
              split at heq
              · try rw [if_neg hc0] at heq
                split at heq
                · cases heq
                · cases heq
                · rename_i r1 s3 hrun
                  split at heq
                  · cases heq
                    cases herr
                  · rename_i herr1
                    obtain ⟨a, b⟩ := hrec none r1 s3 hrun herr1
                    split at heq
                    · cases heq
                    · rename_i block1 hnode
                      exact hreb block1 r1 s3 r1.deletedKey r1.deletedValue
                        (getBlockSize_setNodeAt (by omega) hins hnode)
                        (getBlockChild_setNodeAt hins hnode) a b heq
              · split at heq
                · cases heq
                · cases heq
                · rename_i r1 s3 hrun
                  split at heq
                  · cases heq
                    cases herr
                  · rename_i herr1
                    obtain ⟨a, b⟩ := hrec key r1 s3 hrun herr1
                    exact hreb e.data r1 s3 r1.deletedKey r1.deletedValue rfl (fun _ => rfl)
                      a b heq
          · cases heq

/-! ### `Delete` keeps the tree well formed -/

theorem write_ok {s s1 : Allocator} {tag : Nat} {i : Int} {buf : Bytes}
    (h : s.write tag i buf = (none, s1)) :
    ∃ ro, ∀ j, lookup s1.blocks j = if i = j then some ⟨ro, buf⟩ else lookup s.blocks j := by
  unfold Allocator.write at h
  simp only at h
  split at h
  · cases h
  · cases h
    exact ⟨_, fun j => lookup_setEntry _ _ _ _⟩

theorem free_ok {s s1 : Allocator} {i : Int} (h : s.free i = (none, s1)) :
    ∀ j, lookup s1.blocks j = if i = j then none else lookup s.blocks j := by
  unfold Allocator.free at h
  simp only at h
  split at h
  · cases h
  · split at h
    · cases h
    · cases h
      exact fun j => lookup_removeEntry _ _ _

theorem read_none {s : Allocator} {i : Int} (h : lookup s.blocks i = none) :
    ∃ e s2, s.read i = (Except.error e, s2) := by
  unfold Allocator.read
  simp only
  split
  · exact ⟨_, _, rfl⟩
  · simp only [Allocator.get, h]
    exact ⟨_, _, rfl⟩

/-- Balanced subtrees below height `H` survive a change of the block map that
touches only indices which are not roots of such subtrees. -/
theorem balanced_below {tr : BTree} {B B1 : List (TreeIndex × BlockEntry)} (H : Nat)
    (hsame : ∀ i, lookup B1 i = lookup B i ∨ ∀ h1, h1 < H → ¬ Balanced tr B h1 i) :
    ∀ h1, h1 < H → ∀ i, Balanced tr B h1 i → Balanced tr B1 h1 i := by
  intro h1
  induction h1 with
  | zero =>
    intro hlt i hb
    have hl : lookup B1 i = lookup B i := by
      rcases hsame i with h | h
      · exact h
      · exact absurd hb (h 0 hlt)
    rw [balanced_iff] at hb ⊢
    obtain ⟨e, size, hle, hsh, hm⟩ := hb
    exact ⟨e, size, by rw [hl]; exact hle, ⟨hsh.1, hsh.2.1, hsh.2.2⟩, hm⟩
  | succ k ih =>
    intro hlt i hb
    have hl : lookup B1 i = lookup B i := by
      rcases hsame i with h | h
      · exact h
      · exact absurd hb (h (k + 1) hlt)
    rw [balanced_iff] at hb ⊢
    obtain ⟨e, size, hle, hsh, hm⟩ := hb
    exact ⟨e, size, by rw [hl]; exact hle, blockShape_mono_succ (ih (by omega)) hsh, hm⟩

theorem blockShape_below {tr : BTree} {B B1 : List (TreeIndex × BlockEntry)} {h : Nat}
    (hB : ∀ h1, h1 < h → ∀ i, Balanced tr B h1 i → Balanced tr B1 h1 i) {b : Bytes} {size : Int}
    (hs : BlockShape tr B h b size) : BlockShape tr B1 h b size := by
  refine ⟨hs.1, hs.2.1, fun j hj hj2 => ?_⟩
  obtain ⟨c, hc, hg⟩ := hs.2.2 j hj hj2
  refine ⟨c, hc, ?_⟩
  cases h with
  | zero => exact hg
  | succ k => exact ⟨hg.1, hB k (by omega) c hg.2⟩

theorem not_balanced_of_shape {tr : BTree} {B : List (TreeIndex × BlockEntry)} {H h1 : Nat}
    {i : Int} {e : BlockEntry} {size : Int} (hl : lookup B i = some e)
    (hs : BlockShape tr B H e.data size) (hlt : h1 < H) : ¬ Balanced tr B h1 i := by
  intro hb
  obtain ⟨e1, sz1, hl1, hsh1, _⟩ := (balanced_iff tr B h1 i).mp hb
  rw [hl] at hl1
  cases hl1
  have := shape_height_unique tr B H h1 e.data size sz1 hs hsh1
  omega

theorem delete_wellFormed {tr : BTree} {tag fuel : Nat} {root : Int} {key : KeyType}
    {s s1 : Allocator} {h : Nat}
    (hF : 2 ≤ tr.FanOut) (hev : tr.FanOut % 2 = 0) (hF32 : tr.FanOut < 4294967296)
    (h0 : lookup s.blocks 0 = none) (hwf : WellFormed tr s.blocks h root)
    (hok : Delete tr tag fuel root key s = (Outcome.ret none, s1)) :
    ∃ h1, WellFormed tr s1.blocks h1 root := by
  obtain ⟨e, size, hl, hsh, hne⟩ := hwf
  unfold Delete at hok
  split at hok
  · cases hok
  · split at hok
    · cases hok
    · split at hok
      · cases hok
      · cases hok
      · rename_i r s2 hrun
        split at hok
        · cases hok
        · rename_i herr
          obtain ⟨⟨size1, hsh1⟩, hext⟩ := deleteHelper_shape hF hev hF32 fuel h root (some key)
            s s2 r e size hl hsh hne hrun herr
          have hroot2 : lookup s2.blocks root = some e := hext.2.1 h root e size (le_refl h) hl hsh
          have hshroot2 : BlockShape tr s2.blocks h e.data size := blockShape_mono hext.1 hsh
          rw [hsh1.1] at hok
          dsimp only at hok
          split at hok
          · rename_i hsz0
            subst hsz0
            obtain ⟨c, hc, hg⟩ := hsh1.2.2 0 (le_refl 0) (le_refl 0)
            rw [hc] at hok
            dsimp only at hok
            cases h with
            | zero =>
              have hc0 : c = 0 := hg
              subst hc0
              obtain ⟨e1, s3, hrd⟩ := read_none (hext.2.2 h0)
              rw [hrd] at hok
              cases hok
            | succ k =>
              obtain ⟨hc0, hcB⟩ : c ≠ 0 ∧ Balanced tr s2.blocks k c := hg
              obtain ⟨ec, sc, hlc, hshc, hminc⟩ := (balanced_iff tr s2.blocks k c).mp hcB
              have hrc : root ≠ c := by
                intro hrc
                subst hrc
                rw [hroot2] at hlc
                cases hlc
                have := shape_height_unique tr s2.blocks (k + 1) k e.data size sc hshroot2 hshc
                omega
              split at hok
              · cases hok
              · rename_i cb s3 hread
                obtain ⟨⟨e1, he1, hdata⟩, hB3⟩ := read_ok hread
                rw [hlc] at he1
                cases he1
                subst hdata
                have hkey : ∀ (B1 : List (TreeIndex × BlockEntry)) (ro : Bool),
                    lookup B1 root = some ⟨ro, ec.data⟩ →
                    (∀ j, j ≠ root → j ≠ c → lookup B1 j = lookup s2.blocks j) →
                    WellFormed tr B1 k root := by
                  intro B1 ro hat hoth
                  refine ⟨⟨ro, ec.data⟩, sc, hat, ?_, Or.inr (by omega)⟩
                  apply blockShape_below _ hshc
                  apply balanced_below k
                  intro i
                  by_cases hir : i = root
                  · right
                    intro h1 hlt
                    rw [hir]
                    exact not_balanced_of_shape hroot2 hshroot2 (by omega)
                  · by_cases hic : i = c
                    · right
                      intro h1 hlt
                      rw [hic]
                      exact not_balanced_of_shape hlc hshc hlt
                    · left
                      exact hoth i hir hic
                split at hok
                · cases hok
                · rename_i s4 hwrite
                  obtain ⟨ro, hw⟩ := write_ok hwrite
                  rw [hB3] at hw
                  split at hok
                  · cases hok
                    refine ⟨k, hkey _ ro ?_ ?_⟩
                    · rw [poolPut_blocks, hw, if_pos rfl]
                    · intro j hj _
                      rw [poolPut_blocks, hw, if_neg (fun h => hj h.symm)]
                  · simp only [Prod.mk.injEq, Outcome.ret.injEq] at hok
                    obtain ⟨hf1, hf2⟩ := hok
                    subst hf2
                    have hfree : s4.free c = (none, (s4.free c).2) := Prod.ext hf1 rfl
                    have hf := free_ok hfree
                    refine ⟨k, hkey _ ro ?_ ?_⟩
                    · rw [poolPut_blocks, hf, if_neg (fun h => hrc h.symm), hw, if_pos rfl]
                    · intro j hj hj2
                      rw [poolPut_blocks, hf, if_neg (fun h => hj2 h.symm), hw,
                        if_neg (fun h => hj h.symm)]
          · rename_i hsz0
            simp only [Prod.mk.injEq, Outcome.ret.injEq] at hok
            obtain ⟨hf1, hf2⟩ := hok
            subst hf2
            have hwrite : s2.write tag root r.block = (none, (s2.write tag root r.block).2) :=
              Prod.ext hf1 rfl
            obtain ⟨ro, hw⟩ := write_ok hwrite
            refine ⟨h, ⟨ro, r.block⟩, size1, ?_, ?_, ?_⟩
            · rw [poolPut_blocks, hw, if_pos rfl]
            · apply blockShape_below _ hsh1
              apply balanced_below h
              intro i
              by_cases hir : i = root
              · right
                intro h1 hlt
                rw [hir]
                exact not_balanced_of_shape hroot2 hshroot2 hlt
              · left
                rw [poolPut_blocks, hw, if_neg (fun h => hir h.symm)]
            · right
              have := getBlockSize_nonneg hsh1.1
              omega

/-! ### Root contraction -/

theorem inorder_empty_leaf {tr : BTree} {s : Allocator} {root : Int} {e : BlockEntry}
    (hl : s.get root = some e) (hs : getBlockSize e.data = some 0)
    (hc : getBlockChild tr e.data 0 = some 0) (n : Nat) : inorder tr s n root = [] := by
  cases n with
  | zero => rfl
  | succ k =>
    unfold inorder
    split
    · rfl
    · rw [hl]
      dsimp only
      rw [hs]
      dsimp only
      have : (List.range ((0 : Int) + 1).toNat) = [0] := by decide
      rw [this]
      simp only [List.flatMap_cons, List.flatMap_nil, List.append_nil, Nat.cast_zero,
        lt_self_iff_false, if_false]
      rw [hc]
      dsimp only
      cases k with
      | zero => rfl
      | succ m =>
        unfold inorder
        rw [if_pos rfl]

theorem write_result {s : Allocator} {tag : Nat} {i : Int} {buf : Bytes}
    (h : (s.write tag i buf).1 = none) :
    (s.write tag i buf).2.blocks = setEntry s.blocks i ⟨s.isBlockReadOnly i, buf⟩
    ∧ (s.write tag i buf).2.log = s.log ++ [Op.write i (s.isBlockReadOnly i)] := by
  unfold Allocator.write at h ⊢
  simp only at h ⊢
  split
  · rename_i hf
    rw [if_pos hf] at h
    cases h
  · exact ⟨rfl, rfl⟩

theorem free_result {s : Allocator} {i : Int} (h : (s.free i).1 = none) :
    (s.free i).2.blocks = removeEntry s.blocks i
    ∧ (s.free i).2.log = s.log ++ [Op.free i (s.isBlockReadOnly i)] := by
  unfold Allocator.free at h ⊢
  simp only at h ⊢
  split
  · rename_i hf
    rw [if_pos hf] at h
    cases h
  · rename_i hf
    rw [if_neg hf] at h
    split
    · rename_i hg
      rw [hg] at h
      cases h
    · exact ⟨rfl, rfl⟩

theorem read_result {s s2 : Allocator} {i : Int} {b : Bytes}
    (h : s.read i = (Except.ok b, s2)) :
    s2.blocks = s.blocks ∧ s2.log = s.log ++ [Op.read i]
    ∧ ∃ e, lookup s.blocks i = some e ∧ b = e.data := by
  unfold Allocator.read at h
  simp only at h
  split at h
  · cases h
  · split at h
    · cases h
    · rename_i e he
      cases h
      exact ⟨rfl, rfl, e, he, rfl⟩

theorem isBlockReadOnly_congr {s s1 : Allocator} {i : Int}
    (h : lookup s1.blocks i = lookup s.blocks i) :
    s1.isBlockReadOnly i = s.isBlockReadOnly i := by
  unfold Allocator.isBlockReadOnly Allocator.get
  rw [h]

/-- The root-contraction step of `Delete`, for any state reached by the descent. -/
theorem delete_contraction {tr : BTree} {tag fuel : Nat} {root : Int} {key : KeyType}
    {s : Allocator} {r : HelperRet} {c : Int}
    (hro : s.isBlockReadOnly root = false) (hkey : validateKey tr key = none)
    (hrun : (deleteHelper tr tag fuel root (some key) s).1 = Outcome.ret r)
    (herr : r.err = none) (hsize : getBlockSize r.block = some 0)
    (hchild : getBlockChild tr r.block 0 = some c) (hcr : c ≠ root)
    (hok : (Delete tr tag fuel root key s).1 = Outcome.ret none) :
    ∃ ec, (deleteHelper tr tag fuel root (some key) s).2.get c = some ec
      ∧ (Delete tr tag fuel root key s).2.get root = some ⟨false, ec.data⟩
      ∧ ((deleteHelper tr tag fuel root (some key) s).2.isBlockReadOnly c = false →
          (Delete tr tag fuel root key s).2.get c = none
          ∧ (Delete tr tag fuel root key s).2.log
            = (deleteHelper tr tag fuel root (some key) s).2.log
              ++ [Op.read c, Op.write root false, Op.free c false, Op.poolPut])
      ∧ ((deleteHelper tr tag fuel root (some key) s).2.isBlockReadOnly c = true →
          (Delete tr tag fuel root key s).2.get c = some ec
          ∧ (Delete tr tag fuel root key s).2.log
            = (deleteHelper tr tag fuel root (some key) s).2.log
              ++ [Op.read c, Op.write root false, Op.poolPut]) := by
  have hsafe := safe_deleteHelper tr tag fuel root (some key) s
  have hro1 := hsafe.still_writable hro
  generalize hs1 : deleteHelper tr tag fuel root (some key) s = out at hrun hsafe hro1 ⊢
  obtain ⟨o, s1⟩ := out
  dsimp only at hrun hsafe hro1 ⊢
  subst hrun
  unfold Delete at hok ⊢
  simp only [hro, hkey, hs1, herr, hsize, hchild, if_true, Bool.false_eq_true, if_false] at hok ⊢
  generalize hrd : s1.read c = rd at hok ⊢
  obtain ⟨res, s2⟩ := rd
  cases res with
  | error e =>
    dsimp only at hok
    cases hok
  | ok block =>
    dsimp only at hok ⊢
    obtain ⟨hB2, hL2, ec, hec, hdata⟩ := read_result hrd
    subst hdata
    generalize hwr : s2.write tag root ec.data = wr at hok ⊢
    obtain ⟨we, s3⟩ := wr
    cases we with
    | some e =>
      dsimp only at hok
      cases hok
    | none =>
      dsimp only at hok ⊢
      have hw1 : (s2.write tag root ec.data).1 = none := by rw [hwr]
      obtain ⟨hB3, hL3⟩ := write_result hw1
      rw [hwr] at hB3 hL3
      dsimp only at hB3 hL3
      have hro2 : s2.isBlockReadOnly root = false := by
        rw [isBlockReadOnly_congr (s := s1) (by rw [hB2])]
        exact hro1
      rw [hro2] at hB3 hL3
      have hroc : s3.isBlockReadOnly c = s1.isBlockReadOnly c := by
        apply isBlockReadOnly_congr
        rw [hB3, lookup_setEntry, if_neg (fun h => hcr h.symm), hB2]
      refine ⟨ec, hec, ?_⟩
      cases hc3 : s1.isBlockReadOnly c with
      | true =>
        rw [hroc, hc3] at hok ⊢
        simp only [if_true] at hok ⊢
        refine ⟨?_, fun h => (by cases h), fun _ => ⟨?_, ?_⟩⟩
        · simp [Allocator.get, poolPut_blocks, hB3, lookup_setEntry]
        · have hrc : ¬ root = c := fun h => hcr h.symm
          simp only [Allocator.get, poolPut_blocks, hB3, lookup_setEntry, if_neg hrc, hB2]
          exact hec
        · simp [Allocator.poolPut, hL3, hL2]
      | false =>
        rw [hroc, hc3] at hok ⊢
        simp only [Bool.false_eq_true, if_false] at hok ⊢
        have hf1 : (s3.free c).1 = none := by
          simpa using hok
        obtain ⟨hB4, hL4⟩ := free_result hf1
        rw [hroc, hc3] at hL4
        refine ⟨?_, fun _ => ⟨?_, ?_⟩, fun h => (by cases h)⟩
        · simp [Allocator.get, poolPut_blocks, hB4, lookup_removeEntry, hcr, hB3,
            lookup_setEntry]
        · simp [Allocator.get, poolPut_blocks, hB4, lookup_removeEntry]
        · simp [Allocator.poolPut, hL4, hL3, hL2]

/-! ### Searching a well-sized block -/

theorem uint8_eq_of_not_lt {a b : UInt8} (h1 : ¬ a < b) (h2 : ¬ b < a) : a = b := by
  apply UInt8.eq_of_toBitVec_eq
  apply BitVec.eq_of_toNat_eq
  rw [UInt8.lt_def, BitVec.lt_def] at h1 h2
  omega

theorem compareBytes_eq : ∀ (a b : Bytes), compareBytes a b = Ordering.eq → a = b := by
  intro a
  induction a with
  | nil =>
    intro b h
    cases b with
    | nil => rfl
    | cons y ys => simp [compareBytes] at h
  | cons x xs ih =>
    intro b h
    cases b with
    | nil => simp [compareBytes] at h
    | cons y ys =>
      simp only [compareBytes] at h
      split at h
      · cases h
      · split at h
        · cases h
        · rename_i h1 h2
          rw [uint8_eq_of_not_lt h1 h2, ih ys h]

theorem getNodeSlice_ok {tr : BTree} {b : Bytes} {i : Int} (hn : 0 ≤ tr.nodeSize)
    (hi : 0 ≤ i) (hiF : i < tr.FanOut) (hlen : blockBytes tr ≤ b.length) :
    ∃ node, getNodeSlice tr b i = some node ∧ node.length = tr.nodeSize.toNat := by
  have h1 : 0 ≤ i * tr.nodeSize := Int.mul_nonneg hi hn
  have h2 : (i + 1) * tr.nodeSize ≤ tr.FanOut * tr.nodeSize :=
    Int.mul_le_mul_of_nonneg_right (by omega) hn
  have h3 : nodeStart tr i + tr.nodeSize ≤ blockBytes tr := by
    unfold nodeStart blockBytes
    have e1 : (i + 1) * tr.nodeSize = i * tr.nodeSize + tr.nodeSize := by ring
    have e2 : (8 + tr.nodeSize) * tr.FanOut = 8 * tr.FanOut + tr.FanOut * tr.nodeSize := by ring
    rw [e2]
    rw [e1] at h2
    omega
  have h4 : 0 ≤ nodeStart tr i := by
    unfold nodeStart
    omega
  unfold getNodeSlice
  rw [if_neg (by omega)]
  unfold readBytes
  rw [if_pos (by omega)]
  refine ⟨_, rfl, ?_⟩
  simp only [List.length_take, List.length_drop]
  omega

theorem getNodeKey_ok {tr : BTree} {node : Bytes} (hcfg : Configured tr)
    (hlen : node.length = tr.nodeSize.toNat) : ∃ k, getNodeKey tr node = some k := by
  obtain ⟨c1, c2, c3, _, _⟩ := hcfg
  unfold getNodeKey uint32 readBytes
  rw [if_pos (by omega)]
  simp only [Option.map_some']
  split
  · exact ⟨_, rfl⟩
  · rename_i hk
    rw [if_pos (by omega)]
    exact ⟨_, rfl⟩

theorem getNodeValue_ok {tr : BTree} {node : Bytes} (hcfg : Configured tr)
    (hlen : node.length = tr.nodeSize.toNat) : ∃ v, getNodeValue tr node = some v := by
  obtain ⟨c1, c2, c3, _, _⟩ := hcfg
  unfold getNodeValue
  rw [if_neg (by omega)]
  unfold readBytes
  rw [if_pos (by omega)]
  exact ⟨_, rfl⟩

theorem searchFrom_ok {tr : BTree} {b : Bytes} {key : KeyType} (hcfg : Configured tr)
    (hlen : blockBytes tr ≤ b.length) :
    ∀ (n : Nat) (i : Int), 0 ≤ i → i + n ≤ tr.FanOut →
      ∃ ins m, searchFrom tr b key n i = some (ins, m) ∧ i ≤ ins ∧ ins ≤ i + n
        ∧ (m = true → ins < i + n ∧ ∃ node, getNodeSlice tr b ins = some node
            ∧ getNodeKey tr node = some key) := by
  have hn : 0 ≤ tr.nodeSize := by
    obtain ⟨c1, c2, c3, _, _⟩ := hcfg
    omega
  intro n
  induction n with
  | zero =>
    intro i hi _
    refine ⟨i, false, rfl, le_refl _, by simp, fun h => by cases h⟩
  | succ k ih =>
    intro i hi hiF
    obtain ⟨node, hnode, hnl⟩ := getNodeSlice_ok hn hi (by push_cast at hiF; omega) hlen
    obtain ⟨kk, hkk⟩ := getNodeKey_ok hcfg hnl
    simp only [searchFrom, hnode, hkk]
    cases hcmp : compareBytes key kk with
    | lt =>
      refine ⟨i, false, rfl, le_refl _, by push_cast; omega, fun h => by cases h⟩
    | eq =>
      have := compareBytes_eq _ _ hcmp
      subst this
      exact ⟨i, true, rfl, le_refl _, by push_cast; omega,
        fun _ => ⟨by push_cast; omega, node, hnode, hkk⟩⟩
    | gt =>
      dsimp only
      obtain ⟨ins, m, h1, h2, h3, h4⟩ := ih (i + 1) (by omega) (by push_cast at hiF ⊢; omega)
      refine ⟨ins, m, h1, by omega, by push_cast; omega, fun hm => ?_⟩
      obtain ⟨h5, h6⟩ := h4 hm
      exact ⟨by push_cast; omega, h6⟩

/-! ### A key that is not in the tree -/

theorem inorder_congr {tr : BTree} {s s1 : Allocator} (hB : s1.blocks = s.blocks) :
    ∀ (n : Nat) (i : Int), inorder tr s1 n i = inorder tr s n i := by
  intro n
  induction n with
  | zero =>
    intro i
    rfl
  | succ k ih =>
    intro i
    have hfun : inorder tr s1 k = inorder tr s k := funext ih
    unfold inorder
    simp only [Allocator.get, hB, hfun]

theorem inorder_mem_slot {tr : BTree} {s : Allocator} {idx : Int} {e : BlockEntry}
    {size j : Int} {node : Bytes} {k : KeyType} {v : ValueType} (n : Nat)
    (h0 : idx ≠ 0) (hl : lookup s.blocks idx = some e) (hs : getBlockSize e.data = some size)
    (hj : 0 ≤ j) (hj2 : j < size) (hnode : getNodeSlice tr e.data j = some node)
    (hk : getNodeKey tr node = some k) (hv : getNodeValue tr node = some v) :
    (k, v) ∈ inorder tr s (n + 1) idx := by
  unfold inorder
  rw [if_neg h0]
  simp only [Allocator.get, hl, hs]
  rw [List.mem_flatMap]
  refine ⟨j.toNat, ?_, ?_⟩
  · rw [List.mem_range]
    omega
  · have hcast : ((j.toNat : Nat) : Int) = j := by omega
    rw [hcast]
    apply List.mem_append_right
    rw [if_pos hj2, hnode]
    simp only [hk, hv, List.mem_singleton]

theorem inorder_mem_child {tr : BTree} {s : Allocator} {idx : Int} {e : BlockEntry}
    {size j c : Int} {x : KeyType × ValueType} (n : Nat)
    (h0 : idx ≠ 0) (hl : lookup s.blocks idx = some e) (hs : getBlockSize e.data = some size)
    (hj : 0 ≤ j) (hj2 : j ≤ size) (hc : getBlockChild tr e.data j = some c)
    (hx : x ∈ inorder tr s n c) : x ∈ inorder tr s (n + 1) idx := by
  unfold inorder
  rw [if_neg h0]
  simp only [Allocator.get, hl, hs]
  rw [List.mem_flatMap]
  refine ⟨j.toNat, ?_, ?_⟩
  · rw [List.mem_range]
    omega
  · have hcast : ((j.toNat : Nat) : Int) = j := by omega
    rw [hcast]
    apply List.mem_append_left
    rw [hc]
    exact hx

theorem quiet_refl {s : Allocator} (hf : s.faults = []) : Quiet s s :=
  ⟨rfl, hf, [], by simp, by simp⟩

theorem quiet_trans {s s1 s2 : Allocator} (h1 : Quiet s s1) (h2 : Quiet s1 s2) : Quiet s s2 := by
  obtain ⟨a1, b1, ops1, c1, d1⟩ := h1
  obtain ⟨a2, b2, ops2, c2, d2⟩ := h2
  refine ⟨by rw [a2, a1], b2, ops1 ++ ops2, by rw [c2, c1, List.append_assoc], ?_⟩
  intro op hop
  rcases List.mem_append.mp hop with h | h
  · exact d1 op h
  · exact d2 op h

theorem quiet_poolGet {s : Allocator} (hf : s.faults = []) : Quiet s s.poolGet.2 := by
  unfold Allocator.poolGet
  split
  · exact ⟨rfl, hf, [Op.poolGet], rfl, by simp⟩
  · exact ⟨rfl, hf, [Op.poolGet], rfl, by simp⟩

theorem quiet_poolPut {s : Allocator} (hf : s.faults = []) (b : Bytes) :
    Quiet s (s.poolPut b) :=
  ⟨rfl, hf, [Op.poolPut], rfl, by simp⟩

theorem quiet_read {s : Allocator} {i : Int} {e : BlockEntry} (hf : s.faults = [])
    (hl : lookup s.blocks i = some e) :
    ∃ s2, s.read i = (Except.ok e.data, s2) ∧ Quiet s s2 := by
  unfold Allocator.read
  simp only [Allocator.nextFault, hf, Allocator.get, hl, Bool.false_eq_true, if_false]
  exact ⟨_, rfl, rfl, rfl, [Op.read i], rfl, by simp⟩

theorem deleteHelper_zero_run {tr : BTree} {tag : Nat} (f : Nat) (key : Option KeyType)
    (s : Allocator) (hf : s.faults = []) :
    ∃ r s1, deleteHelper tr tag (f + 1) 0 key s = (Outcome.ret r, s1)
      ∧ r.err = some Error.keyNotFound ∧ Quiet s s1 := by
  unfold deleteHelper
  dsimp only
  rw [if_pos rfl]
  exact ⟨_, _, rfl, rfl, quiet_poolGet hf⟩

/-- One level of the descent for a key that is not in the subtree, given what the
recursive call on the child does. -/
theorem deleteHelper_absent_step {tr : BTree} {tag : Nat} {key : KeyType} (hcfg : Configured tr)
    {h f : Nat} {idx : Int} {s : Allocator} {e : BlockEntry} {size : Int}
    (hf : s.faults = []) (hlen : blockBytes tr ≤ e.data.length)
    (hl : lookup s.blocks idx = some e) (hsh : BlockShape tr s.blocks h e.data size)
    (habs : ∀ v, (key, v) ∉ inorder tr s (h + 1) idx)
    (hrec : ∀ (c : Int) (s2 : Allocator), Quiet s s2 → GoodChild tr s.blocks h c →
      (∀ v, (key, v) ∉ inorder tr s h c) →
      ∃ r s3, deleteHelper tr tag f c (some key) s2 = (Outcome.ret r, s3)
        ∧ r.err = some Error.keyNotFound ∧ Quiet s2 s3) :
    ∃ r s1, deleteHelper tr tag (f + 1) idx (some key) s = (Outcome.ret r, s1)
      ∧ r.err = some Error.keyNotFound ∧ Quiet s s1 := by
  unfold deleteHelper
  dsimp only
  by_cases h0 : idx = 0
  · rw [if_pos h0]
    exact ⟨_, _, rfl, rfl, quiet_poolGet hf⟩
  · rw [if_neg h0]
    have hq1 := quiet_poolGet hf
    obtain ⟨s2, hread, hq2⟩ := quiet_read (i := idx) (e := e) hq1.2.1 (by rw [hq1.1]; exact hl)
    have hq12 : Quiet s s2 := quiet_trans hq1 hq2
    rw [hread]
    dsimp only
    have hsz0 := getBlockSize_nonneg hsh.1
    obtain ⟨ins, m, hsearch, hi1, hi2, hm⟩ := @searchFrom_ok tr e.data key hcfg hlen size.toNat 0
      (le_refl 0) (by have := hsh.2.1; omega)
    have hloc : locate tr e.data (some key) = some (ins, m) := by
      unfold locate searchBlock
      dsimp only
      rw [hsh.1]
      exact hsearch
    rw [hloc]
    dsimp only
    obtain ⟨c, hc, hg⟩ := hsh.2.2 ins hi1 (by omega)
    rw [hc, hsh.1]
    dsimp only
    have hmf : m = false := by
      cases m with
      | false => rfl
      | true =>
        exfalso
        obtain ⟨hlt, node, hnode, hk⟩ := hm rfl
        have hnl : node.length = tr.nodeSize.toNat := by
          unfold getNodeSlice at hnode
          split at hnode
          · cases hnode
          · exact readBytes_length hnode
        obtain ⟨v, hv⟩ := getNodeValue_ok hcfg hnl
        exact habs v (inorder_mem_slot h h0 hl hsh.1 hi1 (by omega) hnode hk hv)
    subst hmf
    simp only [Bool.false_eq_true, if_false]
    obtain ⟨r, s3, hrun, herr, hq3⟩ := hrec c s2 hq12 hg
      (fun v hv => habs v (inorder_mem_child h h0 hl hsh.1 hi1 (by omega) hc hv))
    rw [hrun]
    dsimp only
    rw [herr]
    dsimp only
    exact ⟨_, _, rfl, rfl, quiet_trans hq12 (quiet_trans hq3 (quiet_poolPut hq3.2.1 _))⟩

theorem deleteHelper_absent {tr : BTree} {tag : Nat} {key : KeyType} (hcfg : Configured tr) :
    ∀ (h fuel : Nat) (idx : Int) (s : Allocator) (e : BlockEntry) (size : Int),
      h + 2 ≤ fuel → s.faults = [] →
      (∀ i e, lookup s.blocks i = some e → blockBytes tr ≤ e.data.length) →
      lookup s.blocks idx = some e → BlockShape tr s.blocks h e.data size →
      (∀ v, (key, v) ∉ inorder tr s (h + 1) idx) →
      ∃ r s1, deleteHelper tr tag fuel idx (some key) s = (Outcome.ret r, s1)
        ∧ r.err = some Error.keyNotFound ∧ Quiet s s1 := by
  intro h
  induction h with
  | zero =>
    intro fuel idx s e size hfuel hf hlen hl hsh habs
    obtain ⟨f, rfl⟩ : ∃ f, fuel = f + 1 := ⟨fuel - 1, by omega⟩
    apply deleteHelper_absent_step hcfg hf (hlen idx e hl) hl hsh habs
    intro c s2 hq hg _
    have hc0 : c = 0 := hg
    subst hc0
    obtain ⟨g, rfl⟩ : ∃ g, f = g + 1 := ⟨f - 1, by omega⟩
    exact deleteHelper_zero_run g (some key) s2 hq.2.1
  | succ k ih =>
    intro fuel idx s e size hfuel hf hlen hl hsh habs
    obtain ⟨f, rfl⟩ : ∃ f, fuel = f + 1 := ⟨fuel - 1, by omega⟩
    apply deleteHelper_absent_step hcfg hf (hlen idx e hl) hl hsh habs
    intro c s2 hq hg habsc
    obtain ⟨hc0, hcB⟩ : c ≠ 0 ∧ Balanced tr s.blocks k c := hg
    obtain ⟨ec, sc, hlc, hshc, _⟩ := (balanced_iff tr s.blocks k c).mp hcB
    rw [← hq.1] at hlc hshc hlen
    exact ih f c s2 ec sc (by omega) hq.2.1 hlen hlc hshc
      (fun v hv => habsc v (by rw [← inorder_congr hq.1]; exact hv))

/-! ### `FreeTree` only reads -/

theorem readsOnly_refl (s : Allocator) : ReadsOnly s s :=
  ⟨rfl, [], by simp, by simp⟩

theorem readsOnly_trans {s s1 s2 : Allocator} (h1 : ReadsOnly s s1) (h2 : ReadsOnly s1 s2) :
    ReadsOnly s s2 := by
  obtain ⟨a1, ops1, c1, d1⟩ := h1
  obtain ⟨a2, ops2, c2, d2⟩ := h2
  refine ⟨by rw [a2, a1], ops1 ++ ops2, by rw [c2, c1, List.append_assoc], ?_⟩
  intro op hop
  rcases List.mem_append.mp hop with h | h
  · exact d1 op h
  · exact d2 op h

theorem readsOnly_poolGet (s : Allocator) : ReadsOnly s s.poolGet.2 := by
  unfold Allocator.poolGet
  split
  · exact ⟨rfl, [Op.poolGet], rfl, by simp⟩
  · exact ⟨rfl, [Op.poolGet], rfl, by simp⟩

theorem readsOnly_poolPut (s : Allocator) (b : Bytes) : ReadsOnly s (s.poolPut b) :=
  ⟨rfl, [Op.poolPut], rfl, by simp⟩

theorem readsOnly_read (s : Allocator) (i : TreeIndex) : ReadsOnly s (s.read i).2 := by
  unfold Allocator.read
  dsimp only
  split
  · exact ⟨rfl, [Op.read i], rfl, by simp⟩
  · split
    · exact ⟨rfl, [Op.read i], rfl, by simp⟩
    · exact ⟨rfl, [Op.read i], rfl, by simp⟩

theorem readsOnly_freeStep (tr : BTree)
    (recurse : TreeIndex → Allocator → Outcome (Option Error) × Allocator)
    (hrec : ∀ c st, ReadsOnly st (recurse c st).2) (block : Bytes)
    (acc : Outcome (Option Error) × Allocator) (i : Nat) :
    ReadsOnly acc.2 (freeStep tr recurse block acc i).2 := by
  unfold freeStep
  split
  · split
    · exact readsOnly_refl _
    · split
      · exact hrec _ _
      · exact readsOnly_refl _
  · exact readsOnly_refl _

theorem readsOnly_foldl (tr : BTree)
    (recurse : TreeIndex → Allocator → Outcome (Option Error) × Allocator)
    (hrec : ∀ c st, ReadsOnly st (recurse c st).2) (block : Bytes) (l : List Nat) :
    ∀ acc : Outcome (Option Error) × Allocator,
      ReadsOnly acc.2 (l.foldl (freeStep tr recurse block) acc).2 := by
  induction l with
  | nil => intro acc; exact readsOnly_refl _
  | cons i rest ih =>
    intro acc
    rw [List.foldl_cons]
    exact readsOnly_trans (readsOnly_freeStep tr recurse hrec block acc i) (ih _)

/-- On every input `FreeTree` sends the allocator reads and pool calls only. -/
theorem readsOnly_FreeTree (tr : BTree) (ignoreReadOnly : Bool) :
    ∀ (fuel : Nat) (treeIndex : TreeIndex) (s : Allocator),
      ReadsOnly s (FreeTree tr fuel treeIndex ignoreReadOnly s).2 := by
  intro fuel
  induction fuel with
  | zero => intro treeIndex s; exact readsOnly_refl _
  | succ fuel ih =>
    intro treeIndex s
    unfold FreeTree
    split
    · split
      · exact readsOnly_refl _
      · exact readsOnly_refl _
    · have h1 := readsOnly_poolGet s
      generalize s.poolGet = pg at h1
      obtain ⟨buf, s1⟩ := pg
      dsimp only at h1 ⊢
      have h2 := readsOnly_read s1 treeIndex
      generalize s1.read treeIndex = rd at h2
      obtain ⟨res, s2⟩ := rd
      dsimp only at h2
      have h12 := readsOnly_trans h1 h2
      cases res with
      | error e => exact readsOnly_trans h12 (readsOnly_poolPut _ _)
      | ok block =>
        dsimp only
        cases hsz : getBlockSize block with
        | none => exact h12
        | some numBlocks =>
          dsimp only
          have h3 := readsOnly_foldl tr (fun c st => FreeTree tr fuel c ignoreReadOnly st)
            (fun c st => ih c st) block (List.range (numBlocks + 1).toNat) (Outcome.ret none, s2)
          generalize (List.range (numBlocks + 1).toNat).foldl
            (freeStep tr (fun c st => FreeTree tr fuel c ignoreReadOnly st) block)
            (Outcome.ret none, s2) = fl at h3
          obtain ⟨o, s3⟩ := fl
          dsimp only at h3
          have h13 := readsOnly_trans h12 h3
          cases o with
          | ret e => exact readsOnly_trans h13 (readsOnly_poolPut _ _)
          | panic => exact h13
          | outOfFuel => exact h13

set_option maxRecDepth 100000 in
/-- C1 (fails on the code): deleting the only key of a single-leaf tree does not
leave the empty tree. `Delete` reads block index 0 in the root-contraction
step. Where index 0 holds no block the read fails, `Delete` returns that error
and the key is still in the tree; where index 0 holds a block, the root is
overwritten with it and the traversal yields that block's entries. -/
theorem delete_last_key_not_removed :
    inorder smallTree oneKeyStore 2 1 = [([7], [70])]
    ∧ (Delete smallTree 0 2 1 [7] oneKeyStore).1 = Outcome.ret (some Error.ioError)
    ∧ inorder smallTree (Delete smallTree 0 2 1 [7] oneKeyStore).2 2 1 = [([7], [70])]
    ∧ (Delete smallTree 0 2 1 [7] oneKeyStoreZero).1 = Outcome.ret none
    ∧ inorder smallTree (Delete smallTree 0 2 1 [7] oneKeyStoreZero).2 2 1 = [([9], [90])] := by
  decide

set_option maxRecDepth 100000 in
/-- C3 (fails on the code): on the merge path the index returned by the copy-up
helper is not stored in the parent. With a mutable root over two read-only
leaves holding 3, 5, 8, deleting 3 succeeds, the merged block (5, 8) is written
to the fresh index 4, and the tree reachable from the root holds exactly the
key 3: the deleted key is back and the two others are lost. -/
theorem delete_merge_drops_copy_up_index :
    inorder smallTree sharedLeavesStore 3 1 = [([3], [30]), ([5], [50]), ([8], [80])]
    ∧ (Delete smallTree 0 3 1 [3] sharedLeavesStore).1 = Outcome.ret none
    ∧ (Delete smallTree 0 3 1 [3] sharedLeavesStore).2.log =
        [Op.poolGet, Op.read 1, Op.poolGet, Op.read 2, Op.poolGet, Op.read 3,
          Op.allocate 4, Op.write 4 false, Op.poolPut, Op.poolPut,
          Op.read 2, Op.write 1 false, Op.poolPut]
    ∧ inorder smallTree (Delete smallTree 0 3 1 [3] sharedLeavesStore).2 3 4
        = [([5], [50]), ([8], [80])]
    ∧ inorder smallTree (Delete smallTree 0 3 1 [3] sharedLeavesStore).2 3 1
        = [([3], [30])] := by
  decide

/-- C6: on a read-only root `Delete` returns `ErrorRootImmutable` for every key
and leaves the allocator state (blocks, pool, log of calls) as it was. -/
theorem delete_read_only_root (tr : BTree) (tag fuel : Nat) (treeIndex : TreeIndex)
    (key : KeyType) (s : Allocator) (h : s.isBlockReadOnly treeIndex = true) :
    Delete tr tag fuel treeIndex key s = (Outcome.ret (some Error.rootImmutable), s) := by
  simp [Delete, h]

set_option maxRecDepth 100000 in
/-- Witness of `delete_read_only_root`: a read-only root over keys 3, 5, 8. -/
theorem delete_read_only_root_witness :
    frozenRootStore.isBlockReadOnly 1 = true
    ∧ Delete smallTree 0 3 1 [5] frozenRootStore
        = (Outcome.ret (some Error.rootImmutable), frozenRootStore) :=
  ⟨by decide, delete_read_only_root smallTree 0 3 1 [5] frozenRootStore (by decide)⟩

/-- C7: `validateKey` fails exactly for the empty key and for keys longer than
`MaxKeySize`; on a mutable root `Delete` returns that error with the allocator
state unchanged, so before any block read, write, allocation or free. -/
theorem delete_invalid_key (tr : BTree) (key : KeyType) :
    (validateKey tr key ≠ none ↔ (key.length = 0 ∨ tr.MaxKeySize < (key.length : Int)))
    ∧ ∀ (tag fuel : Nat) (treeIndex : TreeIndex) (s : Allocator) (e : Error),
        s.isBlockReadOnly treeIndex = false → validateKey tr key = some e →
        Delete tr tag fuel treeIndex key s = (Outcome.ret (some e), s) := by
  constructor
  · unfold validateKey
    by_cases h1 : key.length = 0
    · simp [h1]
    · by_cases h2 : (key.length : Int) > tr.MaxKeySize
      · simp [h1, h2]
      · simp [h1, h2]
  · intro tag fuel treeIndex s e hro hv
    simp [Delete, hro, hv]

set_option maxRecDepth 100000 in
/-- Witness of `delete_invalid_key`: the two-byte key on the mutable root of
`threeBlockStore`. -/
theorem delete_invalid_key_witness :
    threeBlockStore.isBlockReadOnly 1 = false
    ∧ validateKey smallTree [5, 5] = some Error.keyTooLong
    ∧ Delete smallTree 0 3 1 [5, 5] threeBlockStore
        = (Outcome.ret (some Error.keyTooLong), threeBlockStore) :=
  ⟨by decide, by decide,
    (delete_invalid_key smallTree [5, 5]).2 0 3 1 threeBlockStore Error.keyTooLong
      (by decide) (by decide)⟩

set_option maxRecDepth 100000 in
/-- C8 (fails on the code): `FreeTree` never calls the allocator's `Free`. On
every input the block map is left as it was and the calls received by the
allocator contain no `Free`. On a tree of three mutable blocks `FreeTree`
returns nil for both flag values, having only read the blocks: every block is
still stored. -/
theorem freeTree_releases_nothing :
    (∀ (tr : BTree) (fuel : Nat) (treeIndex : TreeIndex) (ignoreReadOnly : Bool) (s : Allocator),
        (FreeTree tr fuel treeIndex ignoreReadOnly s).2.blocks = s.blocks
        ∧ ∃ ops, (FreeTree tr fuel treeIndex ignoreReadOnly s).2.log = s.log ++ ops
            ∧ ∀ i ro, Op.free i ro ∉ ops)
    ∧ (FreeTree smallTree 3 1 false threeBlockStore).1 = Outcome.ret none
    ∧ (FreeTree smallTree 3 1 false threeBlockStore).2.blocks = threeBlockStore.blocks
    ∧ (FreeTree smallTree 3 1 false threeBlockStore).2.log =
        [Op.poolGet, Op.read 1, Op.poolGet, Op.read 2, Op.poolPut,
          Op.poolGet, Op.read 3, Op.poolPut, Op.poolPut]
    ∧ (FreeTree smallTree 3 1 true threeBlockStore).1 = Outcome.ret none
    ∧ (FreeTree smallTree 3 1 true threeBlockStore).2.blocks = threeBlockStore.blocks := by
  refine ⟨?_, by decide⟩
  intro tr fuel treeIndex ignoreReadOnly s
  obtain ⟨hb, ops, hl, ho⟩ := readsOnly_FreeTree tr ignoreReadOnly fuel treeIndex s
  refine ⟨hb, ops, hl, ?_⟩
  intro i ro hmem
  rcases ho _ hmem with h | h | ⟨j, h⟩ <;> cases h

set_option maxRecDepth 100000 in
/-- C10 (fails on the code): deleting the last key of a single-leaf root reads
block index 0. Where index 0 holds no block, `Delete` fails and the root still
has size 1; where it holds a block, `Delete` copies that block into the root and
frees index 0. -/
theorem delete_last_key_touches_index_zero :
    (Delete smallTree 0 2 1 [7] oneKeyStore).1 = Outcome.ret (some Error.ioError)
    ∧ (Delete smallTree 0 2 1 [7] oneKeyStore).2.log
        = [Op.poolGet, Op.read 1, Op.read 0, Op.poolPut]
    ∧ (Delete smallTree 0 2 1 [7] oneKeyStore).2.get 1 = some ⟨false, leafOne 7 70⟩
    ∧ (Delete smallTree 0 2 1 [7] oneKeyStoreZero).1 = Outcome.ret none
    ∧ (Delete smallTree 0 2 1 [7] oneKeyStoreZero).2.log
        = [Op.poolGet, Op.read 1, Op.read 0, Op.write 1 false, Op.free 0 false, Op.poolPut]
    ∧ (Delete smallTree 0 2 1 [7] oneKeyStoreZero).2.get 1 = some ⟨false, leafOne 9 90⟩
    ∧ (Delete smallTree 0 2 1 [7] oneKeyStoreZero).2.get 0 = none := by
  decide

/-! ### The example tree is well formed -/

set_option maxRecDepth 100000 in
theorem threeBlockStore_leaves :
    Balanced smallTree threeBlockStore.blocks 0 2
    ∧ Balanced smallTree threeBlockStore.blocks 0 3 := by
  constructor
  · refine ⟨⟨false, leafOne 3 30⟩, 1, by decide, by decide, by decide, by decide, ?_⟩
    intro j hj hj2
    have hj3 : j = 0 ∨ j = 1 := by omega
    rcases hj3 with rfl | rfl <;> decide
  · refine ⟨⟨false, leafOne 8 80⟩, 1, by decide, by decide, by decide, by decide, ?_⟩
    intro j hj hj2
    have hj3 : j = 0 ∨ j = 1 := by omega
    rcases hj3 with rfl | rfl <;> decide

set_option maxRecDepth 100000 in
theorem threeBlockStore_wellFormed : WellFormed smallTree threeBlockStore.blocks 1 1 := by
  refine ⟨⟨false, innerOne 2 3 5 50⟩, 1, by decide, ⟨by decide, by decide, ?_⟩, Or.inr (le_refl 1)⟩
  intro j hj hj2
  have hj3 : j = 0 ∨ j = 1 := by omega
  rcases hj3 with rfl | rfl
  · exact ⟨2, by decide, by decide, threeBlockStore_leaves.1⟩
  · exact ⟨3, by decide, by decide, threeBlockStore_leaves.2⟩

/-- C5: balance is preserved by `Delete`. If the tree at `root` is well formed in
shape with some height `h` (every non-root block reachable from the root holds
between `FanOut/2` and `FanOut` entries, all leaves have depth `h`, the root is
empty only as a leaf) and `Delete` returns nil, the tree at `root` is again well
formed in shape with some height. Read-only blocks may occur anywhere below the
root. `FanOut` is even, at least 2 and fits the 32-bit size field; index 0
holds no block. -/
theorem delete_preserves_balance (tr : BTree) (tag fuel : Nat) (root : TreeIndex)
    (key : KeyType) (s : Allocator) (h : Nat)
    (hF : 2 ≤ tr.FanOut) (hev : tr.FanOut % 2 = 0) (hF32 : tr.FanOut < 4294967296)
    (h0 : s.get 0 = none) (hwf : WellFormed tr s.blocks h root)
    (hok : (Delete tr tag fuel root key s).1 = Outcome.ret none) :
    ∃ h1, WellFormed tr (Delete tr tag fuel root key s).2.blocks h1 root :=
  delete_wellFormed hF hev hF32 h0 hwf (Prod.ext hok rfl)

set_option maxRecDepth 100000 in
/-- Witness of `delete_preserves_balance`: deleting key 3 from the tree of three
blocks (a merge followed by the root contraction). -/
theorem delete_preserves_balance_witness :
    WellFormed smallTree threeBlockStore.blocks 1 1
    ∧ (Delete smallTree 0 3 1 [3] threeBlockStore).1 = Outcome.ret none
    ∧ ∃ h1, WellFormed smallTree (Delete smallTree 0 3 1 [3] threeBlockStore).2.blocks h1 1 :=
  ⟨threeBlockStore_wellFormed, by decide,
    delete_preserves_balance smallTree 0 3 1 [3] threeBlockStore 1 (by decide) (by decide)
      (by decide) (by decide) threeBlockStore_wellFormed (by decide)⟩

/-- C9: root contraction. First part: whenever the descent of `Delete` on a
mutable root returns the root block with size 0 and `child[0] = c` (`c` not the
root itself) and `Delete` returns nil, the block stored at the unchanged root
index has the contents block `c` had after the descent, and `c` was freed if it
was not read-only and is still stored, with no `Free`, if it was. Second part:
after a `Delete` that returns nil on a tree well formed in shape, the root
block has size at least 1 whenever the tree still holds an entry. -/
theorem delete_root_contraction (tr : BTree) (tag fuel : Nat) (root : TreeIndex)
    (key : KeyType) (s : Allocator) :
    (∀ (r : HelperRet) (c : TreeIndex),
      s.isBlockReadOnly root = false → validateKey tr key = none →
      (deleteHelper tr tag fuel root (some key) s).1 = Outcome.ret r → r.err = none →
      getBlockSize r.block = some 0 → getBlockChild tr r.block 0 = some c → c ≠ 0 → c ≠ root →
      (Delete tr tag fuel root key s).1 = Outcome.ret none →
      ∃ ec, (deleteHelper tr tag fuel root (some key) s).2.get c = some ec
        ∧ (Delete tr tag fuel root key s).2.get root = some ⟨false, ec.data⟩
        ∧ ((deleteHelper tr tag fuel root (some key) s).2.isBlockReadOnly c = false →
            (Delete tr tag fuel root key s).2.get c = none
            ∧ (Delete tr tag fuel root key s).2.log
              = (deleteHelper tr tag fuel root (some key) s).2.log
                ++ [Op.read c, Op.write root false, Op.free c false, Op.poolPut])
        ∧ ((deleteHelper tr tag fuel root (some key) s).2.isBlockReadOnly c = true →
            (Delete tr tag fuel root key s).2.get c = some ec
            ∧ (Delete tr tag fuel root key s).2.log
              = (deleteHelper tr tag fuel root (some key) s).2.log
                ++ [Op.read c, Op.write root false, Op.poolPut]))
    ∧ (∀ h : Nat, 2 ≤ tr.FanOut → tr.FanOut % 2 = 0 → tr.FanOut < 4294967296 →
      s.get 0 = none → WellFormed tr s.blocks h root →
      (Delete tr tag fuel root key s).1 = Outcome.ret none →
      ∃ e size, (Delete tr tag fuel root key s).2.get root = some e
        ∧ getBlockSize e.data = some size
        ∧ ((∃ n, inorder tr (Delete tr tag fuel root key s).2 n root ≠ []) → 1 ≤ size)) := by
  constructor
  · intro r c hro hkey hrun herr hsize hchild _ hcr hok
    exact delete_contraction hro hkey hrun herr hsize hchild hcr hok
  · intro h hF hev hF32 h0 hwf hok
    obtain ⟨h1, e, size, hl, hsh, hne⟩ :=
      delete_wellFormed hF hev hF32 h0 hwf (Prod.ext hok rfl)
    refine ⟨e, size, hl, hsh.1, ?_⟩
    rintro ⟨n, hn⟩
    rcases hne with hz | hz
    · subst hz
      by_contra hlt
      have hs0 : size = 0 := by
        have := getBlockSize_nonneg hsh.1
        omega
      subst hs0
      obtain ⟨c, hc, hg⟩ := hsh.2.2 0 (le_refl 0) (le_refl 0)
      have hc0 : c = 0 := hg
      subst hc0
      exact hn (inorder_empty_leaf hl hsh.1 hc n)
    · exact hz

set_option maxRecDepth 100000 in
/-- Witness of `delete_root_contraction`: deleting key 3 from the tree of three
mutable blocks empties the root, which then receives the merged leaf 2; leaf 2
is freed. -/
theorem delete_root_contraction_witness :
    (∃ ec, (deleteHelper smallTree 0 3 1 (some [3]) threeBlockStore).2.get 2 = some ec
      ∧ (Delete smallTree 0 3 1 [3] threeBlockStore).2.get 1 = some ⟨false, ec.data⟩
      ∧ ((deleteHelper smallTree 0 3 1 (some [3]) threeBlockStore).2.isBlockReadOnly 2 = false →
          (Delete smallTree 0 3 1 [3] threeBlockStore).2.get 2 = none
          ∧ (Delete smallTree 0 3 1 [3] threeBlockStore).2.log
            = (deleteHelper smallTree 0 3 1 (some [3]) threeBlockStore).2.log
              ++ [Op.read 2, Op.write 1 false, Op.free 2 false, Op.poolPut])
      ∧ ((deleteHelper smallTree 0 3 1 (some [3]) threeBlockStore).2.isBlockReadOnly 2 = true →
          (Delete smallTree 0 3 1 [3] threeBlockStore).2.get 2 = some ec
          ∧ (Delete smallTree 0 3 1 [3] threeBlockStore).2.log
            = (deleteHelper smallTree 0 3 1 (some [3]) threeBlockStore).2.log
              ++ [Op.read 2, Op.write 1 false, Op.poolPut]))
    ∧ (∃ e size, (Delete smallTree 0 3 1 [3] threeBlockStore).2.get 1 = some e
        ∧ getBlockSize e.data = some size
        ∧ ((∃ n, inorder smallTree (Delete smallTree 0 3 1 [3] threeBlockStore).2 n 1 ≠ []) →
            1 ≤ size)) :=
  ⟨(delete_root_contraction smallTree 0 3 1 [3] threeBlockStore).1
      ⟨emptiedRoot, none, none, none⟩ 2 (by decide) (by decide) (by decide) rfl (by decide)
      (by decide) (by decide) (by decide) (by decide),
    (delete_root_contraction smallTree 0 3 1 [3] threeBlockStore).2 1 (by decide) (by decide)
      (by decide) (by decide) threeBlockStore_wellFormed (by decide)⟩

/-- C2: a valid key that is not in a well-formed tree (the empty tree included).
`Delete` on the mutable root returns `ErrorKeyNotFound`; the block map of the
allocator is unchanged, and the calls it received are reads and pool calls only
(no write, allocation or free). The allocator's blocks have at least the block
size of the tree, no I/O fault is scheduled, and the fuel covers the height. -/
theorem delete_absent_key (tr : BTree) (tag fuel : Nat) (root : TreeIndex) (key : KeyType)
    (s : Allocator) (h : Nat)
    (hcfg : Configured tr)
    (hlen : ∀ i e, s.get i = some e → blockBytes tr ≤ e.data.length)
    (hfault : s.faults = []) (hro : s.isBlockReadOnly root = false)
    (hkey : validateKey tr key = none) (hwf : WellFormed tr s.blocks h root)
    (habs : ∀ v, (key, v) ∉ inorder tr s (h + 1) root) (hfuel : h + 2 ≤ fuel) :
    (Delete tr tag fuel root key s).1 = Outcome.ret (some Error.keyNotFound)
    ∧ (Delete tr tag fuel root key s).2.blocks = s.blocks
    ∧ ∃ ops, (Delete tr tag fuel root key s).2.log = s.log ++ ops
        ∧ ∀ op ∈ ops, op = Op.poolGet ∨ op = Op.poolPut ∨ ∃ i, op = Op.read i := by
  obtain ⟨e, size, hl, hsh, _⟩ := hwf
  obtain ⟨r, s1, hrun, herr, hq⟩ := @deleteHelper_absent tr tag key hcfg h fuel root s e size
    hfuel hfault hlen hl hsh habs
  have hq2 : Quiet s (s1.poolPut r.block) := quiet_trans hq (quiet_poolPut hq.2.1 _)
  unfold Delete
  simp only [hro, Bool.false_eq_true, if_false, hkey, hrun, herr]
  exact ⟨trivial, hq2.1, hq2.2.2⟩

set_option maxRecDepth 100000 in
theorem threeBlockStore_sizes :
    ∀ i e, threeBlockStore.get i = some e → blockBytes smallTree ≤ e.data.length := by
  intro i e h
  simp only [threeBlockStore, storeOf, Allocator.get, lookup] at h
  split at h
  · cases h
    decide
  · split at h
    · cases h
      decide
    · split at h
      · cases h
        decide
      · cases h

set_option maxRecDepth 100000 in
/-- Witness of `delete_absent_key`: key 4 is not among the keys 3, 5, 8 of the
tree of three blocks. -/
theorem delete_absent_key_witness :
    WellFormed smallTree threeBlockStore.blocks 1 1
    ∧ (∀ v, (([4] : KeyType), v) ∉ inorder smallTree threeBlockStore 2 1)
    ∧ (Delete smallTree 0 3 1 [4] threeBlockStore).1 = Outcome.ret (some Error.keyNotFound)
    ∧ (Delete smallTree 0 3 1 [4] threeBlockStore).2.blocks = threeBlockStore.blocks
    ∧ ∃ ops, (Delete smallTree 0 3 1 [4] threeBlockStore).2.log = threeBlockStore.log ++ ops
        ∧ ∀ op ∈ ops, op = Op.poolGet ∨ op = Op.poolPut ∨ ∃ i, op = Op.read i :=
  have habs : ∀ v, (([4] : KeyType), v) ∉ inorder smallTree threeBlockStore 2 1 := by
    intro v hv
    have hin : inorder smallTree threeBlockStore 2 1
        = [([3], [30]), ([5], [50]), ([8], [80])] := by decide
    rw [hin] at hv
    simp at hv
  ⟨threeBlockStore_wellFormed, habs,
    delete_absent_key smallTree 0 3 1 [4] threeBlockStore 1 (by unfold Configured; decide)
      threeBlockStore_sizes (by decide) (by decide) (by decide) threeBlockStore_wellFormed
      habs (by decide)⟩

/-! ### `Open` -/

theorem wrapInt64_eq {x : Int} (h : InRange x) : wrapInt64 x = x := by
  unfold wrapInt64
  obtain ⟨h1, h2⟩ := h
  omega

theorem tdiv_nonpos_of_neg {a d : Int} (ha : a < 0) (hd : 0 < d) : Int.tdiv a d ≤ 0 := by
  obtain ⟨n, rfl⟩ : ∃ n : Int, a = -n := ⟨-a, by omega⟩
  rw [Int.neg_tdiv]
  have : 0 ≤ Int.tdiv n d := Int.tdiv_nonneg (by omega) (by omega)
  omega

theorem tdiv_neg_bound {a d : Int} (ha : a < 0) (hd : 0 < d) : a ≤ Int.tdiv a d := by
  obtain ⟨n, rfl⟩ : ∃ n : Int, a = -n := ⟨-a, by omega⟩
  rw [Int.neg_tdiv]
  have h0 : 0 ≤ n := by omega
  rw [Int.tdiv_eq_ediv h0 (by omega)]
  have : n / d ≤ n := Int.ediv_le_self d h0
  omega

/-- The automatic fan-out: the largest even `F` with `12 + d * F ≤ bs`. -/
theorem clearBit0_div_spec {bs d : Int} (hd : 0 < d) (hbs : 12 ≤ bs) :
    12 + d * clearBit0 ((bs - 12) / d) ≤ bs
    ∧ bs < 12 + d * (clearBit0 ((bs - 12) / d) + 2)
    ∧ clearBit0 ((bs - 12) / d) % 2 = 0
    ∧ ∀ F : Int, F % 2 = 0 → 12 + d * F ≤ bs → F ≤ clearBit0 ((bs - 12) / d) := by
  have hq1 : d * ((bs - 12) / d) ≤ bs - 12 := Int.mul_ediv_self_le (by omega)
  have hq2 : bs - 12 < d * ((bs - 12) / d) + d := Int.lt_mul_ediv_self_add hd
  have hq0 : 0 ≤ (bs - 12) / d := Int.ediv_nonneg (by omega) (by omega)
  generalize (bs - 12) / d = q at hq1 hq2 hq0
  unfold clearBit0
  have hm : q % 2 = 0 ∨ q % 2 = 1 := by omega
  refine ⟨?_, ?_, by omega, ?_⟩
  · rcases hm with hm | hm
    · rw [hm]; simp only [sub_zero]; omega
    · rw [hm]; nlinarith
  · rcases hm with hm | hm
    · rw [hm]; nlinarith
    · rw [hm]; nlinarith
  · intro F hF hle
    by_contra hlt
    have h1 : q + 1 ≤ F ∨ (q % 2 = 1 ∧ q ≤ F) := by omega
    rcases h1 with h1 | ⟨h1, h2⟩
    · nlinarith
    · have : F ≠ q := by omega
      have : q + 1 ≤ F := by omega
      nlinarith

theorem getBlockSize_alloc_nonneg (bf : Allocator) : 0 ≤ bf.GetBlockSize := by
  unfold Allocator.GetBlockSize
  exact Int.ofNat_nonneg _

/-- What `Open` computes for `FanOut = 0` when the sums fit Go's `int`. -/
theorem open_auto {tr : BTree} {bf : Allocator} (hF : tr.FanOut = 0)
    (hM : 1 ≤ tr.MaxKeySize) (hE : 0 ≤ tr.EntrySize)
    (hfit : tr.MaxKeySize + tr.EntrySize < 9223372036854775796)
    (hbs : bf.GetBlockSize < 9223372036854775808) :
    Open tr bf =
      if bf.GetBlockSize < 12
          ∨ clearBit0 ((bf.GetBlockSize - 12) / (8 + (4 + tr.MaxKeySize + tr.EntrySize))) ≤ 0 then
        Outcome.ret (Except.error OpenError.smallBlocks)
      else
        Outcome.ret (Except.ok { tr with
          FanOut := clearBit0 ((bf.GetBlockSize - 12) / (8 + (4 + tr.MaxKeySize + tr.EntrySize))),
          nodeSize := 4 + tr.MaxKeySize + tr.EntrySize }) := by
  have hb0 := getBlockSize_alloc_nonneg bf
  unfold Open
  generalize bf.GetBlockSize = bs at hbs hb0 ⊢
  have hns : wrapInt64 (4 + tr.MaxKeySize + tr.EntrySize) = 4 + tr.MaxKeySize + tr.EntrySize :=
    wrapInt64_eq ⟨by omega, by omega⟩
  have hd : wrapInt64 (8 + (4 + tr.MaxKeySize + tr.EntrySize))
      = 8 + (4 + tr.MaxKeySize + tr.EntrySize) := wrapInt64_eq ⟨by omega, by omega⟩
  have hn : wrapInt64 (bs - 12) = bs - 12 := wrapInt64_eq ⟨by omega, by omega⟩
  simp only [hF, hns, hd, hn]
  generalize hdd : 8 + (4 + tr.MaxKeySize + tr.EntrySize) = d at *
  have hdpos : 0 < d := by omega
  have hmod : Int.tmod 0 2 ≠ 1 := by decide
  simp only [hmod, if_false, if_true]
  have hd0 : d ≠ 0 := by omega
  simp only [hd0, if_false]
  by_cases hlt : bs < 12
  · have h1 : Int.tdiv (bs - 12) d ≤ 0 := tdiv_nonpos_of_neg (by omega) hdpos
    have h2 : bs - 12 ≤ Int.tdiv (bs - 12) d := tdiv_neg_bound (by omega) hdpos
    have h3 : wrapInt64 (Int.tdiv (bs - 12) d) = Int.tdiv (bs - 12) d :=
      wrapInt64_eq ⟨by omega, by omega⟩
    rw [h3]
    have h4 : clearBit0 (Int.tdiv (bs - 12) d) ≤ 0 := by
      unfold clearBit0
      omega
    simp only [h4, hlt, true_or, if_true]
  · have hge : 0 ≤ bs - 12 := by omega
    rw [Int.tdiv_eq_ediv hge (by omega)]
    have hq0 : 0 ≤ (bs - 12) / d := Int.ediv_nonneg hge (by omega)
    have hq1 : (bs - 12) / d ≤ bs - 12 := Int.ediv_le_self d hge
    have h3 : wrapInt64 ((bs - 12) / d) = (bs - 12) / d := wrapInt64_eq ⟨by omega, by omega⟩
    rw [h3]
    simp only [hlt, false_or]
    by_cases hz : clearBit0 ((bs - 12) / d) ≤ 0
    · simp only [hz, if_true]
    · simp only [hz, if_false]
      obtain ⟨hle, _, _, _⟩ := @clearBit0_div_spec bs d hdpos (by omega)
      have h5 : wrapInt64 (12 + d * clearBit0 ((bs - 12) / d))
          = 12 + d * clearBit0 ((bs - 12) / d) := by
        apply wrapInt64_eq
        constructor
        · have : 0 ≤ d * clearBit0 ((bs - 12) / d) :=
            Int.mul_nonneg (by omega) (by omega)
          omega
        · omega
      rw [h5]
      have h6 : ¬ bs < 12 + d * clearBit0 ((bs - 12) / d) := by omega
      simp only [h6, if_false]

/-- For a fan-out that is not negative, `Open` rejects the odd values and, where
it succeeds, leaves an even positive fan-out whose block fits the allocator. -/
theorem open_nonneg {tr : BTree} {bf : Allocator} (h0 : 0 ≤ tr.FanOut)
    (hM : 1 ≤ tr.MaxKeySize) (hE : 0 ≤ tr.EntrySize)
    (hfit : tr.MaxKeySize + tr.EntrySize < 9223372036854775796)
    (hblk : 12 + (8 + (4 + tr.MaxKeySize + tr.EntrySize)) * tr.FanOut < 9223372036854775808)
    (hbs : bf.GetBlockSize < 9223372036854775808) :
    (tr.FanOut % 2 = 1 → Open tr bf = Outcome.ret (Except.error OpenError.oddFanOut))
    ∧ ∀ t, Open tr bf = Outcome.ret (Except.ok t) →
        0 < t.FanOut ∧ t.FanOut % 2 = 0 ∧ t.nodeSize = 4 + tr.MaxKeySize + tr.EntrySize
        ∧ 12 + (8 + t.nodeSize) * t.FanOut ≤ bf.GetBlockSize := by
  have hmod : Int.tmod tr.FanOut 2 = tr.FanOut % 2 := Int.tmod_eq_emod h0 (by decide)
  constructor
  · intro hodd
    unfold Open
    rw [hmod, if_pos hodd]
  · intro t hok
    by_cases hz : tr.FanOut = 0
    · rw [open_auto hz hM hE hfit hbs] at hok
      split at hok
      · cases hok
      · rename_i hcond
        simp only [not_or, not_lt, not_le] at hcond
        injection hok with hok
        injection hok with hok
        subst hok
        obtain ⟨hle, _, hev, _⟩ := @clearBit0_div_spec bf.GetBlockSize
          (8 + (4 + tr.MaxKeySize + tr.EntrySize)) (by omega) hcond.1
        exact ⟨hcond.2, hev, rfl, hle⟩
    · have hns : wrapInt64 (4 + tr.MaxKeySize + tr.EntrySize)
          = 4 + tr.MaxKeySize + tr.EntrySize := wrapInt64_eq ⟨by omega, by omega⟩
      have hpos : 0 ≤ (8 + (4 + tr.MaxKeySize + tr.EntrySize)) * tr.FanOut :=
        Int.mul_nonneg (by omega) h0
      have hb : wrapInt64 (12 + (8 + (4 + tr.MaxKeySize + tr.EntrySize)) * tr.FanOut)
          = 12 + (8 + (4 + tr.MaxKeySize + tr.EntrySize)) * tr.FanOut :=
        wrapInt64_eq ⟨by omega, by omega⟩
      unfold Open at hok
      rw [hmod] at hok
      simp only [hns, hb, hz, if_false] at hok
      split at hok
      · cases hok
      · rename_i hodd
        split at hok
        · cases hok
        · rename_i hle
          injection hok with hok
          injection hok with hok
          subst hok
          simp only [not_lt] at hle
          refine ⟨?_, ?_, rfl, hle⟩
          · show 0 < tr.FanOut
            omega
          · show tr.FanOut % 2 = 0
            omega

/-! ### The byte layout of a block -/

theorem take_drop_succ (b : Bytes) (off n : Nat) (h : off < b.length) :
    (b.drop off).take (n + 1) = b.getD off 0 :: (b.drop (off + 1)).take n := by
  rw [List.drop_eq_getElem_cons h, List.take_succ_cons, List.getD_eq_getElem _ _ h]

theorem leValue_take4 (b : Bytes) (off : Nat) (h : off + 4 ≤ b.length) :
    leValue ((b.drop off).take 4) = u32At b off := by
  rw [take_drop_succ b off 3 (by omega), take_drop_succ b (off + 1) 2 (by omega),
    take_drop_succ b (off + 2) 1 (by omega), take_drop_succ b (off + 3) 0 (by omega)]
  simp only [List.take_zero, leValue, u32At, byteAt]
  omega

theorem leValue_take8 (b : Bytes) (off : Nat) (h : off + 8 ≤ b.length) :
    leValue ((b.drop off).take 8) = u64At b off := by
  rw [take_drop_succ b off 7 (by omega), take_drop_succ b (off + 1) 6 (by omega),
    take_drop_succ b (off + 2) 5 (by omega), take_drop_succ b (off + 3) 4 (by omega),
    take_drop_succ b (off + 4) 3 (by omega), take_drop_succ b (off + 5) 2 (by omega),
    take_drop_succ b (off + 6) 1 (by omega), take_drop_succ b (off + 7) 0 (by omega)]
  simp only [List.take_zero, leValue, u64At, u32At, byteAt, Nat.add_assoc, Nat.reduceAdd]
  omega

/-- The offsets the codec uses: the size at 0, child `i` at `4 + 8*i`, slot `i` at
`4 + 8*(FanOut+1) + i*nodeSize`. -/
theorem codec_offsets {tr : BTree} {b : Bytes} (hF : 0 ≤ tr.FanOut) (hns : 0 ≤ tr.nodeSize)
    (hlen : blockBytes tr ≤ b.length) :
    getBlockSize b = some (u32At b 0 : Int)
    ∧ (∀ i : Int, 0 ≤ i → i ≤ tr.FanOut →
        getBlockChild tr b i = some (toInt64 (u64At b (4 + 8 * i).toNat)))
    ∧ ∀ i : Int, 0 ≤ i → i < tr.FanOut →
        getNodeSlice tr b i
          = some (bytesAt b (4 + 8 * (tr.FanOut + 1) + i * tr.nodeSize).toNat tr.nodeSize.toNat) := by
  unfold blockBytes at hlen
  have hprod : 0 ≤ tr.nodeSize * tr.FanOut := Int.mul_nonneg hns hF
  refine ⟨?_, ?_, ?_⟩
  · have h4 : 0 + 4 ≤ b.length := by
      have : (4 : Int) ≤ b.length := by nlinarith
      omega
    have h5 := leValue_take4 b 0 h4
    rw [List.drop_zero] at h5
    simp [getBlockSize, uint32, readBytes, h4, h5]
  · intro i hi0 hiF
    have h8 : (4 + 8 * i).toNat + 8 ≤ b.length := by
      have : 4 + 8 * i + 8 ≤ (b.length : Int) := by nlinarith
      omega
    have hr : ¬ (i < 0 ∨ i > tr.FanOut) := by omega
    simp only [getBlockChild, hr, if_false, readBytes, h8, if_true, Option.map_some',
      leValue_take8 b _ h8]
  · intro i hi0 hiF
    have hin : 0 ≤ i * tr.nodeSize := Int.mul_nonneg hi0 hns
    have hup : (i + 1) * tr.nodeSize ≤ tr.FanOut * tr.nodeSize :=
      Int.mul_le_mul_of_nonneg_right (by omega) hns
    have hs : ¬ (nodeStart tr i < 0 ∨ tr.nodeSize < 0) := by
      unfold nodeStart
      omega
    have hlen2 : (nodeStart tr i).toNat + tr.nodeSize.toNat ≤ b.length := by
      unfold nodeStart
      have : 4 + 8 * (tr.FanOut + 1) + i * tr.nodeSize + tr.nodeSize ≤ (b.length : Int) := by
        nlinarith
      omega
    simp only [getNodeSlice, hs, if_false, readBytes, hlen2, if_true, bytesAt]
    rfl

theorem setBlockChild_length {tr : BTree} {b b1 : Bytes} {i c : Int}
    (h : setBlockChild tr b i c = some b1) : b1.length = b.length := by
  unfold setBlockChild at h
  split at h
  · cases h
  · exact writeBytes_length h

theorem setBlockSize_length {b b1 : Bytes} {n : Int} (h : setBlockSize b n = some b1) :
    b1.length = b.length := by
  unfold setBlockSize putUint32 at h
  exact writeBytes_length h

/-! ### `FreeTree` and read-only blocks -/

theorem freeTree_readOnly {tr : BTree} (f : Nat) {t : TreeIndex} {st : Allocator}
    (hro : st.isBlockReadOnly t = true) :
    FreeTree tr (f + 1) t false st = (Outcome.ret (some Error.freeReadOnly), st)
    ∧ FreeTree tr (f + 1) t true st = (Outcome.ret none, st) := by
  constructor
  · unfold FreeTree
    simp [hro]
  · unfold FreeTree
    simp [hro]

/-- Once a recursive call has failed, the rest of the loop changes nothing. -/
theorem foldl_freeStep_stuck (tr : BTree)
    (recurse : TreeIndex → Allocator → Outcome (Option Error) × Allocator) (block : Bytes)
    (l : List Nat) (o : Outcome (Option Error)) (s : Allocator) (ho : o ≠ Outcome.ret none) :
    l.foldl (freeStep tr recurse block) (o, s) = (o, s) := by
  induction l with
  | nil => rfl
  | cons i rest ih =>
    rw [List.foldl_cons]
    have hstep : freeStep tr recurse block (o, s) i = (o, s) := by
      unfold freeStep
      split
      · rename_i heq
        injection heq with h1 h2
        exact absurd h1 ho
      · rfl
    rw [hstep, ih]

theorem range_split (j m : Nat) (h : j < m) :
    List.range m = List.range j ++ j :: (List.range (m - j - 1)).map (fun k => j + 1 + k) := by
  have hm : m = j + (1 + (m - j - 1)) := by omega
  conv_lhs => rw [hm]
  rw [List.range_add, List.range_add]
  have h1 : List.range 1 = [0] := rfl
  simp only [h1, List.map_cons, List.map_nil, List.map_append, List.map_map,
    Nat.add_zero, List.singleton_append]
  congr 2
  apply List.map_congr_left
  intro k _
  simp only [Function.comp]
  omega

/-- An error of the recursive call on child `j` is the result of the loop. -/
theorem foldl_freeStep_error {tr : BTree}
    {recurse : TreeIndex → Allocator → Outcome (Option Error) × Allocator} {block : Bytes}
    {m j : Nat} {s2 s3 s4 : Allocator} {c : TreeIndex} {e : Error} (hj : j < m)
    (hpre : (List.range j).foldl (freeStep tr recurse block) (Outcome.ret none, s2)
      = (Outcome.ret none, s3))
    (hc : getBlockChild tr block (j : Int) = some c) (hc0 : c ≠ 0)
    (hrec : recurse c s3 = (Outcome.ret (some e), s4)) :
    (List.range m).foldl (freeStep tr recurse block) (Outcome.ret none, s2)
      = (Outcome.ret (some e), s4) := by
  rw [range_split j m hj, List.foldl_append, hpre, List.foldl_cons]
  have hstep : freeStep tr recurse block (Outcome.ret none, s3) j = (Outcome.ret (some e), s4) := by
    unfold freeStep
    simp only [hc, hc0, ne_eq, not_false_eq_true, if_true, hrec]
  rw [hstep]
  exact foldl_freeStep_stuck tr recurse block _ _ _ (by simp)

/-- With the flag false, a read-only block that the run reaches makes the whole
call return the read-only error. -/
theorem reaches_readOnly_fails {tr : BTree} {fuel f : Nat} {root t : TreeIndex}
    {s st : Allocator} (hr : Reaches tr false fuel root s (f + 1) t st)
    (hro : st.isBlockReadOnly t = true) :
    ∃ s1, FreeTree tr fuel root false s = (Outcome.ret (some Error.freeReadOnly), s1) := by
  generalize hf : f + 1 = f1 at hr
  induction hr with
  | here fuel root s =>
    subst hf
    exact ⟨_, (freeTree_readOnly f hro).1⟩
  | child fuel root s buf block s1 s2 s3 numBlocks j c f2 t st hmut hget hread hsize hj hpre hc
      hc0 _ ih =>
    obtain ⟨s4, h4⟩ := ih hro hf
    have hjm : j < (numBlocks + 1).toNat := by omega
    have hfold := foldl_freeStep_error hjm hpre hc hc0
      (show (fun c st => FreeTree tr fuel c false st) c s3 = _ from h4)
    refine ⟨s4.poolPut block, ?_⟩
    unfold FreeTree
    simp only [hmut, Bool.false_eq_true, if_false, hget, hread, hsize, hfold]

/-- With the flag true `FreeTree` never returns the read-only error. -/
theorem freeTree_ignore_no_error (tr : BTree) :
    ∀ (fuel : Nat) (root : TreeIndex) (s : Allocator),
      (FreeTree tr fuel root true s).1 ≠ Outcome.ret (some Error.freeReadOnly) := by
  intro fuel
  induction fuel with
  | zero =>
    intro root s
    unfold FreeTree
    simp
  | succ fuel ih =>
    intro root s
    unfold FreeTree
    split
    · simp
    · generalize s.poolGet = pg
      obtain ⟨buf, s1⟩ := pg
      dsimp only
      have hrd : ∀ e s2, s1.read root = (Except.error e, s2) → e = Error.ioError := by
        intro e s2 h
        unfold Allocator.read at h
        dsimp only at h
        split at h
        · injection h with h1 _
          injection h1 with h1
          exact h1.symm
        · split at h
          · injection h with h1 _
            injection h1 with h1
            exact h1.symm
          · injection h with h1 _
            cases h1
      generalize hrq : s1.read root = rd at hrd
      obtain ⟨res, s2⟩ := rd
      cases res with
      | error e =>
        have := hrd e s2 rfl
        subst this
        simp
      | ok block =>
        dsimp only
        cases hsz : getBlockSize block with
        | none => simp
        | some numBlocks =>
          dsimp only
          have hfold : ∀ (l : List Nat) (acc : Outcome (Option Error) × Allocator),
              acc.1 ≠ Outcome.ret (some Error.freeReadOnly) →
              (l.foldl (freeStep tr (fun c st => FreeTree tr fuel c true st) block) acc).1
                ≠ Outcome.ret (some Error.freeReadOnly) := by
            intro l
            induction l with
            | nil => intro acc h; exact h
            | cons i rest ihl =>
              intro acc h
              rw [List.foldl_cons]
              apply ihl
              unfold freeStep
              split
              · split
                · simp
                · split
                  · exact ih _ _
                  · simp
              · exact h
          have h3 := hfold (List.range (numBlocks + 1).toNat) (Outcome.ret none, s2) (by simp)
          generalize (List.range (numBlocks + 1).toNat).foldl
            (freeStep tr (fun c st => FreeTree tr fuel c true st) block)
            (Outcome.ret none, s2) = fl at h3
          obtain ⟨o, s3⟩ := fl
          cases o with
          | ret e => exact h3
          | panic => simp
          | outOfFuel => simp

theorem poolGet_log (s : Allocator) : s.poolGet.2.log = s.log ++ [Op.poolGet] := by
  unfold Allocator.poolGet
  split <;> rfl

theorem read_log (s : Allocator) (i : TreeIndex) : (s.read i).2.log = s.log ++ [Op.read i] := by
  unfold Allocator.read
  dsimp only
  split
  · rfl
  · split <;> rfl

/-- On a block that is not read-only `FreeTree` starts with a buffer from the
pool and a `Read` of the block. -/
theorem freeTree_first_calls (tr : BTree) (fuel : Nat) (i : TreeIndex) (flag : Bool)
    (s : Allocator) (hro : s.isBlockReadOnly i = false) :
    ∃ ops, (FreeTree tr (fuel + 1) i flag s).2.log = s.log ++ Op.poolGet :: Op.read i :: ops := by
  have h1 := poolGet_log s
  have h2 := read_log s.poolGet.2 i
  unfold FreeTree
  simp only [hro, Bool.false_eq_true, if_false]
  generalize s.poolGet = pg at h1 h2
  obtain ⟨buf, s1⟩ := pg
  dsimp only at h1 h2 ⊢
  generalize s1.read i = rd at h2
  obtain ⟨res, s2⟩ := rd
  dsimp only at h2
  have h12 : s2.log = s.log ++ [Op.poolGet, Op.read i] := by
    rw [h2, h1, List.append_assoc]
    rfl
  cases res with
  | error e =>
    refine ⟨[Op.poolPut], ?_⟩
    show (s2.poolPut buf).log = _
    simp [Allocator.poolPut, h12]
  | ok block =>
    dsimp only
    cases hsz : getBlockSize block with
    | none =>
      refine ⟨[], ?_⟩
      show s2.log = _
      rw [h12]
    | some numBlocks =>
      dsimp only
      have h3 := readsOnly_foldl tr (fun c st => FreeTree tr fuel c flag st)
        (fun c st => readsOnly_FreeTree tr flag fuel c st) block
        (List.range (numBlocks + 1).toNat) (Outcome.ret none, s2)
      generalize (List.range (numBlocks + 1).toNat).foldl
        (freeStep tr (fun c st => FreeTree tr fuel c flag st) block)
        (Outcome.ret none, s2) = fl at h3
      obtain ⟨o, s3⟩ := fl
      obtain ⟨_, ops, hl, _⟩ := h3
      dsimp only at hl
      cases o with
      | ret e =>
        refine ⟨ops ++ [Op.poolPut], ?_⟩
        show (s3.poolPut block).log = _
        simp [Allocator.poolPut, hl, h12]
      | panic =>
        refine ⟨ops, ?_⟩
        show s3.log = _
        simp [hl, h12]
      | outOfFuel =>
        refine ⟨ops, ?_⟩
        show s3.log = _
        simp [hl, h12]

/-- C11 (fails on the code): `Open` accepts a negative fan-out, odd or even. The
test `tr.FanOut%2 == 1` misses the negative odd values (the remainder of Go is
-1 there) and a fan-out given explicitly is never compared with 0. With keys of
one byte, values of one byte and blocks of 40 bytes, `Open` returns nil for
`FanOut = -1` and for `FanOut = -2` and keeps that fan-out. For a fan-out that
is not negative (and sizes that fit Go's `int`) `Open` rejects every odd value,
and a successful `Open` leaves an even positive fan-out whose block size is at
most the allocator's. -/
theorem open_accepts_negative_fanOut :
    Open ⟨1, 1, -1, 0⟩ (storeOf []) = Outcome.ret (Except.ok ⟨1, 1, -1, 6⟩)
    ∧ Open ⟨1, 1, -2, 0⟩ (storeOf []) = Outcome.ret (Except.ok ⟨1, 1, -2, 6⟩)
    ∧ Open ⟨1, 1, 3, 0⟩ (storeOf []) = Outcome.ret (Except.error OpenError.oddFanOut)
    ∧ ∀ (tr : BTree) (bf : Allocator), 0 ≤ tr.FanOut →
        1 ≤ tr.MaxKeySize → 0 ≤ tr.EntrySize →
        tr.MaxKeySize + tr.EntrySize < 9223372036854775796 →
        12 + (8 + (4 + tr.MaxKeySize + tr.EntrySize)) * tr.FanOut < 9223372036854775808 →
        bf.GetBlockSize < 9223372036854775808 →
        (tr.FanOut % 2 = 1 → Open tr bf = Outcome.ret (Except.error OpenError.oddFanOut))
        ∧ ∀ t, Open tr bf = Outcome.ret (Except.ok t) →
            0 < t.FanOut ∧ t.FanOut % 2 = 0 ∧ t.nodeSize = 4 + tr.MaxKeySize + tr.EntrySize
            ∧ 12 + (8 + t.nodeSize) * t.FanOut ≤ bf.GetBlockSize := by
  refine ⟨rfl, rfl, rfl, ?_⟩
  intro tr bf h0 hM hE hfit hblk hbs
  exact open_nonneg h0 hM hE hfit hblk hbs

/-- C12: automatic fan-out. For `FanOut = 0`, `MaxKeySize ≥ 1` and
`EntrySize ≥ 0` (the sum `12 + MaxKeySize + EntrySize` and the allocator's block
size fitting Go's `int`), `Open` succeeds exactly when some positive even `F`
has `12 + (8 + nodeSize) * F ≤` the allocator's block size, and fails with an
error otherwise; on success the fan-out is positive, even, satisfies the bound,
`FanOut + 2` does not, and no even `F` satisfying the bound is larger. -/
theorem open_automatic_fanOut (tr : BTree) (bf : Allocator) (hF : tr.FanOut = 0)
    (hM : 1 ≤ tr.MaxKeySize) (hE : 0 ≤ tr.EntrySize)
    (hfit : tr.MaxKeySize + tr.EntrySize < 9223372036854775796)
    (hbs : bf.GetBlockSize < 9223372036854775808) :
    ((∃ t, Open tr bf = Outcome.ret (Except.ok t)) ↔
        ∃ F : Int, 0 < F ∧ F % 2 = 0
          ∧ 12 + (8 + (4 + tr.MaxKeySize + tr.EntrySize)) * F ≤ bf.GetBlockSize)
    ∧ ((¬ ∃ t, Open tr bf = Outcome.ret (Except.ok t)) →
        Open tr bf = Outcome.ret (Except.error OpenError.smallBlocks))
    ∧ ∀ t, Open tr bf = Outcome.ret (Except.ok t) →
        t.MaxKeySize = tr.MaxKeySize ∧ t.EntrySize = tr.EntrySize
        ∧ t.nodeSize = 4 + tr.MaxKeySize + tr.EntrySize
        ∧ 0 < t.FanOut ∧ t.FanOut % 2 = 0
        ∧ 12 + (8 + t.nodeSize) * t.FanOut ≤ bf.GetBlockSize
        ∧ bf.GetBlockSize < 12 + (8 + t.nodeSize) * (t.FanOut + 2)
        ∧ ∀ F : Int, F % 2 = 0 → 12 + (8 + t.nodeSize) * F ≤ bf.GetBlockSize → F ≤ t.FanOut := by
  have hopen := open_auto hF hM hE hfit hbs
  have hb0 := getBlockSize_alloc_nonneg bf
  generalize hd : 8 + (4 + tr.MaxKeySize + tr.EntrySize) = d at hopen ⊢
  have hdpos : 0 < d := by omega
  by_cases hcond : bf.GetBlockSize < 12 ∨ clearBit0 ((bf.GetBlockSize - 12) / d) ≤ 0
  · rw [if_pos hcond] at hopen
    have hno : ¬ ∃ t, Open tr bf = Outcome.ret (Except.ok t) := by
      rintro ⟨t, ht⟩
      rw [hopen] at ht
      cases ht
    refine ⟨⟨fun h => absurd h hno, ?_⟩, fun _ => hopen, fun t ht => absurd ⟨t, ht⟩ hno⟩
    rintro ⟨F, hFpos, hFev, hFle⟩
    exfalso
    have hdF : d ≤ d * F := by nlinarith
    rcases hcond with hlt | hle
    · omega
    · have hge : 12 ≤ bf.GetBlockSize := by omega
      obtain ⟨_, _, _, hmax⟩ := @clearBit0_div_spec bf.GetBlockSize d hdpos hge
      have := hmax F hFev hFle
      omega
  · rw [if_neg hcond] at hopen
    simp only [not_or, not_lt, not_le] at hcond
    obtain ⟨hle, hlt, hev, hmax⟩ := @clearBit0_div_spec bf.GetBlockSize d hdpos hcond.1
    refine ⟨⟨fun _ => ⟨_, hcond.2, hev, hle⟩, fun _ => ⟨_, hopen⟩⟩, ?_, ?_⟩
    · intro hno
      exact absurd ⟨_, hopen⟩ hno
    · intro t ht
      rw [hopen] at ht
      injection ht with ht
      injection ht with ht
      subst ht
      have hns : 8 + (4 + tr.MaxKeySize + tr.EntrySize) = d := hd
      refine ⟨rfl, rfl, rfl, hcond.2, hev, ?_, ?_, ?_⟩
      · show 12 + (8 + (4 + tr.MaxKeySize + tr.EntrySize))
            * clearBit0 ((bf.GetBlockSize - 12) / d) ≤ bf.GetBlockSize
        rw [hns]
        exact hle
      · show bf.GetBlockSize < 12 + (8 + (4 + tr.MaxKeySize + tr.EntrySize))
            * (clearBit0 ((bf.GetBlockSize - 12) / d) + 2)
        rw [hns]
        exact hlt
      · intro F hFev hFle
        have hFle2 : 12 + d * F ≤ bf.GetBlockSize := by
          rw [← hns]
          exact hFle
        exact hmax F hFev hFle2

/-- Witness of `open_automatic_fanOut`: keys and values of one byte in blocks of
40 bytes give the fan-out 2. -/
theorem open_automatic_fanOut_witness :
    Open ⟨1, 1, 0, 0⟩ (storeOf []) = Outcome.ret (Except.ok ⟨1, 1, 2, 6⟩)
    ∧ ((∃ t, Open ⟨1, 1, 0, 0⟩ (storeOf []) = Outcome.ret (Except.ok t)) ↔
        ∃ F : Int, 0 < F ∧ F % 2 = 0 ∧ 12 + (8 + (4 + 1 + 1)) * F ≤ (storeOf []).GetBlockSize) :=
  ⟨rfl,
    (open_automatic_fanOut ⟨1, 1, 0, 0⟩ (storeOf []) rfl (by decide) (by decide) (by decide)
      (by decide)).1⟩

/-- C13: the accessors do not follow the layout of the claim, which is the one
the `Block Layout` comment of `btree.go` states (a `height` u32 at offset 4,
child `i` at offset `8 + 8*i`, slot `i` at offset `8 + 8*(FanOut+1) + i*nodeSize`).
In the block with size 1, children 2 and 3 and the entry (5, 50), `getBlockChild`
reads child 0 from offset 4, not from offset 8, and `getNodeSlice` reads slot 0
from offset 28, not from offset 32; the layout of the claim needs 44 bytes, the
block that `Open` sizes has 40. -/
theorem layout_with_height_field_fails :
    getBlockChild smallTree (innerOne 2 3 5 50) 0 = some 2
    ∧ toInt64 (u64At (innerOne 2 3 5 50) (8 + 8 * 0)) = 12884901888
    ∧ getNodeSlice smallTree (innerOne 2 3 5 50) 0 = some [1, 0, 0, 0, 5, 50]
    ∧ bytesAt (innerOne 2 3 5 50) (8 + 8 * (2 + 1) + 0 * 6) 6 = [5, 50, 0, 0, 0, 0]
    ∧ (innerOne 2 3 5 50).length = 40 ∧ blockBytes smallTree = 40
    ∧ 8 + 8 * (smallTree.FanOut + 1) + smallTree.FanOut * smallTree.nodeSize = 44 := by
  decide

/-- The byte layout that the accessors implement. A block of at least
`12 + (8 + nodeSize) * FanOut` bytes has its size as the little-endian u32 at
offset 0, child `i` (`0 ≤ i ≤ FanOut`) as the little-endian u64 at offset
`4 + 8*i`, and slot `i` (`0 ≤ i < FanOut`) as the `nodeSize` bytes from offset
`4 + 8*(FanOut+1) + i*nodeSize` on; the last slot ends at the block size, so the
block has no room for a height field. `setBlockSize` and `setBlockChild` store
at the same offsets. -/
theorem block_layout (tr : BTree) (b : Bytes) (hF : 0 ≤ tr.FanOut) (hns : 0 ≤ tr.nodeSize)
    (hlen : blockBytes tr ≤ b.length) :
    getBlockSize b = some (u32At b 0 : Int)
    ∧ (∀ i : Int, 0 ≤ i → i ≤ tr.FanOut →
        getBlockChild tr b i = some (toInt64 (u64At b (4 + 8 * i).toNat)))
    ∧ (∀ i : Int, 0 ≤ i → i < tr.FanOut →
        getNodeSlice tr b i
          = some (bytesAt b (4 + 8 * (tr.FanOut + 1) + i * tr.nodeSize).toNat tr.nodeSize.toNat))
    ∧ 4 + 8 * (tr.FanOut + 1) + tr.FanOut * tr.nodeSize = blockBytes tr
    ∧ (∀ (n : Int) (b1 : Bytes), 0 ≤ n → n < 4294967296 → setBlockSize b n = some b1 →
        (u32At b1 0 : Int) = n)
    ∧ ∀ (i c : Int) (b1 : Bytes), InRange c → setBlockChild tr b i c = some b1 →
        toInt64 (u64At b1 (4 + 8 * i).toNat) = c := by
  obtain ⟨h1, h2, h3⟩ := @codec_offsets tr b hF hns hlen
  refine ⟨h1, h2, h3, ?_, ?_, ?_⟩
  · unfold blockBytes
    ring
  · intro n b1 hn0 hn1 hset
    have hl : blockBytes tr ≤ b1.length := by rw [setBlockSize_length hset]; exact hlen
    have hg := getBlockSize_setBlockSize hset
    rw [(@codec_offsets tr b1 hF hns hl).1, Int.emod_eq_of_lt hn0 hn1] at hg
    exact Option.some.inj hg
  · intro i c b1 hc hset
    have hl : blockBytes tr ≤ b1.length := by rw [setBlockChild_length hset]; exact hlen
    have hg := getBlockChild_setBlockChild_same hset hc
    have hi := getBlockChild_index hg
    rw [(@codec_offsets tr b1 hF hns hl).2.1 i hi.1 hi.2] at hg
    exact Option.some.inj hg

set_option maxRecDepth 100000 in
/-- Witness of `block_layout`: the block with size 1, children 2 and 3 and the
entry (5, 50). -/
theorem block_layout_witness :
    blockBytes smallTree ≤ (innerOne 2 3 5 50).length
    ∧ getBlockSize (innerOne 2 3 5 50) = some (u32At (innerOne 2 3 5 50) 0 : Int)
    ∧ getBlockChild smallTree (innerOne 2 3 5 50) 1
        = some (toInt64 (u64At (innerOne 2 3 5 50) (4 + 8 * 1)))
    ∧ getNodeSlice smallTree (innerOne 2 3 5 50) 0
        = some (bytesAt (innerOne 2 3 5 50) 28 6) :=
  ⟨by decide,
    (block_layout smallTree (innerOne 2 3 5 50) (by decide) (by decide) (by decide)).1,
    (block_layout smallTree (innerOne 2 3 5 50) (by decide) (by decide) (by decide)).2.1 1
      (by decide) (by decide),
    (block_layout smallTree (innerOne 2 3 5 50) (by decide) (by decide) (by decide)).2.2.1 0
      (by decide) (by decide)⟩

/-- C14: the contract of the copy-up helper, for an allocator with no scheduled
fault. A block of size at least 1 goes to `index` itself when `index` is not
read-only: one `Write`, the result is `index`. When `index` is read-only the
helper allocates a fresh index with the tag, writes the block there and returns
the fresh index; the block stored at `index` is unchanged. A block of size 0
gives an error and the allocator is not called at all. -/
theorem copyUpBlock_contract (tr : BTree) (tag : Nat) (index : TreeIndex) (block : Bytes)
    (s : Allocator) :
    (∀ n, getBlockSize block = some n → 1 ≤ n → s.isBlockReadOnly index = false →
      s.faults = [] →
      ∃ s1, copyUpBlock tr tag index block s = (some (Except.ok index), s1)
        ∧ s1 = (s.write tag index block).2
        ∧ s1.get index = some ⟨false, block⟩
        ∧ (∀ j, j ≠ index → s1.get j = s.get j)
        ∧ s1.log = s.log ++ [Op.write index false])
    ∧ (∀ n, getBlockSize block = some n → 1 ≤ n → s.isBlockReadOnly index = true →
      s.faults = [] → s.fresh < 9223372036854775808 →
      ∃ s1, copyUpBlock tr tag index block s = (some (Except.ok s.fresh), s1)
        ∧ s1 = ((s.allocate tag).2.write tag s.fresh block).2
        ∧ s.get s.fresh = none ∧ s.fresh ≠ index
        ∧ s1.get s.fresh = some ⟨false, block⟩
        ∧ s1.get index = s.get index
        ∧ (∀ j, j ≠ s.fresh → s1.get j = s.get j)
        ∧ s1.log = s.log ++ [Op.allocate s.fresh, Op.write s.fresh false])
    ∧ (getBlockSize block = some 0 →
        copyUpBlock tr tag index block s = (some (Except.error Error.saveEmptyBlock), s)) := by
  refine ⟨?_, ?_, ?_⟩
  · intro n hn h1 hro hf
    have hn0 : ¬ n = 0 := by omega
    refine ⟨(s.write tag index block).2, ?_, rfl, ?_, ?_, ?_⟩
    · unfold copyUpBlock
      simp only [hn, hn0, if_false, hro, Bool.false_eq_true]
      simp only [Allocator.write, Allocator.nextFault, hf, Bool.false_eq_true, if_false]
    · simp only [Allocator.write, Allocator.nextFault, hf, Bool.false_eq_true, if_false,
        Allocator.get, lookup_setEntry, if_true, hro]
    · intro j hj
      have hj2 : ¬ index = j := fun h => hj h.symm
      simp only [Allocator.write, Allocator.nextFault, hf, Bool.false_eq_true, if_false,
        Allocator.get, lookup_setEntry, hj2]
    · simp only [Allocator.write, Allocator.nextFault, hf, Bool.false_eq_true, if_false, hro]
  · intro n hn h1 hro hf hfresh
    have hn0 : ¬ n = 0 := by omega
    have hfr : ¬ s.fresh ≥ 9223372036854775808 := not_le.mpr hfresh
    have hget := Allocator.get_fresh s
    have hne : s.fresh ≠ index := by
      intro h
      rw [← h] at hro
      simp [Allocator.isBlockReadOnly, hget] at hro
    have hro2 : Allocator.isBlockReadOnly
        { blockSize := s.blockSize,
          blocks := setEntry s.blocks s.fresh ⟨false, List.replicate s.blockSize 0⟩,
          pool := s.pool, faults := [], log := s.log ++ [Op.allocate s.fresh] } s.fresh
          = false := by
      simp only [Allocator.isBlockReadOnly, Allocator.get, lookup_setEntry, if_true]
    refine ⟨((s.allocate tag).2.write tag s.fresh block).2, ?_, rfl, hget, hne, ?_, ?_, ?_, ?_⟩
    · unfold copyUpBlock
      simp only [hn, hn0, if_false, hro, if_true]
      simp only [Allocator.allocate, Allocator.nextFault, hf, Bool.false_eq_true, if_false, hfr]
      simp only [Allocator.write, Allocator.nextFault, Bool.false_eq_true, if_false]
    · simp only [Allocator.allocate, Allocator.nextFault, hf, Bool.false_eq_true, if_false, hfr]
      simp only [Allocator.write, Allocator.nextFault, Bool.false_eq_true, if_false,
        Allocator.get, lookup_setEntry, if_true, hro2]
    · simp only [Allocator.allocate, Allocator.nextFault, hf, Bool.false_eq_true, if_false, hfr]
      simp only [Allocator.write, Allocator.nextFault, Bool.false_eq_true, if_false,
        Allocator.get, lookup_setEntry, hne, if_false]
    · intro j hj
      have hj2 : ¬ s.fresh = j := fun h => hj h.symm
      simp only [Allocator.allocate, Allocator.nextFault, hf, Bool.false_eq_true, if_false, hfr]
      simp only [Allocator.write, Allocator.nextFault, Bool.false_eq_true, if_false,
        Allocator.get, lookup_setEntry, hj2, if_false]
    · simp only [Allocator.allocate, Allocator.nextFault, hf, Bool.false_eq_true, if_false, hfr]
      simp only [Allocator.write, Allocator.nextFault, Bool.false_eq_true, if_false, hro2,
        List.append_assoc, List.singleton_append]
  · intro hn
    unfold copyUpBlock
    simp only [hn, if_true]

set_option maxRecDepth 100000 in
/-- Witness of `copyUpBlock_contract`: a leaf holding key 5 is copied up to the
mutable index 1 and to the read-only index 2 (the fresh index is 4), and an
empty block is refused. -/
theorem copyUpBlock_contract_witness :
    sharedLeavesStore.isBlockReadOnly 1 = false ∧ sharedLeavesStore.isBlockReadOnly 2 = true
    ∧ sharedLeavesStore.fresh = 4
    ∧ (∃ s1, copyUpBlock smallTree 0 1 (leafOne 5 50) sharedLeavesStore
          = (some (Except.ok 1), s1)
        ∧ s1.get 1 = some ⟨false, leafOne 5 50⟩
        ∧ s1.log = sharedLeavesStore.log ++ [Op.write 1 false])
    ∧ (∃ s1, copyUpBlock smallTree 0 2 (leafOne 5 50) sharedLeavesStore
          = (some (Except.ok sharedLeavesStore.fresh), s1)
        ∧ s1.get sharedLeavesStore.fresh = some ⟨false, leafOne 5 50⟩
        ∧ s1.get 2 = sharedLeavesStore.get 2
        ∧ s1.log = sharedLeavesStore.log
            ++ [Op.allocate sharedLeavesStore.fresh, Op.write sharedLeavesStore.fresh false])
    ∧ copyUpBlock smallTree 0 2 (List.replicate 40 0) sharedLeavesStore
        = (some (Except.error Error.saveEmptyBlock), sharedLeavesStore) := by
  obtain ⟨s1, h1, _, h2, _, h3⟩ :=
    (copyUpBlock_contract smallTree 0 1 (leafOne 5 50) sharedLeavesStore).1 1
      (by decide) (by decide) (by decide) rfl
  obtain ⟨s2, k1, _, _, _, k2, k3, _, k4⟩ :=
    (copyUpBlock_contract smallTree 0 2 (leafOne 5 50) sharedLeavesStore).2.1 1
      (by decide) (by decide) (by decide) rfl (by decide)
  exact ⟨by decide, by decide, by decide, ⟨s1, h1, h2, h3⟩, ⟨s2, k1, k2, k3, k4⟩,
    (copyUpBlock_contract smallTree 0 2 (List.replicate 40 0) sharedLeavesStore).2.2
      (by decide)⟩

/-- C15: `FreeTree` and read-only blocks. With the flag false, a read-only block
that the run reaches (the root itself or any block the recursion arrives at)
makes the whole call return the read-only error. With the flag true the call on
such a block returns nil at once and leaves the allocator state as it was (no
read, no free, no pool call), and `FreeTree` never returns the read-only
error. -/
theorem freeTree_read_only_blocks (tr : BTree) :
    (∀ (fuel f : Nat) (root t : TreeIndex) (s st : Allocator),
        Reaches tr false fuel root s (f + 1) t st → st.isBlockReadOnly t = true →
        ∃ s1, FreeTree tr fuel root false s = (Outcome.ret (some Error.freeReadOnly), s1))
    ∧ (∀ (fuel f : Nat) (root t : TreeIndex) (s st : Allocator),
        Reaches tr true fuel root s (f + 1) t st → st.isBlockReadOnly t = true →
        FreeTree tr (f + 1) t true st = (Outcome.ret none, st))
    ∧ ∀ (fuel : Nat) (root : TreeIndex) (s : Allocator),
        (FreeTree tr fuel root true s).1 ≠ Outcome.ret (some Error.freeReadOnly) := by
  refine ⟨?_, ?_, freeTree_ignore_no_error tr⟩
  · intro fuel f root t s st hr hro
    exact reaches_readOnly_fails hr hro
  · intro fuel f root t s st _ hro
    exact (freeTree_readOnly f hro).2

set_option maxRecDepth 100000 in
/-- Witness of `freeTree_read_only_blocks`: a mutable root over two read-only
leaves. The run reaches leaf 2 after the read of the root. With the flag false
the call fails; with the flag true it returns nil having read the root only, and
over the read-only leaf 2 and the mutable leaf 3 it skips leaf 2 and goes on to
read leaf 3. -/
theorem freeTree_read_only_blocks_witness :
    Reaches smallTree false 3 1 sharedLeavesStore 2 2 (sharedLeavesStore.poolGet.2.read 1).2
    ∧ (sharedLeavesStore.poolGet.2.read 1).2.isBlockReadOnly 2 = true
    ∧ (∃ s1, FreeTree smallTree 3 1 false sharedLeavesStore
        = (Outcome.ret (some Error.freeReadOnly), s1))
    ∧ (FreeTree smallTree 3 1 true sharedLeavesStore).1 = Outcome.ret none
    ∧ (FreeTree smallTree 3 1 true sharedLeavesStore).2.log
        = [Op.poolGet, Op.read 1, Op.poolPut]
    ∧ (FreeTree smallTree 3 1 true mixedLeavesStore).1 = Outcome.ret none
    ∧ (FreeTree smallTree 3 1 true mixedLeavesStore).2.log
        = [Op.poolGet, Op.read 1, Op.poolGet, Op.read 3, Op.poolPut, Op.poolPut] :=
  have hr : Reaches smallTree false 3 1 sharedLeavesStore 2 2
      (sharedLeavesStore.poolGet.2.read 1).2 :=
    Reaches.child 2 1 sharedLeavesStore (List.replicate 40 0) (innerOne 2 3 5 50)
      sharedLeavesStore.poolGet.2 (sharedLeavesStore.poolGet.2.read 1).2
      (sharedLeavesStore.poolGet.2.read 1).2 1 0 2 2 2 (sharedLeavesStore.poolGet.2.read 1).2
      (by decide) (by decide) rfl (by decide) (by decide) rfl (by decide) (by decide)
      (Reaches.here 2 2 _)
  ⟨hr, by decide,
    (freeTree_read_only_blocks smallTree).1 3 1 1 2 sharedLeavesStore _ hr (by decide),
    by decide, by decide, by decide, by decide⟩

set_option maxRecDepth 100000 in
/-- C16 (fails on the code): `FreeTree(0, flag)` is not a no-op. `FreeTree` has no
test for index 0 at entry: on an index that is not read-only it takes a buffer
and calls `Read(0, ...)`. Where index 0 holds no block the call returns the read
error, for both flag values; where it holds a block, that block is read and
its children are visited. -/
theorem freeTree_index_zero_reads :
    (FreeTree smallTree 3 0 false oneKeyStore).1 = Outcome.ret (some Error.ioError)
    ∧ (FreeTree smallTree 3 0 false oneKeyStore).2.log = [Op.poolGet, Op.read 0, Op.poolPut]
    ∧ (FreeTree smallTree 3 0 true oneKeyStore).1 = Outcome.ret (some Error.ioError)
    ∧ (FreeTree smallTree 3 0 true oneKeyStore).2.log = [Op.poolGet, Op.read 0, Op.poolPut]
    ∧ (FreeTree smallTree 3 0 false oneKeyStoreZero).1 = Outcome.ret none
    ∧ (FreeTree smallTree 3 0 false oneKeyStoreZero).2.log
        = [Op.poolGet, Op.read 0, Op.poolPut]
    ∧ ∀ (tr : BTree) (fuel : Nat) (flag : Bool) (s : Allocator),
        s.isBlockReadOnly 0 = false →
        ∃ ops, (FreeTree tr (fuel + 1) 0 flag s).2.log
          = s.log ++ Op.poolGet :: Op.read 0 :: ops := by
  refine ⟨by decide, by decide, by decide, by decide, by decide, by decide, ?_⟩
  intro tr fuel flag s hro
  exact freeTree_first_calls tr fuel 0 flag s hro

set_option maxRecDepth 100000 in
/-- C17 (fails on the code): `getNodeSlice` has no range check of its own. The
child accessors panic for every index outside `[0, FanOut]`, but `getNodeSlice`
returns a byte region whenever the computed offsets lie inside the buffer: for
slot -1 of a 40-byte block with fan-out 2 it returns the bytes 22..27, which
belong to child pointer 2, and for slot 2 of a 46-byte buffer it returns the
bytes 40..45 behind the last slot. -/
theorem getNodeSlice_unchecked :
    getNodeSlice smallTree (innerOne 2 3 5 50) (-1) = some (bytesAt (innerOne 2 3 5 50) 22 6)
    ∧ getNodeSlice smallTree
        ([1, 0, 0, 0] ++ List.replicate 16 0 ++ [1, 2, 3, 4, 5, 6, 7, 8] ++ List.replicate 12 0)
        (-1) = some [3, 4, 5, 6, 7, 8]
    ∧ getNodeSlice smallTree (innerOne 2 3 5 50 ++ [9, 9, 9, 9, 9, 9]) 2 = some [9, 9, 9, 9, 9, 9]
    ∧ (∀ (tr : BTree) (b : Bytes) (i : Int), (i < 0 ∨ tr.FanOut < i) →
        getBlockChild tr b i = none ∧ ∀ c, setBlockChild tr b i c = none)
    ∧ ∀ (tr : BTree) (b : Bytes) (i : Int), 0 ≤ nodeStart tr i → 0 ≤ tr.nodeSize →
        nodeStart tr i + tr.nodeSize ≤ b.length →
        getNodeSlice tr b i = some (bytesAt b (nodeStart tr i).toNat tr.nodeSize.toNat) := by
  refine ⟨by decide, by decide, by decide, ?_, ?_⟩
  · intro tr b i hi
    have hc : i < 0 ∨ i > tr.FanOut := by omega
    constructor
    · unfold getBlockChild
      rw [if_pos hc]
    · intro c
      unfold setBlockChild
      rw [if_pos hc]
  · intro tr b i h0 hns hlen
    have hs : ¬ (nodeStart tr i < 0 ∨ tr.nodeSize < 0) := by omega
    have hl : (nodeStart tr i).toNat + tr.nodeSize.toNat ≤ b.length := by omega
    simp only [getNodeSlice, hs, if_false, readBytes, hl, if_true, bytesAt]

/-! ### Page-buffer accounting -/

theorem leased_done {k : Int} (s : Allocator) (hk : k = 0) : Leased k s s := by
  subst hk
  exact ⟨[], by simp, by simp⟩

theorem leased_trans {a b k : Int} {s s1 s2 : Allocator} (h1 : Leased a s s1)
    (h2 : Leased b s1 s2) (hk : k = a + b) : Leased k s s2 := by
  obtain ⟨ops1, l1, c1⟩ := h1
  obtain ⟨ops2, l2, c2⟩ := h2
  refine ⟨ops1 ++ ops2, by rw [l2, l1, List.append_assoc], ?_⟩
  simp only [List.count_append, Nat.cast_add]
  omega

theorem leased_one_call {s s1 : Allocator} (op : Op) (h : s1.log = s.log ++ [op])
    (k : Int)
    (hk : (([op].count Op.poolGet : Nat) : Int) = (([op].count Op.poolPut : Nat) : Int) + k) :
    Leased k s s1 :=
  ⟨[op], h, hk⟩

theorem leased_poolGet (s : Allocator) : Leased 1 s s.poolGet.2 := by
  unfold Allocator.poolGet
  split
  · exact leased_one_call Op.poolGet rfl 1 (by decide)
  · exact leased_one_call Op.poolGet rfl 1 (by decide)

theorem leased_poolPut (s : Allocator) (b : Bytes) : Leased (-1) s (s.poolPut b) :=
  leased_one_call Op.poolPut rfl (-1) (by decide)

theorem count_single_ne {a op : Op} (h : op ≠ a) : [op].count a = 0 := by
  simp [List.count_cons, h]

theorem leased_read (s : Allocator) (i : TreeIndex) : Leased 0 s (s.read i).2 := by
  have hk : (([Op.read i].count Op.poolGet : Nat) : Int)
      = (([Op.read i].count Op.poolPut : Nat) : Int) + 0 := by
    rw [count_single_ne (by simp), count_single_ne (by simp)]
    rfl
  unfold Allocator.read
  dsimp only
  split
  · exact leased_one_call _ rfl 0 hk
  · split <;> exact leased_one_call _ rfl 0 hk

theorem leased_write (s : Allocator) (tag : Nat) (i : TreeIndex) (buf : Bytes) :
    Leased 0 s (s.write tag i buf).2 := by
  have hk : (([Op.write i (s.isBlockReadOnly i)].count Op.poolGet : Nat) : Int)
      = (([Op.write i (s.isBlockReadOnly i)].count Op.poolPut : Nat) : Int) + 0 := by
    rw [count_single_ne (by simp), count_single_ne (by simp)]
    rfl
  unfold Allocator.write
  dsimp only
  split <;> exact leased_one_call _ rfl 0 hk

theorem leased_allocate (s : Allocator) (tag : Nat) : Leased 0 s (s.allocate tag).2 := by
  have hk : (([Op.allocate s.fresh].count Op.poolGet : Nat) : Int)
      = (([Op.allocate s.fresh].count Op.poolPut : Nat) : Int) + 0 := by
    rw [count_single_ne (by simp), count_single_ne (by simp)]
    rfl
  unfold Allocator.allocate
  dsimp only
  split
  · exact leased_one_call _ rfl 0 hk
  · split <;> exact leased_one_call _ rfl 0 hk

theorem leased_free (s : Allocator) (i : TreeIndex) : Leased 0 s (s.free i).2 := by
  have hk : (([Op.free i (s.isBlockReadOnly i)].count Op.poolGet : Nat) : Int)
      = (([Op.free i (s.isBlockReadOnly i)].count Op.poolPut : Nat) : Int) + 0 := by
    rw [count_single_ne (by simp), count_single_ne (by simp)]
    rfl
  unfold Allocator.free
  dsimp only
  split
  · exact leased_one_call _ rfl 0 hk
  · split <;> exact leased_one_call _ rfl 0 hk

/-- Steps written for a goal that is taken apart from the end of the run. -/
theorem Leased.put {k : Int} {s s1 : Allocator} (b : Bytes) (h : Leased (k + 1) s s1) :
    Leased k s (s1.poolPut b) :=
  leased_trans h (leased_poolPut s1 b) (by omega)

theorem Leased.afterGet {k : Int} {s s1 : Allocator} (h : Leased (k - 1) s s1) :
    Leased k s s1.poolGet.2 :=
  leased_trans h (leased_poolGet s1) (by omega)

theorem Leased.read {k : Int} {i : TreeIndex} {r : Except Error Bytes} {s s1 s2 : Allocator}
    (heq : s1.read i = (r, s2)) (h : Leased k s s1) : Leased k s s2 := by
  have := leased_read s1 i
  rw [heq] at this
  exact leased_trans h this (by omega)

theorem Leased.afterRead {k : Int} {i : TreeIndex} {s s1 : Allocator} (h : Leased k s s1) :
    Leased k s (s1.read i).2 :=
  leased_trans h (leased_read s1 i) (by omega)

theorem Leased.write {k : Int} {tag : Nat} {i : TreeIndex} {buf : Bytes} {r : Option Error}
    {s s1 s2 : Allocator} (heq : s1.write tag i buf = (r, s2)) (h : Leased k s s1) :
    Leased k s s2 := by
  have := leased_write s1 tag i buf
  rw [heq] at this
  exact leased_trans h this (by omega)

theorem Leased.free {k : Int} {i : TreeIndex} {r : Option Error}
    {s s1 s2 : Allocator} (heq : s1.free i = (r, s2)) (h : Leased k s s1) :
    Leased k s s2 := by
  have := leased_free s1 i
  rw [heq] at this
  exact leased_trans h this (by omega)

theorem leased_copyUpBlock (tr : BTree) (tag : Nat) (index : TreeIndex) (block : Bytes)
    (s : Allocator) : Leased 0 s (copyUpBlock tr tag index block s).2 := by
  unfold copyUpBlock
  split
  · exact leased_done s rfl
  · split
    · exact leased_done s rfl
    · split
      · have ha := leased_allocate s tag
        split
        · rename_i e s1 heq
          rw [heq] at ha
          exact ha
        · rename_i index1 s1 heq
          rw [heq] at ha
          have hw := leased_write s1 tag index1 block
          split
          · rename_i e s2 heq2
            rw [heq2] at hw
            exact leased_trans ha hw rfl
          · rename_i s2 heq2
            rw [heq2] at hw
            exact leased_trans ha hw rfl
      · have hw := leased_write s tag index block
        split
        · rename_i e s1 heq
          rw [heq] at hw
          exact hw
        · rename_i s1 heq
          rw [heq] at hw
          exact hw

theorem Leased.copyUp {k : Int} {tr : BTree} {tag : Nat} {i : TreeIndex} {b : Bytes}
    {r : Option (Except Error TreeIndex)} {s s1 s2 : Allocator}
    (heq : copyUpBlock tr tag i b s1 = (r, s2)) (h : Leased k s s1) : Leased k s s2 := by
  have := leased_copyUpBlock tr tag i b s1
  rw [heq] at this
  exact leased_trans h this (by omega)

theorem leasedOut_ret {α : Type} {k : Int} {s s1 : Allocator} {a : α} (h : Leased k s s1) :
    LeasedOut k s (Outcome.ret a, s1) := h

theorem leasedOut_panic {α : Type} {k : Int} {s s1 : Allocator} :
    LeasedOut k s ((Outcome.panic : Outcome α), s1) := trivial

theorem leasedOut_fuel {α : Type} {k : Int} {s s1 : Allocator} :
    LeasedOut k s ((Outcome.outOfFuel : Outcome α), s1) := trivial

theorem LeasedOut.after {α : Type} {a b k : Int} {s s1 : Allocator}
    {x : Outcome α × Allocator} (h1 : Leased a s s1) (h2 : LeasedOut b s1 x) (hk : k = a + b) :
    LeasedOut k s x := by
  obtain ⟨o, s2⟩ := x
  cases o with
  | ret r => exact leased_trans h1 h2 hk
  | panic => trivial
  | outOfFuel => trivial

theorem leasedOut_rotateOrMerge (tr : BTree) (tag : Nat) (block : Bytes)
    (blockSize sibIndex : Int)
    (sibTree : TreeIndex) (sibBlock : Bytes) (sibBlockSize : Int)
    (childTree : TreeIndex) (childBlock : Bytes) (childBlockSize : Int)
    (dk : Option KeyType) (dv : Option ValueType) (swapped : Bool) (s : Allocator) :
    LeasedOut (-2) s (rotateOrMerge tr tag block blockSize sibIndex sibTree sibBlock sibBlockSize
      childTree childBlock childBlockSize dk dv swapped s) := by
  unfold rotateOrMerge rotateBlocks mergeSiblings
  dsimp only
  repeat' split
  all_goals
    try dsimp only
    first
      | exact leasedOut_panic
      | (apply leasedOut_ret
         repeat (first
          | exact leased_done _ (by norm_num)
          | apply Leased.put
          | apply Leased.afterGet
          | refine Leased.copyUp (by assumption) ?_))

theorem Leased.ofOut {α : Type} {k : Int} {s s1 : Allocator} {x : Outcome α × Allocator}
    {r : α} (heq : x = (Outcome.ret r, s1)) (h : LeasedOut k s x) : Leased k s s1 := by
  subst heq
  exact h

theorem Leased.call {α : Type} {k : Int} {s s1 s2 : Allocator} {x : Outcome α × Allocator}
    {r : α} (heq : x = (Outcome.ret r, s2)) (hx : LeasedOut 1 s1 x) (h : Leased (k - 1) s s1) :
    Leased k s s2 :=
  leased_trans h (Leased.ofOut heq hx) (by omega)

theorem leasedOut_rebalance (tr : BTree) (tag : Nat) (block : Bytes) (insertInd : Int)
    (childTree : TreeIndex) (childBlock : Bytes)
    (dk : Option KeyType) (dv : Option ValueType) (blockSize : Int) (s : Allocator) :
    LeasedOut (-1) s (rebalance tr tag block insertInd childTree childBlock dk dv blockSize s) := by
  unfold rebalance
  dsimp only
  repeat' split
  all_goals
    try dsimp only
    first
      | exact leasedOut_panic
      | (apply leasedOut_ret
         repeat (first
          | exact leased_done _ (by norm_num)
          | apply Leased.put
          | apply Leased.afterGet
          | refine Leased.read (by assumption) ?_
          | refine Leased.copyUp (by assumption) ?_))
      | (refine @LeasedOut.after _ 1 (-2) (-1) _ _ _ ?_
           (leasedOut_rotateOrMerge _ _ _ _ _ _ _ _ _ _ _ _ _ _ _) (by norm_num)
         repeat (first
          | exact leased_done _ (by norm_num)
          | apply Leased.afterGet
          | refine Leased.read (by assumption) ?_))

theorem leasedOut_deleteHelper (tr : BTree) (tag : Nat) :
    ∀ (fuel : Nat) (treeIndex : TreeIndex) (key : Option KeyType) (s : Allocator),
      LeasedOut 1 s (deleteHelper tr tag fuel treeIndex key s) := by
  intro fuel
  induction fuel with
  | zero =>
    intro treeIndex key s
    unfold deleteHelper
    exact leasedOut_fuel
  | succ fuel ih =>
    intro treeIndex key s
    unfold deleteHelper
    dsimp only
    repeat' split
    all_goals
      try dsimp only
      first
        | exact leasedOut_panic
        | exact leasedOut_fuel
        | (apply leasedOut_ret
           repeat (first
            | exact leased_done _ (by norm_num)
            | apply Leased.put
            | apply Leased.afterGet
            | refine Leased.read (by assumption) ?_
            | refine Leased.call (by assumption) (ih _ _ _) ?_))
        | (refine @LeasedOut.after _ 2 (-1) 1 _ _ _ ?_
             (leasedOut_rebalance _ _ _ _ _ _ _ _ _ _) (by norm_num)
           refine Leased.call (by assumption) (ih _ _ _) ?_
           repeat (first
            | exact leased_done _ (by norm_num)
            | apply Leased.afterGet
            | refine Leased.read (by assumption) ?_))

theorem leasedOut_Delete (tr : BTree) (tag fuel : Nat) (treeIndex : TreeIndex) (key : KeyType)
    (s : Allocator) : LeasedOut 0 s (Delete tr tag fuel treeIndex key s) := by
  unfold Delete
  split
  · exact leasedOut_ret (leased_done s rfl)
  · split
    · exact leasedOut_ret (leased_done s rfl)
    · have hh := leasedOut_deleteHelper tr tag fuel treeIndex (some key) s
      split
      · exact leasedOut_panic
      · exact leasedOut_fuel
      · rename_i heq
        rw [heq] at hh
        have h1 : Leased 1 s _ := hh
        split
        · exact leasedOut_ret (Leased.put _ h1)
        · split
          · exact leasedOut_panic
          · split
            · split
              · exact leasedOut_panic
              · split
                · rename_i hrd
                  exact leasedOut_ret (Leased.put _ (Leased.read hrd h1))
                · rename_i hrd
                  have h2 := Leased.read hrd h1
                  split
                  · rename_i hw
                    exact leasedOut_ret (Leased.put _ (Leased.write hw h2))
                  · rename_i hw
                    have h3 := Leased.write hw h2
                    split
                    · exact leasedOut_ret (Leased.put _ h3)
                    · split
                      rename_i hf
                      exact leasedOut_ret (Leased.put _ (Leased.free hf h3))
            · split
              rename_i hw
              exact leasedOut_ret (Leased.put _ (Leased.write hw h1))

/-! ### The sizes chosen by the rotation -/

theorem gatherFrom_basic {tr : BTree} (blk : Bytes) (size : Int) :
    ∀ (n : Nat) (i : Int) (g g1 : Gathered), 0 ≤ i → i + n = size + 1 →
      gatherFrom tr blk size n i g = some g1 →
      (∀ c ∈ g.childTrees, True ∧ InRange c) →
      (∀ c ∈ g1.childTrees, True ∧ InRange c)
      ∧ (n = 0 → g1.nodeKeys.length = g.nodeKeys.length)
      ∧ (1 ≤ n → g1.nodeKeys.length + 1 = g.nodeKeys.length + n) := by
  intro n
  induction n with
  | zero =>
    intro i g g1 _ _ h hg
    simp only [gatherFrom] at h
    cases h
    exact ⟨hg, fun _ => rfl, fun h => absurd h (by omega)⟩
  | succ n ih =>
    intro i g g1 hi hin h hg
    simp only [gatherFrom] at h
    split at h
    · cases h
    · rename_i c hc
      have hcr := getBlockChild_inRange hc
      split at h
      · rename_i hlt
        split at h
        · cases h
        · split at h
          · rename_i node x1 x2 kk vv hk hv
            have hg2 : ∀ c1 ∈ (g.childTrees ++ [c]), True ∧ InRange c1 := by
              intro c1 hc1
              rcases List.mem_append.mp hc1 with h1 | h1
              · exact hg c1 h1
              · simp only [List.mem_singleton] at h1
                subst h1
                exact ⟨trivial, hcr⟩
            obtain ⟨r1, r2, r3⟩ := ih (i + 1) _ g1 (by omega) (by push_cast at hin ⊢; omega) h hg2
            refine ⟨r1, fun h0 => absurd h0 (by omega), fun _ => ?_⟩
            simp only [List.length_append, List.length_singleton] at r2 r3
            have hn1 : 1 ≤ n := by
              push_cast at hin
              omega
            have := r3 hn1
            omega
          · cases h
      · rename_i hge
        have hn0 : n = 0 := by
          push_cast at hin
          omega
        subst hn0
        simp only [gatherFrom] at h
        cases h
        refine ⟨?_, fun h0 => absurd h0 (by omega), fun _ => by simp⟩
        intro c1 hc1
        rcases List.mem_append.mp hc1 with h1 | h1
        · exact hg c1 h1
        · simp only [List.mem_singleton] at h1
          subst h1
          exact ⟨trivial, hcr⟩

theorem gatherAll_basic {tr : BTree} {block sibBlock childBlock : Bytes}
    {sibIndex ss cs : Int} {g : Gathered} (hss : 0 ≤ ss) (hcs : 0 ≤ cs)
    (h : gatherAll tr block sibIndex sibBlock ss childBlock cs = some g) :
    (∀ c ∈ g.childTrees, True ∧ InRange c) ∧ (g.nodeKeys.length : Int) = ss + cs + 1 := by
  unfold gatherAll at h
  split at h
  · cases h
  · rename_i g1 hg1
    obtain ⟨a1, _, a3⟩ := gatherFrom_basic sibBlock ss (ss + 1).toNat 0 _ g1 (le_refl 0)
      (by omega) hg1 (by simp)
    split at h
    · cases h
    · split at h
      · rename_i node x1 x2 kk vv hk hv
        obtain ⟨b1, _, b3⟩ := gatherFrom_basic childBlock cs (cs + 1).toNat 0 _ g (le_refl 0)
          (by omega) h a1
        refine ⟨b1, ?_⟩
        have e1 := a3 (by omega)
        have e2 := b3 (by omega)
        simp only [List.length_nil, List.length_append, List.length_singleton] at e1 e2
        omega
      · cases h

theorem rotation_arith {F ss cs : Int} (hev : F % 2 = 0) (hss : 0 ≤ ss) (hcs : 0 ≤ cs)
    (hssF : ss ≤ F) (hcsF : cs ≤ F) (hsmall : ss * 2 < F ∨ cs * 2 < F) (hsum : cs + ss ≥ F) :
    (ss + cs) / 2 + (ss + cs - (ss + cs) / 2) = ss + cs
    ∧ F / 2 ≤ (ss + cs) / 2
    ∧ (ss + cs) / 2 ≤ ss + cs - (ss + cs) / 2
    ∧ ss + cs - (ss + cs) / 2 ≤ F := by
  omega

/-- The two blocks written by a successful rotation and their sizes. -/
theorem rotateBlocks_sizes {tr : BTree} {tag : Nat} {block sibBlock childBlock : Bytes}
    {sibIndex sibTree childTree ss cs : Int} {dk : Option KeyType}
    {dv : Option ValueType} {swapped : Bool} {s s1 : Allocator} {r : HelperRet}
    (hF : 2 ≤ tr.FanOut) (hev : tr.FanOut % 2 = 0) (hF32 : tr.FanOut < 4294967296)
    (hsibTree : getBlockChild tr block sibIndex = some sibTree)
    (hchildTree : getBlockChild tr block (sibIndex + 1) = some childTree)
    (hne : sibTree ≠ childTree)
    (hstoredL : s.get sibTree ≠ none) (hstoredR : s.get childTree ≠ none)
    (hL : getBlockSize sibBlock = some ss) (hR : getBlockSize childBlock = some cs)
    (hssF : ss ≤ tr.FanOut) (hcsF : cs ≤ tr.FanOut)
    (hsmall : ss * 2 < tr.FanOut ∨ cs * 2 < tr.FanOut) (hsum : cs + ss ≥ tr.FanOut)
    (heq : rotateBlocks tr tag block sibIndex sibTree sibBlock ss childTree childBlock cs
      dk dv swapped s = (Outcome.ret r, s1))
    (herr : r.err = none) :
    ∃ l c eL eC, getBlockChild tr r.block sibIndex = some l
      ∧ getBlockChild tr r.block (sibIndex + 1) = some c
      ∧ s1.get l = some eL ∧ s1.get c = some eC
      ∧ getBlockSize eL.data = some ((ss + cs) / 2)
      ∧ getBlockSize eC.data = some (ss + cs - (ss + cs) / 2) := by
  have hss := getBlockSize_nonneg hL
  have hcs := getBlockSize_nonneg hR
  obtain ⟨_, hlo, hmid, hhi⟩ := rotation_arith hev hss hcs hssF hcsF hsmall hsum
  have hidx := getBlockChild_index hsibTree
  unfold rotateBlocks at heq
  dsimp only at heq
  split at heq
  · cases heq
  · rename_i g hg
    obtain ⟨g1, g2⟩ := gatherAll_basic hss hcs hg
    rw [g2] at heq
    have hsimp : ss + cs + 1 - 1 = ss + cs := by ring
    rw [hsimp] at heq
    split at heq
    · cases heq
    · rename_i sibNew hfill1
      split at heq
      · cases heq
      · rename_i childNew hfill2
        obtain ⟨a1, _⟩ := fillBlock_shape (P := fun _ => True) (by omega) g1
          (by omega) (by omega) hfill1
        obtain ⟨b1, _⟩ := fillBlock_shape (P := fun _ => True) (by omega) g1
          (by omega) (by omega) hfill2
        have hB2 : s.poolGet.2.poolGet.2.blocks = s.blocks := by
          rw [poolGet_blocks, poolGet_blocks]
        split at heq
        · cases heq
        · cases heq
          cases herr
        · rename_i sibTree1 s3 hcu1
          obtain ⟨_, ⟨ro1, hat1⟩, hoth1, hcase1⟩ := copyUpBlock_lookup hcu1
          rw [hB2] at hoth1 hcase1
          split at heq
          · cases heq
          · cases heq
            cases herr
          · rename_i childTree1 s4 hcu2
            obtain ⟨_, ⟨ro2, hat2⟩, hoth2, hcase2⟩ := copyUpBlock_lookup hcu2
            have hdiff : sibTree1 ≠ childTree1 := by
              intro hsame
              rcases hcase2 with h2 | ⟨h2, _, _⟩
              · rcases hcase1 with h1 | ⟨h1, _, _⟩
                · exact hne (by rw [← h1, hsame, h2])
                · apply hstoredR
                  unfold Allocator.get
                  rw [← h2, ← hsame]
                  exact h1
              · rw [← hsame, hat1] at h2
                cases h2
            have hr1 : InRange sibTree1 := by
              rcases hcase1 with h1 | ⟨_, h1, h2⟩
              · rw [h1]
                exact getBlockChild_inRange hsibTree
              · exact ⟨by omega, h2⟩
            have hr2 : InRange childTree1 := by
              rcases hcase2 with h1 | ⟨_, h1, h2⟩
              · rw [h1]
                exact getBlockChild_inRange hchildTree
              · exact ⟨by omega, h2⟩
            split at heq
            · rename_i x1 x2 kk vv hk hv
              split at heq
              · cases heq
              · rename_i block1 hnode
                split at heq
                · cases heq
                · rename_i block2 hset1
                  split at heq
                  · cases heq
                  · rename_i block3 hset2
                    have hst : s1.blocks = s4.blocks := by
                      cases heq
                      split <;> rfl
                    have hr : r.block = block3 := by
                      cases heq
                      rfl
                    refine ⟨sibTree1, childTree1, ⟨ro1, sibNew⟩, ⟨ro2, childNew⟩, ?_, ?_, ?_, ?_,
                      a1, b1⟩
                    · rw [hr, getBlockChild_setBlockChild_ne hset2 (by omega)]
                      exact getBlockChild_setBlockChild_same hset1 hr1
                    · rw [hr]
                      exact getBlockChild_setBlockChild_same hset2 hr2
                    · unfold Allocator.get
                      rw [hst, hoth2 sibTree1 hdiff]
                      exact hat1
                    · unfold Allocator.get
                      rw [hst]
                      exact hat2
            · cases heq

/-! ### The entry returned by the delete-max request -/

theorem rotateOrMerge_passes_deleted {tr : BTree} {tag : Nat} {block sibBlock childBlock : Bytes}
    {blockSize sibIndex sibTree childTree ss cs : Int} {dk : Option KeyType}
    {dv : Option ValueType} {swapped : Bool} {s s1 : Allocator} {r : HelperRet}
    (heq : rotateOrMerge tr tag block blockSize sibIndex sibTree sibBlock ss childTree childBlock
      cs dk dv swapped s = (Outcome.ret r, s1))
    (herr : r.err = none) : r.deletedKey = dk ∧ r.deletedValue = dv := by
  unfold rotateOrMerge rotateBlocks mergeSiblings at heq
  dsimp only at heq
  repeat' split at heq
  all_goals
    first
      | (cases heq; done)
      | (cases heq; cases herr; done)
      | (cases heq; exact ⟨rfl, rfl⟩)

theorem rebalance_passes_deleted {tr : BTree} {tag : Nat} {block childBlock : Bytes}
    {insertInd childTree blockSize : Int} {dk : Option KeyType}
    {dv : Option ValueType} {s s1 : Allocator} {r : HelperRet}
    (heq : rebalance tr tag block insertInd childTree childBlock dk dv blockSize s
      = (Outcome.ret r, s1))
    (herr : r.err = none) : r.deletedKey = dk ∧ r.deletedValue = dv := by
  unfold rebalance at heq
  dsimp only at heq
  repeat' split at heq
  all_goals
    first
      | (cases heq; done)
      | (cases heq; cases herr; done)
      | (cases heq; exact ⟨rfl, rfl⟩)
      | exact rotateOrMerge_passes_deleted heq herr

theorem inorder_null (tr : BTree) (s : Allocator) (n : Nat) : inorder tr s n 0 = [] := by
  cases n with
  | zero => rfl
  | succ k =>
    unfold inorder
    rw [if_pos rfl]

theorem getLast?_append_of_some {α : Type} (a b : List α) {x : α} (h : b.getLast? = some x) :
    (a ++ b).getLast? = some x := by
  rw [List.getLast?_append, h]
  rfl

theorem range_succ_flatMap {β : Type} (f : Nat → List β) (n : Nat) :
    (List.range (n + 1)).flatMap f = (List.range n).flatMap f ++ f n := by
  rw [List.range_succ, List.flatMap_append]
  simp

/-- In a block whose last child is not null, the traversal ends with the
traversal of that child. -/
theorem inorder_last_child {tr : BTree} {s : Allocator} {idx : Int} {e : BlockEntry}
    {size c : Int} {x : KeyType × ValueType} (n : Nat)
    (h0 : idx ≠ 0) (hl : lookup s.blocks idx = some e) (hs : getBlockSize e.data = some size)
    (hc : getBlockChild tr e.data size = some c)
    (hx : (inorder tr s n c).getLast? = some x) :
    (inorder tr s (n + 1) idx).getLast? = some x := by
  have hsz := getBlockSize_nonneg hs
  unfold inorder
  rw [if_neg h0]
  simp only [Allocator.get, hl, hs]
  have hr : (size + 1).toNat = size.toNat + 1 := by omega
  rw [hr, range_succ_flatMap]
  apply getLast?_append_of_some
  have hcast : ((size.toNat : Nat) : Int) = size := by omega
  rw [hcast, hc]
  simp only [lt_self_iff_false, if_false, List.append_nil]
  exact hx

/-- In a leaf the traversal ends with the entry of the last slot. -/
theorem inorder_last_slot {tr : BTree} {s : Allocator} {idx : Int} {e : BlockEntry}
    {size : Int} {node : Bytes} {k : KeyType} {v : ValueType} (n : Nat)
    (h0 : idx ≠ 0) (hl : lookup s.blocks idx = some e) (hs : getBlockSize e.data = some size)
    (h1 : 1 ≤ size) (hc : getBlockChild tr e.data size = some 0)
    (hnode : getNodeSlice tr e.data (size - 1) = some node)
    (hk : getNodeKey tr node = some k) (hv : getNodeValue tr node = some v) :
    (inorder tr s (n + 1) idx).getLast? = some (k, v) := by
  unfold inorder
  rw [if_neg h0]
  simp only [Allocator.get, hl, hs]
  have hr : (size + 1).toNat = (size - 1).toNat + 1 + 1 := by omega
  rw [hr, range_succ_flatMap, range_succ_flatMap]
  have hcast : (((size - 1).toNat + 1 : Nat) : Int) = size := by omega
  have hcast2 : (((size - 1).toNat : Nat) : Int) = size - 1 := by omega
  rw [hcast, hcast2, hc]
  have hlt : size - 1 < size := by omega
  simp only [inorder_null, lt_self_iff_false, if_false, List.append_nil, hlt, if_true, hnode,
    hk, hv]
  apply getLast?_append_of_some
  apply getLast?_append_of_some
  rfl

theorem removeFromLeaf_max {tr : BTree} {block block1 : Bytes} {i size : Int}
    {dk : Option KeyType} {dv : Option ValueType}
    (h : removeFromLeaf tr block i size none = some (block1, dk, dv)) :
    ∃ node k v, getNodeSlice tr block i = some node ∧ getNodeKey tr node = some k
      ∧ getNodeValue tr node = some v ∧ dk = some k ∧ dv = some v := by
  unfold removeFromLeaf at h
  dsimp only at h
  cases hn : getNodeSlice tr block i with
  | none => simp [hn] at h
  | some node =>
    cases hk : getNodeKey tr node with
    | none => simp [hn, hk] at h
    | some k =>
      cases hv : getNodeValue tr node with
      | none => simp [hn, hk, hv] at h
      | some v =>
        simp only [hn, hk, hv, dupBytes] at h
        split at h
        · cases h
        · split at h
          · cases h
          · cases h
            exact ⟨node, k, v, rfl, hk, hv, rfl, rfl⟩

/-- The delete-max request on a well-formed, non-empty subtree returns the last
entry of the in-order traversal of that subtree. -/
theorem deleteHelper_max {tr : BTree} (tag : Nat) (hF : 2 ≤ tr.FanOut) :
    ∀ (h fuel : Nat) (idx : Int) (s s1 : Allocator) (e : BlockEntry) (size : Int)
      (r : HelperRet),
      idx ≠ 0 → lookup s.blocks idx = some e → BlockShape tr s.blocks h e.data size →
      1 ≤ size →
      deleteHelper tr tag fuel idx none s = (Outcome.ret r, s1) → r.err = none →
      ∃ k v, r.deletedKey = some k ∧ r.deletedValue = some v
        ∧ (inorder tr s (h + 1) idx).getLast? = some (k, v) := by
  intro h
  induction h with
  | zero =>
    intro fuel idx s s1 e size r hidx hl hsh h1 heq herr
    cases fuel with
    | zero =>
      unfold deleteHelper at heq
      cases heq
    | succ fuel =>
      unfold deleteHelper at heq
      dsimp only at heq
      rw [if_neg hidx] at heq
      split at heq
      · cases heq
        cases herr
      · rename_i block s2 hread
        obtain ⟨⟨e1, he1, hb⟩, _⟩ := read_ok hread
        rw [poolGet_blocks, hl] at he1
        cases he1
        subst hb
        obtain ⟨hsize, _, hch⟩ := hsh
        obtain ⟨c, hc, hc0⟩ := hch size (by omega) (le_refl _)
        have hc0 : c = 0 := hc0
        subst hc0
        obtain ⟨c1, hc1, hc10⟩ := hch (size - 1) (by omega) (by omega)
        have hc10 : c1 = 0 := hc10
        subst hc10
        have hloc : locate tr e.data none = some (size - 1, true) := by
          unfold locate
          simp only [hsize, hc, if_true]
        simp only [hloc, hc1, hsize, if_true] at heq
        split at heq
        · cases heq
        · rename_i block1 dk dv hrem
          cases heq
          obtain ⟨node, k, v, hn, hk, hv, rfl, rfl⟩ := removeFromLeaf_max hrem
          exact ⟨k, v, rfl, rfl, inorder_last_slot 0 hidx hl hsize h1 hc hn hk hv⟩
  | succ h ih =>
    intro fuel idx s s1 e size r hidx hl hsh h1 heq herr
    cases fuel with
    | zero =>
      unfold deleteHelper at heq
      cases heq
    | succ fuel =>
      unfold deleteHelper at heq
      dsimp only at heq
      rw [if_neg hidx] at heq
      split at heq
      · cases heq
        cases herr
      · rename_i block s2 hread
        obtain ⟨⟨e1, he1, hb⟩, hB2⟩ := read_ok hread
        rw [poolGet_blocks] at hB2
        rw [poolGet_blocks, hl] at he1
        cases he1
        subst hb
        obtain ⟨hsize, _, hch⟩ := hsh
        obtain ⟨c, hc, hc0, hcB⟩ := hch size (by omega) (le_refl _)
        have hloc : locate tr e.data none = some (size, false) := by
          unfold locate
          simp only [hsize, hc, hc0, if_false]
        simp only [hloc, hc, hsize, Bool.false_eq_true, if_false] at heq
        split at heq
        · cases heq
        · cases heq
        · rename_i r1 s3 hrec
          split at heq
          · cases heq
            cases herr
          · rename_i herr1
            obtain ⟨ec, sc, hlc, hshc, hmin⟩ := (balanced_iff tr s.blocks h c).mp hcB
            rw [← hB2] at hlc hshc
            obtain ⟨k, v, hk, hv, hlast⟩ := ih fuel c s2 s3 ec sc r1 hc0 hlc hshc (by omega)
              hrec herr1
            obtain ⟨p1, p2⟩ := rebalance_passes_deleted heq herr
            rw [inorder_congr hB2] at hlast
            exact ⟨k, v, by rw [p1, hk], by rw [p2, hv],
              inorder_last_child (h + 1) hidx hl hsize hc hlast⟩

/-- C18: page-buffer accounting. Whenever `Delete` returns (nil or any error, on
every path), the calls it sent to the allocator contain as many `Pool.Put` as
`Pool.Get`; and whenever `deleteHelper` returns, it has taken exactly one buffer
more than it has put back, the block it hands to its caller, which the caller
puts back. -/
theorem delete_returns_page_buffers (tr : BTree) (tag fuel : Nat) (treeIndex : TreeIndex)
    (key : KeyType) (s : Allocator) (e : Option Error)
    (h : (Delete tr tag fuel treeIndex key s).1 = Outcome.ret e) :
    (∃ ops, (Delete tr tag fuel treeIndex key s).2.log = s.log ++ ops
      ∧ ops.count Op.poolGet = ops.count Op.poolPut)
    ∧ ∀ (k : Option KeyType) (r : HelperRet),
        (deleteHelper tr tag fuel treeIndex k s).1 = Outcome.ret r →
        ∃ ops, (deleteHelper tr tag fuel treeIndex k s).2.log = s.log ++ ops
          ∧ ops.count Op.poolGet = ops.count Op.poolPut + 1 := by
  constructor
  · have hd := leasedOut_Delete tr tag fuel treeIndex key s
    unfold LeasedOut at hd
    rw [h] at hd
    obtain ⟨ops, hl, hc⟩ := hd
    exact ⟨ops, hl, by omega⟩
  · intro k r hr
    have hd := leasedOut_deleteHelper tr tag fuel treeIndex k s
    unfold LeasedOut at hd
    rw [hr] at hd
    obtain ⟨ops, hl, hc⟩ := hd
    exact ⟨ops, hl, by omega⟩

set_option maxRecDepth 100000 in
/-- Witness of `delete_returns_page_buffers`: deleting key 3 from the tree of
three blocks (recursion, merge and root contraction) takes three buffers and
puts three back. -/
theorem delete_returns_page_buffers_witness :
    (Delete smallTree 0 3 1 [3] threeBlockStore).2.log
      = [Op.poolGet, Op.read 1, Op.poolGet, Op.read 2, Op.poolGet, Op.read 3,
          Op.write 2 false, Op.poolPut, Op.poolPut,
          Op.read 2, Op.write 1 false, Op.free 2 false, Op.poolPut]
    ∧ ∃ ops, (Delete smallTree 0 3 1 [3] threeBlockStore).2.log = threeBlockStore.log ++ ops
      ∧ ops.count Op.poolGet = ops.count Op.poolPut :=
  ⟨by decide,
    (delete_returns_page_buffers smallTree 0 3 1 [3] threeBlockStore none (by decide)).1⟩

/-- C19: rotation sizes. When the rebalance step redistributes (the left block
`sib` has `ss` entries, the right block `child` has `cs`, `cs + ss ≥ FanOut`,
one of the two is below `FanOut/2`, both are at most `FanOut`, `FanOut` even)
and succeeds, the parent's slots `sibIndex` and `sibIndex + 1` point to two
stored blocks of sizes `newL = (ss + cs) / 2` and `newR = ss + cs - newL`, and
`newL + newR = ss + cs`, `FanOut/2 ≤ newL ≤ newR ≤ FanOut`. The two blocks had
distinct stored indices before, and `FanOut` fits the 32-bit size field. -/
theorem rotation_sizes (tr : BTree) (tag : Nat) (block sibBlock childBlock : Bytes)
    (blockSize sibIndex sibTree childTree ss cs : Int) (dk : Option KeyType)
    (dv : Option ValueType) (swapped : Bool) (s : Allocator) (r : HelperRet)
    (hF : 2 ≤ tr.FanOut) (hev : tr.FanOut % 2 = 0) (hF32 : tr.FanOut < 4294967296)
    (hsibTree : getBlockChild tr block sibIndex = some sibTree)
    (hchildTree : getBlockChild tr block (sibIndex + 1) = some childTree)
    (hne : sibTree ≠ childTree)
    (hstoredL : s.get sibTree ≠ none) (hstoredR : s.get childTree ≠ none)
    (hL : getBlockSize sibBlock = some ss) (hR : getBlockSize childBlock = some cs)
    (hssF : ss ≤ tr.FanOut) (hcsF : cs ≤ tr.FanOut)
    (hsmall : ss * 2 < tr.FanOut ∨ cs * 2 < tr.FanOut) (hsum : cs + ss ≥ tr.FanOut)
    (hret : (rotateOrMerge tr tag block blockSize sibIndex sibTree sibBlock ss
      childTree childBlock cs dk dv swapped s).1 = Outcome.ret r)
    (herr : r.err = none) :
    ((ss + cs) / 2 + (ss + cs - (ss + cs) / 2) = ss + cs
      ∧ tr.FanOut / 2 ≤ (ss + cs) / 2
      ∧ (ss + cs) / 2 ≤ ss + cs - (ss + cs) / 2
      ∧ ss + cs - (ss + cs) / 2 ≤ tr.FanOut)
    ∧ ∃ l c eL eC, getBlockChild tr r.block sibIndex = some l
      ∧ getBlockChild tr r.block (sibIndex + 1) = some c
      ∧ (rotateOrMerge tr tag block blockSize sibIndex sibTree sibBlock ss
          childTree childBlock cs dk dv swapped s).2.get l = some eL
      ∧ (rotateOrMerge tr tag block blockSize sibIndex sibTree sibBlock ss
          childTree childBlock cs dk dv swapped s).2.get c = some eC
      ∧ getBlockSize eL.data = some ((ss + cs) / 2)
      ∧ getBlockSize eC.data = some (ss + cs - (ss + cs) / 2) := by
  refine ⟨rotation_arith hev (getBlockSize_nonneg hL) (getBlockSize_nonneg hR) hssF hcsF
    hsmall hsum, ?_⟩
  have hrot : rotateOrMerge tr tag block blockSize sibIndex sibTree sibBlock ss
      childTree childBlock cs dk dv swapped s
      = rotateBlocks tr tag block sibIndex sibTree sibBlock ss childTree childBlock cs
          dk dv swapped s := by
    unfold rotateOrMerge
    rw [if_pos hsum]
  rw [hrot] at hret ⊢
  exact rotateBlocks_sizes hF hev hF32 hsibTree hchildTree hne hstoredL hstoredR hL hR hssF hcsF
    hsmall hsum (Prod.ext hret rfl) herr

set_option maxRecDepth 100000 in
/-- Witness of `rotation_sizes`: key 3 was removed from leaf 2 of `rotationStore`;
the emptied leaf and its right sibling (keys 8 and 9) are rotated into two blocks
of one entry each. -/
theorem rotation_sizes_witness :
    (rotateOrMerge smallTree 0 (innerOne 2 3 5 50) 1 0 2 emptiedLeaf 0 3 (leafPair 8 80 9 90) 2
      none none true rotationStore).1 = Outcome.ret ⟨innerOne 2 3 8 80, none, none, none⟩
    ∧ (rotateOrMerge smallTree 0 (innerOne 2 3 5 50) 1 0 2 emptiedLeaf 0 3 (leafPair 8 80 9 90) 2
      none none true rotationStore).2.get 2 = some ⟨false, leafOne 5 50⟩
    ∧ (rotateOrMerge smallTree 0 (innerOne 2 3 5 50) 1 0 2 emptiedLeaf 0 3 (leafPair 8 80 9 90) 2
      none none true rotationStore).2.get 3 = some ⟨false, leafOne 9 90⟩
    ∧ ((0 + 2) / 2 + (0 + 2 - (0 + 2) / 2) = (0 : Int) + 2
      ∧ smallTree.FanOut / 2 ≤ (0 + 2) / 2
      ∧ ((0 : Int) + 2) / 2 ≤ 0 + 2 - (0 + 2) / 2
      ∧ 0 + 2 - (0 + 2) / 2 ≤ smallTree.FanOut) :=
  ⟨by decide, by decide, by decide,
    (rotation_sizes smallTree 0 (innerOne 2 3 5 50) emptiedLeaf (leafPair 8 80 9 90) 1 0 2 3 0 2
      none none true rotationStore ⟨innerOne 2 3 8 80, none, none, none⟩
      (by decide) (by decide) (by decide) (by decide) (by decide) (by decide) (by decide)
      (by decide) (by decide) (by decide) (by decide) (by decide) (by decide) (by decide)
      (by decide) rfl).1⟩

set_option maxRecDepth 100000 in
/-- C20 (fails on the code): the delete-max request removes more than the
maximum when the emptied leaf is merged with a read-only sibling. In the tree of
height 2 holding 3, 5, 8, 9, 12, 15, 20, whose block 2 (key 5) stands over the
read-only leaves 4 (key 3) and 5 (key 8), `Delete(9)` matches slot 0 of the root
and asks block 2 for its maximum. The request returns the entry (8, 80), but the
merged leaf (3, 5) is written to the fresh index 8 and block 2 keeps pointing at
leaf 4: the subtree it returns holds only key 3. `Delete` returns nil and the
tree holds 3, 8, 12, 15, 20: key 5 is lost. With all blocks mutable the same call
leaves 3, 5, 8, 12, 15, 20; and where no merge is needed (`leftHeavyStore`,
`Delete(5)`) the matched slot receives the former maximum (4, 40) of its left
subtree. What does hold on every well-formed non-empty subtree, read-only blocks
included: the key and value that a successful delete-max request returns are the
last entry of the in-order traversal of the subtree. -/
theorem delete_max_drops_merged_leaf :
    (∀ (tr : BTree) (tag h fuel : Nat) (idx : Int) (s s1 : Allocator) (e : BlockEntry)
        (size : Int) (r : HelperRet),
        2 ≤ tr.FanOut → idx ≠ 0 → lookup s.blocks idx = some e →
        BlockShape tr s.blocks h e.data size → 1 ≤ size →
        deleteHelper tr tag fuel idx none s = (Outcome.ret r, s1) → r.err = none →
        ∃ k v, r.deletedKey = some k ∧ r.deletedValue = some v
          ∧ (inorder tr s (h + 1) idx).getLast? = some (k, v))
    ∧ inorder smallTree twoLevelStore 4 1
      = [([3], [30]), ([5], [50]), ([8], [80]), ([9], [90]), ([12], [120]), ([15], [150]),
          ([20], [200])]
    ∧ (deleteHelper smallTree 0 3 2 none twoLevelStore).1
      = Outcome.ret ⟨emptiedInner, some [8], some [80], none⟩
    ∧ getBlockChild smallTree emptiedInner 0 = some 4
    ∧ inorder smallTree (deleteHelper smallTree 0 3 2 none twoLevelStore).2 3 4 = [([3], [30])]
    ∧ inorder smallTree (deleteHelper smallTree 0 3 2 none twoLevelStore).2 3 8
      = [([3], [30]), ([5], [50])]
    ∧ (Delete smallTree 0 4 1 [9] twoLevelStore).1 = Outcome.ret none
    ∧ inorder smallTree (Delete smallTree 0 4 1 [9] twoLevelStore).2 4 1
      = [([3], [30]), ([8], [80]), ([12], [120]), ([15], [150]), ([20], [200])]
    ∧ (Delete smallTree 0 4 1 [9] twoLevelMutable).1 = Outcome.ret none
    ∧ inorder smallTree (Delete smallTree 0 4 1 [9] twoLevelMutable).2 4 1
      = [([3], [30]), ([5], [50]), ([8], [80]), ([12], [120]), ([15], [150]), ([20], [200])]
    ∧ (Delete smallTree 0 3 1 [5] leftHeavyStore).1 = Outcome.ret none
    ∧ (Delete smallTree 0 3 1 [5] leftHeavyStore).2.get 1 = some ⟨false, innerOne 2 3 4 40⟩
    ∧ inorder smallTree (Delete smallTree 0 3 1 [5] leftHeavyStore).2 3 1
      = [([3], [30]), ([4], [40]), ([8], [80])] := by
  refine ⟨?_, by decide⟩
  intro tr tag h fuel idx s s1 e size r hF hidx hl hsh h1 heq herr
  exact deleteHelper_max tag hF h fuel idx s s1 e size r hidx hl hsh h1 heq herr

/-! ### Round trips of the codec -/

theorem writeBytes_ok {b : Bytes} {off : Nat} {d : Bytes} (h : off + d.length ≤ b.length) :
    ∃ b1, writeBytes b off d = some b1 := by
  unfold writeBytes
  rw [if_pos h]
  exact ⟨_, rfl⟩

theorem readBytes_ok {b : Bytes} {off len : Nat} (h : off + len ≤ b.length) :
    ∃ r, readBytes b off len = some r := by
  unfold readBytes
  rw [if_pos h]
  exact ⟨_, rfl⟩

/-- What `setNode` stores in a slot of `nodeSize = 4 + MaxKeySize + EntrySize`
bytes, and what the two readers return afterwards. -/
theorem setNode_roundtrip {tr : BTree} {node : Bytes} {key : KeyType} {value : ValueType}
    (hns : tr.nodeSize = 4 + tr.MaxKeySize + tr.EntrySize)
    (hM : 0 ≤ tr.MaxKeySize) (hM32 : tr.MaxKeySize < 4294967296) (hE : 0 ≤ tr.EntrySize)
    (hlen : (node.length : Int) = tr.nodeSize)
    (hk : (key.length : Int) ≤ tr.MaxKeySize) (hv : (value.length : Int) = tr.EntrySize) :
    ∃ node1, setNode tr node key value = some node1 ∧ node1.length = node.length
      ∧ getNodeKey tr node1 = some key ∧ getNodeValue tr node1 = some value := by
  have h4 : 0 + (leBytes 4 ((key.length : Int) % 4294967296).toNat).length ≤ node.length := by
    rw [leBytes_length]
    omega
  obtain ⟨n1, hn1⟩ := writeBytes_ok h4
  have hl1 := writeBytes_length hn1
  have htk : key.take (n1.length - 4) = key := by
    apply List.take_of_length_le
    omega
  have hfit2 : 4 + key.length ≤ n1.length := by omega
  obtain ⟨n2, hn2⟩ := writeBytes_ok hfit2
  have hl2 := writeBytes_length hn2
  have htv : value.take (n2.length - (4 + tr.MaxKeySize).toNat) = value := by
    apply List.take_of_length_le
    omega
  have hfit3 : (4 + tr.MaxKeySize).toNat + value.length ≤ n2.length := by omega
  obtain ⟨n3, hn3⟩ := writeBytes_ok hfit3
  have hl3 := writeBytes_length hn3
  have hc : ¬ (4 + tr.MaxKeySize < 0 ∨ 4 + tr.MaxKeySize > (n2.length : Int)) := by omega
  have hset : setNode tr node key value = some n3 := by
    unfold setNode putUint32
    simp only [hn1, htk, hn2, hc, if_false, htv, hn3]
  refine ⟨n3, hset, by omega, ?_, ?_⟩
  · -- the key
    have hu : uint32 n3 = some key.length := by
      unfold uint32
      rw [readBytes_writeBytes_disjoint hn3 0 4 (Or.inl (by omega)),
        readBytes_writeBytes_disjoint hn2 0 4 (Or.inl (by omega))]
      have := readBytes_writeBytes_same hn1
      rw [leBytes_length] at this
      rw [this]
      simp only [Option.map_some', leValue_leBytes]
      congr 1
      have : ((key.length : Int) % 4294967296).toNat = key.length := by omega
      rw [this]
      have hlt : key.length < 256 ^ 4 := by
        norm_num
        omega
      exact Nat.mod_eq_of_lt hlt
    unfold getNodeKey
    rw [hu]
    have hnot : ¬ ((key.length : Int) > tr.MaxKeySize) := by omega
    simp only [hnot, if_false]
    rw [readBytes_writeBytes_disjoint hn3 4 key.length (Or.inl (by omega))]
    exact readBytes_writeBytes_same hn2
  · -- the value
    unfold getNodeValue
    have hnot : ¬ (4 + tr.MaxKeySize < 0 ∨ 4 + tr.MaxKeySize > tr.nodeSize
        ∨ tr.nodeSize > (n3.length : Int)) := by omega
    rw [if_neg hnot]
    have hlv : (tr.nodeSize - (4 + tr.MaxKeySize)).toNat = value.length := by omega
    rw [hlv]
    exact readBytes_writeBytes_same hn3

theorem setBlockSize_ok {b : Bytes} (n : Int) (h : 4 ≤ b.length) :
    ∃ b1, setBlockSize b n = some b1 := by
  unfold setBlockSize putUint32
  apply writeBytes_ok
  rw [leBytes_length]
  omega

theorem setBlockChild_ok {tr : BTree} {b : Bytes} {i : Int} (c : Int) (h0 : 0 ≤ i)
    (hF : i ≤ tr.FanOut) (h : 4 + 8 * i + 8 ≤ (b.length : Int)) :
    ∃ b1, setBlockChild tr b i c = some b1 := by
  unfold setBlockChild
  have hr : ¬ (i < 0 ∨ i > tr.FanOut) := by omega
  rw [if_neg hr]
  apply writeBytes_ok
  rw [leBytes_length]
  omega

/-- The slot `i` of a block after `setNodeAt`: the bytes that `setNode` produced. -/
theorem setNodeAt_roundtrip {tr : BTree} {block : Bytes} {i : Int} {key : KeyType}
    {value : ValueType}
    (hns : tr.nodeSize = 4 + tr.MaxKeySize + tr.EntrySize)
    (hM : 0 ≤ tr.MaxKeySize) (hM32 : tr.MaxKeySize < 4294967296) (hE : 0 ≤ tr.EntrySize)
    (hstart : 0 ≤ nodeStart tr i) (hlen : nodeStart tr i + tr.nodeSize ≤ (block.length : Int))
    (hk : (key.length : Int) ≤ tr.MaxKeySize) (hv : (value.length : Int) = tr.EntrySize) :
    ∃ b1 node1, setNodeAt tr block i key value = some b1 ∧ b1.length = block.length
      ∧ getNodeSlice tr b1 i = some node1
      ∧ getNodeKey tr node1 = some key ∧ getNodeValue tr node1 = some value := by
  have hs : ¬ (nodeStart tr i < 0 ∨ tr.nodeSize < 0) := by omega
  have hfit : (nodeStart tr i).toNat + tr.nodeSize.toNat ≤ block.length := by omega
  obtain ⟨node, hnode⟩ := readBytes_ok hfit
  have hslice : getNodeSlice tr block i = some node := by
    unfold getNodeSlice
    rw [if_neg hs]
    exact hnode
  have hnl : (node.length : Int) = tr.nodeSize := by
    rw [readBytes_length hnode]
    omega
  obtain ⟨node1, hset, hl1, hkey, hval⟩ := setNode_roundtrip hns hM hM32 hE hnl hk hv
  have htake : node1.take tr.nodeSize.toNat = node1 := by
    apply List.take_of_length_le
    omega
  have hfit2 : (nodeStart tr i).toNat + node1.length ≤ block.length := by omega
  obtain ⟨b1, hb1⟩ := writeBytes_ok hfit2
  have hb1l := writeBytes_length hb1
  refine ⟨b1, node1, ?_, hb1l, ?_, hkey, hval⟩
  · unfold setNodeAt copyNodeSlice
    simp only [hslice, hset, htake, hb1]
  · unfold getNodeSlice
    rw [if_neg hs]
    have := readBytes_writeBytes_same hb1
    have hnl1 : node1.length = tr.nodeSize.toNat := by omega
    rw [hnl1] at this
    exact this

/-- C21: round trips of the codec. In a slot of `nodeSize = 4 + MaxKeySize +
EntrySize` bytes, `setNode` with a key of at most `MaxKeySize` bytes and a value
of `EntrySize` bytes succeeds, and `getNodeKey` and `getNodeValue` return that
key and that value; the same holds for slot `i` of a block through
`getNodeSlice`. For `0 ≤ i ≤ FanOut` and every `int64` index `x`,
`getBlockChild` after `setBlockChild(i, x)` returns `x`; for `0 ≤ n < 2^32`,
`getBlockSize` after `setBlockSize(n)` returns `n`. The key length field is a
u32, so `MaxKeySize < 2^32`. -/
theorem codec_round_trip (tr : BTree)
    (hns : tr.nodeSize = 4 + tr.MaxKeySize + tr.EntrySize)
    (hM : 0 ≤ tr.MaxKeySize) (hM32 : tr.MaxKeySize < 4294967296) (hE : 0 ≤ tr.EntrySize) :
    (∀ (node : Bytes) (key : KeyType) (value : ValueType),
        (node.length : Int) = tr.nodeSize →
        (key.length : Int) ≤ tr.MaxKeySize → (value.length : Int) = tr.EntrySize →
        ∃ node1, setNode tr node key value = some node1
          ∧ getNodeKey tr node1 = some key ∧ getNodeValue tr node1 = some value)
    ∧ (∀ (block : Bytes) (i : Int) (key : KeyType) (value : ValueType),
        0 ≤ tr.FanOut → 0 ≤ i → i < tr.FanOut → blockBytes tr ≤ block.length →
        (key.length : Int) ≤ tr.MaxKeySize → (value.length : Int) = tr.EntrySize →
        ∃ b1 node1, setNodeAt tr block i key value = some b1
          ∧ getNodeSlice tr b1 i = some node1
          ∧ getNodeKey tr node1 = some key ∧ getNodeValue tr node1 = some value)
    ∧ (∀ (block : Bytes) (i x : Int), 0 ≤ i → i ≤ tr.FanOut → InRange x →
        4 + 8 * i + 8 ≤ (block.length : Int) →
        ∃ b1, setBlockChild tr block i x = some b1 ∧ getBlockChild tr b1 i = some x)
    ∧ ∀ (block : Bytes) (n : Int), 0 ≤ n → n < 4294967296 → 4 ≤ block.length →
        ∃ b1, setBlockSize block n = some b1 ∧ getBlockSize b1 = some n := by
  refine ⟨?_, ?_, ?_, ?_⟩
  · intro node key value hl hk hv
    obtain ⟨node1, h1, _, h2, h3⟩ := setNode_roundtrip hns hM hM32 hE hl hk hv
    exact ⟨node1, h1, h2, h3⟩
  · intro block i key value hF hi0 hiF hlen hk hv
    have hnn : 0 ≤ tr.nodeSize := by omega
    have hin : 0 ≤ i * tr.nodeSize := Int.mul_nonneg hi0 hnn
    have hup : (i + 1) * tr.nodeSize ≤ tr.FanOut * tr.nodeSize :=
      Int.mul_le_mul_of_nonneg_right (by omega) hnn
    have hstart : 0 ≤ nodeStart tr i := by
      unfold nodeStart
      omega
    have hfit : nodeStart tr i + tr.nodeSize ≤ (block.length : Int) := by
      unfold nodeStart
      unfold blockBytes at hlen
      nlinarith
    obtain ⟨b1, node1, h1, _, h2, h3, h4⟩ :=
      @setNodeAt_roundtrip tr block i key value hns hM hM32 hE hstart hfit hk hv
    exact ⟨b1, node1, h1, h2, h3, h4⟩
  · intro block i x hi0 hiF hx hlen
    obtain ⟨b1, hb1⟩ := @setBlockChild_ok tr block i x hi0 hiF hlen
    exact ⟨b1, hb1, getBlockChild_setBlockChild_same hb1 hx⟩
  · intro block n hn0 hn1 hlen
    obtain ⟨b1, hb1⟩ := @setBlockSize_ok block n hlen
    refine ⟨b1, hb1, ?_⟩
    rw [getBlockSize_setBlockSize hb1, Int.emod_eq_of_lt hn0 hn1]

set_option maxRecDepth 100000 in
/-- Witness of `codec_round_trip`: key 7 and value 70 in slot 1 of a block of the
small tree, child 2 set to the largest index, and the size 2. -/
theorem codec_round_trip_witness :
    (∃ node1, setNode smallTree [0, 0, 0, 0, 0, 0] [7] [70] = some node1
        ∧ getNodeKey smallTree node1 = some [7] ∧ getNodeValue smallTree node1 = some [70])
    ∧ (∃ b1 node1, setNodeAt smallTree (innerOne 2 3 5 50) 1 [7] [70] = some b1
        ∧ getNodeSlice smallTree b1 1 = some node1
        ∧ getNodeKey smallTree node1 = some [7] ∧ getNodeValue smallTree node1 = some [70])
    ∧ (∃ b1, setBlockChild smallTree (innerOne 2 3 5 50) 2 9223372036854775807 = some b1
        ∧ getBlockChild smallTree b1 2 = some 9223372036854775807)
    ∧ ∃ b1, setBlockSize (innerOne 2 3 5 50) 2 = some b1 ∧ getBlockSize b1 = some 2 :=
  ⟨(codec_round_trip smallTree (by decide) (by decide) (by decide) (by decide)).1
      [0, 0, 0, 0, 0, 0] [7] [70] (by decide) (by decide) (by decide),
    (codec_round_trip smallTree (by decide) (by decide) (by decide) (by decide)).2.1
      (innerOne 2 3 5 50) 1 [7] [70] (by decide) (by decide) (by decide) (by decide)
      (by decide) (by decide),
    (codec_round_trip smallTree (by decide) (by decide) (by decide) (by decide)).2.2.1
      (innerOne 2 3 5 50) 2 9223372036854775807 (by decide) (by decide)
      (by unfold InRange; decide) (by decide),
    (codec_round_trip smallTree (by decide) (by decide) (by decide) (by decide)).2.2.2
      (innerOne 2 3 5 50) 2 (by decide) (by decide) (by decide)⟩

/-! ### Field independence of the codec -/

theorem getNodeSlice_setBlockSize {tr : BTree} {b b1 : Bytes} {n : Int}
    (hF : 0 ≤ tr.FanOut) (hns : 0 ≤ tr.nodeSize)
    (h : setBlockSize b n = some b1) {j : Int} (hj : 0 ≤ j) :
    getNodeSlice tr b1 j = getNodeSlice tr b j := by
  unfold setBlockSize putUint32 at h
  have hs := nodeStart_ge hF hj hns
  unfold getNodeSlice
  split
  · rfl
  · apply readBytes_writeBytes_disjoint h
    right
    rw [leBytes_length]
    omega

theorem getNodeSlice_setBlockChild {tr : BTree} {b b1 : Bytes} {i c : Int}
    (hns : 0 ≤ tr.nodeSize)
    (h : setBlockChild tr b i c = some b1) {j : Int} (hj : 0 ≤ j) :
    getNodeSlice tr b1 j = getNodeSlice tr b j := by
  unfold setBlockChild at h
  split at h
  · cases h
  · rename_i hi
    have hs := nodeStart_ge (by omega : 0 ≤ tr.FanOut) hj hns
    unfold getNodeSlice
    split
    · rfl
    · apply readBytes_writeBytes_disjoint h
      right
      rw [leBytes_length]
      omega

theorem getNodeSlice_copyNodeSlice_ne {tr : BTree} {b b1 : Bytes} {i : Int} {src : Bytes}
    (h : copyNodeSlice tr b i src = some b1) {j : Int} (hij : j ≠ i) :
    getNodeSlice tr b1 j = getNodeSlice tr b j := by
  obtain ⟨h0, hn, hw⟩ := copyNodeSlice_writeBytes h
  unfold getNodeSlice
  split
  · rfl
  · rename_i hc
    apply readBytes_writeBytes_disjoint hw
    have hl : (src.take tr.nodeSize.toNat).length ≤ tr.nodeSize.toNat := by
      rw [List.length_take]
      exact Nat.min_le_left _ _
    have hj0 : 0 ≤ nodeStart tr j := by omega
    unfold nodeStart at h0 hj0 ⊢
    rcases lt_or_gt_of_ne hij with hlt | hgt
    · left
      have : (j + 1) * tr.nodeSize ≤ i * tr.nodeSize :=
        Int.mul_le_mul_of_nonneg_right (by omega) hn
      have e : (j + 1) * tr.nodeSize = j * tr.nodeSize + tr.nodeSize := by ring
      omega
    · right
      have : (i + 1) * tr.nodeSize ≤ j * tr.nodeSize :=
        Int.mul_le_mul_of_nonneg_right (by omega) hn
      have e : (i + 1) * tr.nodeSize = i * tr.nodeSize + tr.nodeSize := by ring
      omega

theorem getNodeSlice_setNodeAt_ne {tr : BTree} {b b1 : Bytes} {i : Int} {k v : Bytes}
    (h : setNodeAt tr b i k v = some b1) {j : Int} (hij : j ≠ i) :
    getNodeSlice tr b1 j = getNodeSlice tr b j := by
  unfold setNodeAt at h
  split at h
  · cases h
  · split at h
    · cases h
    · exact getNodeSlice_copyNodeSlice_ne h hij

theorem setBlockSize_outside {b b1 : Bytes} {n : Int} (h : setBlockSize b n = some b1)
    (k : Nat) (hk : ¬ sizeRange.Has k) : b1[k]? = b[k]? := by
  unfold setBlockSize putUint32 at h
  rw [writeBytes_getElem? h, leBytes_length]
  unfold ByteRange.Has sizeRange at hk
  simp only at hk
  have hk4 : ¬ k < 0 + 4 := by omega
  simp [hk4]

theorem setBlockChild_outside {tr : BTree} {b b1 : Bytes} {i c : Int}
    (h : setBlockChild tr b i c = some b1) (k : Nat) (hk : ¬ (childRange i).Has k) :
    b1[k]? = b[k]? := by
  unfold setBlockChild at h
  split at h
  · cases h
  · rename_i hi
    rw [writeBytes_getElem? h, leBytes_length]
    unfold ByteRange.Has childRange at hk
    simp only at hk
    by_cases h1 : k < (4 + 8 * i).toNat
    · rw [if_pos h1]
    · rw [if_neg h1]
      have h2 : ¬ k < (4 + 8 * i).toNat + 8 := by omega
      rw [if_neg h2]

theorem copyNodeSlice_outside {tr : BTree} {b b1 : Bytes} {i : Int} {src : Bytes}
    (h : copyNodeSlice tr b i src = some b1) (k : Nat) (hk : ¬ (slotRange tr i).Has k) :
    b1[k]? = b[k]? := by
  obtain ⟨h0, hn, hw⟩ := copyNodeSlice_writeBytes h
  rw [writeBytes_getElem? hw]
  have hl : (src.take tr.nodeSize.toNat).length ≤ tr.nodeSize.toNat := by
    rw [List.length_take]
    exact Nat.min_le_left _ _
  unfold ByteRange.Has slotRange at hk
  simp only at hk
  by_cases h1 : k < (nodeStart tr i).toNat
  · rw [if_pos h1]
  · rw [if_neg h1]
    have h2 : ¬ k < (nodeStart tr i).toNat + (src.take tr.nodeSize.toNat).length := by omega
    rw [if_neg h2]

theorem setNodeAt_outside {tr : BTree} {b b1 : Bytes} {i : Int} {key v : Bytes}
    (h : setNodeAt tr b i key v = some b1) (k : Nat) (hk : ¬ (slotRange tr i).Has k) :
    b1[k]? = b[k]? := by
  unfold setNodeAt at h
  split at h
  · cases h
  · split at h
    · cases h
    · exact copyNodeSlice_outside h k hk

theorem getBlockSize_congr {b b1 : Bytes} (hlen : b1.length = b.length)
    (h : ∀ k, sizeRange.Has k → b1[k]? = b[k]?) : getBlockSize b1 = getBlockSize b := by
  unfold getBlockSize uint32
  rw [readBytes_congr hlen]
  intro j h1 h2
  apply h
  unfold ByteRange.Has sizeRange
  simp only
  omega

theorem getBlockChild_congr {tr : BTree} {b b1 : Bytes} (hlen : b1.length = b.length) (i : Int)
    (h : ∀ k, (childRange i).Has k → b1[k]? = b[k]?) :
    getBlockChild tr b1 i = getBlockChild tr b i := by
  unfold getBlockChild
  split
  · rfl
  · rename_i hi
    rw [readBytes_congr hlen]
    intro j h1 h2
    apply h
    unfold ByteRange.Has childRange
    simp only
    omega

theorem getNodeSlice_congr {tr : BTree} {b b1 : Bytes} (hlen : b1.length = b.length) (i : Int)
    (h : ∀ k, (slotRange tr i).Has k → b1[k]? = b[k]?) :
    getNodeSlice tr b1 i = getNodeSlice tr b i := by
  unfold getNodeSlice
  split
  · rfl
  · rename_i hi
    rw [readBytes_congr hlen]
    intro j h1 h2
    apply h
    unfold ByteRange.Has slotRange
    simp only
    omega

theorem field_ranges {tr : BTree} (hF : 0 ≤ tr.FanOut) (hnn : 0 ≤ tr.nodeSize) :
    sizeRange.Within (blockBytes tr)
    ∧ (∀ i : Int, 0 ≤ i → i ≤ tr.FanOut →
        sizeRange.Apart (childRange i) ∧ (childRange i).Within (blockBytes tr))
    ∧ (∀ i : Int, 0 ≤ i → i < tr.FanOut →
        sizeRange.Apart (slotRange tr i) ∧ (slotRange tr i).Within (blockBytes tr))
    ∧ (∀ i j : Int, 0 ≤ i → i ≤ tr.FanOut → 0 ≤ j → j ≤ tr.FanOut → i ≠ j →
        (childRange i).Apart (childRange j))
    ∧ (∀ i j : Int, 0 ≤ i → i ≤ tr.FanOut → 0 ≤ j → j < tr.FanOut →
        (childRange i).Apart (slotRange tr j))
    ∧ ∀ i j : Int, 0 ≤ i → i < tr.FanOut → 0 ≤ j → j < tr.FanOut → i ≠ j →
        (slotRange tr i).Apart (slotRange tr j) := by
  have hprod : 0 ≤ tr.nodeSize * tr.FanOut := Int.mul_nonneg hnn hF
  have hbb : blockBytes tr = 12 + 8 * tr.FanOut + tr.nodeSize * tr.FanOut := by
    unfold blockBytes
    ring
  refine ⟨?_, ?_, ?_, ?_, ?_, ?_⟩
  · unfold ByteRange.Within sizeRange
    simp only
    omega
  · intro i hi0 hiF
    unfold ByteRange.Apart ByteRange.Within sizeRange childRange
    simp only
    omega
  · intro i hi0 hiF
    have h1 : 0 ≤ i * tr.nodeSize := Int.mul_nonneg hi0 hnn
    have h2 : (i + 1) * tr.nodeSize ≤ tr.FanOut * tr.nodeSize :=
      Int.mul_le_mul_of_nonneg_right (by omega) hnn
    have e1 : (i + 1) * tr.nodeSize = i * tr.nodeSize + tr.nodeSize := by ring
    have e2 : tr.FanOut * tr.nodeSize = tr.nodeSize * tr.FanOut := by ring
    unfold ByteRange.Apart ByteRange.Within sizeRange slotRange nodeStart
    simp only
    omega
  · intro i j hi0 hiF hj0 hjF hij
    unfold ByteRange.Apart childRange
    simp only
    omega
  · intro i j hi0 hiF hj0 hjF
    have h1 : 0 ≤ j * tr.nodeSize := Int.mul_nonneg hj0 hnn
    unfold ByteRange.Apart childRange slotRange nodeStart
    simp only
    omega
  · intro i j hi0 hiF hj0 hjF hij
    unfold ByteRange.Apart slotRange nodeStart
    simp only
    rcases lt_or_gt_of_ne hij with hlt | hgt
    · left
      have : (i + 1) * tr.nodeSize ≤ j * tr.nodeSize :=
        Int.mul_le_mul_of_nonneg_right (by omega) hnn
      have e : (i + 1) * tr.nodeSize = i * tr.nodeSize + tr.nodeSize := by ring
      omega
    · right
      have : (j + 1) * tr.nodeSize ≤ i * tr.nodeSize :=
        Int.mul_le_mul_of_nonneg_right (by omega) hnn
      have e : (j + 1) * tr.nodeSize = j * tr.nodeSize + tr.nodeSize := by ring
      omega

/-- C24: field independence of the codec, for `FanOut ≥ 0`, `MaxKeySize ≥ 0`,
`EntrySize ≥ 0` and `nodeSize = 4 + MaxKeySize + EntrySize`. The byte ranges of
the size field, of the `FanOut + 1` child pointers and of the `FanOut` slots are
pairwise disjoint and lie in the first `12 + (8 + nodeSize) * FanOut` bytes.
Each getter depends only on the bytes of its range and each setter changes only
bytes of its range. So `setBlockSize`, `setBlockChild(i)` and `setNode` on slot
`i` leave the result of every other accessor as it was. -/
theorem field_independence (tr : BTree) (hF : 0 ≤ tr.FanOut) (hM : 0 ≤ tr.MaxKeySize)
    (hE : 0 ≤ tr.EntrySize) (hns : tr.nodeSize = 4 + tr.MaxKeySize + tr.EntrySize) :
    (sizeRange.Within (blockBytes tr)
      ∧ (∀ i : Int, 0 ≤ i → i ≤ tr.FanOut →
          sizeRange.Apart (childRange i) ∧ (childRange i).Within (blockBytes tr))
      ∧ (∀ i : Int, 0 ≤ i → i < tr.FanOut →
          sizeRange.Apart (slotRange tr i) ∧ (slotRange tr i).Within (blockBytes tr))
      ∧ (∀ i j : Int, 0 ≤ i → i ≤ tr.FanOut → 0 ≤ j → j ≤ tr.FanOut → i ≠ j →
          (childRange i).Apart (childRange j))
      ∧ (∀ i j : Int, 0 ≤ i → i ≤ tr.FanOut → 0 ≤ j → j < tr.FanOut →
          (childRange i).Apart (slotRange tr j))
      ∧ ∀ i j : Int, 0 ≤ i → i < tr.FanOut → 0 ≤ j → j < tr.FanOut → i ≠ j →
          (slotRange tr i).Apart (slotRange tr j))
    ∧ (∀ b b1 : Bytes, b1.length = b.length →
        ((∀ k, sizeRange.Has k → b1[k]? = b[k]?) → getBlockSize b1 = getBlockSize b)
        ∧ (∀ i : Int, (∀ k, (childRange i).Has k → b1[k]? = b[k]?) →
            getBlockChild tr b1 i = getBlockChild tr b i)
        ∧ ∀ i : Int, (∀ k, (slotRange tr i).Has k → b1[k]? = b[k]?) →
            getNodeSlice tr b1 i = getNodeSlice tr b i)
    ∧ (∀ (b b1 : Bytes) (n : Int), setBlockSize b n = some b1 →
        (∀ k, ¬ sizeRange.Has k → b1[k]? = b[k]?)
        ∧ (∀ j : Int, getBlockChild tr b1 j = getBlockChild tr b j)
        ∧ ∀ j : Int, 0 ≤ j → j < tr.FanOut → getNodeSlice tr b1 j = getNodeSlice tr b j)
    ∧ (∀ (b b1 : Bytes) (i x : Int), setBlockChild tr b i x = some b1 →
        (∀ k, ¬ (childRange i).Has k → b1[k]? = b[k]?)
        ∧ getBlockSize b1 = getBlockSize b
        ∧ (∀ j : Int, j ≠ i → getBlockChild tr b1 j = getBlockChild tr b j)
        ∧ ∀ j : Int, 0 ≤ j → j < tr.FanOut → getNodeSlice tr b1 j = getNodeSlice tr b j)
    ∧ ∀ (b b1 : Bytes) (i : Int) (key : KeyType) (value : ValueType),
        0 ≤ i → i < tr.FanOut → setNodeAt tr b i key value = some b1 →
        (∀ k, ¬ (slotRange tr i).Has k → b1[k]? = b[k]?)
        ∧ getBlockSize b1 = getBlockSize b
        ∧ (∀ j : Int, getBlockChild tr b1 j = getBlockChild tr b j)
        ∧ ∀ j : Int, j ≠ i → getNodeSlice tr b1 j = getNodeSlice tr b j := by
  have hnn : 0 ≤ tr.nodeSize := by omega
  refine ⟨field_ranges hF hnn, ?_, ?_, ?_, ?_⟩
  · intro b b1 hlen
    exact ⟨getBlockSize_congr hlen, fun i => getBlockChild_congr hlen i,
      fun i => getNodeSlice_congr hlen i⟩
  · intro b b1 n h
    exact ⟨setBlockSize_outside h, getBlockChild_setBlockSize tr h,
      fun j hj _ => getNodeSlice_setBlockSize hF hnn h hj⟩
  · intro b b1 i x h
    exact ⟨setBlockChild_outside h, getBlockSize_setBlockChild h,
      fun j hj => getBlockChild_setBlockChild_ne h hj,
      fun j hj _ => getNodeSlice_setBlockChild hnn h hj⟩
  · intro b b1 i key value hi0 _ h
    exact ⟨setNodeAt_outside h, getBlockSize_setNodeAt hF hi0 h,
      getBlockChild_setNodeAt hi0 h, fun j hj => getNodeSlice_setNodeAt_ne h hj⟩

set_option maxRecDepth 100000 in
/-- Witness of `field_independence`: in the small tree the size field, child 2
and slot 1 are apart, and setting child 1 of a block leaves its size, child 2
and slot 0 as they were. -/
theorem field_independence_witness :
    sizeRange.Apart (childRange 2) ∧ (childRange 2).Apart (slotRange smallTree 1)
    ∧ (slotRange smallTree 1).Within (blockBytes smallTree)
    ∧ setBlockChild smallTree (innerOne 2 3 5 50) 1 9 = some (innerOne 2 9 5 50)
    ∧ getBlockSize (innerOne 2 9 5 50) = getBlockSize (innerOne 2 3 5 50)
    ∧ getBlockChild smallTree (innerOne 2 9 5 50) 2 = getBlockChild smallTree (innerOne 2 3 5 50) 2
    ∧ getNodeSlice smallTree (innerOne 2 9 5 50) 0 = getNodeSlice smallTree (innerOne 2 3 5 50) 0 :=
  have h := field_independence smallTree (by decide) (by decide) (by decide) (by decide)
  have hset : setBlockChild smallTree (innerOne 2 3 5 50) 1 9 = some (innerOne 2 9 5 50) := by
    decide
  ⟨(h.1.2.1 2 (by decide) (by decide)).1, h.1.2.2.2.2.1 2 1 (by decide) (by decide) (by decide)
      (by decide),
    (h.1.2.2.1 1 (by decide) (by decide)).2, hset,
    (h.2.2.2.1 _ _ 1 9 hset).2.1, (h.2.2.2.1 _ _ 1 9 hset).2.2.1 2 (by decide),
    (h.2.2.2.1 _ _ 1 9 hset).2.2.2 0 (by decide) (by decide)⟩

/-! ### The child pointers of a leaf -/

theorem balanced_leaf_null {tr : BTree} {B : List (TreeIndex × BlockEntry)} :
    ∀ (h : Nat) (i t : TreeIndex), Balanced tr B h i → Below tr B h i t →
      ∃ e size, lookup B t = some e ∧ getBlockSize e.data = some size
        ∧ ∀ j : Int, 0 ≤ j → j ≤ size → getBlockChild tr e.data j = some 0 := by
  intro h
  induction h with
  | zero =>
    intro i t hb hbelow
    cases hbelow
    obtain ⟨e, size, hl, hs, _, _, hc⟩ := hb
    exact ⟨e, size, hl, hs, hc⟩
  | succ h ih =>
    intro i t hb hbelow
    cases hbelow with
    | step d i1 c t1 e size j hl hs hj0 hj1 hc hrest =>
      obtain ⟨e1, size1, hl1, hs1, _, _, hch⟩ := hb
      rw [hl] at hl1
      cases hl1
      rw [hs] at hs1
      cases hs1
      obtain ⟨c1, hc1, _, hbal⟩ := hch j hj0 hj1
      rw [hc] at hc1
      cases hc1
      exact ih c t hbal hrest

/-- In a tree that is well formed in shape with height `h`, every block `h`
steps below the root is a leaf whose child pointers `0..size` are null. -/
theorem wellFormed_leaf_null {tr : BTree} {B : List (TreeIndex × BlockEntry)} {h : Nat}
    {root t : TreeIndex} (hwf : WellFormed tr B h root) (hbelow : Below tr B h root t) :
    ∃ e size, lookup B t = some e ∧ getBlockSize e.data = some size
      ∧ ∀ j : Int, 0 ≤ j → j ≤ size → getBlockChild tr e.data j = some 0 := by
  obtain ⟨e, size, hl, ⟨hs, _, hch⟩, _⟩ := hwf
  cases h with
  | zero =>
    cases hbelow
    refine ⟨e, size, hl, hs, ?_⟩
    intro j hj0 hj1
    obtain ⟨c, hc, hc0⟩ := hch j hj0 hj1
    have hc0 : c = 0 := hc0
    rw [hc, hc0]
  | succ h =>
    cases hbelow with
    | step d i1 c t1 e1 size1 j hl1 hs1 hj0 hj1 hc hrest =>
      rw [hl] at hl1
      cases hl1
      rw [hs] at hs1
      cases hs1
      obtain ⟨c1, hc1, _, hbal⟩ := hch j hj0 hj1
      rw [hc] at hc1
      cases hc1
      exact balanced_leaf_null h c t hbal hrest

theorem scatterFrom_beyond {tr : BTree} (g : Gathered) (base size : Int) :
    ∀ (n : Nat) (i : Int) (buf b1 : Bytes), 0 ≤ i →
      scatterFrom tr g base size n i buf = some b1 →
      ∀ j : Int, i + n ≤ j → getBlockChild tr b1 j = getBlockChild tr buf j := by
  intro n
  induction n with
  | zero =>
    intro i buf b1 _ h j _
    simp only [scatterFrom] at h
    cases h
    rfl
  | succ n ih =>
    intro i buf b1 hi h j hj
    simp only [scatterFrom] at h
    split at h
    · cases h
    · rename_i c hc
      split at h
      · cases h
      · rename_i buf1 hset
        have h1 : getBlockChild tr buf1 j = getBlockChild tr buf j :=
          getBlockChild_setBlockChild_ne hset (by push_cast at hj; omega)
        split at h
        · split at h
          · rename_i x1 x2 k v hk hv
            split at h
            · cases h
            · rename_i buf2 hnode
              rw [ih (i + 1) buf2 b1 (by omega) h j (by push_cast at hj ⊢; omega),
                getBlockChild_setNodeAt hi hnode, h1]
          · cases h
        · rw [ih (i + 1) buf1 b1 (by omega) h j (by push_cast at hj ⊢; omega), h1]

/-- The block that the rotation builds in a pooled buffer keeps the child
pointers beyond its size as the buffer held them. -/
theorem fillBlock_beyond {tr : BTree} {g : Gathered} {base size : Int} {buf b1 : Bytes}
    (h0 : 0 ≤ size) (h : fillBlock tr g base size buf = some b1) (j : Int) (hj : size < j) :
    getBlockChild tr b1 j = getBlockChild tr buf j := by
  unfold fillBlock at h
  split at h
  · cases h
  · rename_i buf1 hset
    rw [scatterFrom_beyond g base size (size + 1).toNat 0 buf1 b1 (le_refl 0) h j (by omega),
      getBlockChild_setBlockSize tr hset]

/-! ### The blocks that `Delete` stores -/

theorem leValue_zeros (n : Nat) : leValue (List.replicate n 0) = 0 := by
  induction n with
  | zero => rfl
  | succ n ih =>
    rw [List.replicate_succ]
    simp only [leValue, ih]
    rfl

theorem leafNull_zeros (tr : BTree) (n : Nat) : LeafNull tr (List.replicate n 0) := by
  intro hc
  have hn : 12 ≤ n := by
    unfold getBlockChild at hc
    split at hc
    · cases hc
    · unfold readBytes at hc
      split at hc
      · rename_i hle
        rw [List.length_replicate] at hle
        simp only [mul_zero, add_zero] at hle
        omega
      · cases hc
  refine ⟨0, ?_, ?_⟩
  · unfold getBlockSize uint32 readBytes
    rw [if_pos (by rw [List.length_replicate]; omega)]
    simp only [Option.map_some', List.drop_zero, List.take_replicate, leValue_zeros]
    rfl
  · intro j hj hj2
    have : j = 0 := by omega
    subst this
    exact hc

theorem leafNull_of_children {tr : BTree} {B : List (TreeIndex × BlockEntry)} {h : Nat}
    {b : Bytes} {size : Int} (hs : getBlockSize b = some size)
    (hc : ChildrenAll tr (GoodChild tr B h) b size) : LeafNull tr b := by
  intro h0
  have hs0 := getBlockSize_nonneg hs
  cases h with
  | zero =>
    refine ⟨size, hs, fun j hj hj2 => ?_⟩
    obtain ⟨c, hcj, hg⟩ := hc j hj hj2
    have hg0 : c = 0 := hg
    rw [hcj, hg0]
  | succ k =>
    obtain ⟨c, hc0, hg⟩ := hc 0 (le_refl 0) hs0
    rw [h0] at hc0
    cases hc0
    exact absurd rfl hg.1

theorem written_refl (tr : BTree) (s : Allocator) : Written tr s s :=
  fun _ _ h => Or.inl h

theorem written_trans {tr : BTree} {s s1 s2 : Allocator} (h1 : Written tr s s1)
    (h2 : Written tr s1 s2) : Written tr s s2 := by
  intro i e he
  rcases h2 i e he with h | h
  · exact h1 i e h
  · exact Or.inr h

theorem written_of_eq {tr : BTree} {s s1 : Allocator} (h : s1.blocks = s.blocks) :
    Written tr s s1 := by
  intro i e he
  rw [h] at he
  exact Or.inl he

theorem Written.blocks_eq {tr : BTree} {s s1 s2 : Allocator} (h : Written tr s s1)
    (hb : s2.blocks = s1.blocks) : Written tr s s2 :=
  written_trans h (written_of_eq hb)

theorem written_write {tr : BTree} (s : Allocator) (tag : Nat) (i : TreeIndex) {buf : Bytes}
    (hb : LeafNull tr buf) : Written tr s (s.write tag i buf).2 := by
  unfold Allocator.write
  dsimp only
  split
  · exact written_of_eq rfl
  · intro j e he
    dsimp only at he
    rw [lookup_setEntry] at he
    split at he
    · cases he
      exact Or.inr hb
    · exact Or.inl he

theorem written_allocate (tr : BTree) (s : Allocator) (tag : Nat) :
    Written tr s (s.allocate tag).2 := by
  unfold Allocator.allocate
  dsimp only
  split
  · exact written_of_eq rfl
  · split
    · exact written_of_eq rfl
    · intro j e he
      dsimp only at he
      rw [lookup_setEntry] at he
      split at he
      · cases he
        exact Or.inr (leafNull_zeros tr s.blockSize)
      · exact Or.inl he

theorem written_free (tr : BTree) (s : Allocator) (i : TreeIndex) :
    Written tr s (s.free i).2 := by
  unfold Allocator.free
  dsimp only
  split
  · exact written_of_eq rfl
  · split
    · exact written_of_eq rfl
    · intro j e he
      dsimp only at he
      rw [lookup_removeEntry] at he
      split at he
      · cases he
      · exact Or.inl he

theorem written_copyUp {tr : BTree} (tag : Nat) (index : TreeIndex) {block : Bytes}
    (s : Allocator) (hb : LeafNull tr block) :
    Written tr s (copyUpBlock tr tag index block s).2 := by
  unfold copyUpBlock
  split
  · exact written_refl tr s
  · split
    · exact written_refl tr s
    · split
      · have ha := written_allocate tr s tag
        split
        · rename_i e s1 halloc
          rw [halloc] at ha
          exact ha
        · rename_i index1 s1 halloc
          rw [halloc] at ha
          have hw := written_write s1 tag index1 hb
          split
          · rename_i e s2 hwr
            rw [hwr] at hw
            exact written_trans ha hw
          · rename_i s2 hwr
            rw [hwr] at hw
            exact written_trans ha hw
      · have hw := written_write s tag index hb
        split
        · rename_i e s2 hwr
          rw [hwr] at hw
          exact hw
        · rename_i s2 hwr
          rw [hwr] at hw
          exact hw

theorem Written.afterCopyUp {tr : BTree} {tag : Nat} {index : TreeIndex} {block : Bytes}
    {s s1 s2 : Allocator} {r : Option (Except Error TreeIndex)} (h : Written tr s s1)
    (hb : LeafNull tr block) (heq : copyUpBlock tr tag index block s1 = (r, s2)) :
    Written tr s s2 := by
  have := written_copyUp tag index s1 hb
  rw [heq] at this
  exact written_trans h this

/-! ### Rotation, merge and rebalance store leaves with null child pointers -/

theorem rotateBlocks_written {tr : BTree} {tag : Nat} {block sibBlock childBlock : Bytes}
    {sibIndex sibTree childTree ss cs : Int} {dk : Option KeyType}
    {dv : Option ValueType} {swapped : Bool} {s : Allocator}
    {B : List (TreeIndex × BlockEntry)} {k : Nat}
    (hF : 2 ≤ tr.FanOut) (hF32 : tr.FanOut < 4294967296)
    (hL : BlockShape tr B k sibBlock ss) (hR : BlockShape tr B k childBlock cs) :
    Written tr s (rotateBlocks tr tag block sibIndex sibTree sibBlock ss childTree childBlock cs
      dk dv swapped s).2 := by
  have hss := getBlockSize_nonneg hL.1
  have hcs := getBlockSize_nonneg hR.1
  have hssF := hL.2.1
  have hcsF := hR.2.1
  unfold rotateBlocks
  dsimp only
  split
  · exact written_refl tr s
  · rename_i g hg
    obtain ⟨g1, g2⟩ := gatherAll_spec (P := GoodChild tr B k) hss hcs hg hL.2.2 hR.2.2
    rw [g2]
    have hB1 : s.poolGet.2.blocks = s.blocks := poolGet_blocks s
    have hB2 : s.poolGet.2.poolGet.2.blocks = s.blocks := by
      rw [poolGet_blocks, poolGet_blocks]
    split
    · exact written_of_eq hB1
    · rename_i sibNew hfill1
      split
      · exact written_of_eq hB2
      · rename_i childNew hfill2
        obtain ⟨a1, a2⟩ := fillBlock_shape (P := GoodChild tr B k) (by omega) g1
          (by omega) (by omega) hfill1
        obtain ⟨b1, b2⟩ := fillBlock_shape (P := GoodChild tr B k) (by omega) g1
          (by omega) (by omega) hfill2
        have hn1 : LeafNull tr sibNew := leafNull_of_children a1 a2
        have hn2 : LeafNull tr childNew := leafNull_of_children b1 b2
        have hW2 : Written tr s s.poolGet.2.poolGet.2 := written_of_eq hB2
        split
        · rename_i s3 hcu
          exact hW2.afterCopyUp hn1 hcu
        · rename_i e s3 hcu
          exact (hW2.afterCopyUp hn1 hcu).blocks_eq (by split <;> rfl)
        · rename_i sibTree1 s3 hcu
          have hW3 := hW2.afterCopyUp hn1 hcu
          split
          · rename_i s4 hcu2
            exact hW3.afterCopyUp hn2 hcu2
          · rename_i e s4 hcu2
            exact (hW3.afterCopyUp hn2 hcu2).blocks_eq (by split <;> rfl)
          · rename_i childTree1 s4 hcu2
            have hW4 := hW3.afterCopyUp hn2 hcu2
            repeat' split
            all_goals exact hW4

theorem mergeSiblings_written {tr : BTree} {tag : Nat} {block sibBlock childBlock : Bytes}
    {blockSize sibIndex sibTree ss cs : Int} {dk : Option KeyType} {dv : Option ValueType}
    {swapped : Bool} {s : Allocator} {B : List (TreeIndex × BlockEntry)} {k : Nat}
    (hF : 2 ≤ tr.FanOut) (hF32 : tr.FanOut < 4294967296)
    (hL : BlockShape tr B k sibBlock ss) (hR : BlockShape tr B k childBlock cs)
    (hsum : ¬ cs + ss ≥ tr.FanOut) :
    Written tr s (mergeSiblings tr tag block blockSize sibIndex sibTree sibBlock ss childBlock cs
      dk dv swapped s).2 := by
  have hss := getBlockSize_nonneg hL.1
  have hcs := getBlockSize_nonneg hR.1
  unfold mergeSiblings
  dsimp only
  split
  · exact written_refl tr s
  · rename_i m hm
    obtain ⟨a1, a2⟩ := mergeBlocks_shape (P := GoodChild tr B k) (by omega) hss hcs (by omega)
      hm hL.2.2 hR.2.2
    have hn : LeafNull tr m := leafNull_of_children a1 a2
    have hW := written_copyUp tag sibTree s hn
    split
    · rename_i s1 hcu
      rw [hcu] at hW
      exact hW
    · rename_i e s1 hcu
      rw [hcu] at hW
      exact hW.blocks_eq (by split <;> rfl)
    · rename_i w s1 hcu
      rw [hcu] at hW
      repeat' split
      all_goals exact hW

theorem rotateOrMerge_written {tr : BTree} {tag : Nat} {block sibBlock childBlock : Bytes}
    {blockSize sibIndex sibTree childTree ss cs : Int} {dk : Option KeyType}
    {dv : Option ValueType} {swapped : Bool} {s : Allocator}
    {B : List (TreeIndex × BlockEntry)} {k : Nat}
    (hF : 2 ≤ tr.FanOut) (hF32 : tr.FanOut < 4294967296)
    (hL : BlockShape tr B k sibBlock ss) (hR : BlockShape tr B k childBlock cs) :
    Written tr s (rotateOrMerge tr tag block blockSize sibIndex sibTree sibBlock ss childTree
      childBlock cs dk dv swapped s).2 := by
  unfold rotateOrMerge
  split
  · exact rotateBlocks_written hF hF32 hL hR
  · rename_i hsum
    exact mergeSiblings_written hF hF32 hL hR hsum

theorem rebalance_written {tr : BTree} {tag : Nat} {block childBlock : Bytes}
    {insertInd childTree blockSize csz : Int} {dk : Option KeyType} {dv : Option ValueType}
    {s : Allocator} {k : Nat}
    (hF : 2 ≤ tr.FanOut) (hF32 : tr.FanOut < 4294967296)
    (hblock : BlockShape tr s.blocks (k + 1) block blockSize) (h1 : 1 ≤ blockSize)
    (hins : 0 ≤ insertInd) (hins2 : insertInd ≤ blockSize)
    (hcb : BlockShape tr s.blocks k childBlock csz) :
    Written tr s (rebalance tr tag block insertInd childTree childBlock dk dv blockSize s).2 := by
  unfold rebalance
  rw [hcb.1]
  dsimp only
  split
  · have hW := written_copyUp tag childTree s (leafNull_of_children hcb.1 hcb.2.2)
    split
    · rename_i s1 hcu
      rw [hcu] at hW
      exact hW
    · rename_i e s1 hcu
      rw [hcu] at hW
      exact hW.blocks_eq rfl
    · rename_i c1 s1 hcu
      rw [hcu] at hW
      split
      · exact hW
      · exact hW.blocks_eq rfl
  · have hB1 : s.poolGet.2.blocks = s.blocks := poolGet_blocks s
    have hsi : ∃ sibIndex : Int, (if insertInd - 1 < 0 then insertInd + 1 else insertInd - 1)
        = sibIndex ∧ 0 ≤ sibIndex ∧ sibIndex ≤ blockSize := by
      refine ⟨_, rfl, ?_⟩
      split <;> omega
    obtain ⟨sibIndex, hsieq, hsi0, hsi1⟩ := hsi
    rw [hsieq]
    split
    · exact written_refl tr s
    · rename_i sibTree hsib
      obtain ⟨hs0, hsB, hsR⟩ := goodChild_succ_of_shape hblock hsi0 hsi1 hsib
      have hB2 : (s.poolGet.2.read sibTree).2.blocks = s.blocks := by
        rw [read_blocks, hB1]
      split
      · rename_i e s2 hread
        rw [hread] at hB2
        exact written_of_eq hB2
      · rename_i sibBlock s2 hread
        rw [hread] at hB2
        obtain ⟨⟨e, he, hdata⟩, _⟩ := read_ok hread
        rw [hB1] at he
        obtain ⟨e1, ss, he1, hsh1, hmin1⟩ := (balanced_iff tr s.blocks k sibTree).mp hsB
        rw [he] at he1
        cases he1
        subst hdata
        rw [hsh1.1]
        dsimp only
        split
        · exact written_trans (written_of_eq hB2) (rotateOrMerge_written hF hF32 hcb hsh1)
        · exact written_trans (written_of_eq hB2) (rotateOrMerge_written hF hF32 hsh1 hcb)

theorem deleteHelper_null_blocks (tr : BTree) (tag fuel : Nat) (key : Option KeyType)
    (s : Allocator) : (deleteHelper tr tag fuel 0 key s).2.blocks = s.blocks := by
  cases fuel with
  | zero => rfl
  | succ n =>
    unfold deleteHelper
    dsimp only
    rw [if_pos rfl]
    exact poolGet_blocks s

/-! ### `deleteHelper` and `Delete` store leaves with null child pointers -/

theorem deleteHelper_written {tr : BTree} {tag : Nat}
    (hF : 2 ≤ tr.FanOut) (hev : tr.FanOut % 2 = 0) (hF32 : tr.FanOut < 4294967296) :
    ∀ (fuel h : Nat) (idx : Int) (key : Option KeyType) (s : Allocator) (e : BlockEntry)
      (size : Int),
      lookup s.blocks idx = some e → BlockShape tr s.blocks h e.data size → (h = 0 ∨ 1 ≤ size) →
      Written tr s (deleteHelper tr tag fuel idx key s).2 := by
  intro fuel
  induction fuel with
  | zero =>
    intro h idx key s e size _ _ _
    exact written_refl tr s
  | succ n ih =>
    intro h idx key s e size hl hsh hne
    have hB1 : s.poolGet.2.blocks = s.blocks := poolGet_blocks s
    unfold deleteHelper
    dsimp only
    split
    · exact written_of_eq hB1
    · have hB2 : (s.poolGet.2.read idx).2.blocks = s.blocks := by
        rw [read_blocks, hB1]
      split
      · rename_i e1 s2 hread
        rw [hread] at hB2
        exact written_of_eq hB2
      · rename_i block s2 hread
        rw [hread] at hB2
        dsimp only at hB2
        have hW2 : Written tr s s2 := written_of_eq hB2
        obtain ⟨⟨e1, he1, hdata⟩, _⟩ := read_ok hread
        rw [hB1] at he1
        rw [hl] at he1
        cases he1
        subst hdata
        split
        · exact hW2
        · rename_i ins m hloc
          split
          · rename_i x1 x2 childTree blockSize hchild hsize
            have hsz : size = blockSize := by
              have := hsh.1
              rw [hsize] at this
              cases this
              rfl
            subst hsz
            obtain ⟨hins2, hm⟩ := locate_bounds hloc hsize
            have hins := (getBlockChild_index hchild).1
            obtain ⟨c1, hc1, hg⟩ := hsh.2.2 ins hins hins2
            rw [hchild] at hc1
            cases hc1
            cases h with
            | zero =>
              have hc0 : childTree = 0 := hg
              subst hc0
              have hB3 : ∀ key1, (deleteHelper tr tag n 0 key1 s2).2.blocks = s.blocks := by
                intro key1
                rw [deleteHelper_null_blocks, hB2]
              split
              · try rw [if_pos rfl]
                split
                · exact hW2
                · exact hW2
              · have hb := hB3 key
                rcases hx : deleteHelper tr tag n 0 key s2 with ⟨o, s3⟩
                rw [hx] at hb
                dsimp only at hb
                have hW3 : Written tr s s3 := written_of_eq hb
                cases o with
                | panic => exact hW3
                | outOfFuel => exact hW3
                | ret r =>
                  have herr := (deleteHelper_zero hx).1
                  dsimp only
                  rw [herr]
                  exact hW3
            | succ k =>
              obtain ⟨hc0, hcB⟩ : childTree ≠ 0 ∧ Balanced tr s.blocks k childTree := hg
              have h1 : 1 ≤ size := by
                rcases hne with h | h
                · cases h
                · exact h
              obtain ⟨ec, sc, hlc, hshc, hminc⟩ := (balanced_iff tr s.blocks k childTree).mp hcB
              rw [← hB2] at hlc hshc
              have hsc1 : 1 ≤ sc := by omega
              have hrecW : ∀ key1, Written tr s (deleteHelper tr tag n childTree key1 s2).2 :=
                fun key1 => written_trans hW2
                  (ih k childTree key1 s2 ec sc hlc hshc (Or.inr hsc1))
              have hreb : ∀ (key1 : Option KeyType) (r1 : HelperRet) (s3 : Allocator)
                  (block1 : Bytes) (dk : Option KeyType) (dv : Option ValueType),
                  deleteHelper tr tag n childTree key1 s2 = (Outcome.ret r1, s3) →
                  r1.err = none →
                  getBlockSize block1 = getBlockSize e.data →
                  (∀ j, getBlockChild tr block1 j = getBlockChild tr e.data j) →
                  Written tr s (rebalance tr tag block1 ins childTree r1.block dk dv size s3).2 := by
                intro key1 r1 s3 block1 dk dv hrun herr1 hz1 hz2
                obtain ⟨⟨csz, hcsz⟩, hext⟩ := deleteHelper_shape hF hev hF32 n k childTree key1
                  s2 s3 r1 ec sc hlc hshc (Or.inr hsc1) hrun herr1
                rw [hB2] at hext
                have hb1 : BlockShape tr s3.blocks (k + 1) block1 size :=
                  blockShape_congr (blockShape_mono hext.1 hsh) hz1 hz2
                have hW3 := hrecW key1
                rw [hrun] at hW3
                exact written_trans hW3 (rebalance_written hF hF32 hb1 h1 hins hins2 hcsz)
              split
              · try rw [if_neg hc0]
                have hW3 := hrecW none
                rcases hx : deleteHelper tr tag n childTree none s2 with ⟨o, s3⟩
                rw [hx] at hW3
                dsimp only at hW3
                cases o with
                | panic => exact hW3
                | outOfFuel => exact hW3
                | ret r =>
                  dsimp only
                  split
                  · exact hW3
                  · rename_i herr
                    split
                    · exact hW3
                    · rename_i block1 hnode
                      exact hreb none r s3 block1 _ _ hx herr
                        (getBlockSize_setNodeAt (by omega) hins hnode)
                        (getBlockChild_setNodeAt hins hnode)
              · have hW3 := hrecW key
                rcases hx : deleteHelper tr tag n childTree key s2 with ⟨o, s3⟩
                rw [hx] at hW3
                dsimp only at hW3
                cases o with
                | panic => exact hW3
                | outOfFuel => exact hW3
                | ret r =>
                  dsimp only
                  split
                  · exact hW3
                  · rename_i herr
                    exact hreb key r s3 e.data _ _ hx herr rfl (fun _ => rfl)
          · exact hW2

theorem Delete_written {tr : BTree} {tag fuel : Nat} {root : Int} {key : KeyType}
    {s : Allocator} {h : Nat}
    (hF : 2 ≤ tr.FanOut) (hev : tr.FanOut % 2 = 0) (hF32 : tr.FanOut < 4294967296)
    (h0 : lookup s.blocks 0 = none) (hwf : WellFormed tr s.blocks h root) :
    Written tr s (Delete tr tag fuel root key s).2 := by
  obtain ⟨e, size, hl, hsh, hne⟩ := hwf
  have hW := @deleteHelper_written tr tag hF hev hF32 fuel h root (some key) s e size hl hsh hne
  unfold Delete
  split
  · exact written_refl tr s
  · split
    · exact written_refl tr s
    · rcases hx : deleteHelper tr tag fuel root (some key) s with ⟨o, s1⟩
      rw [hx] at hW
      dsimp only at hW
      cases o with
      | panic => exact hW
      | outOfFuel => exact hW
      | ret r =>
        dsimp only
        split
        · exact hW
        · rename_i herr
          obtain ⟨⟨size1, hsh1⟩, hext⟩ := deleteHelper_shape hF hev hF32 fuel h root (some key)
            s s1 r e size hl hsh hne hx herr
          rw [hsh1.1]
          dsimp only
          split
          · rename_i hsz0
            subst hsz0
            obtain ⟨c, hc, hg⟩ := hsh1.2.2 0 (le_refl 0) (le_refl 0)
            rw [hc]
            dsimp only
            have hB2 : (s1.read c).2.blocks = s1.blocks := read_blocks s1 c
            split
            · rename_i e1 s2 hread
              rw [hread] at hB2
              exact hW.blocks_eq hB2
            · rename_i cb s2 hread
              rw [hread] at hB2
              dsimp only at hB2
              have hW2 : Written tr s s2 := hW.blocks_eq hB2
              obtain ⟨⟨e1, he1, hdata⟩, _⟩ := read_ok hread
              have hn : LeafNull tr cb := by
                cases h with
                | zero =>
                  have hc0 : c = 0 := hg
                  subst hc0
                  rw [hext.2.2 h0] at he1
                  cases he1
                | succ k =>
                  obtain ⟨_, hcB⟩ : c ≠ 0 ∧ Balanced tr s1.blocks k c := hg
                  obtain ⟨ec, sc, hlc, hshc, _⟩ := (balanced_iff tr s1.blocks k c).mp hcB
                  rw [he1] at hlc
                  cases hlc
                  rw [hdata]
                  exact leafNull_of_children hshc.1 hshc.2.2
              have hW3 := written_trans hW2 (written_write s2 tag root hn)
              split
              · rename_i e2 s3 hwr
                rw [hwr] at hW3
                exact hW3
              · rename_i s3 hwr
                rw [hwr] at hW3
                dsimp only at hW3
                split
                · exact hW3
                · exact written_trans hW3 (written_free tr s3 c)
          · exact written_trans hW
              (written_write s1 tag root (leafNull_of_children hsh1.1 hsh1.2.2))

set_option maxRecDepth 100000 in
/-- C22, the claim as stated fails: with a pool of used buffers (every byte 255)
the rotation that follows the removal of key 3 builds the leaves 2 and 3 in such
buffers and writes their size and their child pointers 0 and 1 only. `Delete`
returns nil and child pointer 2 of both leaves (`FanOut` is 2) is -1, not 0. -/
theorem rotated_leaf_keeps_buffer_pointer :
    (Delete smallTree 0 3 1 [3] dirtyRotationStore).1 = Outcome.ret none
    ∧ (Delete smallTree 0 3 1 [3] dirtyRotationStore).2.get 2
        = some ⟨false, rotatedDirtyLeaf 5 50⟩
    ∧ (Delete smallTree 0 3 1 [3] dirtyRotationStore).2.get 3
        = some ⟨false, rotatedDirtyLeaf 9 90⟩
    ∧ (Delete smallTree 0 3 1 [3] dirtyRotationStore).2.get 1
        = some ⟨false, innerOne 2 3 8 80⟩
    ∧ smallTree.FanOut = 2
    ∧ getBlockSize (rotatedDirtyLeaf 5 50) = some 1
    ∧ getBlockChild smallTree (rotatedDirtyLeaf 5 50) 0 = some 0
    ∧ getBlockChild smallTree (rotatedDirtyLeaf 5 50) 1 = some 0
    ∧ getBlockChild smallTree (rotatedDirtyLeaf 5 50) 2 = some (-1)
    ∧ getBlockChild smallTree (rotatedDirtyLeaf 9 90) 2 = some (-1) := by
  decide

/-- C22 (amended): the child pointers of the leaves that `Delete` stores. On a
tree that is well formed in shape, whatever the pool holds and however the call
ends, every block in the store after `Delete` is the block that was stored at
that index before, or, when it is a leaf (its first child pointer is null), has
its child pointers `child[j]`, `0 ≤ j ≤ size`, equal to 0. The pointers beyond
the size are not part of this: the block that the rotation builds in a pooled
buffer keeps them as the buffer held them. When `Delete` returns nil the tree
is again well formed with some height `h1` and every block `h1` steps below the
root has its child pointers `0..size` null. `FanOut` is even, at least 2 and
fits the 32-bit size field; index 0 holds no block. -/
theorem delete_leaf_children (tr : BTree) (tag fuel : Nat) (root : TreeIndex)
    (key : KeyType) (s : Allocator) (h : Nat)
    (hF : 2 ≤ tr.FanOut) (hev : tr.FanOut % 2 = 0) (hF32 : tr.FanOut < 4294967296)
    (h0 : s.get 0 = none) (hwf : WellFormed tr s.blocks h root) :
    (∀ i e1, (Delete tr tag fuel root key s).2.get i = some e1 →
        s.get i = some e1
        ∨ (getBlockChild tr e1.data 0 = some 0 →
            ∃ size, getBlockSize e1.data = some size
              ∧ ∀ j : Int, 0 ≤ j → j ≤ size → getBlockChild tr e1.data j = some 0))
    ∧ (∀ (g : Gathered) (base size : Int) (buf b1 : Bytes) (j : Int), 0 ≤ size →
        fillBlock tr g base size buf = some b1 → size < j →
        getBlockChild tr b1 j = getBlockChild tr buf j)
    ∧ ((Delete tr tag fuel root key s).1 = Outcome.ret none →
        ∃ h1, WellFormed tr (Delete tr tag fuel root key s).2.blocks h1 root
          ∧ ∀ t, Below tr (Delete tr tag fuel root key s).2.blocks h1 root t →
              ∃ e size, (Delete tr tag fuel root key s).2.get t = some e
                ∧ getBlockSize e.data = some size
                ∧ ∀ j : Int, 0 ≤ j → j ≤ size → getBlockChild tr e.data j = some 0) := by
  refine ⟨?_, ?_, ?_⟩
  · intro i e1 he
    exact Delete_written hF hev hF32 h0 hwf i e1 he
  · intro g base size buf b1 j hs hfill hj
    exact fillBlock_beyond hs hfill j hj
  · intro hok
    obtain ⟨h1, hwf1⟩ := delete_wellFormed hF hev hF32 h0 hwf (Prod.ext hok rfl)
    exact ⟨h1, hwf1, fun t ht => wellFormed_leaf_null hwf1 ht⟩

set_option maxRecDepth 100000 in
theorem rotationStore_wellFormed : WellFormed smallTree rotationStore.blocks 1 1 := by
  have hleaf2 : Balanced smallTree rotationStore.blocks 0 2 := by
    refine ⟨⟨false, leafOne 3 30⟩, 1, by decide, by decide, by decide, by decide, ?_⟩
    intro j hj hj2
    have hj3 : j = 0 ∨ j = 1 := by omega
    rcases hj3 with rfl | rfl <;> decide
  have hleaf3 : Balanced smallTree rotationStore.blocks 0 3 := by
    refine ⟨⟨false, leafPair 8 80 9 90⟩, 2, by decide, by decide, by decide, by decide, ?_⟩
    intro j hj hj2
    have hj3 : j = 0 ∨ j = 1 ∨ j = 2 := by omega
    rcases hj3 with rfl | rfl | rfl <;> decide
  refine ⟨⟨false, innerOne 2 3 5 50⟩, 1, by decide, ⟨by decide, by decide, ?_⟩, Or.inr (le_refl 1)⟩
  intro j hj hj2
  have hj3 : j = 0 ∨ j = 1 := by omega
  rcases hj3 with rfl | rfl
  · exact ⟨2, by decide, by decide, hleaf2⟩
  · exact ⟨3, by decide, by decide, hleaf3⟩

set_option maxRecDepth 100000 in
/-- Witness of `delete_leaf_children`: the removal of key 3 with a pool of used
buffers; the rotated leaves keep the pointer beyond their size, their pointers 0
and 1 are null. -/
theorem delete_leaf_children_witness :
    WellFormed smallTree dirtyRotationStore.blocks 1 1
    ∧ (Delete smallTree 0 3 1 [3] dirtyRotationStore).2.get 2
        = some ⟨false, rotatedDirtyLeaf 5 50⟩
    ∧ ((∀ i e1, (Delete smallTree 0 3 1 [3] dirtyRotationStore).2.get i = some e1 →
          dirtyRotationStore.get i = some e1
          ∨ (getBlockChild smallTree e1.data 0 = some 0 →
              ∃ size, getBlockSize e1.data = some size
                ∧ ∀ j : Int, 0 ≤ j → j ≤ size → getBlockChild smallTree e1.data j = some 0))
      ∧ (∀ (g : Gathered) (base size : Int) (buf b1 : Bytes) (j : Int), 0 ≤ size →
          fillBlock smallTree g base size buf = some b1 → size < j →
          getBlockChild smallTree b1 j = getBlockChild smallTree buf j)
      ∧ ((Delete smallTree 0 3 1 [3] dirtyRotationStore).1 = Outcome.ret none →
          ∃ h1, WellFormed smallTree (Delete smallTree 0 3 1 [3] dirtyRotationStore).2.blocks h1 1
            ∧ ∀ t, Below smallTree (Delete smallTree 0 3 1 [3] dirtyRotationStore).2.blocks h1 1 t →
                ∃ e size, (Delete smallTree 0 3 1 [3] dirtyRotationStore).2.get t = some e
                  ∧ getBlockSize e.data = some size
                  ∧ ∀ j : Int, 0 ≤ j → j ≤ size →
                      getBlockChild smallTree e.data j = some 0)) :=
  ⟨rotationStore_wellFormed, by decide,
    delete_leaf_children smallTree 0 3 1 [3] dirtyRotationStore 1 (by decide) (by decide)
      (by decide) (by decide) rotationStore_wellFormed⟩

/-! ### The codec succeeds on buffers with room for a block -/

theorem long_header {tr : BTree} (hcfg : Configured tr) {b : Bytes} (hl : Long tr b) :
    12 + 8 * tr.FanOut ≤ (b.length : Int) ∧ 0 ≤ tr.nodeSize := by
  obtain ⟨c1, c2, c3, c4, _⟩ := hcfg
  have hn : 0 ≤ tr.nodeSize := by omega
  have h1 : 0 ≤ tr.nodeSize * tr.FanOut := Int.mul_nonneg hn (by omega)
  have e2 : (8 + tr.nodeSize) * tr.FanOut = 8 * tr.FanOut + tr.nodeSize * tr.FanOut := by ring
  unfold Long blockBytes at hl
  rw [e2] at hl
  exact ⟨by omega, hn⟩

theorem getBlockSize_long {tr : BTree} (hcfg : Configured tr) {b : Bytes} (hl : Long tr b) :
    ∃ n, getBlockSize b = some n := by
  obtain ⟨h1, _⟩ := long_header hcfg hl
  obtain ⟨_, _, _, c4, _⟩ := hcfg
  obtain ⟨r, hr⟩ := @readBytes_ok b 0 4 (by omega)
  unfold getBlockSize uint32
  rw [hr]
  exact ⟨_, rfl⟩

theorem getBlockChild_long {tr : BTree} (hcfg : Configured tr) {b : Bytes} (hl : Long tr b)
    {j : Int} (h0 : 0 ≤ j) (hF : j ≤ tr.FanOut) : ∃ c, getBlockChild tr b j = some c := by
  obtain ⟨h1, _⟩ := long_header hcfg hl
  obtain ⟨r, hr⟩ := @readBytes_ok b (4 + 8 * j).toNat 8 (by omega)
  unfold getBlockChild
  rw [if_neg (by omega), hr]
  exact ⟨_, rfl⟩

theorem copyNodeSlice_length {tr : BTree} {b b1 : Bytes} {i : Int} {src : Bytes}
    (h : copyNodeSlice tr b i src = some b1) : b1.length = b.length :=
  writeBytes_length (copyNodeSlice_writeBytes h).2.2

theorem setNodeAt_length {tr : BTree} {b b1 : Bytes} {i : Int} {k v : Bytes}
    (h : setNodeAt tr b i k v = some b1) : b1.length = b.length := by
  unfold setNodeAt at h
  split at h
  · cases h
  · split at h
    · cases h
    · exact copyNodeSlice_length h

theorem setBlockSize_long {tr : BTree} (hcfg : Configured tr) {b : Bytes} (hl : Long tr b)
    (n : Int) : ∃ b1, setBlockSize b n = some b1 ∧ Long tr b1 := by
  obtain ⟨h1, _⟩ := long_header hcfg hl
  obtain ⟨_, _, _, c4, _⟩ := hcfg
  obtain ⟨b1, hb1⟩ := @setBlockSize_ok b n (by omega)
  refine ⟨b1, hb1, ?_⟩
  unfold Long
  rw [setBlockSize_length hb1]
  exact hl

theorem setBlockChild_long {tr : BTree} (hcfg : Configured tr) {b : Bytes} (hl : Long tr b)
    {j : Int} (c : Int) (h0 : 0 ≤ j) (hF : j ≤ tr.FanOut) :
    ∃ b1, setBlockChild tr b j c = some b1 ∧ Long tr b1 := by
  obtain ⟨h1, _⟩ := long_header hcfg hl
  obtain ⟨b1, hb1⟩ := @setBlockChild_ok tr b j c h0 hF (by omega)
  refine ⟨b1, hb1, ?_⟩
  unfold Long
  rw [setBlockChild_length hb1]
  exact hl

theorem getNodeSlice_long {tr : BTree} (hcfg : Configured tr) {b : Bytes} (hl : Long tr b)
    {i : Int} (h0 : 0 ≤ i) (hF : i < tr.FanOut) :
    ∃ node, getNodeSlice tr b i = some node ∧ node.length = tr.nodeSize.toNat :=
  getNodeSlice_ok (long_header hcfg hl).2 h0 hF hl

theorem copyNodeSlice_long {tr : BTree} (hcfg : Configured tr) {b : Bytes} (hl : Long tr b)
    {i : Int} (src : Bytes) (h0 : 0 ≤ i) (hF : i < tr.FanOut) :
    ∃ b1, copyNodeSlice tr b i src = some b1 ∧ Long tr b1 := by
  obtain ⟨node, hnode, hnl⟩ := getNodeSlice_long hcfg hl h0 hF
  have hbound : (nodeStart tr i).toNat + tr.nodeSize.toNat ≤ b.length := by
    unfold getNodeSlice at hnode
    split at hnode
    · cases hnode
    · unfold readBytes at hnode
      split at hnode
      · assumption
      · cases hnode
  have htake : (src.take tr.nodeSize.toNat).length ≤ tr.nodeSize.toNat := by
    rw [List.length_take]
    exact Nat.min_le_left _ _
  obtain ⟨b1, hb1⟩ := @writeBytes_ok b (nodeStart tr i).toNat (src.take tr.nodeSize.toNat)
    (by omega)
  have hc : copyNodeSlice tr b i src = some b1 := by
    unfold copyNodeSlice
    rw [hnode]
    exact hb1
  refine ⟨b1, hc, ?_⟩
  unfold Long
  rw [copyNodeSlice_length hc]
  exact hl

/-- On a slot of `nodeSize` bytes `setNode` stores any key and value: the two
`copy` calls cut what does not fit. -/
theorem setNode_total {tr : BTree} (hcfg : Configured tr) {node : Bytes}
    (hlen : node.length = tr.nodeSize.toNat) (key : KeyType) (value : ValueType) :
    ∃ node1, setNode tr node key value = some node1 ∧ node1.length = node.length := by
  obtain ⟨c1, c2, c3, _, _⟩ := hcfg
  obtain ⟨n1, hn1⟩ := @writeBytes_ok node 0 (leBytes 4 (((key.length : Int)) % 4294967296).toNat)
    (by rw [leBytes_length]; omega)
  have hl1 : n1.length = node.length := writeBytes_length hn1
  have ht1 : (key.take (n1.length - 4)).length ≤ n1.length - 4 := by
    rw [List.length_take]
    exact Nat.min_le_left _ _
  obtain ⟨n2, hn2⟩ := @writeBytes_ok n1 4 (key.take (n1.length - 4)) (by omega)
  have hl2 : n2.length = n1.length := writeBytes_length hn2
  have ht2 : (value.take (n2.length - (4 + tr.MaxKeySize).toNat)).length
      ≤ n2.length - (4 + tr.MaxKeySize).toNat := by
    rw [List.length_take]
    exact Nat.min_le_left _ _
  obtain ⟨n3, hn3⟩ := @writeBytes_ok n2 (4 + tr.MaxKeySize).toNat
    (value.take (n2.length - (4 + tr.MaxKeySize).toNat)) (by omega)
  have hl3 : n3.length = n2.length := writeBytes_length hn3
  refine ⟨n3, ?_, by omega⟩
  unfold setNode putUint32
  rw [hn1]
  dsimp only
  rw [hn2]
  dsimp only
  rw [if_neg (by omega)]
  exact hn3

theorem setNodeAt_long {tr : BTree} (hcfg : Configured tr) {b : Bytes} (hl : Long tr b)
    {i : Int} (key : KeyType) (value : ValueType) (h0 : 0 ≤ i) (hF : i < tr.FanOut) :
    ∃ b1, setNodeAt tr b i key value = some b1 ∧ Long tr b1 := by
  obtain ⟨node, hnode, hnl⟩ := getNodeSlice_long hcfg hl h0 hF
  obtain ⟨node1, hset, _⟩ := setNode_total hcfg hnl key value
  obtain ⟨b1, hb1, hl1⟩ := copyNodeSlice_long hcfg hl node1 h0 hF
  refine ⟨b1, ?_, hl1⟩
  unfold setNodeAt
  rw [hnode]
  dsimp only
  rw [hset]
  exact hb1

/-- A slot of a long enough block yields a key and a value. -/
theorem slot_long {tr : BTree} (hcfg : Configured tr) {b : Bytes} (hl : Long tr b)
    {i : Int} (h0 : 0 ≤ i) (hF : i < tr.FanOut) :
    ∃ node k v, getNodeSlice tr b i = some node ∧ getNodeKey tr node = some k
      ∧ getNodeValue tr node = some v := by
  obtain ⟨node, hnode, hnl⟩ := getNodeSlice_long hcfg hl h0 hF
  obtain ⟨k, hk⟩ := getNodeKey_ok hcfg hnl
  obtain ⟨v, hv⟩ := getNodeValue_ok hcfg hnl
  exact ⟨node, k, v, hnode, hk, hv⟩

/-! ### The loops of `deleteHelper` succeed on buffers with room for a block -/

theorem sliceAt_ok {α : Type} {xs : List α} {i : Int} (h0 : 0 ≤ i) (h1 : i < xs.length) :
    ∃ a, sliceAt xs i = some a := by
  unfold sliceAt
  rw [if_neg (by omega)]
  cases h : xs.get? i.toNat with
  | some a => exact ⟨a, rfl⟩
  | none =>
    rw [List.get?_eq_none] at h
    omega

theorem shiftNodes_long {tr : BTree} (hcfg : Configured tr) :
    ∀ (n : Nat) (i : Int) (b : Bytes), Long tr b → 0 ≤ i → (n = 0 ∨ i + n < tr.FanOut) →
      ∃ b1, shiftNodes tr n i b = some b1 ∧ Long tr b1 := by
  intro n
  induction n with
  | zero =>
    intro i b hl _ _
    exact ⟨b, rfl, hl⟩
  | succ n ih =>
    intro i b hl hi hn
    have hn1 : i + (n + 1 : Nat) < tr.FanOut := by
      rcases hn with h | h
      · cases h
      · exact h
    push_cast at hn1
    obtain ⟨src, hsrc, _⟩ := getNodeSlice_long hcfg hl (show 0 ≤ i + 1 by omega) (by omega)
    obtain ⟨b1, hb1, hl1⟩ := copyNodeSlice_long hcfg hl src hi (by omega)
    obtain ⟨b2, hb2, hl2⟩ := ih (i + 1) b1 hl1 (by omega) (Or.inr (by omega))
    refine ⟨b2, ?_, hl2⟩
    simp only [shiftNodes, hsrc, hb1]
    exact hb2

theorem removeFromLeaf_long {tr : BTree} (hcfg : Configured tr) {block : Bytes}
    (hl : Long tr block) {ins size : Int} (key : Option KeyType)
    (h0 : 0 ≤ ins) (h1 : ins < size) (h2 : size ≤ tr.FanOut) :
    ∃ b1 dk dv, removeFromLeaf tr block ins size key = some (b1, dk, dv) ∧ Long tr b1 := by
  obtain ⟨b1, hb1, hl1⟩ := shiftNodes_long hcfg (size - 1 - ins).toNat ins block hl h0
    (by
      by_cases hz : (size - 1 - ins).toNat = 0
      · exact Or.inl hz
      · right
        omega)
  obtain ⟨b2, hb2, hl2⟩ := setBlockSize_long hcfg hl1 (size - 1)
  cases key with
  | some k =>
    refine ⟨b2, none, none, ?_, hl2⟩
    simp only [removeFromLeaf, hb1, hb2]
  | none =>
    obtain ⟨node, k, v, hnode, hk, hv⟩ := slot_long hcfg hl h0 (show ins < tr.FanOut by omega)
    refine ⟨b2, some (dupBytes k), some (dupBytes v), ?_, hl2⟩
    simp only [removeFromLeaf, hnode, hk, hv, hb1, hb2]

theorem gatherFrom_long {tr : BTree} (hcfg : Configured tr) {blk : Bytes} (hl : Long tr blk)
    (size : Int) (hs : size ≤ tr.FanOut) :
    ∀ (n : Nat) (i : Int) (g : Gathered), 0 ≤ i → i + n = size + 1 →
      ∃ g1, gatherFrom tr blk size n i g = some g1
        ∧ g1.childTrees.length = g.childTrees.length + n
        ∧ (n = 0 → g1.nodeKeys.length = g.nodeKeys.length
            ∧ g1.nodeValues.length = g.nodeValues.length)
        ∧ (1 ≤ n → g1.nodeKeys.length + 1 = g.nodeKeys.length + n
            ∧ g1.nodeValues.length + 1 = g.nodeValues.length + n) := by
  intro n
  induction n with
  | zero =>
    intro i g _ _
    exact ⟨g, rfl, rfl, fun _ => ⟨rfl, rfl⟩, fun h => absurd h (by omega)⟩
  | succ n ih =>
    intro i g hi hn
    push_cast at hn
    obtain ⟨c, hc⟩ := getBlockChild_long hcfg hl hi (show i ≤ tr.FanOut by omega)
    by_cases hlt : i < size
    · obtain ⟨node, k, v, hnode, hk, hv⟩ := slot_long hcfg hl hi (show i < tr.FanOut by omega)
      obtain ⟨g1, hg1, e1, e2, e3⟩ := ih (i + 1)
        ⟨g.childTrees ++ [c], g.nodeKeys ++ [k], g.nodeValues ++ [v]⟩ (by omega) (by omega)
      refine ⟨g1, ?_, ?_, fun h => absurd h (by omega), fun _ => ?_⟩
      · simp only [gatherFrom, hc, if_pos hlt, hnode, hk, hv]
        exact hg1
      · rw [e1]
        simp only [List.length_append, List.length_singleton]
        omega
      · have := e3 (by omega)
        simp only [List.length_append, List.length_singleton] at this
        omega
    · obtain ⟨g1, hg1, e1, e2, e3⟩ := ih (i + 1)
        ⟨g.childTrees ++ [c], g.nodeKeys, g.nodeValues⟩ (by omega) (by omega)
      refine ⟨g1, ?_, ?_, fun h => absurd h (by omega), fun _ => ?_⟩
      · simp only [gatherFrom, hc, if_neg hlt]
        exact hg1
      · rw [e1]
        simp only [List.length_append, List.length_singleton]
        omega
      · have hn0 : n = 0 := by omega
        have := e2 hn0
        dsimp only at this
        omega

theorem gatherAll_long {tr : BTree} (hcfg : Configured tr) {block sibBlock childBlock : Bytes}
    (hlb : Long tr block) (hls : Long tr sibBlock) (hlc : Long tr childBlock)
    {sibIndex ss cs : Int} (hi : 0 ≤ sibIndex) (hiF : sibIndex < tr.FanOut)
    (hss : 0 ≤ ss) (hss2 : ss ≤ tr.FanOut) (hcs : 0 ≤ cs) (hcs2 : cs ≤ tr.FanOut) :
    ∃ g, gatherAll tr block sibIndex sibBlock ss childBlock cs = some g
      ∧ (g.childTrees.length : Int) = ss + cs + 2
      ∧ (g.nodeKeys.length : Int) = ss + cs + 1
      ∧ (g.nodeValues.length : Int) = ss + cs + 1 := by
  obtain ⟨g1, hg1, a1, _, a3⟩ := gatherFrom_long hcfg hls ss hss2 (ss + 1).toNat 0 ⟨[], [], []⟩
    (le_refl 0) (by omega)
  obtain ⟨node, k, v, hnode, hk, hv⟩ := slot_long hcfg hlb hi hiF
  obtain ⟨g2, hg2, b1, _, b3⟩ := gatherFrom_long hcfg hlc cs hcs2 (cs + 1).toNat 0
    ⟨g1.childTrees, g1.nodeKeys ++ [k], g1.nodeValues ++ [v]⟩ (le_refl 0) (by omega)
  have a4 := a3 (by omega)
  have b4 := b3 (by omega)
  simp only [List.length_append, List.length_singleton, List.length_nil] at a1 a4 b1 b4
  refine ⟨g2, ?_, by omega, by omega, by omega⟩
  simp only [gatherAll, hg1, hnode, hk, hv]
  exact hg2

theorem scatterFrom_long {tr : BTree} (hcfg : Configured tr) (g : Gathered) (base size : Int)
    (hb : 0 ≤ base) (hs : size ≤ tr.FanOut)
    (hc : base + size + 1 ≤ g.childTrees.length) (hk : base + size ≤ g.nodeKeys.length)
    (hv : base + size ≤ g.nodeValues.length) :
    ∀ (n : Nat) (i : Int) (buf : Bytes), Long tr buf → 0 ≤ i → i + n ≤ size + 1 →
      ∃ b1, scatterFrom tr g base size n i buf = some b1 ∧ Long tr b1 := by
  intro n
  induction n with
  | zero =>
    intro i buf hl _ _
    exact ⟨buf, rfl, hl⟩
  | succ n ih =>
    intro i buf hl hi hn
    push_cast at hn
    obtain ⟨c, hcc⟩ := @sliceAt_ok _ g.childTrees (base + i) (by omega) (by omega)
    obtain ⟨buf1, hb1, hl1⟩ := setBlockChild_long hcfg hl c hi (show i ≤ tr.FanOut by omega)
    by_cases hlt : i < size
    · obtain ⟨k, hkk⟩ := @sliceAt_ok _ g.nodeKeys (base + i) (by omega) (by omega)
      obtain ⟨v, hvv⟩ := @sliceAt_ok _ g.nodeValues (base + i) (by omega) (by omega)
      obtain ⟨buf2, hb2, hl2⟩ := setNodeAt_long hcfg hl1 k v hi (show i < tr.FanOut by omega)
      obtain ⟨b3, hb3, hl3⟩ := ih (i + 1) buf2 hl2 (by omega) (by omega)
      refine ⟨b3, ?_, hl3⟩
      simp only [scatterFrom, hcc, hb1, if_pos hlt, hkk, hvv, hb2]
      exact hb3
    · obtain ⟨b3, hb3, hl3⟩ := ih (i + 1) buf1 hl1 (by omega) (by omega)
      refine ⟨b3, ?_, hl3⟩
      simp only [scatterFrom, hcc, hb1, if_neg hlt]
      exact hb3

theorem fillBlock_long {tr : BTree} (hcfg : Configured tr) (g : Gathered) {base size : Int}
    {buf : Bytes} (hl : Long tr buf) (hb : 0 ≤ base) (h0 : 0 ≤ size) (hs : size ≤ tr.FanOut)
    (hc : base + size + 1 ≤ g.childTrees.length) (hk : base + size ≤ g.nodeKeys.length)
    (hv : base + size ≤ g.nodeValues.length) :
    ∃ b1, fillBlock tr g base size buf = some b1 ∧ Long tr b1 := by
  obtain ⟨buf1, hb1, hl1⟩ := setBlockSize_long hcfg hl size
  obtain ⟨b2, hb2, hl2⟩ := scatterFrom_long hcfg g base size hb hs hc hk hv (size + 1).toNat 0
    buf1 hl1 (le_refl 0) (by omega)
  refine ⟨b2, ?_, hl2⟩
  simp only [fillBlock, hb1]
  exact hb2

theorem mergeFrom_long {tr : BTree} (hcfg : Configured tr) {childBlock : Bytes}
    (hlc : Long tr childBlock) (ss cs : Int) (hss : 0 ≤ ss) (hsum : ss + cs + 1 ≤ tr.FanOut) :
    ∀ (n : Nat) (i : Int) (sib : Bytes), Long tr sib → 0 ≤ i → i + n ≤ cs + 1 →
      ∃ sib1, mergeFrom tr childBlock ss cs n i sib = some sib1 ∧ Long tr sib1 := by
  intro n
  induction n with
  | zero =>
    intro i sib hl _ _
    exact ⟨sib, rfl, hl⟩
  | succ n ih =>
    intro i sib hl hi hn
    push_cast at hn
    obtain ⟨c, hc⟩ := getBlockChild_long hcfg hlc hi (show i ≤ tr.FanOut by omega)
    obtain ⟨sib1, hs1, hl1⟩ := setBlockChild_long hcfg hl c (show 0 ≤ ss + 1 + i by omega)
      (show ss + 1 + i ≤ tr.FanOut by omega)
    by_cases hlt : i < cs
    · obtain ⟨dst, hdst, _⟩ := getNodeSlice_long hcfg hl1 (show 0 ≤ ss + 1 + i by omega)
        (show ss + 1 + i < tr.FanOut by omega)
      obtain ⟨src, hsrc, _⟩ := getNodeSlice_long hcfg hlc hi (show i < tr.FanOut by omega)
      obtain ⟨sib2, hs2, hl2⟩ := copyNodeSlice_long hcfg hl1 src
        (show 0 ≤ ss + 1 + i by omega) (show ss + 1 + i < tr.FanOut by omega)
      obtain ⟨sib3, hs3, hl3⟩ := ih (i + 1) sib2 hl2 (by omega) (by omega)
      refine ⟨sib3, ?_, hl3⟩
      simp only [mergeFrom, hc, hs1, if_pos hlt, hdst, hsrc, hs2]
      exact hs3
    · obtain ⟨sib3, hs3, hl3⟩ := ih (i + 1) sib1 hl1 (by omega) (by omega)
      refine ⟨sib3, ?_, hl3⟩
      simp only [mergeFrom, hc, hs1, if_neg hlt]
      exact hs3

theorem mergeBlocks_long {tr : BTree} (hcfg : Configured tr) {block sibBlock childBlock : Bytes}
    (hlb : Long tr block) (hls : Long tr sibBlock) (hlc : Long tr childBlock)
    {sibIndex ss cs : Int} (hi : 0 ≤ sibIndex) (hiF : sibIndex < tr.FanOut)
    (hss : 0 ≤ ss) (hcs : 0 ≤ cs) (hsum : ss + cs + 1 ≤ tr.FanOut) :
    ∃ m, mergeBlocks tr block sibIndex sibBlock ss childBlock cs = some m ∧ Long tr m := by
  obtain ⟨dst, hdst, _⟩ := getNodeSlice_long hcfg hls hss (show ss < tr.FanOut by omega)
  obtain ⟨sep, hsep, _⟩ := getNodeSlice_long hcfg hlb hi hiF
  obtain ⟨sib1, hs1, hl1⟩ := copyNodeSlice_long hcfg hls sep hss (show ss < tr.FanOut by omega)
  obtain ⟨sib2, hs2, hl2⟩ := mergeFrom_long hcfg hlc ss cs hss hsum (cs + 1).toNat 0 sib1 hl1
    (le_refl 0) (by omega)
  obtain ⟨m, hm, hlm⟩ := setBlockSize_long hcfg hl2 (ss + cs + 1)
  refine ⟨m, ?_, hlm⟩
  simp only [mergeBlocks, hdst, hsep, hs1, hs2]
  exact hm

theorem closeGap_long {tr : BTree} (hcfg : Configured tr) :
    ∀ (n : Nat) (i : Int) (b : Bytes), Long tr b → 0 ≤ i → (n = 0 ∨ i + n + 1 ≤ tr.FanOut) →
      ∃ b1, closeGap tr n i b = some b1 ∧ Long tr b1 := by
  intro n
  induction n with
  | zero =>
    intro i b hl _ _
    exact ⟨b, rfl, hl⟩
  | succ n ih =>
    intro i b hl hi hn
    have hn1 : i + (n + 1 : Nat) + 1 ≤ tr.FanOut := by
      rcases hn with h | h
      · cases h
      · exact h
    push_cast at hn1
    obtain ⟨c, hc⟩ := getBlockChild_long hcfg hl (show 0 ≤ i + 2 by omega)
      (show i + 2 ≤ tr.FanOut by omega)
    obtain ⟨b1, hb1, hl1⟩ := setBlockChild_long hcfg hl c (show 0 ≤ i + 1 by omega)
      (show i + 1 ≤ tr.FanOut by omega)
    obtain ⟨dst, hdst, _⟩ := getNodeSlice_long hcfg hl1 hi (show i < tr.FanOut by omega)
    obtain ⟨src, hsrc, _⟩ := getNodeSlice_long hcfg hl1 (show 0 ≤ i + 1 by omega)
      (show i + 1 < tr.FanOut by omega)
    obtain ⟨b2, hb2, hl2⟩ := copyNodeSlice_long hcfg hl1 src hi (show i < tr.FanOut by omega)
    obtain ⟨b3, hb3, hl3⟩ := ih (i + 1) b2 hl2 (by omega) (Or.inr (by omega))
    refine ⟨b3, ?_, hl3⟩
    simp only [closeGap, hc, hb1, hdst, hsrc, hb2]
    exact hb3

/-! ### The allocator keeps buffers with room for a block -/

theorem sized_poolGet {tr : BTree} {s : Allocator} (h : Sized tr s) :
    Long tr s.poolGet.1 ∧ Sized tr s.poolGet.2 := by
  obtain ⟨h1, h2, h3⟩ := h
  unfold Allocator.poolGet
  split
  · rename_i hp
    refine ⟨?_, h1, h2, ?_⟩
    · unfold Long
      rw [List.length_replicate]
      exact h1
    · intro b hb
      exact h3 b hb
  · rename_i b rest hp
    refine ⟨h3 b (by rw [hp]; exact List.mem_cons_self _ _), h1, h2, ?_⟩
    intro b1 hb1
    exact h3 b1 (by rw [hp]; exact List.mem_cons_of_mem _ hb1)

theorem sized_poolPut {tr : BTree} {s : Allocator} {b : Bytes} (h : Sized tr s)
    (hb : Long tr b) : Sized tr (s.poolPut b) := by
  obtain ⟨h1, h2, h3⟩ := h
  refine ⟨h1, h2, ?_⟩
  intro b1 hb1
  simp only [Allocator.poolPut, List.mem_cons] at hb1
  rcases hb1 with rfl | hb1
  · exact hb
  · exact h3 b1 hb1

theorem sized_read {tr : BTree} {s : Allocator} (h : Sized tr s) (i : TreeIndex) :
    Sized tr (s.read i).2 ∧ ∀ b, (s.read i).1 = Except.ok b → Long tr b := by
  obtain ⟨h1, h2, h3⟩ := h
  unfold Allocator.read
  dsimp only
  split
  · exact ⟨⟨h1, h2, h3⟩, fun b hb => by cases hb⟩
  · split
    · exact ⟨⟨h1, h2, h3⟩, fun b hb => by cases hb⟩
    · rename_i e he
      refine ⟨⟨h1, h2, h3⟩, fun b hb => ?_⟩
      cases hb
      exact h2 i e he

theorem sized_write {tr : BTree} {s : Allocator} (h : Sized tr s) (tag : Nat) (i : TreeIndex)
    {buf : Bytes} (hb : Long tr buf) : Sized tr (s.write tag i buf).2 := by
  obtain ⟨h1, h2, h3⟩ := h
  unfold Allocator.write
  dsimp only
  split
  · exact ⟨h1, h2, h3⟩
  · refine ⟨h1, ?_, h3⟩
    intro j e he
    dsimp only at he
    rw [lookup_setEntry] at he
    split at he
    · cases he
      exact hb
    · exact h2 j e he

theorem sized_allocate {tr : BTree} {s : Allocator} (h : Sized tr s) (tag : Nat) :
    Sized tr (s.allocate tag).2 := by
  obtain ⟨h1, h2, h3⟩ := h
  unfold Allocator.allocate
  dsimp only
  split
  · exact ⟨h1, h2, h3⟩
  · split
    · exact ⟨h1, h2, h3⟩
    · refine ⟨h1, ?_, h3⟩
      intro j e he
      dsimp only at he
      rw [lookup_setEntry] at he
      split at he
      · cases he
        unfold Long
        rw [List.length_replicate]
        exact h1
      · exact h2 j e he

theorem sized_free {tr : BTree} {s : Allocator} (h : Sized tr s) (i : TreeIndex) :
    Sized tr (s.free i).2 := by
  obtain ⟨h1, h2, h3⟩ := h
  unfold Allocator.free
  dsimp only
  split
  · exact ⟨h1, h2, h3⟩
  · split
    · exact ⟨h1, h2, h3⟩
    · refine ⟨h1, ?_, h3⟩
      intro j e he
      dsimp only at he
      rw [lookup_removeEntry] at he
      split at he
      · cases he
      · exact h2 j e he

/-- Given a block of size at least 1 with room for a block, `copyUpBlock`
does not panic and reports at most an allocator error. -/
theorem copyUpBlock_total {tr : BTree} {tag : Nat} {index : TreeIndex} {block : Bytes}
    {s : Allocator} {sz : Int} (hs : Sized tr s) (hl : Long tr block)
    (hsz : getBlockSize block = some sz) (hne : sz ≠ 0) :
    ∀ r s1, copyUpBlock tr tag index block s = (r, s1) →
      Sized tr s1 ∧ ∃ x, r = some x ∧ x ≠ Except.error Error.saveEmptyBlock := by
  intro r s1 h
  unfold copyUpBlock at h
  rw [hsz] at h
  dsimp only at h
  rw [if_neg hne] at h
  split at h
  · have ha := sized_allocate hs tag
    split at h
    · rename_i e s2 halloc
      cases h
      rw [halloc] at ha
      refine ⟨ha, _, rfl, ?_⟩
      intro hx
      cases hx
      unfold Allocator.allocate at halloc
      dsimp only at halloc
      split at halloc
      · cases halloc
      · split at halloc
        · cases halloc
        · cases halloc
    · rename_i index1 s2 halloc
      rw [halloc] at ha
      have hw := sized_write ha tag index1 hl
      split at h
      · rename_i e s3 hwr
        cases h
        rw [hwr] at hw
        refine ⟨hw, _, rfl, ?_⟩
        intro hx
        cases hx
        unfold Allocator.write at hwr
        dsimp only at hwr
        split at hwr
        · cases hwr
        · cases hwr
      · rename_i s3 hwr
        cases h
        rw [hwr] at hw
        exact ⟨hw, _, rfl, fun hx => by cases hx⟩
  · have hw := sized_write hs tag index hl
    split at h
    · rename_i e s3 hwr
      cases h
      rw [hwr] at hw
      refine ⟨hw, _, rfl, ?_⟩
      intro hx
      cases hx
      unfold Allocator.write at hwr
      dsimp only at hwr
      split at hwr
      · cases hwr
      · cases hwr
    · rename_i s3 hwr
      cases h
      rw [hwr] at hw
      exact ⟨hw, _, rfl, fun hx => by cases hx⟩

theorem scatterFrom_size {tr : BTree} (hF : 0 ≤ tr.FanOut) (g : Gathered) (base size : Int) :
    ∀ (n : Nat) (i : Int) (buf b1 : Bytes), 0 ≤ i →
      scatterFrom tr g base size n i buf = some b1 → getBlockSize b1 = getBlockSize buf := by
  intro n
  induction n with
  | zero =>
    intro i buf b1 _ h
    simp only [scatterFrom] at h
    cases h
    rfl
  | succ n ih =>
    intro i buf b1 hi h
    simp only [scatterFrom] at h
    split at h
    · cases h
    · split at h
      · cases h
      · rename_i buf1 hset
        split at h
        · split at h
          · split at h
            · cases h
            · rename_i buf2 hnode
              rw [ih (i + 1) buf2 b1 (by omega) h, getBlockSize_setNodeAt hF hi hnode,
                getBlockSize_setBlockChild hset]
          · cases h
        · rw [ih (i + 1) buf1 b1 (by omega) h, getBlockSize_setBlockChild hset]

theorem fillBlock_size {tr : BTree} (hF : 0 ≤ tr.FanOut) {g : Gathered} {base size : Int}
    {buf b1 : Bytes} (h0 : 0 ≤ size) (hlt : size < 4294967296)
    (h : fillBlock tr g base size buf = some b1) : getBlockSize b1 = some size := by
  unfold fillBlock at h
  split at h
  · cases h
  · rename_i buf1 hset
    rw [scatterFrom_size hF g base size _ 0 buf1 b1 (le_refl 0) h,
      getBlockSize_setBlockSize hset]
    congr 1
    omega

theorem mergeBlocks_size {tr : BTree} {block sibBlock childBlock m : Bytes}
    {sibIndex ss cs : Int} (h0 : 0 ≤ ss + cs + 1) (hlt : ss + cs + 1 < 4294967296)
    (h : mergeBlocks tr block sibIndex sibBlock ss childBlock cs = some m) :
    getBlockSize m = some (ss + cs + 1) := by
  unfold mergeBlocks at h
  split at h
  · split at h
    · cases h
    · split at h
      · cases h
      · rw [getBlockSize_setBlockSize h]
        congr 1
        omega
  · cases h

/-! ### Rotation, merge and rebalance return -/

theorem read_error {s s2 : Allocator} {i : TreeIndex} {e : Error}
    (h : s.read i = (Except.error e, s2)) : e = Error.ioError := by
  unfold Allocator.read at h
  dsimp only at h
  split at h
  · cases h
    rfl
  · split at h
    · cases h
      rfl
    · cases h

theorem sized_puts {tr : BTree} {s : Allocator} {a b c d : Bytes} (swapped : Bool)
    (hs : Sized tr s) (ha : Long tr a) (hb : Long tr b) (hc : Long tr c) (hd : Long tr d) :
    Sized tr (if swapped = true then (((s.poolPut a).poolPut b).poolPut c).poolPut d
      else (((s.poolPut a).poolPut b).poolPut d).poolPut c) := by
  split
  · exact sized_poolPut (sized_poolPut (sized_poolPut (sized_poolPut hs ha) hb) hc) hd
  · exact sized_poolPut (sized_poolPut (sized_poolPut (sized_poolPut hs ha) hb) hd) hc

theorem rotateBlocks_total {tr : BTree} (hcfg : Configured tr) (hF32 : tr.FanOut < 4294967296)
    (tag : Nat) {block sibBlock childBlock : Bytes} {sibIndex ss cs : Int}
    (sibTree childTree : TreeIndex) (dk : Option KeyType) (dv : Option ValueType)
    (swapped : Bool) {s : Allocator}
    (hs : Sized tr s) (hlb : Long tr block) (hls : Long tr sibBlock) (hlc : Long tr childBlock)
    (hidx : 0 ≤ sibIndex) (hidx2 : sibIndex + 1 ≤ tr.FanOut)
    (hss : 0 ≤ ss) (hss2 : ss ≤ tr.FanOut) (hcs : 0 ≤ cs) (hcs2 : cs ≤ tr.FanOut)
    (hsmall : ss * 2 < tr.FanOut ∨ cs * 2 < tr.FanOut) (hsum : cs + ss ≥ tr.FanOut) :
    Returns tr (rotateBlocks tr tag block sibIndex sibTree sibBlock ss childTree childBlock cs
      dk dv swapped s) := by
  have hcfg1 := hcfg
  obtain ⟨c1, c2, c3, c4, c5⟩ := hcfg1
  obtain ⟨g, hg, gl1, gl2, gl3⟩ := gatherAll_long hcfg hlb hls hlc hidx (by omega) hss hss2
    hcs hcs2
  obtain ⟨hlC, hs1⟩ := sized_poolGet hs
  obtain ⟨hlD, hs2⟩ := sized_poolGet hs1
  obtain ⟨sibNew, hfill1, hlsn⟩ := fillBlock_long hcfg g hlC (le_refl 0)
    (show 0 ≤ (ss + cs + 1 - 1) / 2 by omega) (by omega) (by omega) (by omega) (by omega)
  obtain ⟨childNew, hfill2, hlcn⟩ := fillBlock_long hcfg g hlD
    (show 0 ≤ (ss + cs + 1 - 1) / 2 + 1 by omega)
    (show 0 ≤ ss + cs + 1 - 1 - (ss + cs + 1 - 1) / 2 by omega) (by omega) (by omega)
    (by omega) (by omega)
  have hsz1 := fillBlock_size (show 0 ≤ tr.FanOut by omega) (by omega) (by omega) hfill1
  have hsz2 := fillBlock_size (show 0 ≤ tr.FanOut by omega) (by omega) (by omega) hfill2
  obtain ⟨k, hk⟩ := @sliceAt_ok _ g.nodeKeys ((ss + cs + 1 - 1) / 2) (by omega) (by omega)
  obtain ⟨v, hv⟩ := @sliceAt_ok _ g.nodeValues ((ss + cs + 1 - 1) / 2) (by omega) (by omega)
  obtain ⟨block1, hb1, hl1⟩ := setNodeAt_long hcfg hlb k v hidx (show sibIndex < tr.FanOut by omega)
  unfold rotateBlocks
  rw [hg]
  dsimp only
  rw [gl2, hfill1]
  dsimp only
  rw [hfill2]
  dsimp only
  split
  · rename_i s3 hcu
    obtain ⟨_, x, hx, _⟩ := copyUpBlock_total hs2 hlsn hsz1 (by omega) _ _ hcu
    cases hx
  · rename_i e s3 hcu
    obtain ⟨hs3, x, hx, hne⟩ := copyUpBlock_total hs2 hlsn hsz1 (by omega) _ _ hcu
    cases hx
    refine ⟨_, rfl, hlb, ?_, sized_puts swapped hs3 hlcn hlsn hlc hls⟩
    intro h
    apply hne
    cases h
    rfl
  · rename_i sibTree1 s3 hcu
    obtain ⟨hs3, _⟩ := copyUpBlock_total hs2 hlsn hsz1 (by omega) _ _ hcu
    split
    · rename_i s4 hcu2
      obtain ⟨_, x, hx, _⟩ := copyUpBlock_total hs3 hlcn hsz2 (by omega) _ _ hcu2
      cases hx
    · rename_i e s4 hcu2
      obtain ⟨hs4, x, hx, hne⟩ := copyUpBlock_total hs3 hlcn hsz2 (by omega) _ _ hcu2
      cases hx
      refine ⟨_, rfl, hlb, ?_, sized_puts swapped hs4 hlcn hlsn hlc hls⟩
      intro h
      apply hne
      cases h
      rfl
    · rename_i childTree1 s4 hcu2
      obtain ⟨hs4, _⟩ := copyUpBlock_total hs3 hlcn hsz2 (by omega) _ _ hcu2
      obtain ⟨block2, hb2, hl2⟩ := setBlockChild_long hcfg hl1 sibTree1 hidx
        (show sibIndex ≤ tr.FanOut by omega)
      obtain ⟨block3, hb3, hl3⟩ := setBlockChild_long hcfg hl2 childTree1
        (show 0 ≤ sibIndex + 1 by omega) hidx2
      rw [hk, hv]
      dsimp only
      rw [hb1]
      dsimp only
      rw [hb2]
      dsimp only
      rw [hb3]
      dsimp only
      exact ⟨_, rfl, hl3, (fun h => by cases h), sized_puts swapped hs4 hlcn hlsn hlc hls⟩

theorem mergeSiblings_total {tr : BTree} (hcfg : Configured tr) (hF32 : tr.FanOut < 4294967296)
    (tag : Nat) {block sibBlock childBlock : Bytes} {blockSize sibIndex ss cs : Int}
    (sibTree : TreeIndex) (dk : Option KeyType) (dv : Option ValueType)
    (swapped : Bool) {s : Allocator}
    (hs : Sized tr s) (hlb : Long tr block) (hls : Long tr sibBlock) (hlc : Long tr childBlock)
    (hidx : 0 ≤ sibIndex) (hidx2 : sibIndex + 1 ≤ blockSize) (hbs : blockSize ≤ tr.FanOut)
    (hss : 0 ≤ ss) (hcs : 0 ≤ cs) (hsum : ¬ cs + ss ≥ tr.FanOut) :
    Returns tr (mergeSiblings tr tag block blockSize sibIndex sibTree sibBlock ss childBlock cs
      dk dv swapped s) := by
  obtain ⟨m, hm, hlm⟩ := mergeBlocks_long hcfg hlb hls hlc hidx (by omega) hss hcs (by omega)
  have hsz := mergeBlocks_size (by omega) (by omega) hm
  obtain ⟨b1, hb1, hl1⟩ := closeGap_long hcfg (blockSize - 1 - sibIndex).toNat sibIndex block
    hlb hidx (by
      by_cases hz : (blockSize - 1 - sibIndex).toNat = 0
      · exact Or.inl hz
      · right
        omega)
  obtain ⟨b2, hb2, hl2⟩ := setBlockSize_long hcfg hl1 (blockSize - 1)
  have hputs : ∀ st, Sized tr st → Sized tr (if swapped = true
      then (st.poolPut childBlock).poolPut m else (st.poolPut m).poolPut childBlock) := by
    intro st hst
    split
    · exact sized_poolPut (sized_poolPut hst hlc) hlm
    · exact sized_poolPut (sized_poolPut hst hlm) hlc
  unfold mergeSiblings
  rw [hm]
  dsimp only
  split
  · rename_i s1 hcu
    obtain ⟨_, x, hx, _⟩ := copyUpBlock_total hs hlm hsz (by omega) _ _ hcu
    cases hx
  · rename_i e s1 hcu
    obtain ⟨hs1, x, hx, hne⟩ := copyUpBlock_total hs hlm hsz (by omega) _ _ hcu
    cases hx
    refine ⟨_, rfl, hlb, ?_, hputs s1 hs1⟩
    intro h
    apply hne
    cases h
    rfl
  · rename_i w s1 hcu
    obtain ⟨hs1, _⟩ := copyUpBlock_total hs hlm hsz (by omega) _ _ hcu
    rw [hb1]
    dsimp only
    rw [hb2]
    dsimp only
    exact ⟨_, rfl, hl2, (fun h => by cases h), hputs s1 hs1⟩

theorem rotateOrMerge_total {tr : BTree} (hcfg : Configured tr) (hF32 : tr.FanOut < 4294967296)
    (tag : Nat) {block sibBlock childBlock : Bytes} {blockSize sibIndex ss cs : Int}
    (sibTree childTree : TreeIndex) (dk : Option KeyType) (dv : Option ValueType)
    (swapped : Bool) {s : Allocator}
    (hs : Sized tr s) (hlb : Long tr block) (hls : Long tr sibBlock) (hlc : Long tr childBlock)
    (hidx : 0 ≤ sibIndex) (hidx2 : sibIndex + 1 ≤ blockSize) (hbs : blockSize ≤ tr.FanOut)
    (hss : 0 ≤ ss) (hss2 : ss ≤ tr.FanOut) (hcs : 0 ≤ cs) (hcs2 : cs ≤ tr.FanOut)
    (hsmall : ss * 2 < tr.FanOut ∨ cs * 2 < tr.FanOut) :
    Returns tr (rotateOrMerge tr tag block blockSize sibIndex sibTree sibBlock ss childTree
      childBlock cs dk dv swapped s) := by
  unfold rotateOrMerge
  split
  · rename_i hsum
    exact rotateBlocks_total hcfg hF32 tag sibTree childTree dk dv swapped hs hlb hls hlc hidx
      (by omega) hss hss2 hcs hcs2 hsmall hsum
  · rename_i hsum
    exact mergeSiblings_total hcfg hF32 tag sibTree dk dv swapped hs hlb hls hlc hidx hidx2 hbs
      hss hcs hsum

/-! ### `deleteHelper` returns on a tree that is well formed in shape -/

theorem rebalance_total {tr : BTree} (hcfg : Configured tr) (hF32 : tr.FanOut < 4294967296)
    (tag : Nat) {block childBlock : Bytes} {insertInd blockSize csz : Int}
    (childTree : TreeIndex) (dk : Option KeyType) (dv : Option ValueType)
    {s : Allocator} {k : Nat}
    (hs : Sized tr s) (hlb : Long tr block) (hlc : Long tr childBlock)
    (hblock : BlockShape tr s.blocks (k + 1) block blockSize) (h1 : 1 ≤ blockSize)
    (hins : 0 ≤ insertInd) (hins2 : insertInd ≤ blockSize)
    (hcsz : getBlockSize childBlock = some csz) (hcszF : csz ≤ tr.FanOut) :
    Returns tr (rebalance tr tag block insertInd childTree childBlock dk dv blockSize s) := by
  have hcfg1 := hcfg
  obtain ⟨c1, c2, c3, c4, c5⟩ := hcfg1
  have hcs0 := getBlockSize_nonneg hcsz
  have hbsF := hblock.2.1
  unfold rebalance
  rw [hcsz]
  dsimp only
  split
  · rename_i hfine
    split
    · rename_i s1 hcu
      obtain ⟨_, x, hx, _⟩ := copyUpBlock_total hs hlc hcsz (by omega) _ _ hcu
      cases hx
    · rename_i e s1 hcu
      obtain ⟨hs1, x, hx, hne⟩ := copyUpBlock_total hs hlc hcsz (by omega) _ _ hcu
      cases hx
      refine ⟨_, rfl, hlb, ?_, sized_poolPut hs1 hlc⟩
      intro h
      apply hne
      cases h
      rfl
    · rename_i childTree1 s1 hcu
      obtain ⟨hs1, _⟩ := copyUpBlock_total hs hlc hcsz (by omega) _ _ hcu
      obtain ⟨block1, hb1, hl1⟩ := setBlockChild_long hcfg hlb childTree1 hins
        (show insertInd ≤ tr.FanOut by omega)
      rw [hb1]
      dsimp only
      exact ⟨_, rfl, hl1, (fun h => by cases h), sized_poolPut hs1 hlc⟩
  · rename_i hsmall
    obtain ⟨hlS, hs1⟩ := sized_poolGet hs
    have hB1 : s.poolGet.2.blocks = s.blocks := poolGet_blocks s
    have hsi : ∃ sibIndex : Int, (if insertInd - 1 < 0 then insertInd + 1 else insertInd - 1)
        = sibIndex ∧ 0 ≤ sibIndex ∧ sibIndex ≤ blockSize
        ∧ ((insertInd < sibIndex ∧ sibIndex = insertInd + 1)
          ∨ (¬ insertInd < sibIndex ∧ sibIndex + 1 = insertInd)) := by
      refine ⟨_, rfl, ?_⟩
      split <;> omega
    obtain ⟨sibIndex, hsieq, hsi0, hsi1, hsi2⟩ := hsi
    rw [hsieq]
    obtain ⟨sibTree, hsib, hg⟩ := hblock.2.2 sibIndex hsi0 hsi1
    rw [hsib]
    dsimp only
    split
    · rename_i e s2 hread
      have hs2 := (sized_read hs1 sibTree).1
      rw [hread] at hs2
      have := read_error hread
      subst this
      exact ⟨_, rfl, hlb, (fun h => by cases h), sized_poolPut (sized_poolPut hs2 hlS) hlc⟩
    · rename_i sibBlock s2 hread
      obtain ⟨hs2, hlsb⟩ := sized_read hs1 sibTree
      rw [hread] at hs2 hlsb
      have hlsib : Long tr sibBlock := hlsb sibBlock rfl
      obtain ⟨⟨e, he, hdata⟩, hB2⟩ := read_ok hread
      rw [hB1] at he
      obtain ⟨e1, ss, he1, hsh1, hmin1⟩ := (balanced_iff tr s.blocks k sibTree).mp hg.2
      rw [he] at he1
      cases he1
      subst hdata
      have hss0 := getBlockSize_nonneg hsh1.1
      rw [hsh1.1]
      dsimp only
      rcases hsi2 with ⟨hlt, heq⟩ | ⟨hlt, heq⟩
      · rw [if_pos hlt]
        exact rotateOrMerge_total hcfg hF32 tag childTree sibTree dk dv true hs2 hlb hlc hlsib
          hins (by omega) hbsF hcs0 hcszF hss0 hsh1.2.1 (Or.inl (by omega))
      · rw [if_neg hlt]
        exact rotateOrMerge_total hcfg hF32 tag sibTree childTree dk dv false hs2 hlb hlsib hlc
          hsi0 (by omega) hbsF hss0 hsh1.2.1 hcs0 hcszF (Or.inr (by omega))

theorem deleteHelper_null {tr : BTree} (tag f : Nat) (key : Option KeyType) {s : Allocator}
    (hs : Sized tr s) :
    ∃ r, deleteHelper tr tag (f + 1) 0 key s = (Outcome.ret r, s.poolGet.2)
      ∧ r.err = some Error.keyNotFound ∧ Long tr r.block := by
  unfold deleteHelper
  dsimp only
  rw [if_pos rfl]
  exact ⟨_, rfl, rfl, (sized_poolGet hs).1⟩

theorem locate_long {tr : BTree} (hcfg : Configured tr) {block : Bytes} (hl : Long tr block)
    {size : Int} (key : Option KeyType) (hsz : getBlockSize block = some size)
    (hsF : size ≤ tr.FanOut) (hk : key = none → 1 ≤ size) :
    ∃ ins m, locate tr block key = some (ins, m) ∧ 0 ≤ ins ∧ ins ≤ size
      ∧ (m = true → ins < size) := by
  have hs0 := getBlockSize_nonneg hsz
  cases key with
  | none =>
    have h1 := hk rfl
    obtain ⟨c, hc⟩ := getBlockChild_long hcfg hl hs0 hsF
    unfold locate
    dsimp only
    rw [hsz]
    dsimp only
    rw [hc]
    dsimp only
    split
    · exact ⟨_, _, rfl, by omega, by omega, fun _ => by omega⟩
    · exact ⟨_, _, rfl, by omega, le_refl _, fun h => by cases h⟩
  | some kk =>
    obtain ⟨ins, m, h1, h2, h3, h4⟩ := @searchFrom_ok tr block kk hcfg hl size.toNat 0 (le_refl 0)
      (by omega)
    refine ⟨ins, m, ?_, h2, by omega, fun hm => by have := (h4 hm).1; omega⟩
    unfold locate searchBlock
    dsimp only
    rw [hsz]
    exact h1

theorem deleteHelper_total {tr : BTree} (hcfg : Configured tr) (hF32 : tr.FanOut < 4294967296)
    (tag : Nat) :
    ∀ (fuel h : Nat) (idx : Int) (key : Option KeyType) (s : Allocator) (e : BlockEntry)
      (size : Int),
      h + 2 ≤ fuel → Sized tr s → lookup s.blocks idx = some e →
      BlockShape tr s.blocks h e.data size → (h = 0 ∨ 1 ≤ size) → (key = none → 1 ≤ size) →
      Returns tr (deleteHelper tr tag fuel idx key s) := by
  have hcfg1 := hcfg
  obtain ⟨c1, c2, c3, c4, c5⟩ := hcfg1
  intro fuel
  induction fuel with
  | zero =>
    intro h idx key s e size hfuel
    omega
  | succ n ih =>
    intro h idx key s e size hfuel hs hl hsh hne hkn
    obtain ⟨hlbuf, hs1⟩ := sized_poolGet hs
    have hB1 : s.poolGet.2.blocks = s.blocks := poolGet_blocks s
    unfold deleteHelper
    dsimp only
    split
    · exact ⟨_, rfl, hlbuf, (fun h => by cases h), hs1⟩
    · split
      · rename_i e1 s2 hread
        have := read_error hread
        subst this
        have hs2 := (sized_read hs1 idx).1
        rw [hread] at hs2
        exact ⟨_, rfl, hlbuf, (fun h => by cases h), hs2⟩
      · rename_i block s2 hread
        obtain ⟨⟨e1, he1, hdata⟩, hB2⟩ := read_ok hread
        rw [hB1] at he1 hB2
        rw [hl] at he1
        cases he1
        subst hdata
        have hs2 := (sized_read hs1 idx).1
        rw [hread] at hs2
        have hlb : Long tr e.data := hs.2.1 idx e hl
        have hsF := hsh.2.1
        obtain ⟨ins, m, hloc, hins, hins2, hm⟩ := locate_long hcfg hlb key hsh.1 hsF hkn
        obtain ⟨childTree, hchild, hg⟩ := hsh.2.2 ins hins hins2
        rw [hloc]
        dsimp only
        rw [hchild, hsh.1]
        dsimp only
        cases h with
        | zero =>
          have hc0 : childTree = 0 := hg
          subst hc0
          split
          · rename_i hmt
            try rw [if_pos rfl]
            obtain ⟨b1, dk, dv, hrem, hlb1⟩ := removeFromLeaf_long hcfg hlb key hins (hm hmt) hsF
            rw [hrem]
            exact ⟨_, rfl, hlb1, (fun h => by cases h), hs2⟩
          · obtain ⟨f, rfl⟩ : ∃ f, n = f + 1 := ⟨n - 1, by omega⟩
            obtain ⟨r, hr, herr, hlr⟩ := deleteHelper_null tag f key hs2
            rw [hr]
            dsimp only
            rw [herr]
            exact ⟨_, rfl, hlb, (fun h => by cases h),
              sized_poolPut (sized_poolGet hs2).2 hlr⟩
        | succ k =>
          obtain ⟨hc0, hcB⟩ : childTree ≠ 0 ∧ Balanced tr s.blocks k childTree := hg
          have h1 : 1 ≤ size := by
            rcases hne with h | h
            · cases h
            · exact h
          obtain ⟨ec, sc, hlc, hshc, hminc⟩ := (balanced_iff tr s.blocks k childTree).mp hcB
          rw [← hB2] at hlc hshc
          have hsc1 : 1 ≤ sc := by omega
          have hrec : ∀ key1, Returns tr (deleteHelper tr tag n childTree key1 s2) :=
            fun key1 => ih k childTree key1 s2 ec sc (by omega) hs2 hlc hshc (Or.inr hsc1)
              (fun _ => hsc1)
          have hreb : ∀ (key1 : Option KeyType) (r1 : HelperRet) (s3 : Allocator)
              (block1 : Bytes) (dk : Option KeyType) (dv : Option ValueType),
              deleteHelper tr tag n childTree key1 s2 = (Outcome.ret r1, s3) →
              r1.err = none → Sized tr s3 → Long tr r1.block → Long tr block1 →
              getBlockSize block1 = getBlockSize e.data →
              (∀ j, getBlockChild tr block1 j = getBlockChild tr e.data j) →
              Returns tr (rebalance tr tag block1 ins childTree r1.block dk dv size s3) := by
            intro key1 r1 s3 block1 dk dv hrun herr1 hs3 hlr hl1 hz1 hz2
            obtain ⟨⟨csz, hcsz⟩, hext⟩ := deleteHelper_shape c4 c5 hF32 n k childTree key1 s2 s3
              r1 ec sc hlc hshc (Or.inr hsc1) hrun herr1
            rw [hB2] at hext
            have hb1 : BlockShape tr s3.blocks (k + 1) block1 size :=
              blockShape_congr (blockShape_mono hext.1 hsh) hz1 hz2
            exact rebalance_total hcfg hF32 tag childTree dk dv hs3 hl1 hlr hb1 h1 hins hins2
              hcsz.1 hcsz.2.1
          split
          · rename_i hmt
            try rw [if_neg hc0]
            obtain ⟨r, hr, hlr, hner, hs3⟩ := hrec none
            rcases hx : deleteHelper tr tag n childTree none s2 with ⟨o, s3⟩
            rw [hx] at hr hs3
            dsimp only at hr hs3
            subst hr
            dsimp only
            split
            · rename_i e1 herr
              rw [herr] at hner
              exact ⟨_, rfl, hlb, hner, sized_poolPut hs3 hlr⟩
            · rename_i herr
              obtain ⟨block1, hb1, hl1⟩ := setNodeAt_long hcfg hlb (r.deletedKey.getD [])
                (r.deletedValue.getD []) hins (show ins < tr.FanOut by have := hm hmt; omega)
              rw [hb1]
              dsimp only
              exact hreb none r s3 block1 _ _ hx herr hs3 hlr hl1
                (getBlockSize_setNodeAt (by omega) hins hb1) (getBlockChild_setNodeAt hins hb1)
          · obtain ⟨r, hr, hlr, hner, hs3⟩ := hrec key
            rcases hx : deleteHelper tr tag n childTree key s2 with ⟨o, s3⟩
            rw [hx] at hr hs3
            dsimp only at hr hs3
            subst hr
            dsimp only
            split
            · rename_i e1 herr
              rw [herr] at hner
              exact ⟨_, rfl, hlb, hner, sized_poolPut hs3 hlr⟩
            · rename_i herr
              exact hreb key r s3 e.data _ _ hx herr hs3 hlr hlb rfl (fun _ => rfl)

/-! ### `Delete` returns -/

theorem write_not_empty (s : Allocator) (tag : Nat) (i : TreeIndex) (buf : Bytes) :
    (s.write tag i buf).1 ≠ some Error.saveEmptyBlock := by
  unfold Allocator.write
  dsimp only
  split
  · intro h
    cases h
  · intro h
    cases h

theorem free_not_empty (s : Allocator) (i : TreeIndex) :
    (s.free i).1 ≠ some Error.saveEmptyBlock := by
  unfold Allocator.free
  dsimp only
  split
  · intro h
    cases h
  · split
    · intro h
      cases h
    · intro h
      cases h

theorem validateKey_not_empty (tr : BTree) (key : KeyType) :
    validateKey tr key ≠ some Error.saveEmptyBlock := by
  unfold validateKey
  split
  · intro h
    cases h
  · split
    · intro h
      cases h
    · intro h
      cases h

theorem Delete_total {tr : BTree} (hcfg : Configured tr) (tag fuel : Nat) (root : TreeIndex)
    (key : KeyType) {s : Allocator}
    (htot : Returns tr (deleteHelper tr tag fuel root (some key) s)) :
    ∃ e, (Delete tr tag fuel root key s).1 = Outcome.ret e ∧ e ≠ some Error.saveEmptyBlock := by
  have hcfg1 := hcfg
  obtain ⟨c1, c2, c3, c4, c5⟩ := hcfg1
  unfold Delete
  split
  · exact ⟨_, rfl, fun h => by cases h⟩
  · split
    · rename_i e1 hv
      refine ⟨_, rfl, ?_⟩
      rw [← hv]
      exact validateKey_not_empty tr key
    · obtain ⟨r, hr, hlr, hner, hs1⟩ := htot
      rcases hx : deleteHelper tr tag fuel root (some key) s with ⟨o, s1⟩
      rw [hx] at hr hs1
      dsimp only at hr hs1
      subst hr
      dsimp only
      split
      · rename_i e1 herr
        rw [herr] at hner
        exact ⟨_, rfl, hner⟩
      · obtain ⟨n, hn⟩ := getBlockSize_long hcfg hlr
        rw [hn]
        dsimp only
        split
        · obtain ⟨c, hc⟩ := getBlockChild_long hcfg hlr (le_refl 0) (show (0 : Int) ≤ tr.FanOut by omega)
          rw [hc]
          dsimp only
          split
          · rename_i e1 s2 hread
            have := read_error hread
            subst this
            exact ⟨_, rfl, fun h => by cases h⟩
          · rename_i blk s2 hread
            split
            · rename_i e1 s3 hw
              refine ⟨_, rfl, ?_⟩
              have := write_not_empty s2 tag root blk
              rw [hw] at this
              exact this
            · split
              · exact ⟨_, rfl, fun h => by cases h⟩
              · rename_i s3 hw hro
                exact ⟨_, rfl, free_not_empty s3 c⟩
        · exact ⟨_, rfl, write_not_empty s1 tag root r.block⟩

set_option maxRecDepth 100000 in
theorem rotationStore_sized : Sized smallTree rotationStore := by
  refine ⟨by decide, ?_, ?_⟩
  · intro i e h
    simp only [rotationStore, storeOf, lookup] at h
    split at h
    · cases h
      unfold Long
      decide
    · split at h
      · cases h
        unfold Long
        decide
      · split at h
        · cases h
          unfold Long
          decide
        · cases h
  · intro b hb
    simp only [rotationStore, storeOf, List.not_mem_nil] at hb

/-- C23: `Delete` is free of contract violations on valid input. For a tree
that is well formed in shape with height `h`, a configuration as `Open` leaves
it (`nodeSize = 4 + MaxKeySize + EntrySize`, `FanOut` even and at least 2) whose
`FanOut` fits the 32-bit size field, buffers with room for a block, and fuel for
`h + 2` levels, whatever the key and whatever I/O faults the allocator raises:
`Delete` and `deleteHelper` return (no accessor panics: `getBlockChild` and
`setBlockChild` panic exactly for a child index outside `[0, FanOut]`, and a
slot beyond the buffer is a slice panic), the error they report is never the
one `copyUpBlock` gives for a block of size 0, and the block the merge builds
under the guard `childBlockSize + sibBlockSize < FanOut` holds at most `FanOut`
entries. -/
theorem delete_contract_safe (tr : BTree) (tag fuel : Nat) (root : TreeIndex) (key : KeyType)
    (s : Allocator) (h : Nat)
    (hcfg : Configured tr) (hF32 : tr.FanOut < 4294967296) (hfuel : h + 2 ≤ fuel)
    (hs : Sized tr s) (hwf : WellFormed tr s.blocks h root) :
    (∃ e, (Delete tr tag fuel root key s).1 = Outcome.ret e ∧ e ≠ some Error.saveEmptyBlock)
    ∧ (∃ r, (deleteHelper tr tag fuel root (some key) s).1 = Outcome.ret r
        ∧ r.err ≠ some Error.saveEmptyBlock)
    ∧ ∀ (block sibBlock childBlock m : Bytes) (sibIndex ss cs : Int), 0 ≤ ss → 0 ≤ cs →
        ¬ cs + ss ≥ tr.FanOut →
        mergeBlocks tr block sibIndex sibBlock ss childBlock cs = some m →
        getBlockSize m = some (ss + cs + 1) ∧ ss + cs + 1 ≤ tr.FanOut := by
  obtain ⟨e, size, hl, hsh, hne⟩ := hwf
  have htot := deleteHelper_total hcfg hF32 tag fuel h root (some key) s e size hfuel hs hl hsh
    hne (fun hk => by cases hk)
  refine ⟨Delete_total hcfg tag fuel root key htot, ?_, ?_⟩
  · obtain ⟨r, hr, _, hner, _⟩ := htot
    exact ⟨r, hr, hner⟩
  · intro block sibBlock childBlock m sibIndex ss cs hss hcs hsum hm
    exact ⟨mergeBlocks_size (by omega) (by omega) hm, by omega⟩

set_option maxRecDepth 100000 in
/-- Witness of `delete_contract_safe`: the removal of key 3 from the tree of
`rotationStore`, which empties leaf 2 and rotates it with leaf 3. -/
theorem delete_contract_safe_witness :
    Configured smallTree ∧ Sized smallTree rotationStore
    ∧ WellFormed smallTree rotationStore.blocks 1 1
    ∧ (Delete smallTree 0 3 1 [3] rotationStore).1 = Outcome.ret none
    ∧ ((∃ e, (Delete smallTree 0 3 1 [3] rotationStore).1 = Outcome.ret e
          ∧ e ≠ some Error.saveEmptyBlock)
      ∧ (∃ r, (deleteHelper smallTree 0 3 1 (some [3]) rotationStore).1 = Outcome.ret r
          ∧ r.err ≠ some Error.saveEmptyBlock)
      ∧ ∀ (block sibBlock childBlock m : Bytes) (sibIndex ss cs : Int), 0 ≤ ss → 0 ≤ cs →
          ¬ cs + ss ≥ smallTree.FanOut →
          mergeBlocks smallTree block sibIndex sibBlock ss childBlock cs = some m →
          getBlockSize m = some (ss + cs + 1) ∧ ss + cs + 1 ≤ smallTree.FanOut) :=
  ⟨by unfold Configured; decide, rotationStore_sized, rotationStore_wellFormed, by decide,
    delete_contract_safe smallTree 0 3 1 [3] rotationStore 1 (by unfold Configured; decide)
      (by decide) (by decide) rotationStore_sized rotationStore_wellFormed⟩

end Btree
